import Mathlib

/-!
# Armory wallet engine (`cppForSwig/Wallets.cpp`): embedding and checked properties

The development follows the source file top to bottom:

* the record codec (`BinaryWriter` / `BinaryRefReader`), which lives in a header that is
  not part of the examined sources and is therefore written down from the specification;
* ciphers, assets and asset entries with their (de)serialisers;
* derivation schemes with their (de)serialisers and the legacy chain extension;
* address entries;
* the keyed store and the single-signature wallet (`AssetWallet`, `AssetWallet_Single`);
* multisig assets with their redeem script, the multisig scheme bound to its sub-wallets, and
  the multisig wallet (`AssetWallet_Multisig`) over an environment of several databases.

Byte strings are lists of bytes, machine integers are `Nat` / `Int` with explicit wrap-around,
C++ exceptions are values of `Error` returned through `Except`, and an operation that changes
the wallet before it throws returns the changed wallet next to the error.
-/

namespace Armory

/-! ## Bytes and errors -/

/-- A byte. -/
abbrev Byte := Fin 256

/-- A byte string (`BinaryData`, `SecureBinaryData`, `BinaryDataRef`). -/
abbrev Bytes := List Byte

/-- Texts of the `WalletException`s and `AssetDeserException`s thrown in `Wallets.cpp`. -/
inductive Msg where
  | uninitialized_wallet_object
  | invalid_aet_length
  | invalid_topindex_length
  | entry_val_size_mismatch
  | on_disk_data_length_mismatch
  | uninitialized_wallet
  | requested_index_overflows_max_lookup
  | unsupported_address_entry_type
  | invalid_asset_index
  | empty_asset_map
  | unexpected_asset_entry_type
  | unexpected_asset_type
  | multisig_wallet_is_missing_subwallets
  | invalid_key_head
  | multiple_pub_keys_for_entry
  | multiple_cyphers_for_entry
  | unknown_key_type_byte
  | invalid_asset_entry_type
  | id_count_mismatch
  | unsupported_derivation_scheme
  | unexpected_cypher_type
  | no_serialization_for_multisig_assets
  | invalid_AddressEntryType_for_MS_wallet
  | unexpected_derScheme_ptr_type
  | unexpected_derScheme_type
  | ids_set_mismatch
  | m_exceeds_OP_16
  | unexpected_compress_pub_key_len
  | invalid_n
  | asset_count_mismatch_in_multisig_entry
  | unexpected_AddressEntryType_for_MS_wallet
  deriving DecidableEq, Repr

/-- The exception classes of `Wallets.cpp`, and three ways in which a call can end that are
not exceptions of the wallet code: a read past the end of a buffer, a `lock()` on a
`std::mutex` that the calling thread already holds, and the use of a null pointer. -/
inductive Error where
  | WalletException (m : Msg)
  | NoEntryInWalletException
  | AssetDeserException (m : Msg)
  | DerivationSchemeDeserException (m : Msg)
  | CypherException (m : Msg)
  | AssetUnavailableException
  | BufferOverrun
  | MutexRelock
  | NullPointer
  deriving DecidableEq, Repr

deriving instance DecidableEq for Except

/-! ## Record codec

`BinaryWriter` and `BinaryRefReader` are declared in `BinaryData.h`, which is not among the
examined sources. -/

/-- The low-order byte of a number. -/
def byteOfNat (n : Nat) : Byte := ⟨n % 256, Nat.mod_lt _ (by decide)⟩

/-- Modelled from the spec: `BinaryData.h` is absent; "All multi-byte integers are
little-endian". The `k` low-order bytes of `n`, least significant first. -/
def leBytes : Nat → Nat → Bytes
  | 0, _ => []
  | k + 1, n => byteOfNat n :: leBytes k (n / 256)

/-- Modelled from the spec: `BinaryData.h` is absent. The number a little-endian byte string
stands for. -/
def leVal : Bytes → Nat
  | [] => 0
  | b :: bs => b.val + 256 * leVal bs

/-- Conversion `unsigned → int` on 32 bits (two's complement). -/
def int32_of_uint32 (u : Nat) : Int :=
  if u % 2 ^ 32 < 2 ^ 31 then ((u % 2 ^ 32 : Nat) : Int) else ((u % 2 ^ 32 : Nat) : Int) - 2 ^ 32

/-- Conversion `int → unsigned` on 32 bits (two's complement). -/
def uint32_of_int32 (i : Int) : Nat := (i % 2 ^ 32).toNat

/-- The value an `int` computation wraps to on 32 bits. -/
def wrapInt32 (i : Int) : Int := int32_of_uint32 (uint32_of_int32 i)

/-- Modelled from the spec: `BinaryData.h` is absent; `put_u8`. -/
def put_uint8_t (b : Byte) : Bytes := [b]

/-- Modelled from the spec: `BinaryData.h` is absent; `put_u32`, little-endian. -/
def put_uint32_t (n : Nat) : Bytes := leBytes 4 (n % 2 ^ 32)

/-- Modelled from the spec: `BinaryData.h` is absent; `put_i32`, little-endian two's
complement. -/
def put_int32_t (i : Int) : Bytes := leBytes 4 (uint32_of_int32 i)

/-- Modelled from the spec: `BinaryData.h` is absent; "`var_int` follows the Bitcoin
compact-size encoding (1/3/5/9 bytes)". The argument is a `uint64_t`. -/
def put_var_int (n : Nat) : Bytes :=
  if n % 2 ^ 64 < 0xfd then [byteOfNat n]
  else if n % 2 ^ 64 ≤ 0xffff then (0xfd : Byte) :: leBytes 2 n
  else if n % 2 ^ 64 ≤ 0xffffffff then (0xfe : Byte) :: leBytes 4 n
  else (0xff : Byte) :: leBytes 8 n

/-- Modelled from the spec: `BinaryData.h` is absent; the "symmetric readers". Every `get_*`
takes the unread rest of the buffer and returns the value read together with the new rest;
reading past the end fails. -/
def get_uint8_t : Bytes → Except Error (Byte × Bytes)
  | [] => .error .BufferOverrun
  | b :: r => .ok (b, r)

/-- Modelled from the spec: `BinaryData.h` is absent; `get_BinaryData` and `get_BinaryDataRef`,
the reader symmetric to `put_bytes`. -/
def get_BinaryData (n : Nat) (d : Bytes) : Except Error (Bytes × Bytes) :=
  if n ≤ d.length then .ok (d.take n, d.drop n) else .error .BufferOverrun

/-- Modelled from the spec: `BinaryData.h` is absent; a little-endian unsigned integer of `k`
bytes. -/
def get_uintLE (k : Nat) (d : Bytes) : Except Error (Nat × Bytes) :=
  match get_BinaryData k d with
  | .ok (bs, r) => .ok (leVal bs, r)
  | .error e => .error e

/-- Modelled from the spec: `BinaryData.h` is absent; the reader symmetric to `put_u32`. -/
def get_uint32_t (d : Bytes) : Except Error (Nat × Bytes) := get_uintLE 4 d

/-- Modelled from the spec: `BinaryData.h` is absent; the reader symmetric to `put_i32`. -/
def get_int32_t (d : Bytes) : Except Error (Int × Bytes) :=
  match get_uint32_t d with
  | .ok (u, r) => .ok (int32_of_uint32 u, r)
  | .error e => .error e

/-- Modelled from the spec: `BinaryData.h` is absent; the reader symmetric to
`put_var_int`. -/
def get_var_int : Bytes → Except Error (Nat × Bytes)
  | [] => .error .BufferOverrun
  | b :: r =>
    if b.val < 0xfd then .ok (b.val, r)
    else if b.val = 0xfd then get_uintLE 2 r
    else if b.val = 0xfe then get_uintLE 4 r
    else get_uintLE 8 r

/-- The length envelope: `var_int(len) ‖ payload`. -/
def frame (v : Bytes) : Bytes := put_var_int v.length ++ v

/-! ## Constants and external primitives -/

/-- The tag bytes, store keys, enumerators and script opcodes that `Wallets.cpp` uses by name.
They are defined in headers (`Wallets.h`, and the opcodes with `BtcUtils`) that are not among
the examined sources, so their values are parameters of the embedding. -/
structure Constants where
  PUBKEY_UNCOMPRESSED_BYTE : Byte
  PUBKEY_COMPRESSED_BYTE : Byte
  PRIVKEY_BYTE : Byte
  CYPHER_BYTE : Byte
  AssetEntryType_Single : Byte
  AssetEntryType_Multisig : Byte
  CypherType_AES : Byte
  DERIVATIONSCHEME_LEGACY : Byte
  DERIVATIONSCHEME_MULTISIG : Byte
  ASSETENTRY_PREFIX : Byte
  WALLETTYPE_KEY : Nat
  PARENTID_KEY : Nat
  WALLETID_KEY : Nat
  DERIVATIONSCHEME_KEY : Nat
  ADDRESSENTRYTYPE_KEY : Nat
  TOPUSEDINDEX_KEY : Nat
  ROOTASSET_KEY : Nat
  WALLETTYPE_SINGLE : Byte
  WALLETTYPE_MULTISIG : Byte
  AddressEntryType_P2PKH : Byte
  AddressEntryType_P2WPKH : Byte
  AddressEntryType_P2SH : Byte
  AddressEntryType_P2WSH : Byte
  OP_1 : Nat
  OP_16 : Nat
  OP_CHECKMULTISIG : Byte
  deriving Repr

/-- Modelled from the spec: `Wallets.h` is absent; "`DERIVATION_LOOKUP = 100` (legacy default
lookahead)". -/
def DERIVATION_LOOKUP : Nat := 100

/-- The largest `unsigned` value, the sentinel of the `lookup` argument. -/
def UINT32_MAX : Nat := 2 ^ 32 - 1

/-- The case labels of one `switch` are pairwise different (the compiler rejects a
duplicate label): the four record tags of `AssetEntry::deserDBValue`, the two scheme tags of
`DerivationScheme::deserialize` and the address types of `getAddressEntryForAsset`. -/
def Constants.LabelsDistinct (K : Constants) : Prop :=
  K.PUBKEY_UNCOMPRESSED_BYTE ≠ K.PUBKEY_COMPRESSED_BYTE ∧
  K.PUBKEY_UNCOMPRESSED_BYTE ≠ K.PRIVKEY_BYTE ∧
  K.PUBKEY_UNCOMPRESSED_BYTE ≠ K.CYPHER_BYTE ∧
  K.PUBKEY_COMPRESSED_BYTE ≠ K.PRIVKEY_BYTE ∧
  K.PUBKEY_COMPRESSED_BYTE ≠ K.CYPHER_BYTE ∧
  K.PRIVKEY_BYTE ≠ K.CYPHER_BYTE ∧
  K.DERIVATIONSCHEME_LEGACY ≠ K.DERIVATIONSCHEME_MULTISIG ∧
  K.AddressEntryType_P2PKH ≠ K.AddressEntryType_P2WPKH ∧
  K.AddressEntryType_P2SH ≠ K.AddressEntryType_P2WSH

instance (K : Constants) : Decidable K.LabelsDistinct := by
  unfold Constants.LabelsDistinct; infer_instance

/-- The network bytes of `BlockDataManagerConfig`. -/
structure Config where
  pubkeyHashPrefix : Byte
  scriptHashPrefix : Byte

/-- What the outcome of the private-key step of the legacy derivation can be: a key, or one
of the two exceptions that `nextAsset` catches. -/
inductive KeyOutcome where
  | key (k : Bytes)
  | unavailable
  | cypherBlocked
  deriving DecidableEq, Repr

/-- The collaborators of the wallet code (`BtcUtils`, `CryptoECDSA`): hashes, Base58Check and
the curve operations. They are outside the examined sources and stay abstract.
`ComputeChainedPrivateKey` returns the next key or reports one of the two exceptions that
the legacy derivation catches. -/
structure Crypto where
  getHash160 : Bytes → Bytes
  getHash256 : Bytes → Bytes
  getSha256 : Bytes → Bytes
  scrAddrToBase58 : Bytes → Bytes
  ComputePublicKey : Bytes → Bytes
  CompressPoint : Bytes → Bytes
  ComputeChainedPublicKey : Bytes → Bytes → Bytes
  ComputeChainedPrivateKey : Bytes → Bytes → Bytes → KeyOutcome
  getWalletID : Bytes → Bytes
  computeChainCode_Armory135 : Bytes → Bytes
  getHMAC256 : Bytes → Bytes → Bytes

/-- The byte strings the primitives return are shorter than 2^32 bytes (the real ones are 20
to 65 bytes long), so that every length written by `put_var_int` can be read back. -/
def Crypto.Bounded (C : Crypto) : Prop :=
  (∀ d, (C.ComputePublicKey d).length < 2 ^ 32) ∧
  (∀ d, (C.CompressPoint d).length < 2 ^ 32) ∧
  (∀ p c, (C.ComputeChainedPublicKey p c).length < 2 ^ 32) ∧
  (∀ s c p k, C.ComputeChainedPrivateKey s c p = .key k → k.length < 2 ^ 32) ∧
  (∀ d, (C.getWalletID d).length < 2 ^ 32) ∧
  (∀ d, (C.computeChainCode_Armory135 d).length < 2 ^ 32)

/-! ## Cypher -/

/-- The only cipher of the source is `Cypher_AES`, which holds an IV. -/
structure Cypher where
  iv : Bytes
  deriving DecidableEq, Repr

/-- Source `Cypher_AES::serialize`. -/
def Cypher.serialize (K : Constants) (c : Cypher) : Bytes :=
  put_uint8_t K.CYPHER_BYTE ++ put_uint8_t K.CypherType_AES ++
    put_var_int c.iv.length ++ c.iv

/-- Source `Cypher::deserialize`, reading from a `BinaryRefReader`. -/
def Cypher.deserialize (K : Constants) (brr : Bytes) : Except Error (Cypher × Bytes) := do
  let (type, r) ← get_uint8_t brr
  if type = K.CypherType_AES then
    let (len, r) ← get_var_int r
    let (iv, r) ← get_BinaryData len r
    pure (⟨iv⟩, r)
  else
    throw (.CypherException .unexpected_cypher_type)

/-- Modelled from the spec: the constructor `Cypher_AES()` is in `Wallets.h`, which is absent;
"A fresh cipher with no IV is permitted (IV generated by the primitive on first use)". -/
def Cypher_AES_fresh : Cypher := ⟨[]⟩

/-- Source `Cypher_AES::getCopy`: a new `Cypher_AES()`, not a copy of the IV. -/
def Cypher.getCopy (_c : Cypher) : Cypher := Cypher_AES_fresh

/-! ## Assets -/

structure Asset_PublicKey where
  uncompressed : Bytes
  compressed : Bytes
  deriving DecidableEq, Repr

/-- The field `cypher_` is a `unique_ptr`, possibly null. -/
structure Asset_PrivateKey where
  data : Bytes
  cypher : Option Cypher
  deriving DecidableEq, Repr

/-- Source `Asset_PublicKey::serialize`. -/
def Asset_PublicKey.serialize (K : Constants) (p : Asset_PublicKey) : Bytes :=
  put_var_int (p.uncompressed.length + 1) ++ put_uint8_t K.PUBKEY_UNCOMPRESSED_BYTE ++
    p.uncompressed ++
  (put_var_int (p.compressed.length + 1) ++ put_uint8_t K.PUBKEY_COMPRESSED_BYTE ++
    p.compressed)

/-- Source `Asset_PrivateKey::serialize`; it calls `cypher_->serialize()` without a null check. -/
def Asset_PrivateKey.serialize (K : Constants) (p : Asset_PrivateKey) : Except Error Bytes :=
  match p.cypher with
  | none => .error .NullPointer
  | some c =>
    .ok (put_var_int (p.data.length + 1) ++ put_uint8_t K.PRIVKEY_BYTE ++ p.data ++
      (put_var_int (c.serialize K).length ++ c.serialize K))

/-- The class `AssetEntry_Single`: index, public key pair and private key. The memo fields
`h160Uncompressed_`, `h160Compressed_` and `h256Compressed_` are left out: they are written
only by the three hash getters, each of which stores the hash it returns. -/
structure AssetEntry_Single where
  index : Int
  pubkey : Asset_PublicKey
  privkey : Asset_PrivateKey
  deriving DecidableEq, Repr

/-- The class `AssetEntry_Multisig`: the sub-assets by sub-wallet id (a `std::map`, ascending ids),
with `m` and `n`. The code reads a sub-asset only through
`dynamic_pointer_cast<AssetEntry_Single>`, so the map holds what that cast gives: the single
asset, or `none` (the null pointer) for a sub-asset of another class. The memo fields
`multisigScript_`, `h160_` and `h256_` are left out: each is written only by the getter that
returns it, with the value it returns. -/
structure AssetEntry_Multisig where
  index : Int
  assetMap : List (Bytes × Option AssetEntry_Single)
  m : Nat
  n : Nat
  deriving DecidableEq, Repr

/-- A pointer to an `AssetEntry`: one of its two subclasses. -/
inductive AssetEntry where
  | Single (a : AssetEntry_Single)
  | Multisig (a : AssetEntry_Multisig)
  deriving DecidableEq, Repr

/-- Modelled from the spec: `AssetEntry::getId` is in `Wallets.h`, which is absent; the index of
the asset. -/
def AssetEntry.getId : AssetEntry → Int
  | .Single a => a.index
  | .Multisig a => a.index

/-- Modelled from the spec: `AssetEntry::getType` is in `Wallets.h`, which is absent; the tag
of the variant. -/
def AssetEntry.getType (K : Constants) : AssetEntry → Byte
  | .Single _ => K.AssetEntryType_Single
  | .Multisig _ => K.AssetEntryType_Multisig

/-- Modelled from the spec: the five-argument constructor of `AssetEntry_Single` is in
`Wallets.h`, which is absent; an asset holds "pubkey_uncompressed, pubkey_compressed, optional
privkey, optional cipher descriptor". -/
def AssetEntry_Single.mk5 (index : Int) (pubKeyUncompressed pubKeyCompressed privKey : Bytes)
    (cypher : Option Cypher) : AssetEntry_Single :=
  { index := index, pubkey := ⟨pubKeyUncompressed, pubKeyCompressed⟩,
    privkey := ⟨privKey, cypher⟩ }

/-- Modelled from the spec: the four-argument constructor of `AssetEntry_Single` is in
`Wallets.h`, which is absent; "The pubkey pair of every Asset(Single) is consistent:
compressed and uncompressed encode the same EC point". It is called with uncompressed
keys. -/
def AssetEntry_Single.mk4 (C : Crypto) (index : Int) (pubkey privKey : Bytes)
    (cypher : Option Cypher) : AssetEntry_Single :=
  { index := index, pubkey := ⟨pubkey, C.CompressPoint pubkey⟩, privkey := ⟨privKey, cypher⟩ }

/-- Source `AssetEntry_Single::getHash160Uncompressed`. -/
def AssetEntry_Single.getHash160Uncompressed (C : Crypto) (a : AssetEntry_Single) : Bytes :=
  C.getHash160 a.pubkey.uncompressed

/-- Source `AssetEntry_Single::getHash160Compressed`. -/
def AssetEntry_Single.getHash160Compressed (C : Crypto) (a : AssetEntry_Single) : Bytes :=
  C.getHash160 a.pubkey.compressed

/-- Source `AssetEntry_Single::getHash256Compressed`. -/
def AssetEntry_Single.getHash256Compressed (C : Crypto) (a : AssetEntry_Single) : Bytes :=
  C.getHash256 a.pubkey.compressed

/-- Source `AssetEntry::getDbKey`. -/
def AssetEntry.getDbKey (K : Constants) (a : AssetEntry) : Bytes :=
  put_uint8_t K.ASSETENTRY_PREFIX ++ put_int32_t a.getId

/-- Source `AssetEntry_Single::serialize`. -/
def AssetEntry_Single.serialize (K : Constants) (a : AssetEntry_Single) : Except Error Bytes :=
  match a.privkey.serialize K with
  | .error e => .error e
  | .ok priv =>
    let bw := put_uint8_t K.AssetEntryType_Single ++ a.pubkey.serialize K ++ priv
    .ok (put_var_int bw.length ++ bw)

/-- The first loop of `AssetEntry::deserDBValue`: cut the buffer into length-delimited
records. Every round consumes at least the byte of a `var_int`, so a fuel equal to the
length of the buffer is never used up. -/
def readRecordsAux : Nat → Bytes → Except Error (List Bytes)
  | 0, _ => .ok []
  | fuel + 1, d =>
    if d.length = 0 then .ok []
    else do
      let (len, r) ← get_var_int d
      let (valref, r) ← get_BinaryData len r
      let rest ← readRecordsAux fuel r
      pure (valref :: rest)

/-- The first loop of `AssetEntry::deserDBValue` on the buffer `d`. -/
def readRecords (d : Bytes) : Except Error (List Bytes) := readRecordsAux d.length d

/-- The local variables of the `AssetEntryType_Single` case of `deserDBValue`. -/
structure SingleSlots where
  privKey : Bytes
  pubKeyCompressed : Bytes
  pubKeyUncompressed : Bytes
  cypher : Option Cypher
  deriving DecidableEq, Repr

/-- One round of the second loop of `AssetEntry::deserDBValue`: the `switch (keybyte)`. -/
def bindRecord (K : Constants) (s : SingleSlots) (dataRef : Bytes) : Except Error SingleSlots := do
  let (keybyte, brrData) ← get_uint8_t dataRef
  if keybyte = K.PUBKEY_UNCOMPRESSED_BYTE then
    if s.pubKeyUncompressed.length ≠ 0 then
      throw (.AssetDeserException .multiple_pub_keys_for_entry)
    else pure { s with pubKeyUncompressed := brrData }
  else if keybyte = K.PUBKEY_COMPRESSED_BYTE then
    if s.pubKeyCompressed.length ≠ 0 then
      throw (.AssetDeserException .multiple_pub_keys_for_entry)
    else pure { s with pubKeyCompressed := brrData }
  else if keybyte = K.PRIVKEY_BYTE then
    if s.privKey.length ≠ 0 then
      throw (.AssetDeserException .multiple_pub_keys_for_entry)
    else pure { s with privKey := brrData }
  else if keybyte = K.CYPHER_BYTE then
    if s.cypher.isSome then
      throw (.AssetDeserException .multiple_cyphers_for_entry)
    else do
      let (c, _) ← Cypher.deserialize K brrData
      pure { s with cypher := some c }
  else
    throw (.AssetDeserException .unknown_key_type_byte)

/-- The second loop of `AssetEntry::deserDBValue`: `for (auto& dataRef : dataVec)`. -/
def bindRecords (K : Constants) : SingleSlots → List Bytes → Except Error SingleSlots
  | s, [] => .ok s
  | s, d :: ds => do
    let s1 ← bindRecord K s d
    bindRecords K s1 ds

/-- Source `AssetEntry::deserDBValue`. -/
def AssetEntry.deserDBValue (K : Constants) (index : Int) (value : Bytes) :
    Except Error AssetEntry := do
  let (entryType, brrVal) ← get_uint8_t value
  if entryType = K.AssetEntryType_Single then
    let dataVec ← readRecords brrVal
    let s ← bindRecords K ⟨[], [], [], none⟩ dataVec
    pure (.Single (AssetEntry_Single.mk5 index s.pubKeyUncompressed s.pubKeyCompressed
      s.privKey s.cypher))
  else
    throw (.AssetDeserException .invalid_asset_entry_type)

/-- Source `AssetEntry::deserialize`. -/
def AssetEntry.deserialize (K : Constants) (key value : Bytes) : Except Error AssetEntry := do
  let (pfx, brrKey) ← get_uint8_t key
  if pfx ≠ K.ASSETENTRY_PREFIX then
    throw (.AssetDeserException .invalid_key_head)
  else
    let (index, _) ← get_int32_t brrKey
    AssetEntry.deserDBValue K index value

/-! ## Derivation schemes -/

/-- Modelled from the spec: `BinaryData::operator<` is in `BinaryData.h`, which is absent;
ids are kept in "lexicographic order". It is also the key order of the store. -/
def bytesLt : Bytes → Bytes → Bool
  | [], [] => false
  | [], _ :: _ => true
  | _ :: _, [] => false
  | a :: as, b :: bs =>
    if a.val < b.val then true else if b.val < a.val then false else bytesLt as bs

/-- The operation `std::set<BinaryData>::insert` on a set kept as an ascending list without repetition. -/
def setInsert (x : Bytes) : List Bytes → List Bytes
  | [] => [x]
  | y :: ys =>
    if bytesLt x y then x :: y :: ys
    else if bytesLt y x then y :: setInsert x ys
    else y :: ys

/-- The class `DerivationScheme_ArmoryLegacy`: the chain code. -/
structure DerivationScheme_ArmoryLegacy where
  chainCode : Bytes
  deriving DecidableEq, Repr

/-- The class `DerivationScheme_Multisig`: `n_`, `m_` (both `unsigned`) and the set `walletIDs_`. The map
`wallets_` of sub-wallet handles is empty until `setSubwalletPointers` binds it. -/
structure DerivationScheme_Multisig where
  n : Nat
  m : Nat
  walletIDs : List Bytes
  deriving DecidableEq, Repr

/-- A pointer to a `DerivationScheme`: one of its two subclasses. -/
inductive DerivationScheme where
  | Legacy (s : DerivationScheme_ArmoryLegacy)
  | Multisig (s : DerivationScheme_Multisig)
  deriving DecidableEq, Repr

/-- The writer `bw` of `DerivationScheme_ArmoryLegacy::serialize`. -/
def DerivationScheme_ArmoryLegacy.bw (K : Constants) (s : DerivationScheme_ArmoryLegacy) :
    Bytes :=
  put_uint8_t K.DERIVATIONSCHEME_LEGACY ++ put_var_int s.chainCode.length ++ s.chainCode

/-- Source `DerivationScheme_ArmoryLegacy::serialize`. -/
def DerivationScheme_ArmoryLegacy.serialize (K : Constants)
    (s : DerivationScheme_ArmoryLegacy) : Bytes :=
  put_var_int (s.bw K).length ++ s.bw K

/-- The writer `bw` of `DerivationScheme_Multisig::serialize`. -/
def DerivationScheme_Multisig.bw (K : Constants) (s : DerivationScheme_Multisig) : Bytes :=
  put_uint8_t K.DERIVATIONSCHEME_MULTISIG ++ put_uint32_t s.m ++ put_uint32_t s.n ++
    (s.walletIDs.map (fun id => put_var_int id.length ++ id)).flatten

/-- Source `DerivationScheme_Multisig::serialize`. -/
def DerivationScheme_Multisig.serialize (K : Constants) (s : DerivationScheme_Multisig) :
    Except Error Bytes :=
  if s.walletIDs.length ≠ s.n then
    .error (.WalletException .multisig_wallet_is_missing_subwallets)
  else
    .ok (put_var_int (s.bw K).length ++ s.bw K)

/-- The virtual call `derScheme->serialize()`. -/
def DerivationScheme.serialize (K : Constants) : DerivationScheme → Except Error Bytes
  | .Legacy s => .ok (s.serialize K)
  | .Multisig s => s.serialize K

/-- The writer `bw` of `serialize()`, for either subclass. -/
def DerivationScheme.bw (K : Constants) : DerivationScheme → Bytes
  | .Legacy s => s.bw K
  | .Multisig s => s.bw K

/-- The `while (brr.getSizeRemaining() > 0)` loop of `DerivationScheme::deserialize`; every
round consumes at least one byte, so a fuel equal to the buffer length is never used up. -/
def readIds : Nat → Bytes → List Bytes → Except Error (List Bytes)
  | 0, _, ids => .ok ids
  | fuel + 1, d, ids =>
    if 0 < d.length then do
      let (len, r) ← get_var_int d
      let (id, r) ← get_BinaryData len r
      readIds fuel r (setInsert id ids)
    else .ok ids

/-- Source `DerivationScheme::deserialize`. -/
def DerivationScheme.deserialize (K : Constants) (data : Bytes) : Except Error DerivationScheme := do
  let (schemeType, brr) ← get_uint8_t data
  if schemeType = K.DERIVATIONSCHEME_LEGACY then
    let (len, r) ← get_var_int brr
    let (chainCode, _) ← get_BinaryData len r
    pure (.Legacy ⟨chainCode⟩)
  else if schemeType = K.DERIVATIONSCHEME_MULTISIG then
    let (m, r) ← get_uint32_t brr
    let (n, r) ← get_uint32_t r
    let ids ← readIds r.length r []
    if ids.length ≠ n then
      throw (.DerivationSchemeDeserException .id_count_mismatch)
    else pure (.Multisig ⟨n, m, ids⟩)
  else
    throw (.DerivationSchemeDeserException .unsupported_derivation_scheme)

/-- What the state of a scheme object guarantees by its types: `m_` and `n_` are `unsigned`
and `walletIDs_` is a `std::set`, hence strictly ascending. -/
def DerivationScheme.Valid : DerivationScheme → Prop
  | .Legacy _ => True
  | .Multisig s => s.m < 2 ^ 32 ∧ s.n < 2 ^ 32 ∧
      s.walletIDs.Pairwise (fun a b => bytesLt a b = true)

/-- Modelled from the spec: `Asset_PrivateKey::getKey` is in `Wallets.h`, which is absent; the
private key is optional, and asking for a key that is not there is reported as
"unavailable". -/
def Asset_PrivateKey.getKey (p : Asset_PrivateKey) : KeyOutcome :=
  if p.data.length = 0 then .unavailable else .key p.data

/-- The lambda `nextAsset` of `DerivationScheme_ArmoryLegacy::extendChain`. The cast of a
Multisig asset gives a null pointer, which is then used. -/
def DerivationScheme_ArmoryLegacy.nextAsset (C : Crypto) (s : DerivationScheme_ArmoryLegacy)
    (assetPtr : AssetEntry) : Except Error AssetEntry :=
  match assetPtr with
  | .Multisig _ => .error .NullPointer
  | .Single assetSingle =>
    let pubkeyData := assetSingle.pubkey.uncompressed
    let nextPubkey := C.ComputeChainedPublicKey pubkeyData s.chainCode
    let privkey := assetSingle.privkey
    let nextPrivkey : Bytes :=
      match privkey.getKey with
      | .key privkeyData =>
        match C.ComputeChainedPrivateKey privkeyData s.chainCode pubkeyData with
        | .key k => k
        | .unavailable => []
        | .cypherBlocked => []
      | .unavailable => []
      | .cypherBlocked => []
    let cypher : Option Cypher := privkey.cypher.map Cypher.getCopy
    .ok (.Single (AssetEntry_Single.mk4 C (wrapInt32 (assetSingle.index + 1)) nextPubkey
      nextPrivkey cypher))

/-- Source `DerivationScheme_ArmoryLegacy::extendChain`: `count` rounds of
`currentAsset = nextAsset(currentAsset); assetVec.push_back(currentAsset)`. -/
def DerivationScheme_ArmoryLegacy.extendChain (C : Crypto) (s : DerivationScheme_ArmoryLegacy) :
    AssetEntry → Nat → Except Error (List AssetEntry)
  | _, 0 => .ok []
  | currentAsset, count + 1 => do
    let nxt ← s.nextAsset C currentAsset
    let rest ← DerivationScheme_ArmoryLegacy.extendChain C s nxt count
    pure (nxt :: rest)

/-! ## Address entries -/

inductive AddressEntryKind where
  | P2PKH
  | P2WPKH
  | P2SH
  | P2WSH
  deriving DecidableEq, Repr

/-- An `AddressEntry` object: its class, the asset it points to and the memo `address_`. -/
structure AddressEntry where
  kind : AddressEntryKind
  asset : AssetEntry
  address : Bytes
  deriving DecidableEq, Repr

/-- Modelled from the spec: the constructors `AddressEntry_P2PKH(asset)`, ... are in
`Wallets.h`, which is absent; the "memoized address bytes" start empty. -/
def AddressEntry.new (kind : AddressEntryKind) (asset : AssetEntry) : AddressEntry :=
  ⟨kind, asset, []⟩

/-- Modelled from the spec: `AddressEntry::getIndex` is in `Wallets.h`, which is absent; an
address entry is "created on first use per index" of the asset it wraps. -/
def AddressEntry.getIndex (e : AddressEntry) : Int := e.asset.getId

/-- Source `AddressEntry_P2PKH::getAddress`. It returns the address and leaves it in the memo. The
source reads `h160` and then builds `addr160` from the network byte alone. -/
def AddressEntry_P2PKH.getAddress (C : Crypto) (cfg : Config) (e : AddressEntry) :
    Except Error (Bytes × AddressEntry) :=
  if e.address.length = 0 then
    match e.asset with
    | .Single assetSingle =>
      let _h160 := assetSingle.getHash160Uncompressed C
      let networkByte := cfg.pubkeyHashPrefix
      let addr160 : Bytes := [] ++ [networkByte]
      let address := C.scrAddrToBase58 addr160
      .ok (address, { e with address := address })
    | .Multisig _ => .error (.WalletException .unexpected_asset_entry_type)
  else .ok (e.address, e)

/-! ## The keyed store

The store engine (the LMDB wrapper) is outside the examined sources. -/

/-- Modelled from the spec: the store engine is absent; it is "a transactional ordered" store
"with iterators". A store is the list of its records in ascending key order, one record per
key. -/
abbrev Store := List (Bytes × Bytes)

/-- Modelled from the spec: `db_->insert(key, data)`; the record of an existing key is
replaced. -/
def Store.insert (key data : Bytes) : Store → Store
  | [] => [(key, data)]
  | (k, v) :: rest =>
    if bytesLt key k then (key, data) :: (k, v) :: rest
    else if bytesLt k key then (k, v) :: Store.insert key data rest
    else (key, data) :: rest

/-- Modelled from the spec: `db_->get_NoCopy(key)`; `none` stands for the null reference. -/
def Store.get_NoCopy (key : Bytes) : Store → Option Bytes
  | [] => none
  | (k, v) :: rest => if k = key then some v else Store.get_NoCopy key rest

/-- Modelled from the spec: `dbIter.seek(key, Seek_GE)` followed by `advance()` until the
iterator is no longer valid: the records from the first key not below `key` to the end. -/
def Store.seekGE (key : Bytes) (s : Store) : List (Bytes × Bytes) :=
  s.dropWhile (fun e => bytesLt e.1 key)

/-- The records of a store are in strictly ascending key order. -/
def Store.Sorted (s : Store) : Prop :=
  s.Pairwise (fun a b => bytesLt a.1 b.1 = true)

/-! ## In-memory maps: `std::map<int, T>` as a list in ascending key order -/

def mapFind {α : Type} (k : Int) : List (Int × α) → Option α
  | [] => none
  | (k', v) :: r => if k' = k then some v else mapFind k r

/-- The operation `std::map::insert`: an entry already present under the key is kept. -/
def mapInsert {α : Type} (k : Int) (v : α) : List (Int × α) → List (Int × α)
  | [] => [(k, v)]
  | (k', v') :: r =>
    if k < k' then (k, v) :: (k', v') :: r
    else if k' < k then (k', v') :: mapInsert k v r
    else (k', v') :: r

/-- The assignment `m[k] = v`: an entry already present under the key is replaced. -/
def mapAssign {α : Type} (k : Int) (v : α) : List (Int × α) → List (Int × α)
  | [] => [(k, v)]
  | (k', v') :: r =>
    if k < k' then (k, v) :: (k', v') :: r
    else if k' < k then (k', v') :: mapAssign k v r
    else (k, v) :: r

/-! ## The wallet -/

inductive WalletKind where
  | Single
  | Multisig
  deriving DecidableEq, Repr

/-- The state of an `AssetWallet` object. `walletMutex` is `true` while `walletMutex_` is
held; `derScheme` and `root` are pointers that are null until `readFromFile` sets them. The
handles `dbEnv_` and `db_` are set by the constructor and stand for the store `db`. -/
structure AssetWallet where
  kind : WalletKind
  db : Store
  walletMutex : Bool
  highestUsedAddressIndex : Int
  parentID : Bytes
  walletID : Bytes
  derScheme : Option DerivationScheme
  default_aet : Byte
  root : Option AssetEntry
  assets : List (Int × AssetEntry)
  addresses : List (Int × AddressEntry)
  deriving Repr

/-- Modelled from the spec: the constructors of the wallet classes are in `Wallets.h`, which
is absent; a new wallet object over the store `db` has no assets, no cached addresses and a
free mutex. -/
def AssetWallet.new (kind : WalletKind) (db : Store) : AssetWallet :=
  { kind := kind, db := db, walletMutex := false, highestUsedAddressIndex := 0,
    parentID := [], walletID := [], derScheme := none, default_aet := 0, root := none,
    assets := [], addresses := [] }

/-- Source `AssetWallet::putData`. -/
def AssetWallet.putData (w : AssetWallet) (key data : Bytes) : AssetWallet :=
  { w with db := w.db.insert key data }

/-- Source `AssetWallet::putHeaderData`. -/
def AssetWallet.putHeaderData (K : Constants) (w : AssetWallet) (parentID walletID : Bytes)
    (derScheme : DerivationScheme) (aet : Byte) (topUsedIndex : Int) :
    Except Error AssetWallet := do
  let w := w.putData (put_uint32_t K.PARENTID_KEY) (put_var_int parentID.length ++ parentID)
  let w := w.putData (put_uint32_t K.WALLETID_KEY) (put_var_int walletID.length ++ walletID)
  let data ← derScheme.serialize K
  let w := w.putData (put_uint32_t K.DERIVATIONSCHEME_KEY) data
  let w := w.putData (put_uint32_t K.ADDRESSENTRYTYPE_KEY) (put_var_int 1 ++ put_uint8_t aet)
  let w := w.putData (put_uint32_t K.TOPUSEDINDEX_KEY)
    (put_var_int 4 ++ put_int32_t topUsedIndex)
  pure w

/-- Source `AssetWallet_Single::putHeaderData`. -/
def AssetWallet_Single.putHeaderData (K : Constants) (w : AssetWallet)
    (parentID walletID : Bytes) (derScheme : DerivationScheme) (aet : Byte)
    (topUsedIndex : Int) : Except Error AssetWallet :=
  let w := w.putData (put_uint32_t K.WALLETTYPE_KEY)
    (put_var_int 1 ++ put_uint8_t K.WALLETTYPE_SINGLE)
  w.putHeaderData K parentID walletID derScheme aet topUsedIndex

/-- Source `AssetWallet::getDataRefForKey`. -/
def AssetWallet.getDataRefForKey (w : AssetWallet) (key : Bytes) : Except Error Bytes :=
  match w.db.get_NoCopy key with
  | none => .error .NoEntryInWalletException
  | some ref => do
    let (len, brr) ← get_var_int ref
    if len ≠ brr.length then
      throw (.WalletException .on_disk_data_length_mismatch)
    else pure brr

/-- The `while (dbIter.isValid())` loop of `AssetWallet_Single::readFromFile` over the records
the iterator visits; an `AssetDeserException` ends the loop, any other error leaves the
function. -/
def scanAssets (K : Constants) :
    List (Bytes × Bytes) → List (Int × AssetEntry) → Except Error (List (Int × AssetEntry))
  | [], assets => .ok assets
  | (keyBDR, valueBDR) :: rest, assets =>
    match get_var_int valueBDR with
    | .error e => .error e
    | .ok (valsize, brrVal) =>
      if valsize ≠ brrVal.length then
        .error (.WalletException .entry_val_size_mismatch)
      else
        match AssetEntry.deserialize K keyBDR brrVal with
        | .ok entryPtr => scanAssets K rest (mapInsert entryPtr.getId entryPtr assets)
        | .error (.AssetDeserException _) => .ok assets
        | .error e => .error e

/-- Source `AssetWallet_Single::readFromFile`. -/
def AssetWallet_Single.readFromFile (K : Constants) (w : AssetWallet) :
    Except Error AssetWallet := do
  let parentIdRef ← w.getDataRefForKey (put_uint32_t K.PARENTID_KEY)
  let walletIdRef ← w.getDataRefForKey (put_uint32_t K.WALLETID_KEY)
  let derSchemeRef ← w.getDataRefForKey (put_uint32_t K.DERIVATIONSCHEME_KEY)
  let derScheme ← DerivationScheme.deserialize K derSchemeRef
  let defaultAetRef ← w.getDataRefForKey (put_uint32_t K.ADDRESSENTRYTYPE_KEY)
  match defaultAetRef with
  | [aet] =>
    let topIndexRef ← w.getDataRefForKey (put_uint32_t K.TOPUSEDINDEX_KEY)
    if topIndexRef.length ≠ 4 then
      throw (.WalletException .invalid_topindex_length)
    else
      let (top, _) ← get_int32_t topIndexRef
      let rootAssetRef ← w.getDataRefForKey (put_uint32_t K.ROOTASSET_KEY)
      let root ← AssetEntry.deserDBValue K (-1) rootAssetRef
      let assets ← scanAssets K (w.db.seekGE (put_uint8_t K.ASSETENTRY_PREFIX)) w.assets
      pure { w with parentID := parentIdRef, walletID := walletIdRef,
                    derScheme := some derScheme, default_aet := aet,
                    highestUsedAddressIndex := top, root := some root, assets := assets }
  | _ => throw (.WalletException .invalid_aet_length)

/-- Source `AssetWallet::getAndBumpHighestUsedIndex`: the old counter value as an `unsigned`, and the
wallet with the counter raised by one (an atomic `fetch_add`, which wraps) and written under
`TOPUSEDINDEX_KEY`. -/
def AssetWallet.getAndBumpHighestUsedIndex (K : Constants) (w : AssetWallet) :
    Nat × AssetWallet :=
  let index := w.highestUsedAddressIndex
  let w := { w with highestUsedAddressIndex := wrapInt32 (index + 1) }
  let bwKey := put_uint32_t K.TOPUSEDINDEX_KEY
  let bwData := put_var_int 4 ++ put_int32_t w.highestUsedAddressIndex
  (uint32_of_int32 index, w.putData bwKey bwData)

/-- Source `AssetWallet_Single::getAddressEntryForAsset`. -/
def AssetWallet_Single.getAddressEntryForAsset (K : Constants) (assetPtr : AssetEntry)
    (ae_type : Byte) : Except Error AddressEntry :=
  if ae_type = K.AddressEntryType_P2PKH then .ok (AddressEntry.new .P2PKH assetPtr)
  else if ae_type = K.AddressEntryType_P2WPKH then .ok (AddressEntry.new .P2WPKH assetPtr)
  else .error (.WalletException .unsupported_address_entry_type)

/-- Source `AssetWallet_Multisig::getAddressEntryForAsset`. -/
def AssetWallet_Multisig.getAddressEntryForAsset (K : Constants) (assetPtr : AssetEntry)
    (ae_type : Byte) : Except Error AddressEntry :=
  if ae_type = K.AddressEntryType_P2SH then .ok (AddressEntry.new .P2SH assetPtr)
  else if ae_type = K.AddressEntryType_P2WSH then .ok (AddressEntry.new .P2WSH assetPtr)
  else .error (.WalletException .unsupported_address_entry_type)

/-- The virtual call `getAddressEntryForAsset`. -/
def AssetWallet.getAddressEntryForAsset (K : Constants) (w : AssetWallet)
    (assetPtr : AssetEntry) (ae_type : Byte) : Except Error AddressEntry :=
  match w.kind with
  | .Single => AssetWallet_Single.getAddressEntryForAsset K assetPtr ae_type
  | .Multisig => AssetWallet_Multisig.getAddressEntryForAsset K assetPtr ae_type

/-- Modelled from the spec: `AssetEntry_Multisig::serialize` is in `Wallets.h`, which is
absent; "`AssetEntry_Multisig` is not persisted directly". -/
def AssetEntry_Multisig.serialize (_a : AssetEntry_Multisig) : Except Error Bytes :=
  .error (.AssetDeserException .no_serialization_for_multisig_assets)

/-- The virtual call `entryPtr->serialize()`. -/
def AssetEntry.serialize (K : Constants) : AssetEntry → Except Error Bytes
  | .Single a => a.serialize K
  | .Multisig a => a.serialize

/-- Source `AssetWallet::writeAssetEntry`. -/
def AssetWallet.writeAssetEntry (K : Constants) (w : AssetWallet) (entryPtr : AssetEntry) :
    Except Error Unit × AssetWallet :=
  match entryPtr.serialize K with
  | .error e => (.error e, w)
  | .ok serializedEntry =>
    (.ok (), { w with db := w.db.insert (entryPtr.getDbKey K) serializedEntry })

/-- The `for (auto& asset : assetVec)` loop of `AssetWallet::extendChain`. -/
def AssetWallet.insertAssets (K : Constants) :
    AssetWallet → List AssetEntry → Except Error Unit × AssetWallet
  | w, [] => (.ok (), w)
  | w, asset :: rest =>
    let id := asset.getId
    match mapFind id w.assets with
    | some _ => AssetWallet.insertAssets K w rest
    | none =>
      match w.writeAssetEntry K asset with
      | (.error e, w1) => (.error e, w1)
      | (.ok (), w1) =>
        AssetWallet.insertAssets K { w1 with assets := mapInsert id asset w1.assets } rest

/-- Source `DerivationScheme_Multisig::getAssetForIndex` of a scheme whose map `wallets_` is not
bound: the asset has no sub-assets. -/
def DerivationScheme_Multisig.getAssetForIndex (s : DerivationScheme_Multisig) (index : Nat) :
    AssetEntry :=
  .Multisig ⟨int32_of_uint32 index, [], s.m, s.n⟩

/-- Source `DerivationScheme_Multisig::extendChain` of a scheme whose map `wallets_` is not bound (no
sub-wallet to extend): the assets of the indices from `id + 1` up to, not including,
`total = id + 1 + count`, computed on `unsigned`. -/
def DerivationScheme_Multisig.extendChain (s : DerivationScheme_Multisig)
    (firstAsset : AssetEntry) (count : Nat) : List AssetEntry :=
  let first := (uint32_of_int32 firstAsset.getId + 1) % 2 ^ 32
  let total := (first + count) % 2 ^ 32
  (List.range' first (total - first)).map s.getAssetForIndex

/-- The virtual call `derScheme_->extendChain(assetPtr, count)`; `derScheme_` is null before
`readFromFile`. -/
def AssetWallet.schemeExtendChain (C : Crypto) (w : AssetWallet) (assetPtr : AssetEntry)
    (count : Nat) : Except Error (List AssetEntry) :=
  match w.derScheme with
  | none => .error .NullPointer
  | some (.Legacy s) => s.extendChain C assetPtr count
  | some (.Multisig s) => .ok (s.extendChain assetPtr count)

/-- Source `AssetWallet::extendChain(shared_ptr<AssetEntry>, unsigned)`. The new `unique_lock` is
built with `defer_lock`, does not own the mutex, and so always calls `lock()`; the lock is
released when the function is left. -/
def AssetWallet.extendChain_from (K : Constants) (C : Crypto) (w : AssetWallet)
    (assetPtr : AssetEntry) (count : Nat) : Except Error Unit × AssetWallet :=
  if w.walletMutex then (.error .MutexRelock, w)
  else
    let w := { w with walletMutex := true }
    match w.schemeExtendChain C assetPtr count with
    | .error e => (.error e, { w with walletMutex := false })
    | .ok assetVec =>
      let (r, w) := w.insertAssets K assetVec
      (r, { w with walletMutex := false })

/-- Source `AssetWallet::extendChain(unsigned)`. It locks `walletMutex_` in the same way and, holding
it, calls the two-argument overload with the asset of the highest index. -/
def AssetWallet.extendChain (K : Constants) (C : Crypto) (w : AssetWallet) (count : Nat) :
    Except Error Unit × AssetWallet :=
  match w.assets.getLast? with
  | none => (.error (.WalletException .empty_asset_map), w)
  | some (_, lastAsset) =>
    if w.walletMutex then (.error .MutexRelock, w)
    else
      let w := { w with walletMutex := true }
      let (r, w) := w.extendChain_from K C lastAsset count
      (r, { w with walletMutex := false })

/-- The part of `AssetWallet::getNewAddress` that runs under `walletLock`. -/
def AssetWallet.getNewAddress_locked (K : Constants) (C : Crypto) (w : AssetWallet)
    (index : Nat) : Except Error AddressEntry × AssetWallet :=
  let finish (w : AssetWallet) (asset : AssetEntry) : Except Error AddressEntry × AssetWallet :=
    match w.getAddressEntryForAsset K asset w.default_aet with
    | .error e => (.error e, w)
    | .ok aePtr => (.ok aePtr, { w with addresses := mapAssign aePtr.getIndex aePtr w.addresses })
  match mapFind (int32_of_uint32 index) w.addresses with
  | some addr => (.ok addr, w)
  | none =>
    match mapFind (int32_of_uint32 index) w.assets with
    | some asset => finish w asset
    | none =>
      if w.assets.length = 0 then (.error (.WalletException .uninitialized_wallet), w)
      else
        match w.extendChain K C DERIVATION_LOOKUP with
        | (.error e, w) => (.error e, w)
        | (.ok (), w) =>
          match mapFind (int32_of_uint32 index) w.assets with
          | none => (.error (.WalletException .requested_index_overflows_max_lookup), w)
          | some asset => finish w asset

/-- Source `AssetWallet::getNewAddress`: the counter is raised and written first, then the rest runs
under `walletMutex_`, which is released when the function is left. -/
def AssetWallet.getNewAddress (K : Constants) (C : Crypto) (w : AssetWallet) :
    Except Error AddressEntry × AssetWallet :=
  let (index, w) := w.getAndBumpHighestUsedIndex K
  if w.walletMutex then (.error .MutexRelock, w)
  else
    let (r, w) := AssetWallet.getNewAddress_locked K C { w with walletMutex := true } index
    (r, { w with walletMutex := false })

/-- Source `AssetWallet::getAssetForIndex`. -/
def AssetWallet.getAssetForIndex (w : AssetWallet) (index : Nat) : Except Error AssetEntry :=
  match mapFind (int32_of_uint32 index) w.assets with
  | none => .error (.WalletException .invalid_asset_index)
  | some a => .ok a

/-- Source `AssetWallet_Single::initWalletDb`, on the wallet object `walletPtr`. -/
def AssetWallet_Single.initWalletDb (K : Constants) (C : Crypto) (walletPtr : AssetWallet)
    (cypher : Cypher) (parentID : Bytes) (addressType : Byte) (privateRoot : Bytes)
    (lookup : Nat) : Except Error AssetWallet := do
  let pubkey := C.ComputePublicKey privateRoot
  let walletID := C.getWalletID pubkey
  let chaincode := C.computeChainCode_Armory135 privateRoot
  let derScheme := DerivationScheme.Legacy ⟨chaincode⟩
  let rootAssetEntry := AssetEntry_Single.mk4 C (-1) pubkey privateRoot (some cypher)
  let w ← AssetWallet_Single.putHeaderData K walletPtr parentID walletID derScheme addressType 0
  let data ← rootAssetEntry.serialize K
  let w := w.putData (put_uint32_t K.ROOTASSET_KEY) data
  let w ← AssetWallet_Single.readFromFile K w
  let lookup := if lookup = UINT32_MAX then DERIVATION_LOOKUP else lookup
  match w.extendChain_from K C (.Single rootAssetEntry) lookup with
  | (.ok (), w) => pure w
  | (.error e, _) => throw e

/-- Source `AssetWallet_Single::createFromPrivateRoot_Armory135`; `file` is the content of the store
that `getEnvFromFile` opens, empty for a new file. -/
def AssetWallet_Single.createFromPrivateRoot_Armory135 (K : Constants) (C : Crypto)
    (file : Store) (defaultAddressType : Byte) (privateRoot : Bytes) (lookup : Nat) :
    Except Error AssetWallet :=
  let pubkey := C.ComputePublicKey privateRoot
  let walletID := C.getWalletID pubkey
  let walletPtr := AssetWallet.new .Single file
  let cypher := Cypher_AES_fresh
  AssetWallet_Single.initWalletDb K C walletPtr cypher walletID defaultAddressType privateRoot
    lookup

/-- The store keys of the header records. -/
def Constants.headerKeys (K : Constants) : List Nat :=
  [K.WALLETTYPE_KEY, K.PARENTID_KEY, K.WALLETID_KEY, K.DERIVATIONSCHEME_KEY,
   K.ADDRESSENTRYTYPE_KEY, K.TOPUSEDINDEX_KEY, K.ROOTASSET_KEY]

/-- The header keys are different 32-bit tags, and none of them starts with the byte
`ASSETENTRY_PREFIX` ("`ASSETENTRY_PREFIX` is a single byte distinct from any byte that could
collide with the 32-bit header keys' first byte"). -/
def Constants.KeysSeparate (K : Constants) : Prop :=
  (K.headerKeys.map (fun k => k % 2 ^ 32)).Nodup ∧
  ∀ k ∈ K.headerKeys, k % 256 ≠ K.ASSETENTRY_PREFIX.val

instance (K : Constants) : Decidable K.KeysSeparate := by
  unfold Constants.KeysSeparate; infer_instance

/-! ## Statements about runs of calls -/

/-- A run of `n` successive calls of `getNewAddress` on one wallet object: the results in call order and
the wallet after the last call. A call that fails leaves the wallet as it was at the throw. -/
def AssetWallet.getNewAddresses (K : Constants) (C : Crypto) :
    Nat → AssetWallet → List (Except Error AddressEntry) × AssetWallet
  | 0, w => ([], w)
  | n + 1, w =>
    let (r, w1) := w.getNewAddress K C
    let (rs, w2) := AssetWallet.getNewAddresses K C n w1
    (r :: rs, w2)

/-- Every entry of the asset map sits under its own index, and every cached address entry
under the index of its asset: what `assets_.insert(make_pair(entry->getId(), entry))` and
`addresses_[aePtr->getIndex()] = aePtr` maintain. -/
def AssetWallet.Keyed (w : AssetWallet) : Prop :=
  (∀ k a, mapFind k w.assets = some a → a.getId = k) ∧
  (∀ k e, mapFind k w.addresses = some e → e.getIndex = k)

/-- The default address type is one that `getAddressEntryForAsset` of the wallet's class
accepts. -/
def AssetWallet.AetSupported (K : Constants) (w : AssetWallet) : Prop :=
  match w.kind with
  | .Single => w.default_aet = K.AddressEntryType_P2PKH ∨ w.default_aet = K.AddressEntryType_P2WPKH
  | .Multisig => w.default_aet = K.AddressEntryType_P2SH ∨ w.default_aet = K.AddressEntryType_P2WSH

instance (K : Constants) (w : AssetWallet) : Decidable (w.AetSupported K) := by
  unfold AssetWallet.AetSupported; split <;> infer_instance

/-! ## Well-formed stores and maps -/

/-- An asset that can be written and read back: an index in the `int` range, fields shorter
than 2^32 bytes, and a cipher next to the private key. -/
def AssetEntry_Single.Storable (a : AssetEntry_Single) : Prop :=
  -2 ^ 31 ≤ a.index ∧ a.index < 2 ^ 31 ∧
  a.pubkey.uncompressed.length < 2 ^ 32 ∧ a.pubkey.compressed.length < 2 ^ 32 ∧
  a.privkey.data.length < 2 ^ 32 ∧
  ∃ c, a.privkey.cypher = some c ∧ c.iv.length < 2 ^ 32

/-- A record whose key does not start with `ASSETENTRY_PREFIX` and whose value is
`var_int(len) ‖ payload`. -/
def IsHeaderRecord (K : Constants) (e : Bytes × Bytes) : Prop :=
  (∃ b rest, e.1 = b :: rest ∧ b ≠ K.ASSETENTRY_PREFIX) ∧
  ∃ body, e.2 = frame body ∧ body.length < 2 ^ 64

/-- The record `writeAssetEntry` writes for the asset `a`. -/
def IsAssetRecord (K : Constants) (e : Bytes × Bytes) (a : AssetEntry_Single) : Prop :=
  a.Storable ∧ e.1 = (AssetEntry.Single a).getDbKey K ∧ a.serialize K = .ok e.2

/-- A store in key order that holds header records and asset records only. -/
def StoreInv (K : Constants) (db : Store) : Prop :=
  db.Sorted ∧ ∀ e ∈ db, IsHeaderRecord K e ∨ ∃ a, IsAssetRecord K e a

/-- The records `l` hold an asset record of index `k`. -/
def HasAsset (K : Constants) (l : List (Bytes × Bytes)) (k : Int) : Prop :=
  ∃ e ∈ l, ∃ a, IsAssetRecord K e a ∧ a.index = k

/-- An asset map in strictly ascending key order whose entries sit under their own index. -/
def MapOK (m : List (Int × AssetEntry)) : Prop :=
  (m.map Prod.fst).Pairwise (fun a b => a < b) ∧ ∀ e ∈ m, e.2.getId = e.1

/-- What `readFromFile` restores from the header records. -/
structure HeaderData where
  parentID : Bytes
  walletID : Bytes
  derScheme : DerivationScheme
  aet : Byte
  top : Int
  root : AssetEntry_Single

/-- A well-formed store whose header records are framed and decode to `h`. -/
def Readable (K : Constants) (db : Store) (h : HeaderData) : Prop :=
  StoreInv K db ∧
  (db.get_NoCopy (put_uint32_t K.PARENTID_KEY) = some (frame h.parentID) ∧
    h.parentID.length < 2 ^ 64) ∧
  (db.get_NoCopy (put_uint32_t K.WALLETID_KEY) = some (frame h.walletID) ∧
    h.walletID.length < 2 ^ 64) ∧
  (∃ body, db.get_NoCopy (put_uint32_t K.DERIVATIONSCHEME_KEY) = some (frame body) ∧
    body.length < 2 ^ 64 ∧ DerivationScheme.deserialize K body = .ok h.derScheme) ∧
  db.get_NoCopy (put_uint32_t K.ADDRESSENTRYTYPE_KEY) = some (frame [h.aet]) ∧
  (db.get_NoCopy (put_uint32_t K.TOPUSEDINDEX_KEY) = some (frame (put_int32_t h.top)) ∧
    -2 ^ 31 ≤ h.top ∧ h.top < 2 ^ 31) ∧
  (∃ body, db.get_NoCopy (put_uint32_t K.ROOTASSET_KEY) = some (frame body) ∧
    body.length < 2 ^ 64 ∧ AssetEntry.deserDBValue K (-1) body = .ok (.Single h.root))

/-- The state of a single wallet that is in step with its store: the store is readable, the
asset map is ordered, holds exactly the indices that have an asset record, and the fields
restored by `readFromFile` agree with the header records. -/
def WalletInv (K : Constants) (w : AssetWallet) (h : HeaderData) : Prop :=
  Readable K w.db h ∧ MapOK w.assets ∧
  (∀ k, k ∈ w.assets.map Prod.fst ↔ HasAsset K w.db k) ∧
  w.walletMutex = false ∧ w.highestUsedAddressIndex = h.top ∧
  w.derScheme = some h.derScheme ∧ w.default_aet = h.aet ∧
  w.root = some (.Single h.root) ∧ w.kind = .Single

/-- The store after `initWalletDb` has written the header records and the root asset. -/
def headerStore (K : Constants) (file : Store) (parentID walletID scheme : Bytes) (aet : Byte)
    (root : Bytes) : Store :=
  ((((((file.insert (put_uint32_t K.WALLETTYPE_KEY)
      (put_var_int 1 ++ put_uint8_t K.WALLETTYPE_SINGLE)).insert
    (put_uint32_t K.PARENTID_KEY) (put_var_int parentID.length ++ parentID)).insert
    (put_uint32_t K.WALLETID_KEY) (put_var_int walletID.length ++ walletID)).insert
    (put_uint32_t K.DERIVATIONSCHEME_KEY) scheme).insert
    (put_uint32_t K.ADDRESSENTRYTYPE_KEY) (put_var_int 1 ++ put_uint8_t aet)).insert
    (put_uint32_t K.TOPUSEDINDEX_KEY) (put_var_int 4 ++ put_int32_t 0)).insert
    (put_uint32_t K.ROOTASSET_KEY) root

/-- The root asset `initWalletDb` builds from the private root. -/
def rootAsset (C : Crypto) (privateRoot : Bytes) : AssetEntry_Single :=
  AssetEntry_Single.mk4 C (-1) (C.ComputePublicKey privateRoot) privateRoot
    (some Cypher_AES_fresh)

/-- The header data `initWalletDb` writes for a private root. -/
def rootHeader (C : Crypto) (parentID : Bytes) (aet : Byte) (privateRoot : Bytes) :
    HeaderData :=
  { parentID := parentID, walletID := C.getWalletID (C.ComputePublicKey privateRoot),
    derScheme := .Legacy ⟨C.computeChainCode_Armory135 privateRoot⟩, aet := aet, top := 0,
    root := rootAsset C privateRoot }

/-- The number of assets `initWalletDb` derives for a `lookup` argument. -/
def effectiveLookup (lookup : Nat) : Nat :=
  if lookup = UINT32_MAX then DERIVATION_LOOKUP else lookup

/-! ## Sample values

Concrete constants and stand-ins for the external primitives, used where a statement is
evaluated on an example. -/

def sampleConstants : Constants where
  PUBKEY_UNCOMPRESSED_BYTE := 0x80
  PUBKEY_COMPRESSED_BYTE := 0x81
  PRIVKEY_BYTE := 0x82
  CYPHER_BYTE := 0x90
  AssetEntryType_Single := 0
  AssetEntryType_Multisig := 1
  CypherType_AES := 0
  DERIVATIONSCHEME_LEGACY := 0xa0
  DERIVATIONSCHEME_MULTISIG := 0xa1
  ASSETENTRY_PREFIX := 0xaa
  WALLETTYPE_KEY := 1
  PARENTID_KEY := 2
  WALLETID_KEY := 3
  DERIVATIONSCHEME_KEY := 4
  ADDRESSENTRYTYPE_KEY := 5
  TOPUSEDINDEX_KEY := 6
  ROOTASSET_KEY := 7
  WALLETTYPE_SINGLE := 0
  WALLETTYPE_MULTISIG := 1
  AddressEntryType_P2PKH := 0
  AddressEntryType_P2WPKH := 1
  AddressEntryType_P2SH := 2
  AddressEntryType_P2WSH := 3
  OP_1 := 0x51
  OP_16 := 0x60
  OP_CHECKMULTISIG := 0xae

/-- The main-network prefix bytes. -/
def sampleConfig : Config := ⟨0x00, 0x05⟩

/-- Stand-ins with the output sizes of the real primitives: 20-byte and 32-byte digests,
65-byte and 33-byte public keys, 32-byte private keys and chain codes. The stand-in for
Base58Check is the identity, which like Base58Check is injective. -/
def sampleCrypto : Crypto where
  getHash160 := fun d => (d ++ List.replicate 20 0).take 20
  getHash256 := fun d => (d ++ List.replicate 32 0).take 32
  getSha256 := fun d => (d ++ List.replicate 32 1).take 32
  scrAddrToBase58 := fun d => d
  ComputePublicKey := fun d => (4 : Byte) :: (d ++ List.replicate 64 0).take 64
  CompressPoint := fun d => (2 : Byte) :: (d.drop 1 ++ List.replicate 32 0).take 32
  ComputeChainedPublicKey := fun pk cc =>
    (4 : Byte) :: ((pk.drop 1).reverse ++ cc ++ List.replicate 64 0).take 64
  ComputeChainedPrivateKey := fun sk cc _ =>
    .key ((sk.reverse ++ cc ++ List.replicate 32 0).take 32)
  getWalletID := fun d => (d ++ List.replicate 20 0).take 20
  computeChainCode_Armory135 := fun d => (d.reverse ++ List.replicate 32 7).take 32
  getHMAC256 := fun key msg => (msg.reverse ++ key ++ List.replicate 32 9).take 32

/-- A single asset of index 0 built from the seed of 32 bytes `0x11`. -/
def sampleAsset : AssetEntry_Single :=
  AssetEntry_Single.mk4 sampleCrypto 0 (sampleCrypto.ComputePublicKey (List.replicate 32 0x11))
    (List.replicate 32 0x11) (some Cypher_AES_fresh)

/-- The seed of scenario S1: 32 bytes `0x11`. -/
def sampleSeed : Bytes := List.replicate 32 0x11

/-- The wallet of scenario S1: `createFromPrivateRoot_Armory135(P2PKH, seed, 5)` on a new
file, with the seed of 32 bytes `0x11`. -/
def sampleWallet : AssetWallet :=
  match AssetWallet_Single.createFromPrivateRoot_Armory135 sampleConstants sampleCrypto []
      sampleConstants.AddressEntryType_P2PKH sampleSeed 5 with
  | .ok w => w
  | .error _ => AssetWallet.new .Single []

/-- The wallet of scenario S1 after five `getNewAddress` calls. -/
def sampleWalletUsed : AssetWallet :=
  (sampleWallet.getNewAddresses sampleConstants sampleCrypto 5).2

/-- The asset of the highest index in a wallet, `assets_.rbegin()->second`. -/
def AssetWallet.topAsset (w : AssetWallet) : AssetEntry :=
  match w.assets.getLast? with
  | some (_, a) => a
  | none => .Single sampleAsset

/-- The wallet of scenario S1 after `extendChain(top asset, 2)`. -/
def sampleWalletExtended : AssetWallet :=
  (sampleWallet.extendChain_from sampleConstants sampleCrypto sampleWallet.topAsset 2).2

/-! ## Multisig assets -/

/-- The `for (auto& asset : assetMap_)` loop of `AssetEntry_Multisig::getScript`: the bytes it
appends to the writer. For a sub-asset that is not an `AssetEntry_Single` the source builds a
`WalletException` without throwing it and goes on to use the null pointer. -/
def AssetEntry_Multisig.putPubKeys :
    List (Bytes × Option AssetEntry_Single) → Except Error Bytes
  | [] => .ok []
  | (_, none) :: _ => .error .NullPointer
  | (_, some assetSingle) :: rest =>
    let pubkeyCpr := assetSingle.pubkey.compressed
    if pubkeyCpr.length ≠ 33 then
      .error (.WalletException .unexpected_compress_pub_key_len)
    else
      match AssetEntry_Multisig.putPubKeys rest with
      | .error e => .error e
      | .ok bw => .ok (put_uint8_t 33 ++ pubkeyCpr ++ bw)

/-- Source `AssetEntry_Multisig::getScript`. `m_` and `n_` are `unsigned`, so `m_ + OP_1 - 1` is
computed modulo 2^32. -/
def AssetEntry_Multisig.getScript (K : Constants) (a : AssetEntry_Multisig) :
    Except Error Bytes :=
  let m := (a.m + K.OP_1 + (2 ^ 32 - 1)) % 2 ^ 32
  if m > K.OP_16 then .error (.WalletException .m_exceeds_OP_16)
  else
    match AssetEntry_Multisig.putPubKeys a.assetMap with
    | .error e => .error e
    | .ok keys =>
      let n := (a.n + K.OP_1 + (2 ^ 32 - 1)) % 2 ^ 32
      if n > K.OP_16 ∨ n < m then .error (.WalletException .invalid_n)
      else
        .ok (put_uint8_t (byteOfNat m) ++ keys ++ put_uint8_t (byteOfNat n) ++
          put_uint8_t K.OP_CHECKMULTISIG)

/-- Source `AssetEntry_Multisig::getHash160`. -/
def AssetEntry_Multisig.getHash160 (K : Constants) (C : Crypto) (a : AssetEntry_Multisig) :
    Except Error Bytes :=
  if a.assetMap.length ≠ a.n then
    .error (.WalletException .asset_count_mismatch_in_multisig_entry)
  else
    match a.getScript K with
    | .error e => .error e
    | .ok msScript => .ok (C.getHash160 msScript)

/-- Source `AssetEntry_Multisig::getHash256`: the single SHA-256 of the script. -/
def AssetEntry_Multisig.getHash256 (K : Constants) (C : Crypto) (a : AssetEntry_Multisig) :
    Except Error Bytes :=
  if a.assetMap.length ≠ a.n then
    .error (.WalletException .asset_count_mismatch_in_multisig_entry)
  else
    match a.getScript K with
    | .error e => .error e
    | .ok msScript => .ok (C.getSha256 msScript)

/-- The script opcodes have their Bitcoin values: `OP_1 = 0x51` and `OP_16 = 0x60`, so that
`OP_M` is the byte `0x50 + M`. -/
def Constants.StandardOpcodes (K : Constants) : Prop := K.OP_1 = 0x51 ∧ K.OP_16 = 0x60

instance (K : Constants) : Decidable K.StandardOpcodes := by
  unfold Constants.StandardOpcodes; infer_instance

/-! ## Sample multisig assets -/

/-- A single asset with the index and the 33-byte compressed key of a derived asset; the tag
`t` makes the keys of different sub-wallets differ. -/
def sampleSubAsset (t : Byte) : AssetEntry_Single :=
  AssetEntry_Single.mk4 sampleCrypto 0 (sampleCrypto.ComputePublicKey (List.replicate 32 t))
    (List.replicate 32 t) (some Cypher_AES_fresh)

/-- A 2-of-3 multisig asset over three sub-wallets with the ids `[1]`, `[2]`, `[3]`. -/
def sampleMultisigAsset : AssetEntry_Multisig :=
  { index := 0, m := 2, n := 3,
    assetMap := [([1], some (sampleSubAsset 0x21)), ([2], some (sampleSubAsset 0x22)),
      ([3], some (sampleSubAsset 0x23))] }

/-- The multisig asset of scenario S5: N = 3 with only two sub-assets populated. -/
def sampleMultisigAssetShort : AssetEntry_Multisig :=
  { index := 0, m := 2, n := 3,
    assetMap := [([1], some (sampleSubAsset 0x21)), ([2], some (sampleSubAsset 0x22))] }

/-- A multisig asset with M = 0 and N = 1 over one sub-wallet. -/
def sampleMultisigAssetZeroM : AssetEntry_Multisig :=
  { index := 0, m := 0, n := 1, assetMap := [([1], some (sampleSubAsset 0x21))] }

/-! ## The private-key step of the legacy derivation -/

/-- The `try` block of the lambda `nextAsset` for the Single asset `a`: what `privkey->getKey()`
followed by `ComputeChainedPrivateKey` gives, the next private key or the exception
(`AssetUnavailableException`, `CypherException`) that the lambda catches. -/
def DerivationScheme_ArmoryLegacy.keyStep (C : Crypto) (s : DerivationScheme_ArmoryLegacy)
    (a : AssetEntry_Single) : KeyOutcome :=
  match a.privkey.getKey with
  | .key privkeyData => C.ComputeChainedPrivateKey privkeyData s.chainCode a.pubkey.uncompressed
  | .unavailable => .unavailable
  | .cypherBlocked => .cypherBlocked

/-- Stand-ins as `sampleCrypto`, except for the private-key derivation: it is blocked by the
cipher for a key whose first byte is 3, and otherwise returns the key with its first byte
raised by one. -/
def sampleCryptoLocking : Crypto :=
  { sampleCrypto with
    ComputeChainedPrivateKey := fun sk _ _ =>
      match sk with
      | [] => .unavailable
      | b :: r => if b.val = 3 then .cypherBlocked else .key ((b + 1) :: r) }

/-- The root asset of scenario S6: its private key starts with the byte 0, so that the
derivation under `sampleCryptoLocking` is blocked at step 3. -/
def sampleRootLocking : AssetEntry_Single :=
  AssetEntry_Single.mk4 sampleCryptoLocking (-1)
    (sampleCryptoLocking.ComputePublicKey sampleSeed) ((0 : Byte) :: List.replicate 31 0x11)
    (some Cypher_AES_fresh)

/-- The chain code used with `sampleRootLocking`. -/
def sampleSchemeLocking : DerivationScheme_ArmoryLegacy := ⟨List.replicate 32 7⟩

/-- The five assets that the legacy `extendChain` derives from `sampleRootLocking`. -/
def sampleChainLocking : List AssetEntry_Single :=
  match sampleSchemeLocking.extendChain sampleCryptoLocking (.Single sampleRootLocking) 5 with
  | .ok l => l.filterMap (fun x => match x with | .Single a => some a | .Multisig _ => none)
  | .error _ => []

/-! ## The multisig wallet

A multisig wallet keeps its header records in the main database of its environment and owns
`N` single wallets, each in a database of its own in the same environment. -/

/-- Modelled from the spec: the store engine is absent; "Multisig wallets use N+1 named
sub-databases within that file: one unnamed default for the multisig header + chain length,
plus `Subwallet-0` … `Subwallet-(N-1)` each holding a single-sig wallet's full key space".
`subs` holds the databases `Subwallet-0`, `Subwallet-1`, ... in this order; a database that
was never written is empty. -/
structure LMDBEnv where
  main : Store
  subs : List Store
  deriving DecidableEq, Repr

/-- The environment of a new file. -/
def LMDBEnv.empty : LMDBEnv := ⟨[], []⟩

/-- The content of the database `Subwallet-i`. -/
def LMDBEnv.sub (env : LMDBEnv) (i : Nat) : Store := env.subs.getD i []

/-- The environment after the database `Subwallet-i` has taken the content `s`. -/
def LMDBEnv.setSub (env : LMDBEnv) (i : Nat) (s : Store) : LMDBEnv :=
  { env with subs := (env.subs ++ List.replicate (i + 1 - env.subs.length) []).set i s }

/-- The bytes of a text (`std::string` to `BinaryData`); the texts used are ASCII. -/
def asciiBytes (s : String) : Bytes := s.toList.map (fun c => byteOfNat c.toNat)

/-- What `stringstream << n` writes for an `unsigned`: the decimal digits. -/
def decimal (n : Nat) : Bytes := asciiBytes (toString n)

/-- The assignment `m[k] = v` on a `std::map<BinaryData, T>`, kept as a list in ascending key
order: an entry already present under the key is replaced. -/
def idMapAssign {α : Type} (k : Bytes) (v : α) : List (Bytes × α) → List (Bytes × α)
  | [] => [(k, v)]
  | (k', v') :: r =>
    if bytesLt k k' then (k, v) :: (k', v') :: r
    else if bytesLt k' k then (k', v') :: idMapAssign k v r
    else (k, v) :: r

/-- The operation `std::map<BinaryData, T>::insert`: an entry already present under the key is
kept. -/
def idMapInsert {α : Type} (k : Bytes) (v : α) : List (Bytes × α) → List (Bytes × α)
  | [] => [(k, v)]
  | (k', v') :: r =>
    if bytesLt k k' then (k, v) :: (k', v') :: r
    else if bytesLt k' k then (k', v') :: idMapInsert k v r
    else (k', v') :: r

/-- Source `AssetWallet::getID`: the bytes of `walletID_`. -/
def AssetWallet.getID (w : AssetWallet) : Bytes := w.walletID

/-- Modelled from the spec: `AssetWallet::getAssetCount` is in `Wallets.h`, which is absent;
`sub.asset_count()`, the number of assets the wallet holds. -/
def AssetWallet.getAssetCount (w : AssetWallet) : Nat := w.assets.length

/-- The cast `dynamic_pointer_cast<AssetEntry_Single>`: null for an asset of another class. -/
def AssetEntry.asSingle : AssetEntry → Option AssetEntry_Single
  | .Single a => some a
  | .Multisig _ => none

/-- Source `AssetWallet::putHeaderData`, with the wallet as the call leaves it: when
`derScheme->serialize()` throws, the two records written before it stay written. -/
def AssetWallet.putHeaderData_st (K : Constants) (w : AssetWallet) (parentID walletID : Bytes)
    (derScheme : DerivationScheme) (aet : Byte) (topUsedIndex : Int) :
    Except Error Unit × AssetWallet :=
  let w := w.putData (put_uint32_t K.PARENTID_KEY) (put_var_int parentID.length ++ parentID)
  let w := w.putData (put_uint32_t K.WALLETID_KEY) (put_var_int walletID.length ++ walletID)
  match derScheme.serialize K with
  | .error e => (.error e, w)
  | .ok data =>
    let w := w.putData (put_uint32_t K.DERIVATIONSCHEME_KEY) data
    let w := w.putData (put_uint32_t K.ADDRESSENTRYTYPE_KEY) (put_var_int 1 ++ put_uint8_t aet)
    let w := w.putData (put_uint32_t K.TOPUSEDINDEX_KEY)
      (put_var_int 4 ++ put_int32_t topUsedIndex)
    (.ok (), w)

/-- Source `AssetWallet_Single::initWalletDb`, with the content of the wallet's database when the
call ends, by return or by exception: what was written before a throw stays written. -/
def AssetWallet_Single.initWalletDb_store (K : Constants) (C : Crypto) (walletPtr : AssetWallet)
    (cypher : Cypher) (parentID : Bytes) (addressType : Byte) (privateRoot : Bytes)
    (lookup : Nat) : Except Error AssetWallet × Store :=
  let pubkey := C.ComputePublicKey privateRoot
  let walletID := C.getWalletID pubkey
  let chaincode := C.computeChainCode_Armory135 privateRoot
  let derScheme := DerivationScheme.Legacy ⟨chaincode⟩
  let rootAssetEntry := AssetEntry_Single.mk4 C (-1) pubkey privateRoot (some cypher)
  let w := walletPtr.putData (put_uint32_t K.WALLETTYPE_KEY)
    (put_var_int 1 ++ put_uint8_t K.WALLETTYPE_SINGLE)
  match w.putHeaderData_st K parentID walletID derScheme addressType 0 with
  | (.error e, w) => (.error e, w.db)
  | (.ok (), w) =>
    match rootAssetEntry.serialize K with
    | .error e => (.error e, w.db)
    | .ok data =>
      let w := w.putData (put_uint32_t K.ROOTASSET_KEY) data
      match AssetWallet_Single.readFromFile K w with
      | .error e => (.error e, w.db)
      | .ok w =>
        let lookup := if lookup = UINT32_MAX then DERIVATION_LOOKUP else lookup
        match w.extendChain_from K C (.Single rootAssetEntry) lookup with
        | (.ok (), w) => (.ok w, w.db)
        | (.error e, w) => (.error e, w.db)

/-- A `DerivationScheme_Multisig` object in memory: the fields that are serialised (`n_`, `m_`,
`walletIDs_`) and the map `wallets_` from sub-wallet id to the sub-wallet, which is empty
until `setSubwalletPointers` binds it. The sub-wallets are reached through `shared_ptr`s; the
object that owns the scheme holds their state. -/
structure DerivationScheme_Multisig.Object where
  scheme : DerivationScheme_Multisig
  wallets : List (Bytes × AssetWallet)
  deriving Repr

/-- Modelled from the spec: the constructor `DerivationScheme_Multisig(wallets, n, m)` is in
`Wallets.h`, which is absent; the scheme holds "M, N, ordered set of sub-wallet ids, and
(after binding) a map id → sub-wallet handle": the ids are the keys of the map. -/
def DerivationScheme_Multisig.Object.ofWallets (wallets : List (Bytes × AssetWallet))
    (n m : Nat) : DerivationScheme_Multisig.Object :=
  { scheme := ⟨n, m, wallets.map Prod.fst⟩, wallets := wallets }

/-- Source `DerivationScheme_Multisig::setSubwalletPointers`. The two id sets are ascending
lists without repetition, equal as sets exactly when equal as lists. -/
def DerivationScheme_Multisig.Object.setSubwalletPointers (o : DerivationScheme_Multisig.Object)
    (ptrMap : List (Bytes × AssetWallet)) : Except Error Unit × DerivationScheme_Multisig.Object :=
  let ids := ptrMap.foldl (fun s wltPtr => setInsert wltPtr.1 s) []
  if ids ≠ o.scheme.walletIDs then
    (.error (.DerivationSchemeDeserException .ids_set_mismatch), o)
  else (.ok (), { o with wallets := ptrMap })

/-- The loop `for (auto wltPtr : wallets_)` of `DerivationScheme_Multisig::getAssetForIndex`. -/
def DerivationScheme_Multisig.Object.gatherAssets :
    List (Bytes × AssetWallet) → Nat → List (Bytes × Option AssetEntry_Single) →
      Except Error (List (Bytes × Option AssetEntry_Single))
  | [], _, assetMap => .ok assetMap
  | (id, wlt) :: rest, index, assetMap =>
    match wlt.getAssetForIndex index with
    | .error e => .error e
    | .ok asset =>
      DerivationScheme_Multisig.Object.gatherAssets rest index
        (idMapInsert id asset.asSingle assetMap)

/-- Source `DerivationScheme_Multisig::getAssetForIndex` on a scheme object. The constructor of
`AssetEntry_Multisig` is in `Wallets.h`, which is absent, and is taken to store its four
arguments; the `unsigned` index becomes the `int` id. -/
def DerivationScheme_Multisig.Object.getAssetForIndex (o : DerivationScheme_Multisig.Object)
    (index : Nat) : Except Error AssetEntry_Multisig :=
  match DerivationScheme_Multisig.Object.gatherAssets o.wallets index [] with
  | .error e => .error e
  | .ok assetMap => .ok ⟨int32_of_uint32 index, assetMap, o.scheme.m, o.scheme.n⟩

/-- The argument `total - wltPtr.second->getAssetCount()` of the sub-wallet's `extendChain(unsigned)`: a
difference of unsigned numbers, taken modulo 2^32. -/
def DerivationScheme_Multisig.extendCount (total assetCount : Nat) : Nat :=
  uint32_of_int32 ((total : Int) - (assetCount : Int))

/-- The loop `for (auto& wltPtr : wallets_)` of `DerivationScheme_Multisig::extendChain`: every
sub-wallet is extended in turn; an exception leaves the later sub-wallets untouched. -/
def DerivationScheme_Multisig.Object.extendSubwallets (K : Constants) (C : Crypto) (total : Nat) :
    List (Bytes × AssetWallet) → Except Error Unit × List (Bytes × AssetWallet)
  | [] => (.ok (), [])
  | (id, wlt) :: rest =>
    match wlt.extendChain K C (DerivationScheme_Multisig.extendCount total wlt.getAssetCount) with
    | (.error e, wlt) => (.error e, (id, wlt) :: rest)
    | (.ok (), wlt) =>
      match DerivationScheme_Multisig.Object.extendSubwallets K C total rest with
      | (r, rest) => (r, (id, wlt) :: rest)

/-- The loop `for (unsigned i = firstAsset->getId() + 1; i < total; i++)` of
`DerivationScheme_Multisig::extendChain`. -/
def DerivationScheme_Multisig.Object.collectAssets (o : DerivationScheme_Multisig.Object) :
    List Nat → Except Error (List AssetEntry)
  | [] => .ok []
  | i :: rest =>
    match o.getAssetForIndex i with
    | .error e => .error e
    | .ok asset =>
      match DerivationScheme_Multisig.Object.collectAssets o rest with
      | .error e => .error e
      | .ok assetVec => .ok (.Multisig asset :: assetVec)

/-- Source `DerivationScheme_Multisig::extendChain` on a scheme object: `total` and the loop bounds
are `unsigned`. -/
def DerivationScheme_Multisig.Object.extendChain (K : Constants) (C : Crypto)
    (o : DerivationScheme_Multisig.Object) (firstAsset : AssetEntry) (count : Nat) :
    Except Error (List AssetEntry) × DerivationScheme_Multisig.Object :=
  let first := (uint32_of_int32 firstAsset.getId + 1) % 2 ^ 32
  let total := (first + count) % 2 ^ 32
  match DerivationScheme_Multisig.Object.extendSubwallets K C total o.wallets with
  | (.error e, wallets) => (.error e, { o with wallets := wallets })
  | (.ok (), wallets) =>
    let o := { o with wallets := wallets }
    (o.collectAssets (List.range' first (total - first)), o)

/-- The state of an `AssetWallet_Multisig` object: the fields of `AssetWallet`, `chainLength_`, and
the map `wallets_` of the scheme object that `derScheme_` points to. -/
structure AssetWallet_Multisig extends AssetWallet where
  chainLength : Nat
  wallets : List (Bytes × AssetWallet)
  deriving Repr

/-- Modelled from the spec: the constructor `AssetWallet_Multisig(dbenv)` is in `Wallets.h`, which
is absent; a new wallet object over the main database. -/
def AssetWallet_Multisig.new (db : Store) : AssetWallet_Multisig :=
  { AssetWallet.new .Multisig db with chainLength := 0, wallets := [] }

/-- The loop `for (unsigned i = 0; i < n; i++)` of `AssetWallet_Multisig::readFromFile`, from `i`
on with `rounds` rounds to go: every sub-wallet is opened on its database and read. -/
def AssetWallet_Multisig.readSubwallets (K : Constants) (dbEnv : LMDBEnv) :
    Nat → Nat → List (Bytes × AssetWallet) → Except Error (List (Bytes × AssetWallet))
  | 0, _, walletPtrs => .ok walletPtrs
  | rounds + 1, i, walletPtrs =>
    match AssetWallet_Single.readFromFile K (AssetWallet.new .Single (dbEnv.sub i)) with
    | .error e => .error e
    | .ok subwalletPtr =>
      AssetWallet_Multisig.readSubwallets K dbEnv rounds (i + 1)
        (idMapAssign subwalletPtr.getID subwalletPtr walletPtrs)

/-- The loop `for (unsigned i = 0; i < chainLength_; i++) assets_[i] = ...` of
`AssetWallet_Multisig::readFromFile`, from `i` on with `rounds` rounds to go. -/
def AssetWallet_Multisig.buildAssetMap (o : DerivationScheme_Multisig.Object) :
    Nat → Nat → List (Int × AssetEntry) → Except Error (List (Int × AssetEntry))
  | 0, _, assets => .ok assets
  | rounds + 1, i, assets =>
    match o.getAssetForIndex i with
    | .error e => .error e
    | .ok asset =>
      AssetWallet_Multisig.buildAssetMap o rounds (i + 1)
        (mapAssign (int32_of_uint32 i) (.Multisig asset) assets)

/-- Source `AssetWallet_Multisig::readFromFile`; `dbEnv` is the environment behind `dbEnv_`, whose main
database is the wallet's `db`. -/
def AssetWallet_Multisig.readFromFile (K : Constants) (w : AssetWallet_Multisig)
    (dbEnv : LMDBEnv) : Except Error AssetWallet_Multisig := do
  let parentIdRef ← w.getDataRefForKey (put_uint32_t K.PARENTID_KEY)
  let walletIdRef ← w.getDataRefForKey (put_uint32_t K.WALLETID_KEY)
  let defaultAetRef ← w.getDataRefForKey (put_uint32_t K.ADDRESSENTRYTYPE_KEY)
  match defaultAetRef with
  | [aet] =>
    let topIndexRef ← w.getDataRefForKey (put_uint32_t K.TOPUSEDINDEX_KEY)
    if topIndexRef.length ≠ 4 then
      throw (.WalletException .invalid_topindex_length)
    else
      let (top, _) ← get_int32_t topIndexRef
      let derSchemeRef ← w.getDataRefForKey (put_uint32_t K.DERIVATIONSCHEME_KEY)
      let derScheme ← DerivationScheme.deserialize K derSchemeRef
      let lookupRef ← w.getDataRefForKey (put_uint8_t K.ASSETENTRY_PREFIX)
      let (chainLength, _) ← get_uint32_t lookupRef
      match derScheme with
      | .Legacy _ => throw (.WalletException .unexpected_derScheme_ptr_type)
      | .Multisig derSchemeMS =>
        let n := derSchemeMS.n
        let walletPtrs ← AssetWallet_Multisig.readSubwallets K dbEnv n 0 []
        match (DerivationScheme_Multisig.Object.mk derSchemeMS []).setSubwalletPointers
            walletPtrs with
        | (.error e, _) => throw e
        | (.ok (), o) =>
          let assets ← AssetWallet_Multisig.buildAssetMap o chainLength 0 w.assets
          pure { w with parentID := parentIdRef, walletID := walletIdRef, default_aet := aet,
                        highestUsedAddressIndex := top, derScheme := some derScheme,
                        chainLength := chainLength, wallets := o.wallets, assets := assets }
  | _ => throw (.WalletException .invalid_aet_length)

/-- The loop `for (unsigned i = 0; i < N; i++)` of `AssetWallet_Multisig::createFromPrivateRoot`,
from `i` on with `rounds` rounds to go: the sub-wallet `Subwallet-i` is created from its own
root and entered in the map under its id. The environment is returned as the loop leaves
it. -/
def AssetWallet_Multisig.createSubwallets (K : Constants) (C : Crypto)
    (walletID privateRoot : Bytes) (lookup : Nat) :
    Nat → Nat → LMDBEnv → List (Bytes × AssetWallet) →
      Except Error (List (Bytes × AssetWallet)) × LMDBEnv
  | 0, _, dbenv, subWallets => (.ok subWallets, dbenv)
  | rounds + 1, i, dbenv, subWallets =>
    let hmacMsg := asciiBytes "Subwallet-" ++ decimal i
    let subRoot := C.getHMAC256 privateRoot hmacMsg
    let subWalletPtr := AssetWallet.new .Single (dbenv.sub i)
    let cypher := Cypher_AES_fresh
    match AssetWallet_Single.initWalletDb_store K C subWalletPtr cypher walletID
        K.AddressEntryType_P2PKH subRoot lookup with
    | (.error e, db) => (.error e, dbenv.setSub i db)
    | (.ok subWalletPtr, db) =>
      AssetWallet_Multisig.createSubwallets K C walletID privateRoot lookup rounds (i + 1)
        (dbenv.setSub i db) (idMapAssign subWalletPtr.getID subWalletPtr subWallets)

/-- Source `AssetWallet_Multisig::createFromPrivateRoot`; `file` is the content of the environment
that `getEnvFromFile` opens, empty for a new file. The result is the wallet handle or the
exception, together with the environment as the call leaves it. -/
def AssetWallet_Multisig.createFromPrivateRoot (K : Constants) (C : Crypto) (file : LMDBEnv)
    (aet : Byte) (M N : Nat) (privateRoot : Bytes) (lookup : Nat) :
    Except Error AssetWallet_Multisig × LMDBEnv :=
  if aet ≠ K.AddressEntryType_P2SH ∧ aet ≠ K.AddressEntryType_P2WSH then
    (.error (.WalletException .invalid_AddressEntryType_for_MS_wallet), file)
  else
    let mofn := decimal M ++ asciiBytes "_of_" ++ decimal N
    let pubkey := C.ComputePublicKey privateRoot
    let longID := C.getHMAC256 pubkey mofn
    let walletID := C.getWalletID longID
    let dbenv := file
    let walletPtr := AssetWallet_Multisig.new dbenv.main
    match AssetWallet_Multisig.createSubwallets K C walletID privateRoot lookup N 0 dbenv [] with
    | (.error e, dbenv) => (.error e, dbenv)
    | (.ok subWallets, dbenv) =>
      let derScheme := DerivationScheme_Multisig.Object.ofWallets subWallets N M
      let w := walletPtr.toAssetWallet.putData (put_uint32_t K.WALLETTYPE_KEY)
        (put_var_int 1 ++ put_uint8_t K.WALLETTYPE_MULTISIG)
      match w.putHeaderData_st K walletID walletID (.Multisig derScheme.scheme) aet 0 with
      | (.error e, w) => (.error e, { dbenv with main := w.db })
      | (.ok (), w) =>
        let w := w.putData (put_uint8_t K.ASSETENTRY_PREFIX)
          (put_var_int 4 ++ put_uint32_t lookup)
        let dbenv := { dbenv with main := w.db }
        (AssetWallet_Multisig.readFromFile K { walletPtr with toAssetWallet := w } dbenv, dbenv)

/-! ## Sample multisig wallets -/

/-- The call `createFromPrivateRoot(P2SH, M, N, seed, lookup)` on a new file, with the seed of 32
bytes `0x11`: the wallet handle or the exception, and the environment the call leaves. -/
def sampleCreateMultisig (M N lookup : Nat) : Except Error AssetWallet_Multisig × LMDBEnv :=
  AssetWallet_Multisig.createFromPrivateRoot sampleConstants sampleCrypto LMDBEnv.empty
    sampleConstants.AddressEntryType_P2SH M N sampleSeed lookup

/-- The assets of a multisig wallet handle, if there is one. -/
def multisigAssetsOf (r : Except Error AssetWallet_Multisig) : List AssetEntry_Multisig :=
  match r with
  | .ok w => w.assets.filterMap (fun e => match e.2 with
      | .Multisig a => some a
      | .Single _ => none)
  | .error _ => []

/-- A multisig scheme object (a 1-of-1 scheme) bound to one sub-wallet, the wallet of
scenario S1 with its five assets. -/
def sampleSchemeObject : DerivationScheme_Multisig.Object :=
  { scheme := ⟨1, 1, [sampleWallet.getID]⟩, wallets := [(sampleWallet.getID, sampleWallet)] }

/-! ## Statements about the sub-wallets of a multisig wallet -/

/-- The root of the sub-wallet `Subwallet-i` in `AssetWallet_Multisig::createFromPrivateRoot`:
`HMAC256(privateRoot, "Subwallet-" + i)`. -/
def subwalletRoot (C : Crypto) (privateRoot : Bytes) (i : Nat) : Bytes :=
  C.getHMAC256 privateRoot (asciiBytes "Subwallet-" ++ decimal i)

/-- The id of the sub-wallet `Subwallet-i`, computed by `initWalletDb` from its root. -/
def subwalletID (C : Crypto) (privateRoot : Bytes) (i : Nat) : Bytes :=
  C.getWalletID (C.ComputePublicKey (subwalletRoot C privateRoot i))

/-- The digests of the HMAC primitive are shorter than 2^32 bytes (the real ones are 32 bytes
long). -/
def Crypto.BoundedHMAC (C : Crypto) : Prop := ∀ key msg, (C.getHMAC256 key msg).length < 2 ^ 32

/-- The `N` sub-wallets of a seed have different ids (the ids are hashes of different public
keys). -/
def SubwalletIDsDistinct (C : Crypto) (privateRoot : Bytes) (N : Nat) : Prop :=
  ((List.range N).map (subwalletID C privateRoot)).Nodup

instance (C : Crypto) (privateRoot : Bytes) (N : Nat) :
    Decidable (SubwalletIDsDistinct C privateRoot N) := by
  unfold SubwalletIDsDistinct; infer_instance

/-! ## Statements about the slots of `deserDBValue` -/

/-- The slot that the tag `t` binds already holds something: bytes for the three key tags, a
cipher for `CYPHER_BYTE`. This is what the duplicate checks of `deserDBValue` test. -/
def SingleSlots.Taken (K : Constants) (s : SingleSlots) (t : Byte) : Prop :=
  (t = K.PUBKEY_UNCOMPRESSED_BYTE ∧ s.pubKeyUncompressed ≠ []) ∨
  (t = K.PUBKEY_COMPRESSED_BYTE ∧ s.pubKeyCompressed ≠ []) ∨
  (t = K.PRIVKEY_BYTE ∧ s.privKey ≠ []) ∨
  (t = K.CYPHER_BYTE ∧ s.cypher.isSome = true)

/-! ## Address entries of the other classes -/

/-- Modelled from the spec: the classes `Recipient_P2PKH`, `Recipient_P2WPKH`, `Recipient_P2SH`
and `Recipient_PW2SH` are declared outside the examined sources; a recipient is built from a
hash and a value, as in "P2PKH(hash160_uncompressed, value)". -/
structure ScriptRecipient where
  kind : AddressEntryKind
  hash : Bytes
  value : Nat
  deriving DecidableEq, Repr

/-- Source `AddressEntry_P2PKH::getRecipient`. -/
def AddressEntry_P2PKH.getRecipient (C : Crypto) (e : AddressEntry) (value : Nat) :
    Except Error ScriptRecipient :=
  match e.asset with
  | .Single assetSingle => .ok ⟨.P2PKH, assetSingle.getHash160Uncompressed C, value⟩
  | .Multisig _ => .error (.WalletException .unexpected_asset_entry_type)

/-- Source `AddressEntry_P2WPKH::getAddress`. It returns the address and leaves it in the
memo. -/
def AddressEntry_P2WPKH.getAddress (C : Crypto) (e : AddressEntry) :
    Except Error (Bytes × AddressEntry) :=
  if e.address.length = 0 then
    match e.asset with
    | .Single assetSingle =>
      let address := assetSingle.getHash160Compressed C
      .ok (address, { e with address := address })
    | .Multisig _ => .error (.WalletException .unexpected_asset_entry_type)
  else .ok (e.address, e)

/-- Source `AddressEntry_P2WPKH::getRecipient`. -/
def AddressEntry_P2WPKH.getRecipient (C : Crypto) (e : AddressEntry) (value : Nat) :
    Except Error ScriptRecipient :=
  match e.asset with
  | .Single assetSingle => .ok ⟨.P2WPKH, assetSingle.getHash160Compressed C, value⟩
  | .Multisig _ => .error (.WalletException .unexpected_asset_entry_type)

/-- Source `AddressEntry_P2SH::getAddress`. The `switch (asset_->getType())` has the two
enumerators of `AssetEntryType` as labels and so selects by the class of the asset; inside a
case the cast to that class succeeds. The prefix byte is appended to the memo `address_`
before the hash is asked for, so an exception of `getHash160` leaves the prefix in the memo;
the entry is returned as the call leaves it. -/
def AddressEntry_P2SH.getAddress (K : Constants) (C : Crypto) (cfg : Config)
    (e : AddressEntry) : Except Error Bytes × AddressEntry :=
  if e.address.length = 0 then
    match e.asset with
    | .Single assetSingle =>
      let address := e.address ++ [cfg.scriptHashPrefix] ++ assetSingle.getHash160Compressed C
      let address := C.scrAddrToBase58 address
      (.ok address, { e with address := address })
    | .Multisig assetMS =>
      let address := e.address ++ [cfg.scriptHashPrefix]
      match assetMS.getHash160 K C with
      | .error err => (.error err, { e with address := address })
      | .ok h160 =>
        let address := C.scrAddrToBase58 (address ++ h160)
        (.ok address, { e with address := address })
  else (.ok e.address, e)

/-- Source `AddressEntry_P2WSH::getAddress`: as `AddressEntry_P2SH::getAddress` with the 256-bit
hashes, and with the Base58 step commented out. -/
def AddressEntry_P2WSH.getAddress (K : Constants) (C : Crypto) (cfg : Config)
    (e : AddressEntry) : Except Error Bytes × AddressEntry :=
  if e.address.length = 0 then
    match e.asset with
    | .Single assetSingle =>
      let address := e.address ++ [cfg.scriptHashPrefix] ++ assetSingle.getHash256Compressed C
      (.ok address, { e with address := address })
    | .Multisig assetMS =>
      let address := e.address ++ [cfg.scriptHashPrefix]
      match assetMS.getHash256 K C with
      | .error err => (.error err, { e with address := address })
      | .ok h256 =>
        let address := address ++ h256
        (.ok address, { e with address := address })
  else (.ok e.address, e)

/-- The loop `for (auto& entry : assets_)` of `AssetWallet_Single::getAddrHashVec`. The cast of
an asset that is not an `AssetEntry_Single` gives a null pointer, which is then used. -/
def AssetWallet_Single.addrHashLoop (C : Crypto) (cfg : Config) :
    List (Int × AssetEntry) → Except Error (List Bytes)
  | [] => .ok []
  | (_, entry) :: rest =>
    match entry.asSingle with
    | none => .error .NullPointer
    | some assetSingle =>
      let bwUnc := put_uint8_t cfg.pubkeyHashPrefix ++ assetSingle.getHash160Uncompressed C
      let bwCmp := put_uint8_t cfg.pubkeyHashPrefix ++ assetSingle.getHash160Compressed C
      match AssetWallet_Single.addrHashLoop C cfg rest with
      | .error e => .error e
      | .ok h160Vec => .ok (bwUnc :: bwCmp :: h160Vec)

/-- Source `AssetWallet_Single::getAddrHashVec`. -/
def AssetWallet_Single.getAddrHashVec (C : Crypto) (cfg : Config) (w : AssetWallet) :
    Except Error (List Bytes) :=
  AssetWallet_Single.addrHashLoop C cfg w.assets

/-! ## Statements about damaged asset records -/

/-- The byte `t` is one of the four case labels of the `switch (keybyte)` of
`AssetEntry::deserDBValue`. -/
def Constants.IsRecordTag (K : Constants) (t : Byte) : Prop :=
  t = K.PUBKEY_UNCOMPRESSED_BYTE ∨ t = K.PUBKEY_COMPRESSED_BYTE ∨ t = K.PRIVKEY_BYTE ∨
    t = K.CYPHER_BYTE

instance (K : Constants) (t : Byte) : Decidable (K.IsRecordTag t) := by
  unfold Constants.IsRecordTag; infer_instance

/-- The value `AssetEntry_Single::serialize` writes for the asset `a`, with the type byte of the
cipher record replaced by `t`; for `t = CypherType_AES` it is the value `serialize` writes. -/
def cypherTypeValue (K : Constants) (a : AssetEntry_Single) (t : Byte) : Bytes :=
  frame (K.AssetEntryType_Single ::
    ([K.PUBKEY_UNCOMPRESSED_BYTE :: a.pubkey.uncompressed,
      K.PUBKEY_COMPRESSED_BYTE :: a.pubkey.compressed,
      K.PRIVKEY_BYTE :: a.privkey.data,
      K.CYPHER_BYTE :: t :: (put_var_int ((a.privkey.cypher.map Cypher.iv).getD []).length ++
        (a.privkey.cypher.map Cypher.iv).getD [])].map frame).flatten)

/-- The records `l` hold an asset record of index `k` whose key stands before `key` in the
key order of the store. -/
def HasAssetBelow (K : Constants) (l : List (Bytes × Bytes)) (key : Bytes) (k : Int) : Prop :=
  ∃ e ∈ l, ∃ a, IsAssetRecord K e a ∧ a.index = k ∧ bytesLt e.1 key = true

/-- A scheme object with the id set `[1], [2]` and no sub-wallet bound. -/
def sampleSchemeUnbound : DerivationScheme_Multisig.Object :=
  { scheme := ⟨2, 1, [[1], [2]]⟩, wallets := [] }

/-- The body of a Multisig scheme blob that records `m`, `n` and then the id records `recs` in
the given order: `DERIVATIONSCHEME_MULTISIG ‖ u32(m) ‖ u32(n) ‖ (var_int(len) ‖ id)*`. -/
def multisigBlob (K : Constants) (m n : Nat) (recs : List Bytes) : Bytes :=
  put_uint8_t K.DERIVATIONSCHEME_MULTISIG ++ put_uint32_t m ++ put_uint32_t n ++
    (recs.map (fun id => put_var_int id.length ++ id)).flatten

/-! ## Statements about the counter of a single wallet -/

/-- The states of a wallet object reached from the state `w0` by calls of the two `extendChain`
overloads, with any arguments and whether they return or fail, and by `getNewAddress` calls that
return an address. -/
inductive AssetWallet.Reachable (K : Constants) (C : Crypto) (w0 : AssetWallet) :
    AssetWallet → Prop
  | start : AssetWallet.Reachable K C w0 w0
  | getNewAddress (w : AssetWallet) :
      AssetWallet.Reachable K C w0 w → (w.getNewAddress K C).1.toOption.isSome = true →
      AssetWallet.Reachable K C w0 (w.getNewAddress K C).2
  | extendChain (w : AssetWallet) (count : Nat) :
      AssetWallet.Reachable K C w0 w →
      AssetWallet.Reachable K C w0 (w.extendChain K C count).2
  | extendChain_from (w : AssetWallet) (assetPtr : AssetEntry) (count : Nat) :
      AssetWallet.Reachable K C w0 w →
      AssetWallet.Reachable K C w0 (w.extendChain_from K C assetPtr count).2

/-- What the calls that reach a state keep true of a wallet: a free mutex, a counter in the
`int` range that is also the value stored under `TOPUSEDINDEX_KEY`, an ordered asset map,
cached address entries under the index of an asset of the map, and an asset under every
index from 0 up to, not including, the counter. -/
def AssetWallet.CounterInv (K : Constants) (w : AssetWallet) : Prop :=
  w.walletMutex = false ∧
  -2 ^ 31 ≤ w.highestUsedAddressIndex ∧ w.highestUsedAddressIndex < 2 ^ 31 ∧
  MapOK w.assets ∧
  (∀ k e, mapFind k w.addresses = some e → e.getIndex = k) ∧
  (∀ k, (mapFind k w.addresses).isSome = true → (mapFind k w.assets).isSome = true) ∧
  (∀ i : Int, 0 ≤ i → i < w.highestUsedAddressIndex → (mapFind i w.assets).isSome = true) ∧
  w.db.get_NoCopy (put_uint32_t K.TOPUSEDINDEX_KEY) =
    some (put_var_int 4 ++ put_int32_t w.highestUsedAddressIndex)

/-! ## Statements about the public part of the legacy derivation -/

/-- A single asset of the highest index an `int` can hold, with the keys of `sampleAsset`. -/
def sampleAssetTop : AssetEntry_Single := { sampleAsset with index := 2 ^ 31 - 1 }

/-- The asset `sampleRootLocking` without its private key and cipher: same index, same public
keys. -/
def sampleRootWatching : AssetEntry_Single :=
  { sampleRootLocking with privkey := ⟨[], none⟩ }

/-! ## Statements about the form of the stored values -/

/-- A value of the form `var_int(len) ‖ payload`, `len` being the length of the payload, which
is shorter than 2^64 bytes (what a `var_int` can say). -/
def Framed (d : Bytes) : Prop := ∃ v : Bytes, v.length < 2 ^ 64 ∧ d = put_var_int v.length ++ v

/-- Every value of the store is framed. -/
def Store.AllFramed (s : Store) : Prop := ∀ e ∈ s, Framed e.2

/-- Every value of every database of the environment is framed. -/
def LMDBEnv.AllFramed (env : LMDBEnv) : Prop :=
  Store.AllFramed env.main ∧ ∀ i, Store.AllFramed (env.sub i)

/-- A single asset whose fields are shorter than 2^32 bytes. -/
def AssetEntry_Single.Sized (a : AssetEntry_Single) : Prop :=
  a.pubkey.uncompressed.length < 2 ^ 32 ∧ a.pubkey.compressed.length < 2 ^ 32 ∧
  a.privkey.data.length < 2 ^ 32 ∧ ∀ c, a.privkey.cypher = some c → c.iv.length < 2 ^ 32

/-- An asset whose fields, if it is a single asset, are shorter than 2^32 bytes. -/
def AssetEntry.Sized : AssetEntry → Prop
  | .Single a => a.Sized
  | .Multisig _ => True

/-- The error is a `WalletException`, the class of the two length checks ("on disk data
length mismatch", "entry val size mismatch"). -/
def Error.isWalletException : Error → Bool
  | .WalletException _ => true
  | _ => false

/-- A store with one record whose payload is 300 bytes long, written as `putData` writes it:
the `var_int` of the length takes three bytes. -/
def samplePayloadStore : Store :=
  [([1], put_var_int (List.replicate 300 (7 : Byte)).length ++ List.replicate 300 (7 : Byte))]

/-! # Lemmas and theorems -/

set_option maxRecDepth 100000

/-! ### Codec lemmas -/

theorem leBytes_length (k n : Nat) : (leBytes k n).length = k := by
  induction k generalizing n with
  | zero => rfl
  | succ k ih => simp [leBytes, ih]

theorem leVal_leBytes (k n : Nat) : leVal (leBytes k n) = n % 256 ^ k := by
  induction k generalizing n with
  | zero => simp [leBytes, leVal, Nat.mod_one]
  | succ k ih =>
    simp only [leBytes, leVal, ih, byteOfNat]
    rw [pow_succ', Nat.mod_mul]

theorem get_BinaryData_append (a r : Bytes) :
    get_BinaryData a.length (a ++ r) = .ok (a, r) := by
  simp [get_BinaryData]

theorem get_BinaryData_append_of_length (n : Nat) (a r : Bytes) (h : a.length = n) :
    get_BinaryData n (a ++ r) = .ok (a, r) := by
  subst h; exact get_BinaryData_append a r

theorem get_uint8_t_cons (b : Byte) (r : Bytes) : get_uint8_t (b :: r) = .ok (b, r) := rfl

theorem get_uintLE_leBytes (k n : Nat) (r : Bytes) :
    get_uintLE k (leBytes k n ++ r) = .ok (n % 256 ^ k, r) := by
  simp [get_uintLE, get_BinaryData_append_of_length k _ r (leBytes_length k n), leVal_leBytes]

theorem get_uint32_t_put (n : Nat) (r : Bytes) :
    get_uint32_t (put_uint32_t n ++ r) = .ok (n % 2 ^ 32, r) := by
  simp [get_uint32_t, put_uint32_t, get_uintLE_leBytes]

theorem uint32_of_int32_lt (i : Int) : uint32_of_int32 i < 2 ^ 32 := by
  unfold uint32_of_int32; omega

theorem int32_of_uint32_of_int32 (i : Int) (h1 : -2 ^ 31 ≤ i) (h2 : i < 2 ^ 31) :
    int32_of_uint32 (uint32_of_int32 i) = i := by
  unfold int32_of_uint32 uint32_of_int32
  split <;> omega

theorem get_int32_t_put (i : Int) (r : Bytes) :
    get_int32_t (put_int32_t i ++ r) = .ok (wrapInt32 i, r) := by
  have h := uint32_of_int32_lt i
  simp only [get_int32_t, get_uint32_t, put_int32_t, get_uintLE_leBytes, wrapInt32]
  have e : uint32_of_int32 i % 256 ^ 4 = uint32_of_int32 i := Nat.mod_eq_of_lt (by omega)
  rw [e]

theorem wrapInt32_of_range (i : Int) (h1 : -2 ^ 31 ≤ i) (h2 : i < 2 ^ 31) : wrapInt32 i = i :=
  int32_of_uint32_of_int32 i h1 h2

theorem get_var_int_put (n : Nat) (h : n < 2 ^ 64) (r : Bytes) :
    get_var_int (put_var_int n ++ r) = .ok (n, r) := by
  have hm : n % 2 ^ 64 = n := Nat.mod_eq_of_lt h
  unfold put_var_int
  rw [hm]
  by_cases h1 : n < 0xfd
  · have : n % 256 = n := Nat.mod_eq_of_lt (by omega)
    simp [h1, get_var_int, byteOfNat, this]
  · have v253 : ((253 : Byte) : Nat) = 253 := rfl
    have v254 : ((254 : Byte) : Nat) = 254 := rfl
    have v255 : ((255 : Byte) : Nat) = 255 := rfl
    by_cases h2 : n ≤ 0xffff
    · have : n % 65536 = n := Nat.mod_eq_of_lt (by omega)
      simp [h1, h2, get_var_int, get_uintLE_leBytes, this, v253]
    · by_cases h3 : n ≤ 0xffffffff
      · have : n % 4294967296 = n := Nat.mod_eq_of_lt (by omega)
        simp [h1, h2, h3, get_var_int, get_uintLE_leBytes, this, v254]
      · have : n % 18446744073709551616 = n := Nat.mod_eq_of_lt (by omega)
        simp [h1, h2, h3, get_var_int, get_uintLE_leBytes, this, v255]

@[simp] theorem bind_ok_eq {α β : Type} (a : α) (f : α → Except Error β) :
    (Except.ok a >>= f) = f a := rfl

@[simp] theorem bind_error_eq {α β : Type} (e : Error) (f : α → Except Error β) :
    ((Except.error e : Except Error α) >>= f) = Except.error e := rfl

@[simp] theorem pure_eq_ok {α : Type} (a : α) : (pure a : Except Error α) = Except.ok a := rfl

@[simp] theorem throw_eq_error {α : Type} (e : Error) :
    (throw e : Except Error α) = Except.error e := rfl

theorem put_var_int_ne_nil (n : Nat) : put_var_int n ≠ [] := by
  unfold put_var_int
  split_ifs <;> simp

theorem frame_ne_nil (v : Bytes) : frame v ≠ [] := by
  simp [frame, put_var_int_ne_nil]

theorem readRecordsAux_frame (fuel : Nat) (v rest : Bytes) (h : v.length < 2 ^ 64) :
    readRecordsAux (fuel + 1) (frame v ++ rest) =
      (readRecordsAux fuel rest).map (fun l => v :: l) := by
  have hne : (frame v ++ rest).length ≠ 0 := by
    have := frame_ne_nil v
    cases hf : frame v with
    | nil => exact absurd hf this
    | cons b t => simp
  rw [readRecordsAux, if_neg hne]
  simp only [frame, List.append_assoc, get_var_int_put _ h, bind_ok_eq, get_BinaryData_append]
  cases readRecordsAux fuel rest <;> rfl

theorem readRecordsAux_nil (fuel : Nat) : readRecordsAux fuel [] = .ok [] := by
  cases fuel <;> simp [readRecordsAux]

theorem readRecordsAux_frames (vs : List Bytes) (h : ∀ v ∈ vs, v.length < 2 ^ 64) (fuel : Nat)
    (hf : (vs.map frame).flatten.length ≤ fuel) :
    readRecordsAux fuel (vs.map frame).flatten = .ok vs := by
  induction vs generalizing fuel with
  | nil => simpa using readRecordsAux_nil fuel
  | cons v vs ih =>
    have hv := h v (List.mem_cons_self _ _)
    have hpos : 0 < (frame v).length := List.length_pos.mpr (frame_ne_nil v)
    simp only [List.map_cons, List.flatten_cons, List.length_append] at hf ⊢
    obtain ⟨fuel, rfl⟩ : ∃ f, fuel = f + 1 := ⟨fuel - 1, by omega⟩
    rw [readRecordsAux_frame fuel v _ hv,
      ih (fun x hx => h x (List.mem_cons_of_mem _ hx)) fuel (by omega)]
    rfl

theorem readRecords_frames (vs : List Bytes) (h : ∀ v ∈ vs, v.length < 2 ^ 64) :
    readRecords (vs.map frame).flatten = .ok vs :=
  readRecordsAux_frames vs h _ (le_refl _)

theorem Cypher_deserialize_serialize (K : Constants) (c : Cypher) (h : c.iv.length < 2 ^ 64)
    (r : Bytes) :
    Cypher.deserialize K ((c.serialize K).drop 1 ++ r) = .ok (c, r) := by
  simp [Cypher.deserialize, Cypher.serialize, put_uint8_t, get_uint8_t, get_var_int_put _ h,
    get_BinaryData_append]

/-! ## Address of a single asset -/

/-- C1 (the code departs from the claim): for every Single asset, a new
`AddressEntry_P2PKH` returns from `getAddress` the Base58Check encoding of the one-byte string
made of the network prefix alone; HASH160 of the public key is computed and then not appended,
so the address is the same for every asset. -/
theorem AddressEntry_P2PKH_getAddress_omits_hash160 (C : Crypto) (cfg : Config)
    (a : AssetEntry_Single) :
    AddressEntry_P2PKH.getAddress C cfg (AddressEntry.new .P2PKH (.Single a)) =
      .ok (C.scrAddrToBase58 [cfg.pubkeyHashPrefix],
        ⟨.P2PKH, .Single a, C.scrAddrToBase58 [cfg.pubkeyHashPrefix]⟩) := by
  simp [AddressEntry_P2PKH.getAddress, AddressEntry.new]

/-- On the sample asset the address returned is the prefix byte alone under the stand-in
encoding, not the encoding of the 21 bytes `prefix ‖ HASH160(uncompressed key)`. -/
theorem AddressEntry_P2PKH_getAddress_sample :
    (AddressEntry_P2PKH.getAddress sampleCrypto sampleConfig
        (AddressEntry.new .P2PKH (.Single sampleAsset))).map Prod.fst
      = .ok [0x00] ∧
    sampleCrypto.scrAddrToBase58
        (sampleConfig.pubkeyHashPrefix :: sampleAsset.getHash160Uncompressed sampleCrypto)
      ≠ [0x00] := by
  constructor
  · rfl
  · decide

/-! ## Round trip of a single asset entry -/

theorem Asset_PublicKey_serialize_frames (K : Constants) (p : Asset_PublicKey) :
    p.serialize K = frame (K.PUBKEY_UNCOMPRESSED_BYTE :: p.uncompressed) ++
      frame (K.PUBKEY_COMPRESSED_BYTE :: p.compressed) := by
  simp [Asset_PublicKey.serialize, frame, put_uint8_t]

theorem Asset_PrivateKey_serialize_frames (K : Constants) (p : Asset_PrivateKey) (c : Cypher)
    (hc : p.cypher = some c) :
    p.serialize K = .ok (frame (K.PRIVKEY_BYTE :: p.data) ++ frame (c.serialize K)) := by
  simp [Asset_PrivateKey.serialize, hc, frame, put_uint8_t]

theorem AssetEntry_Single_serialize_frames (K : Constants) (a : AssetEntry_Single) (c : Cypher)
    (hc : a.privkey.cypher = some c) :
    a.serialize K = .ok (frame (K.AssetEntryType_Single ::
      ([K.PUBKEY_UNCOMPRESSED_BYTE :: a.pubkey.uncompressed,
        K.PUBKEY_COMPRESSED_BYTE :: a.pubkey.compressed,
        K.PRIVKEY_BYTE :: a.privkey.data,
        c.serialize K].map frame).flatten)) := by
  simp [AssetEntry_Single.serialize, Asset_PrivateKey_serialize_frames K _ c hc,
    Asset_PublicKey_serialize_frames, frame, put_uint8_t]

theorem Cypher_serialize_length (K : Constants) (c : Cypher) (h : c.iv.length < 2 ^ 32) :
    (c.serialize K).length < 2 ^ 33 := by
  have : (put_var_int c.iv.length).length ≤ 9 := by
    unfold put_var_int; split_ifs <;> simp [leBytes_length]
  simp only [Cypher.serialize, put_uint8_t, List.length_append, List.length_cons,
    List.length_nil]
  omega

theorem Cypher_deserialize_body (K : Constants) (c : Cypher) (h : c.iv.length < 2 ^ 64)
    (r : Bytes) :
    Cypher.deserialize K (K.CypherType_AES :: (put_var_int c.iv.length ++ (c.iv ++ r)))
      = .ok (c, r) := by
  simp [Cypher.deserialize, get_uint8_t, get_var_int_put _ h, get_BinaryData_append]

theorem Cypher_serialize_cons (K : Constants) (c : Cypher) :
    c.serialize K = K.CYPHER_BYTE :: K.CypherType_AES :: (put_var_int c.iv.length ++ (c.iv ++ [])) := by
  simp [Cypher.serialize, put_uint8_t]

theorem bindRecords_single (K : Constants) (hK : K.LabelsDistinct) (u cp k : Bytes) (c : Cypher)
    (hiv : c.iv.length < 2 ^ 64) :
    bindRecords K ⟨[], [], [], none⟩
      [K.PUBKEY_UNCOMPRESSED_BYTE :: u, K.PUBKEY_COMPRESSED_BYTE :: cp, K.PRIVKEY_BYTE :: k,
        c.serialize K] = .ok ⟨k, cp, u, some c⟩ := by
  obtain ⟨h1, h2, h3, h4, h5, h6, -⟩ := hK
  have hd := Cypher_deserialize_body K c hiv []
  rw [Cypher_serialize_cons]
  simp only [bindRecords, bindRecord, get_uint8_t, bind_ok_eq, h1.symm, h2.symm, h3.symm,
    h4.symm, h5.symm, h6.symm, if_true, if_false, hd, pure_eq_ok, List.length_nil, ne_eq,
    not_true_eq_false, Option.isSome_none, Bool.false_eq_true]

theorem deserDBValue_serialize (K : Constants) (hK : K.LabelsDistinct) (a : AssetEntry_Single)
    (c : Cypher) (hc : a.privkey.cypher = some c) (index : Int)
    (hu : a.pubkey.uncompressed.length < 2 ^ 32) (hcp : a.pubkey.compressed.length < 2 ^ 32)
    (hp : a.privkey.data.length < 2 ^ 32) (hiv : c.iv.length < 2 ^ 32) :
    AssetEntry.deserDBValue K index (K.AssetEntryType_Single ::
      ([K.PUBKEY_UNCOMPRESSED_BYTE :: a.pubkey.uncompressed,
        K.PUBKEY_COMPRESSED_BYTE :: a.pubkey.compressed,
        K.PRIVKEY_BYTE :: a.privkey.data,
        c.serialize K].map frame).flatten) = .ok (.Single { a with index := index }) := by
  have hcl := Cypher_serialize_length K c hiv
  have hr := readRecords_frames [K.PUBKEY_UNCOMPRESSED_BYTE :: a.pubkey.uncompressed,
        K.PUBKEY_COMPRESSED_BYTE :: a.pubkey.compressed,
        K.PRIVKEY_BYTE :: a.privkey.data,
        c.serialize K] (by
          intro v hv
          simp only [List.mem_cons, List.mem_singleton, List.not_mem_nil, or_false] at hv
          rcases hv with rfl | rfl | rfl | rfl <;>
            first | (simp only [List.length_cons]; omega) | omega)
  have hb := bindRecords_single K hK a.pubkey.uncompressed a.pubkey.compressed a.privkey.data c
    (by omega)
  simp only [AssetEntry.deserDBValue, get_uint8_t, bind_ok_eq, if_true, hr, hb, pure_eq_ok,
    AssetEntry_Single.mk5]
  obtain ⟨idx, ⟨pu, pc⟩, ⟨pd, pcy⟩⟩ := a
  simp only at hc
  subst hc
  rfl

theorem put_var_int_length_le (n : Nat) : (put_var_int n).length ≤ 9 := by
  unfold put_var_int; split_ifs <;> simp [leBytes_length]

theorem frame_length_le (v : Bytes) : (frame v).length ≤ v.length + 9 := by
  have := put_var_int_length_le v.length
  simp only [frame, List.length_append]; omega

/-- C2: a single asset entry whose private key holds a cipher, with an index in the `int`
range and fields shorter than 2^32 bytes, survives the round trip: `serialize()` succeeds,
its leading var_int is the length of the rest, and `AssetEntry::deserialize` applied to
`getDbKey()` and that rest yields a Single asset with the same index, the same uncompressed
and compressed public key bytes and the same private key bytes (empty ones included). -/
theorem AssetEntry_Single_serialize_deserialize (K : Constants) (hK : K.LabelsDistinct)
    (a : AssetEntry_Single) (c : Cypher) (hc : a.privkey.cypher = some c)
    (hlo : -2 ^ 31 ≤ a.index) (hhi : a.index < 2 ^ 31)
    (hu : a.pubkey.uncompressed.length < 2 ^ 32) (hcp : a.pubkey.compressed.length < 2 ^ 32)
    (hp : a.privkey.data.length < 2 ^ 32) (hiv : c.iv.length < 2 ^ 32) :
    ∃ ser body a',
      a.serialize K = .ok ser ∧
      get_var_int ser = .ok (body.length, body) ∧
      AssetEntry.deserialize K ((AssetEntry.Single a).getDbKey K) body = .ok (.Single a') ∧
      a'.index = a.index ∧
      a'.pubkey.uncompressed = a.pubkey.uncompressed ∧
      a'.pubkey.compressed = a.pubkey.compressed ∧
      a'.privkey.data = a.privkey.data := by
  have hcl := Cypher_serialize_length K c hiv
  have hf1 := frame_length_le (K.PUBKEY_UNCOMPRESSED_BYTE :: a.pubkey.uncompressed)
  have hf2 := frame_length_le (K.PUBKEY_COMPRESSED_BYTE :: a.pubkey.compressed)
  have hf3 := frame_length_le (K.PRIVKEY_BYTE :: a.privkey.data)
  have hf4 := frame_length_le (c.serialize K)
  obtain ⟨body, hbody⟩ : ∃ body : Bytes, body = K.AssetEntryType_Single ::
      ([K.PUBKEY_UNCOMPRESSED_BYTE :: a.pubkey.uncompressed,
        K.PUBKEY_COMPRESSED_BYTE :: a.pubkey.compressed,
        K.PRIVKEY_BYTE :: a.privkey.data,
        c.serialize K].map frame).flatten := ⟨_, rfl⟩
  have hlen : body.length < 2 ^ 64 := by
    rw [hbody]
    simp only [List.map_cons, List.map_nil, List.flatten_cons, List.flatten_nil,
      List.length_cons, List.length_append, List.length_nil] at hf1 hf2 hf3 hf4 ⊢
    omega
  have hser := AssetEntry_Single_serialize_frames K a c hc
  rw [← hbody] at hser
  refine ⟨frame body, body, a, hser, ?_, ?_, rfl, rfl, rfl, rfl⟩
  · have := get_var_int_put body.length hlen body
    simpa [frame] using this
  · have hd := deserDBValue_serialize K hK a c hc a.index hu hcp hp hiv
    rw [← hbody] at hd
    simp only [AssetEntry.deserialize, AssetEntry.getDbKey, AssetEntry.getId, put_uint8_t,
      List.singleton_append, get_uint8_t, bind_ok_eq, ne_eq, not_true_eq_false, if_false]
    have hk := get_int32_t_put a.index []
    rw [List.append_nil] at hk
    rw [hk, wrapInt32_of_range _ hlo hhi]
    simpa using hd

/-- The sample asset (index 0, cipher without IV) meets the conditions of the round trip. -/
theorem AssetEntry_Single_serialize_deserialize_witness :
    ∃ ser body a',
      sampleAsset.serialize sampleConstants = .ok ser ∧
      get_var_int ser = .ok (body.length, body) ∧
      AssetEntry.deserialize sampleConstants ((AssetEntry.Single sampleAsset).getDbKey sampleConstants)
        body = .ok (.Single a') ∧
      a'.index = sampleAsset.index ∧
      a'.pubkey.uncompressed = sampleAsset.pubkey.uncompressed ∧
      a'.pubkey.compressed = sampleAsset.pubkey.compressed ∧
      a'.privkey.data = sampleAsset.privkey.data :=
  AssetEntry_Single_serialize_deserialize sampleConstants (by decide) sampleAsset Cypher_AES_fresh
    rfl (by decide) (by decide) (by decide) (by decide) (by decide) (by decide)

/-! ## Round trip of a derivation scheme -/

theorem bytesLt_irrefl (a : Bytes) : bytesLt a a = false := by
  induction a with
  | nil => rfl
  | cons x xs ih => simp [bytesLt, ih]

theorem bytesLt_asymm (a b : Bytes) (h : bytesLt a b = true) : bytesLt b a = false := by
  induction a generalizing b with
  | nil => cases b <;> simp_all [bytesLt]
  | cons x xs ih =>
    cases b with
    | nil => simp [bytesLt] at h
    | cons y ys =>
      simp only [bytesLt] at h ⊢
      by_cases h1 : x.val < y.val
      · have h2 : ¬ y.val < x.val := by omega
        simp [h1, h2]
      · by_cases h2 : y.val < x.val
        · simp [h1, h2] at h
        · simp only [h1, h2, if_false] at h ⊢
          exact ih ys h

theorem setInsert_append_of_lt (x : Bytes) (l : List Bytes)
    (h : ∀ y ∈ l, bytesLt y x = true) : setInsert x l = l ++ [x] := by
  induction l with
  | nil => rfl
  | cons y ys ih =>
    have hy := h y (List.mem_cons_self _ _)
    have hxy := bytesLt_asymm y x hy
    simp [setInsert, hxy, hy, ih (fun z hz => h z (List.mem_cons_of_mem _ hz))]

theorem foldl_setInsert_sorted (ids acc : List Bytes)
    (h : (acc ++ ids).Pairwise (fun a b => bytesLt a b = true)) :
    ids.foldl (fun s id => setInsert id s) acc = acc ++ ids := by
  induction ids generalizing acc with
  | nil => simp
  | cons x xs ih =>
    have hx : ∀ y ∈ acc, bytesLt y x = true := by
      intro y hy
      rw [List.pairwise_append] at h
      exact h.2.2 y hy x (List.mem_cons_self _ _)
    simp only [List.foldl_cons, setInsert_append_of_lt x acc hx]
    rw [ih (acc ++ [x]) (by simpa using h)]
    simp

theorem readIds_nil (fuel : Nat) (acc : List Bytes) : readIds fuel [] acc = .ok acc := by
  cases fuel <;> simp [readIds]

theorem readIds_frames (ids : List Bytes) (h : ∀ v ∈ ids, v.length < 2 ^ 64) (fuel : Nat)
    (acc : List Bytes) (hf : (ids.map frame).flatten.length ≤ fuel) :
    readIds fuel (ids.map frame).flatten acc =
      .ok (ids.foldl (fun s id => setInsert id s) acc) := by
  induction ids generalizing fuel acc with
  | nil => simpa using readIds_nil fuel acc
  | cons v vs ih =>
    have hv := h v (List.mem_cons_self _ _)
    have hpos : 0 < (frame v).length := List.length_pos.mpr (frame_ne_nil v)
    simp only [List.map_cons, List.flatten_cons, List.length_append] at hf ⊢
    obtain ⟨fuel, rfl⟩ : ∃ f, fuel = f + 1 := ⟨fuel - 1, by omega⟩
    have hlen : 0 < (frame v ++ (List.map frame vs).flatten).length := by
      simp only [List.length_append]; omega
    rw [readIds, if_pos hlen]
    simp only [frame, List.append_assoc, get_var_int_put _ hv, bind_ok_eq, get_BinaryData_append,
      List.foldl_cons]
    exact ih (fun x hx => h x (List.mem_cons_of_mem _ hx)) fuel _ (by omega)

theorem length_le_flatten_frames (ids : List Bytes) (v : Bytes) (hv : v ∈ ids) :
    v.length ≤ (ids.map frame).flatten.length := by
  induction ids with
  | nil => cases hv
  | cons x xs ih =>
    simp only [List.map_cons, List.flatten_cons, List.length_append]
    rcases List.mem_cons.mp hv with rfl | h
    · simp only [frame, List.length_append]; omega
    · have := ih h; omega

/-- C3: for every Legacy scheme and every Multisig scheme whose id set has exactly `n`
elements (the serialised scheme fitting a 64-bit size), `serialize()` succeeds, its leading
var_int is the length of the rest, and `DerivationScheme::deserialize` applied to that rest
returns the same scheme: the same variant with the same chaincode, respectively the same M,
N and id set. -/
theorem DerivationScheme_serialize_deserialize (K : Constants) (hK : K.LabelsDistinct)
    (s : DerivationScheme) (hv : s.Valid)
    (hn : ∀ ms, s = .Multisig ms → ms.walletIDs.length = ms.n)
    (hsz : (s.bw K).length < 2 ^ 64) :
    s.serialize K = .ok (put_var_int (s.bw K).length ++ s.bw K) ∧
    get_var_int (put_var_int (s.bw K).length ++ s.bw K) = .ok ((s.bw K).length, s.bw K) ∧
    DerivationScheme.deserialize K (s.bw K) = .ok s := by
  refine ⟨?_, get_var_int_put _ hsz _, ?_⟩
  · cases s with
    | Legacy l => rfl
    | Multisig ms =>
      simp [DerivationScheme.serialize, DerivationScheme_Multisig.serialize, hn ms rfl,
        DerivationScheme.bw]
  · cases s with
    | Legacy l =>
      have hcc : l.chainCode.length < 2 ^ 64 := by
        simp only [DerivationScheme.bw, DerivationScheme_ArmoryLegacy.bw, List.length_append]
          at hsz
        omega
      have hg := get_BinaryData_append l.chainCode []
      rw [List.append_nil] at hg
      simp [DerivationScheme.deserialize, DerivationScheme.bw, DerivationScheme_ArmoryLegacy.bw,
        put_uint8_t, get_uint8_t, get_var_int_put _ hcc, hg]
    | Multisig ms =>
      obtain ⟨hm, hn', hsorted⟩ := hv
      have hlen := hn ms rfl
      have hframes : (ms.walletIDs.map (fun id => put_var_int id.length ++ id))
          = ms.walletIDs.map frame := rfl
      have hids : ∀ v ∈ ms.walletIDs, v.length < 2 ^ 64 := by
        intro v hv
        have h1 := length_le_flatten_frames ms.walletIDs v hv
        simp only [DerivationScheme.bw, DerivationScheme_Multisig.bw, List.length_append,
          hframes] at hsz
        omega
      have hr := readIds_frames ms.walletIDs hids _ [] (le_refl _)
      rw [foldl_setInsert_sorted ms.walletIDs [] (by simpa using hsorted)] at hr
      have hne : K.DERIVATIONSCHEME_MULTISIG ≠ K.DERIVATIONSCHEME_LEGACY :=
        fun h => hK.2.2.2.2.2.2.1 h.symm
      have g1 := get_uint32_t_put ms.m (put_uint32_t ms.n ++ (ms.walletIDs.map frame).flatten)
      have g2 := get_uint32_t_put ms.n (ms.walletIDs.map frame).flatten
      rw [Nat.mod_eq_of_lt hm] at g1
      rw [Nat.mod_eq_of_lt hn'] at g2
      simp only [DerivationScheme.deserialize, DerivationScheme.bw, DerivationScheme_Multisig.bw,
        put_uint8_t, List.singleton_append, List.cons_append, get_uint8_t, bind_ok_eq, hne,
        if_false, if_true, hframes, List.append_assoc, g1, g2, hr, List.nil_append, hlen, ne_eq,
        not_true_eq_false, pure_eq_ok]

/-- A 2-of-3 scheme with three ascending ids meets the conditions of the round trip. -/
theorem DerivationScheme_serialize_deserialize_witness :
    (DerivationScheme.Multisig ⟨3, 2, [[1], [1, 2], [2]]⟩).serialize sampleConstants =
      .ok (put_var_int ((DerivationScheme.Multisig ⟨3, 2, [[1], [1, 2], [2]]⟩).bw
          sampleConstants).length ++
        (DerivationScheme.Multisig ⟨3, 2, [[1], [1, 2], [2]]⟩).bw sampleConstants) ∧
    get_var_int (put_var_int ((DerivationScheme.Multisig ⟨3, 2, [[1], [1, 2], [2]]⟩).bw
          sampleConstants).length ++
        (DerivationScheme.Multisig ⟨3, 2, [[1], [1, 2], [2]]⟩).bw sampleConstants) =
      .ok (((DerivationScheme.Multisig ⟨3, 2, [[1], [1, 2], [2]]⟩).bw sampleConstants).length,
        (DerivationScheme.Multisig ⟨3, 2, [[1], [1, 2], [2]]⟩).bw sampleConstants) ∧
    DerivationScheme.deserialize sampleConstants
        ((DerivationScheme.Multisig ⟨3, 2, [[1], [1, 2], [2]]⟩).bw sampleConstants) =
      .ok (DerivationScheme.Multisig ⟨3, 2, [[1], [1, 2], [2]]⟩) :=
  DerivationScheme_serialize_deserialize sampleConstants (by decide)
    (.Multisig ⟨3, 2, [[1], [1, 2], [2]]⟩)
    ⟨by decide, by decide, by decide⟩
    (by intro ms h; cases h; rfl) (by decide)

/-! ## Legacy chain extension -/

theorem nextAsset_single (C : Crypto) (s : DerivationScheme_ArmoryLegacy)
    (a : AssetEntry_Single) :
    ∃ a' : AssetEntry_Single, s.nextAsset C (.Single a) = .ok (.Single a') ∧
      a'.index = wrapInt32 (a.index + 1) ∧
      a'.pubkey.uncompressed = C.ComputeChainedPublicKey a.pubkey.uncompressed s.chainCode ∧
      a'.pubkey.compressed = C.CompressPoint a'.pubkey.uncompressed ∧
      a'.privkey.cypher = a.privkey.cypher.map Cypher.getCopy :=
  ⟨_, rfl, rfl, rfl, rfl, rfl⟩

theorem extendChain_zero (C : Crypto) (s : DerivationScheme_ArmoryLegacy) (a : AssetEntry) :
    s.extendChain C a 0 = .ok [] := rfl

theorem extendChain_succ_single (C : Crypto) (s : DerivationScheme_ArmoryLegacy)
    (a a' : AssetEntry_Single) (count : Nat) (h : s.nextAsset C (.Single a) = .ok (.Single a')) :
    s.extendChain C (.Single a) (count + 1) =
      (s.extendChain C (.Single a') count).map (fun l => AssetEntry.Single a' :: l) := by
  rw [DerivationScheme_ArmoryLegacy.extendChain, h, bind_ok_eq]
  cases s.extendChain C (.Single a') count <;> rfl

theorem extendChain_single_ok (C : Crypto) (s : DerivationScheme_ArmoryLegacy)
    (a : AssetEntry_Single) (count : Nat) :
    ∃ l, s.extendChain C (.Single a) count = .ok l := by
  induction count generalizing a with
  | zero => exact ⟨[], rfl⟩
  | succ n ih =>
    obtain ⟨a', h, -⟩ := nextAsset_single C s a
    obtain ⟨l, hl⟩ := ih a'
    exact ⟨.Single a' :: l, by rw [extendChain_succ_single C s a a' n h, hl]; rfl⟩

/-- C10: for the Legacy scheme, every Single asset `a` and all counts `k` and `j`, the three
calls succeed and `extendChain(a, k)` followed by `extendChain(b, j)`, with `b` the last
asset of the first result (`a` itself when `k = 0`), is the list `extendChain(a, k + j)`:
the same asset, hence the same index, public keys and private key bytes, at every
position. -/
theorem DerivationScheme_ArmoryLegacy_extendChain_add (C : Crypto)
    (s : DerivationScheme_ArmoryLegacy) (a : AssetEntry_Single) (k j : Nat) :
    ∃ l1 l2, s.extendChain C (.Single a) k = .ok l1 ∧
      s.extendChain C (l1.getLastD (.Single a)) j = .ok l2 ∧
      s.extendChain C (.Single a) (k + j) = .ok (l1 ++ l2) := by
  induction k generalizing a with
  | zero =>
    obtain ⟨l2, h2⟩ := extendChain_single_ok C s a j
    exact ⟨[], l2, rfl, h2, by simpa using h2⟩
  | succ n ih =>
    obtain ⟨a', h, -⟩ := nextAsset_single C s a
    obtain ⟨l1, l2, h1, h2, h3⟩ := ih a'
    refine ⟨.Single a' :: l1, l2, ?_, ?_, ?_⟩
    · rw [extendChain_succ_single C s a a' n h, h1]; rfl
    · rw [List.getLastD_cons]; exact h2
    · have e : n + 1 + j = (n + j) + 1 := by omega
      rw [e, extendChain_succ_single C s a a' (n + j) h, h3]; rfl

/-! ## Serving addresses -/

theorem mapFind_mapAssign {α : Type} (k k' : Int) (v : α) (m : List (Int × α)) :
    mapFind k (mapAssign k' v m) = if k' = k then some v else mapFind k m := by
  induction m with
  | nil => simp [mapAssign, mapFind]
  | cons e r ih =>
    obtain ⟨k1, v1⟩ := e
    simp only [mapAssign]
    by_cases h1 : k' < k1
    · simp [h1, mapFind]
    · by_cases h2 : k1 < k'
      · simp only [h1, h2, if_false, if_true, mapFind, ih]
        by_cases h3 : k1 = k
        · have : ¬ k' = k := by omega
          simp [h3, this]
        · simp [h3]
      · have h3 : k1 = k' := by omega
        subst h3
        simp only [h1, h2, if_false, mapFind]
        by_cases h4 : k1 = k <;> simp [h4]

theorem mapFind_mapInsert_ne {α : Type} (k k' : Int) (v : α) (m : List (Int × α))
    (h : k' ≠ k) : mapFind k (mapInsert k' v m) = mapFind k m := by
  induction m with
  | nil => simp [mapInsert, mapFind, h]
  | cons e r ih =>
    obtain ⟨k1, v1⟩ := e
    simp only [mapInsert]
    by_cases h1 : k' < k1
    · simp [h1, mapFind, h]
    · by_cases h2 : k1 < k'
      · simp only [h1, h2, if_false, if_true, mapFind, ih]
      · simp only [h1, h2, if_false]

theorem uint32_roundtrip_nat (t : Nat) (h : t < 2 ^ 31) :
    int32_of_uint32 (uint32_of_int32 (t : Int)) = (t : Int) :=
  int32_of_uint32_of_int32 _ (by omega) (by omega)

theorem getAddressEntryForAsset_ok (K : Constants) (w : AssetWallet) (h : w.AetSupported K)
    (a : AssetEntry) :
    ∃ e, w.getAddressEntryForAsset K a w.default_aet = .ok e ∧ e.asset = a := by
  unfold AssetWallet.AetSupported at h
  unfold AssetWallet.getAddressEntryForAsset
  cases hk : w.kind <;> rw [hk] at h <;> simp only at h ⊢
  · unfold AssetWallet_Single.getAddressEntryForAsset
    rcases h with h | h
    · exact ⟨_, by rw [if_pos h], rfl⟩
    · by_cases h' : w.default_aet = K.AddressEntryType_P2PKH
      · exact ⟨_, by rw [if_pos h'], rfl⟩
      · exact ⟨_, by rw [if_neg h', if_pos h], rfl⟩
  · unfold AssetWallet_Multisig.getAddressEntryForAsset
    rcases h with h | h
    · exact ⟨_, by rw [if_pos h], rfl⟩
    · by_cases h' : w.default_aet = K.AddressEntryType_P2SH
      · exact ⟨_, by rw [if_pos h'], rfl⟩
      · exact ⟨_, by rw [if_neg h', if_pos h], rfl⟩

/-- One call of `getNewAddress` on a wallet that holds the asset of its counter value. -/
theorem getNewAddress_step (K : Constants) (C : Crypto) (w : AssetWallet) (t : Nat)
    (hm : w.walletMutex = false) (ht : w.highestUsedAddressIndex = (t : Int))
    (hlt : t < 2 ^ 31) (hk : w.Keyed) (hs : w.AetSupported K)
    (ha : (mapFind (t : Int) w.assets).isSome = true) :
    ∃ e w', w.getNewAddress K C = (.ok e, w') ∧ e.getIndex = (t : Int) ∧
      w'.walletMutex = false ∧ w'.highestUsedAddressIndex = wrapInt32 ((t : Int) + 1) ∧
      w'.Keyed ∧ w'.AetSupported K ∧ w'.assets = w.assets ∧ w'.kind = w.kind ∧
      w'.db = w.db.insert (put_uint32_t K.TOPUSEDINDEX_KEY)
        (put_var_int 4 ++ put_int32_t (wrapInt32 ((t : Int) + 1))) := by
  obtain ⟨a, ha⟩ := Option.isSome_iff_exists.mp ha
  have hidx := uint32_roundtrip_nat t hlt
  unfold AssetWallet.getNewAddress AssetWallet.getAndBumpHighestUsedIndex
  simp only [AssetWallet.putData, hm, ht, Bool.false_eq_true, if_false]
  unfold AssetWallet.getNewAddress_locked
  simp only [hidx]
  cases hc : mapFind (t : Int) w.addresses with
  | some addr =>
    refine ⟨addr, _, rfl, hk.2 _ _ hc, rfl, rfl, ⟨hk.1, hk.2⟩, hs, rfl, rfl, rfl⟩
  | none =>
    simp only [ha]
    obtain ⟨e, he, hea⟩ := getAddressEntryForAsset_ok K w hs a
    have he' : AssetWallet.getAddressEntryForAsset K
        { w with highestUsedAddressIndex := wrapInt32 ((t : Int) + 1),
                 db := w.db.insert (put_uint32_t K.TOPUSEDINDEX_KEY)
                   (put_var_int 4 ++ put_int32_t (wrapInt32 ((t : Int) + 1))),
                 walletMutex := true } a w.default_aet = .ok e := he
    simp only [he']
    have hei : e.getIndex = (t : Int) := by
      simp only [AddressEntry.getIndex, hea]; exact hk.1 _ _ ha
    refine ⟨e, _, rfl, hei, rfl, rfl, ⟨hk.1, ?_⟩, hs, rfl, rfl, rfl⟩
    intro k e' hf
    simp only [mapFind_mapAssign] at hf
    by_cases h : e.getIndex = k
    · simp only [h, if_true, Option.some.injEq] at hf
      rw [← hf]; exact h
    · simp only [h, if_false] at hf
      exact hk.2 _ _ hf

theorem getNewAddress_serial_aux (K : Constants) (C : Crypto) (n : Nat) (w : AssetWallet)
    (t : Nat) (hm : w.walletMutex = false)
    (ht : w.highestUsedAddressIndex = wrapInt32 (t : Int))
    (hlt : t + n ≤ 2 ^ 31) (hk : w.Keyed) (hs : w.AetSupported K)
    (ha : ∀ i, i < n → (mapFind ((t + i : Nat) : Int) w.assets).isSome = true) :
    ∃ es : List AddressEntry,
      (w.getNewAddresses K C n).1 = es.map Except.ok ∧
      es.map AddressEntry.getIndex = (List.range' t n).map Int.ofNat := by
  induction n generalizing w t with
  | zero => exact ⟨[], rfl, rfl⟩
  | succ n ih =>
    have ht0 : w.highestUsedAddressIndex = (t : Int) := by
      rw [ht]; exact wrapInt32_of_range _ (by omega) (by omega)
    obtain ⟨e, w', hstep, hei, hm', ht', hk', hs', hassets, -, -⟩ :=
      getNewAddress_step K C w t hm ht0 (by omega) hk hs (by simpa using ha 0 (by omega))
    have ht'' : w'.highestUsedAddressIndex = wrapInt32 ((t + 1 : Nat) : Int) := by
      rw [ht']; push_cast; rfl
    obtain ⟨es, hes, hidx⟩ := ih w' (t + 1) hm' ht'' (by omega) hk' hs' (by
      intro i hi
      have := ha (i + 1) (by omega)
      rw [hassets]
      have e2 : t + 1 + i = t + (i + 1) := by omega
      rw [e2]; exact this)
    refine ⟨e :: es, ?_, ?_⟩
    · simp only [AssetWallet.getNewAddresses, hstep, hes, List.map_cons]
    · simp only [List.map_cons, List.range'_succ, hei, hidx, Int.ofNat_eq_coe]

theorem extendChain_from_held (K : Constants) (C : Crypto) (w : AssetWallet) (a : AssetEntry)
    (count : Nat) (h : w.walletMutex = true) :
    w.extendChain_from K C a count = (.error .MutexRelock, w) := by
  simp [AssetWallet.extendChain_from, h]

/-- On a wallet with a non-empty asset map `extendChain(count)` ends at the `lock()` of the
two-argument overload and leaves the wallet unchanged. -/
theorem extendChain_second_lock (K : Constants) (C : Crypto) (w : AssetWallet) (count : Nat)
    (hne : w.assets ≠ []) :
    w.extendChain K C count = (.error .MutexRelock, w) := by
  unfold AssetWallet.extendChain
  cases hl : w.assets.getLast? with
  | none => exact absurd (List.getLast?_eq_none_iff.mp hl) hne
  | some e =>
    obtain ⟨k, last⟩ := e
    simp only
    cases hm : w.walletMutex with
    | true => simp
    | false =>
      simp only [Bool.false_eq_true, if_false]
      rw [extendChain_from_held K C _ last count rfl]
      simp only
      congr 1
      cases w
      simp_all

/-- C8 (the code departs from the claim): on every wallet with a non-empty asset map,
`extendChain(count)` takes `walletMutex_` and then calls the two-argument overload, which
tries to take the same mutex again; the call ends at that second `lock()` and the wallet,
its asset map and its store are left as they were, so no asset is appended or written. -/
theorem extendChain_relocks (K : Constants) (C : Crypto) (w : AssetWallet) (count : Nat)
    (hne : w.assets ≠ []) :
    w.extendChain K C count = (.error .MutexRelock, w) :=
  extendChain_second_lock K C w count hne

/-- The wallet of scenario S1 holds five assets, and `extendChain(3)` on it ends at the
second `lock()` without changing it. -/
theorem extendChain_relocks_witness :
    sampleWallet.assets.map Prod.fst = [0, 1, 2, 3, 4] ∧
    sampleWallet.extendChain sampleConstants sampleCrypto 3 = (.error .MutexRelock, sampleWallet) :=
  ⟨by decide, extendChain_relocks sampleConstants sampleCrypto sampleWallet 3 (by decide)⟩

/-- C7 (the code departs from the claim): when `getNewAddress` draws an index `t` that has
neither a cached address nor an asset while the asset map is not empty, it calls
`extendChain(DERIVATION_LOOKUP)` while it holds `walletMutex_`; that call tries to take the
mutex again and ends there. `getNewAddress` fails, the asset map is not extended, and the
counter has been raised all the same. -/
theorem getNewAddress_extension_relocks (K : Constants) (C : Crypto) (w : AssetWallet)
    (t : Nat) (hm : w.walletMutex = false) (ht : w.highestUsedAddressIndex = (t : Int))
    (hlt : t < 2 ^ 31) (hcache : mapFind (t : Int) w.addresses = none)
    (hasset : mapFind (t : Int) w.assets = none) (hne : w.assets ≠ []) :
    ∃ w', w.getNewAddress K C = (.error .MutexRelock, w') ∧ w'.assets = w.assets ∧
      w'.highestUsedAddressIndex = wrapInt32 ((t : Int) + 1) := by
  have hidx := uint32_roundtrip_nat t hlt
  have hlen : ¬ w.assets.length = 0 := by
    intro h; exact hne (List.length_eq_zero.mp h)
  have hx := extendChain_second_lock K C
    { w with highestUsedAddressIndex := wrapInt32 ((t : Int) + 1),
             db := w.db.insert (put_uint32_t K.TOPUSEDINDEX_KEY)
               (put_var_int 4 ++ put_int32_t (wrapInt32 ((t : Int) + 1))),
             walletMutex := true } DERIVATION_LOOKUP hne
  unfold AssetWallet.getNewAddress AssetWallet.getAndBumpHighestUsedIndex
  simp only [AssetWallet.putData, hm, ht, Bool.false_eq_true, if_false]
  unfold AssetWallet.getNewAddress_locked
  simp only [hidx, hcache, hasset, hlen, if_false, hx]
  exact ⟨_, rfl, rfl, rfl⟩

/-- Scenario S3 at its sixth call: the wallet created with lookup 5 has served the indices
0..4, its counter is 5 and index 5 has no asset; the sixth `getNewAddress` fails at the second
`lock()`, the map still holds five assets, and the counter is 6. -/
theorem getNewAddress_extension_relocks_witness :
    (sampleWallet.getNewAddresses sampleConstants sampleCrypto 5).1.map
        (fun r => r.toOption.map AddressEntry.getIndex) =
      [some 0, some 1, some 2, some 3, some 4] ∧
    ∃ w', sampleWalletUsed.getNewAddress sampleConstants sampleCrypto =
        (.error .MutexRelock, w') ∧
      w'.assets = sampleWalletUsed.assets ∧
      w'.highestUsedAddressIndex = wrapInt32 (((5 : Nat) : Int) + 1) :=
  ⟨by decide, getNewAddress_extension_relocks sampleConstants sampleCrypto sampleWalletUsed 5
    (by decide) (by decide) (by decide) (by decide) (by decide) (by decide)⟩

/-! ## Repeating a chain extension -/

theorem mapFind_mapInsert_self_isSome {α : Type} (k : Int) (v : α) (m : List (Int × α)) :
    (mapFind k (mapInsert k v m)).isSome = true := by
  induction m with
  | nil => simp [mapInsert, mapFind]
  | cons e r ih =>
    obtain ⟨k1, v1⟩ := e
    simp only [mapInsert]
    by_cases h1 : k < k1
    · simp [h1, mapFind]
    · by_cases h2 : k1 < k
      · have h3 : ¬ k1 = k := by omega
        simp only [h1, h2, if_false, if_true, mapFind, h3, ih]
      · have h3 : k1 = k := by omega
        simp [h1, h2, mapFind, h3]

theorem mapFind_mapInsert_isSome {α : Type} (k k' : Int) (v : α) (m : List (Int × α))
    (h : (mapFind k m).isSome = true) : (mapFind k (mapInsert k' v m)).isSome = true := by
  by_cases hk : k' = k
  · subst hk; exact mapFind_mapInsert_self_isSome _ v m
  · rw [mapFind_mapInsert_ne k k' v m hk]; exact h

theorem insertAssets_cons_some (K : Constants) (w : AssetWallet) (a x : AssetEntry)
    (rest : List AssetEntry) (h : mapFind a.getId w.assets = some x) :
    w.insertAssets K (a :: rest) = w.insertAssets K rest := by
  simp only [AssetWallet.insertAssets, h]

theorem insertAssets_cons_none (K : Constants) (w : AssetWallet) (a : AssetEntry)
    (rest : List AssetEntry) (h : mapFind a.getId w.assets = none) :
    w.insertAssets K (a :: rest) =
      match a.serialize K with
      | .error e => (.error e, w)
      | .ok ser =>
        AssetWallet.insertAssets K
          { w with db := w.db.insert (a.getDbKey K) ser,
                   assets := mapInsert a.getId a w.assets } rest := by
  simp only [AssetWallet.insertAssets, h, AssetWallet.writeAssetEntry]
  cases a.serialize K <;> rfl

theorem insertAssets_present (K : Constants) (vec : List AssetEntry) (w : AssetWallet)
    (h : ∀ a ∈ vec, (mapFind a.getId w.assets).isSome = true) :
    w.insertAssets K vec = (.ok (), w) := by
  induction vec with
  | nil => rfl
  | cons a rest ih =>
    have ha := h a (List.mem_cons_self _ _)
    cases hf : mapFind a.getId w.assets with
    | none => rw [hf] at ha; simp at ha
    | some x =>
      rw [insertAssets_cons_some K w a x rest hf]
      exact ih (fun b hb => h b (List.mem_cons_of_mem _ hb))

theorem insertAssets_ok (K : Constants) (vec : List AssetEntry) (w w1 : AssetWallet)
    (h : w.insertAssets K vec = (.ok (), w1)) :
    (∀ a ∈ vec, (mapFind a.getId w1.assets).isSome = true) ∧
    (∀ k, (mapFind k w.assets).isSome = true → (mapFind k w1.assets).isSome = true) ∧
    w1.derScheme = w.derScheme ∧ w1.walletMutex = w.walletMutex := by
  induction vec generalizing w with
  | nil =>
    simp only [AssetWallet.insertAssets, Prod.mk.injEq, true_and] at h
    subst h
    exact ⟨fun a ha => (by cases ha), fun k hk => hk, rfl, rfl⟩
  | cons a rest ih =>
    cases hf : mapFind a.getId w.assets with
    | some x =>
      rw [insertAssets_cons_some K w a x rest hf] at h
      obtain ⟨h1, h2, h3, h4⟩ := ih w h
      refine ⟨?_, h2, h3, h4⟩
      intro b hb
      rcases List.mem_cons.mp hb with rfl | hb
      · exact h2 _ (by rw [hf]; rfl)
      · exact h1 b hb
    | none =>
      rw [insertAssets_cons_none K w a rest hf] at h
      cases hs : a.serialize K with
      | error e => rw [hs] at h; simp at h
      | ok ser =>
        rw [hs] at h
        simp only at h
        obtain ⟨h1, h2, h3, h4⟩ := ih _ h
        refine ⟨?_, ?_, h3, h4⟩
        · intro b hb
          rcases List.mem_cons.mp hb with rfl | hb
          · exact h2 _ (mapFind_mapInsert_self_isSome _ _ _)
          · exact h1 b hb
        · intro k hk
          exact h2 k (mapFind_mapInsert_isSome k _ _ _ hk)

/-- The two-argument `extendChain(assetPtr, count)`, the overload that derives and stores the
assets, is idempotent: once a call has completed, a second call
with the same asset and the same count completes without error and leaves the wallet as it
is, so it writes no record to the store and adds no entry to the asset map. -/
theorem extendChain_from_idempotent (K : Constants) (C : Crypto) (w w1 : AssetWallet)
    (a : AssetEntry) (count : Nat) (h : w.extendChain_from K C a count = (.ok (), w1)) :
    w1.extendChain_from K C a count = (.ok (), w1) := by
  unfold AssetWallet.extendChain_from at h
  cases hm : w.walletMutex with
  | true => rw [hm] at h; simp at h
  | false =>
    rw [hm] at h
    simp only [Bool.false_eq_true, if_false] at h
    cases hv : AssetWallet.schemeExtendChain C { w with walletMutex := true } a count with
    | error e => rw [hv] at h; simp at h
    | ok vec =>
      rw [hv] at h
      simp only at h
      cases hi : AssetWallet.insertAssets K { w with walletMutex := true } vec with
      | mk r w2 =>
        rw [hi] at h
        simp only [Prod.mk.injEq] at h
        obtain ⟨hr, hw1⟩ := h
        subst hr
        obtain ⟨hpres, -, hder, hmut⟩ := insertAssets_ok K vec _ w2 hi
        simp only at hder hmut
        have hv1 : AssetWallet.schemeExtendChain C { w1 with walletMutex := true } a count
            = .ok vec := by
          rw [← hv, ← hw1]
          simp only [AssetWallet.schemeExtendChain, hder]
        have hw2 : ({ w1 with walletMutex := true } : AssetWallet) = w2 := by
          rw [← hw1]; cases w2; simp_all
        have hm1 : w1.walletMutex = false := by rw [← hw1]
        unfold AssetWallet.extendChain_from
        rw [hm1]
        simp only [Bool.false_eq_true, if_false, hv1]
        rw [hw2, insertAssets_present K vec w2 hpres]
        simp only [hw1]

/-- On the wallet of scenario S1 the first `extendChain(top asset, 2)` completes and adds the
assets 5 and 6; the same call repeated completes and changes nothing. -/
theorem extendChain_from_idempotent_witness :
    sampleWallet.assets.map Prod.fst = [0, 1, 2, 3, 4] ∧
    sampleWalletExtended.assets.map Prod.fst = [0, 1, 2, 3, 4, 5, 6] ∧
    sampleWalletExtended.extendChain_from sampleConstants sampleCrypto sampleWallet.topAsset 2 =
      (.ok (), sampleWalletExtended) :=
  ⟨by decide, by decide,
    extendChain_from_idempotent sampleConstants sampleCrypto sampleWallet sampleWalletExtended
      sampleWallet.topAsset 2 (Prod.ext (by decide) rfl)⟩

theorem extendChain_not_ok (K : Constants) (C : Crypto) (w : AssetWallet) (count : Nat) :
    (w.extendChain K C count).1 ≠ .ok () := by
  by_cases hne : w.assets = []
  · unfold AssetWallet.extendChain
    rw [hne]
    simp
  · rw [extendChain_second_lock K C w count hne]
    simp

theorem Keyed_of_forall_mem (w : AssetWallet) (h1 : ∀ e ∈ w.assets, e.2.getId = e.1)
    (h2 : ∀ e ∈ w.addresses, e.2.getIndex = e.1) : w.Keyed := by
  have aux : ∀ {α : Type} (f : α → Int) (m : List (Int × α)), (∀ e ∈ m, f e.2 = e.1) →
      ∀ k a, mapFind k m = some a → f a = k := by
    intro α f m
    induction m with
    | nil => intro _ k a h; simp [mapFind] at h
    | cons e r ih =>
      intro hm k a h
      obtain ⟨k1, v1⟩ := e
      simp only [mapFind] at h
      by_cases hk : k1 = k
      · simp only [hk, if_true, Option.some.injEq] at h
        subst h; subst hk
        exact hm (k1, v1) (List.mem_cons_self _ _)
      · simp only [hk, if_false] at h
        exact ih (fun e he => hm e (List.mem_cons_of_mem _ he)) k a h
  exact ⟨aux AssetEntry.getId w.assets h1, aux AddressEntry.getIndex w.addresses h2⟩

theorem bytesLt_trans (a b c : Bytes) (h1 : bytesLt a b = true) (h2 : bytesLt b c = true) :
    bytesLt a c = true := by
  induction a generalizing b c with
  | nil =>
    cases b with
    | nil => simp [bytesLt] at h1
    | cons y ys =>
      cases c with
      | nil => simp [bytesLt] at h2
      | cons z zs => rfl
  | cons x xs ih =>
    cases b with
    | nil => simp [bytesLt] at h1
    | cons y ys =>
      cases c with
      | nil => simp [bytesLt] at h2
      | cons z zs =>
        simp only [bytesLt] at h1 h2 ⊢
        by_cases hxy : x.val < y.val
        · by_cases hyz : y.val < z.val
          · have : x.val < z.val := by omega
            simp [this]
          · by_cases hzy : z.val < y.val
            · simp [hyz, hzy] at h2
            · have : x.val < z.val := by omega
              simp [this]
        · by_cases hyx : y.val < x.val
          · simp [hxy, hyx] at h1
          · simp only [hxy, hyx, if_false] at h1
            by_cases hyz : y.val < z.val
            · have : x.val < z.val := by omega
              simp [this]
            · by_cases hzy : z.val < y.val
              · simp [hyz, hzy] at h2
              · simp only [hyz, hzy, if_false] at h2
                have e1 : ¬ x.val < z.val := by omega
                have e2 : ¬ z.val < x.val := by omega
                simp only [e1, e2, if_false]
                exact ih ys zs h1 h2

theorem bytesLt_total (a b : Bytes) (h1 : bytesLt a b = false) (h2 : bytesLt b a = false) :
    a = b := by
  induction a generalizing b with
  | nil =>
    cases b with
    | nil => rfl
    | cons y ys => simp [bytesLt] at h1
  | cons x xs ih =>
    cases b with
    | nil => simp [bytesLt] at h2
    | cons y ys =>
      simp only [bytesLt] at h1 h2
      by_cases hxy : x.val < y.val
      · simp [hxy] at h1
      · by_cases hyx : y.val < x.val
        · simp [hyx] at h2
        · simp only [hxy, hyx, if_false] at h1 h2
          have e : x = y := Fin.ext (by omega)
          rw [e, ih ys h1 h2]

theorem bytesLt_ne (a b : Bytes) (h : bytesLt a b = true) : a ≠ b := by
  intro e; subst e; rw [bytesLt_irrefl] at h; cases h

theorem Store.insert_cons (k v k1 v1 : Bytes) (r : Store) :
    Store.insert k v ((k1, v1) :: r) =
      if bytesLt k k1 = true then (k, v) :: (k1, v1) :: r
      else if bytesLt k1 k = true then (k1, v1) :: Store.insert k v r
      else (k, v) :: r := rfl

theorem Store.mem_of_mem_insert (k v : Bytes) (s : Store) (e : Bytes × Bytes)
    (h : e ∈ Store.insert k v s) : e = (k, v) ∨ e ∈ s := by
  induction s with
  | nil => simp only [Store.insert, List.mem_singleton] at h; exact Or.inl h
  | cons x r ih =>
    obtain ⟨k1, v1⟩ := x
    rw [Store.insert_cons] at h
    split_ifs at h with h1 h2
    · rcases List.mem_cons.mp h with h | h
      · exact Or.inl h
      · exact Or.inr h
    · rcases List.mem_cons.mp h with h | h
      · exact Or.inr (List.mem_cons.mpr (Or.inl h))
      · rcases ih h with h | h
        · exact Or.inl h
        · exact Or.inr (List.mem_cons_of_mem _ h)
    · rcases List.mem_cons.mp h with h | h
      · exact Or.inl h
      · exact Or.inr (List.mem_cons_of_mem _ h)

theorem Store.mem_insert_self (k v : Bytes) (s : Store) : (k, v) ∈ Store.insert k v s := by
  induction s with
  | nil => simp [Store.insert]
  | cons x r ih =>
    obtain ⟨k1, v1⟩ := x
    rw [Store.insert_cons]
    split_ifs with h1 h2
    · exact List.mem_cons_self _ _
    · exact List.mem_cons_of_mem _ ih
    · exact List.mem_cons_self _ _

theorem Store.mem_insert_of_ne (k v : Bytes) (s : Store) (e : Bytes × Bytes) (h : e ∈ s)
    (hne : e.1 ≠ k) : e ∈ Store.insert k v s := by
  induction s with
  | nil => cases h
  | cons x r ih =>
    obtain ⟨k1, v1⟩ := x
    rw [Store.insert_cons]
    split_ifs with h1 h2
    · exact List.mem_cons_of_mem _ h
    · rcases List.mem_cons.mp h with h | h
      · exact List.mem_cons.mpr (Or.inl h)
      · exact List.mem_cons_of_mem _ (ih h)
    · have hk : k = k1 := bytesLt_total k k1 (by simpa using h1) (by simpa using h2)
      rcases List.mem_cons.mp h with h | h
      · rw [h] at hne; exact absurd hk.symm hne
      · exact List.mem_cons_of_mem _ h

theorem Store.insert_sorted (k v : Bytes) (s : Store) (hs : Store.Sorted s) :
    Store.Sorted (Store.insert k v s) := by
  induction s with
  | nil => simp [Store.insert, Store.Sorted]
  | cons x r ih =>
    obtain ⟨k1, v1⟩ := x
    unfold Store.Sorted at hs ih ⊢
    rw [List.pairwise_cons] at hs
    rw [Store.insert_cons]
    split_ifs with h1 h2
    · rw [List.pairwise_cons]
      refine ⟨?_, List.pairwise_cons.mpr hs⟩
      intro e he
      rcases List.mem_cons.mp he with he | he
      · rw [he]; exact h1
      · exact bytesLt_trans _ _ _ h1 (hs.1 e he)
    · rw [List.pairwise_cons]
      refine ⟨?_, ih hs.2⟩
      intro e he
      rcases Store.mem_of_mem_insert k v r e he with he | he
      · rw [he]; exact h2
      · exact hs.1 e he
    · have hk : k = k1 := bytesLt_total k k1 (by simpa using h1) (by simpa using h2)
      subst hk
      rw [List.pairwise_cons]
      exact ⟨hs.1, hs.2⟩

theorem Store.get_NoCopy_cons (key k1 v1 : Bytes) (r : Store) :
    Store.get_NoCopy key ((k1, v1) :: r) =
      if k1 = key then some v1 else Store.get_NoCopy key r := rfl

theorem Store.get_NoCopy_insert (k v key : Bytes) (s : Store) :
    Store.get_NoCopy key (Store.insert k v s) =
      if k = key then some v else Store.get_NoCopy key s := by
  induction s with
  | nil => simp [Store.insert, Store.get_NoCopy]
  | cons x r ih =>
    obtain ⟨k1, v1⟩ := x
    rw [Store.insert_cons]
    by_cases h1 : bytesLt k k1 = true
    · rw [if_pos h1, Store.get_NoCopy_cons]
    · rw [if_neg h1]
      by_cases h2 : bytesLt k1 k = true
      · rw [if_pos h2, Store.get_NoCopy_cons, ih, Store.get_NoCopy_cons]
        have hne : k1 ≠ k := bytesLt_ne _ _ h2
        by_cases h3 : k1 = key
        · have : ¬ k = key := fun e => hne (h3.trans e.symm)
          simp only [if_pos h3, if_neg this]
        · simp only [if_neg h3]
      · rw [if_neg h2, Store.get_NoCopy_cons, Store.get_NoCopy_cons]
        have hk : k = k1 := bytesLt_total k k1 (by simpa using h1) (by simpa using h2)
        subst hk
        by_cases h3 : k = key
        · simp only [if_pos h3]
        · simp only [if_neg h3]

theorem Store.mem_seekGE (key : Bytes) (s : Store) (e : Bytes × Bytes) (he : e ∈ s)
    (h : bytesLt e.1 key = false) : e ∈ Store.seekGE key s := by
  unfold Store.seekGE
  induction s with
  | nil => cases he
  | cons x r ih =>
    rw [List.dropWhile_cons]
    by_cases hx : bytesLt x.1 key = true
    · simp only [hx, if_true]
      rcases List.mem_cons.mp he with he | he
      · subst he; rw [h] at hx; cases hx
      · exact ih he
    · simp only [hx]
      exact he

theorem Store.seekGE_sublist (key : Bytes) (s : Store) : (Store.seekGE key s).Sublist s :=
  List.dropWhile_sublist _

theorem Store.seekGE_ge (key : Bytes) (s : Store) (hs : Store.Sorted s) (e : Bytes × Bytes)
    (he : e ∈ Store.seekGE key s) : bytesLt e.1 key = false := by
  unfold Store.seekGE at he
  unfold Store.Sorted at hs
  induction s with
  | nil => simp at he
  | cons x r ih =>
    rw [List.pairwise_cons] at hs
    rw [List.dropWhile_cons] at he
    by_cases hx : bytesLt x.1 key = true
    · simp only [hx, if_true] at he
      exact ih hs.2 he
    · simp only [hx] at he
      rcases List.mem_cons.mp he with he | he
      · subst he; simpa using hx
      · have h1 := hs.1 e he
        cases hlt : bytesLt e.1 key with
        | false => rfl
        | true => exact absurd (bytesLt_trans _ _ _ h1 hlt) hx

/-! ## The asset map as an ordered list -/

theorem mapInsert_cons {α : Type} (k k1 : Int) (v v1 : α) (r : List (Int × α)) :
    mapInsert k v ((k1, v1) :: r) =
      if k < k1 then (k, v) :: (k1, v1) :: r
      else if k1 < k then (k1, v1) :: mapInsert k v r
      else (k1, v1) :: r := rfl

theorem mem_of_mem_mapInsert {α : Type} (k : Int) (v : α) (m : List (Int × α)) (e : Int × α)
    (h : e ∈ mapInsert k v m) : e = (k, v) ∨ e ∈ m := by
  induction m with
  | nil => simp only [mapInsert, List.mem_singleton] at h; exact Or.inl h
  | cons x r ih =>
    obtain ⟨k1, v1⟩ := x
    rw [mapInsert_cons] at h
    split_ifs at h with h1 h2
    · rcases List.mem_cons.mp h with h | h
      · exact Or.inl h
      · exact Or.inr h
    · rcases List.mem_cons.mp h with h | h
      · exact Or.inr (List.mem_cons.mpr (Or.inl h))
      · rcases ih h with h | h
        · exact Or.inl h
        · exact Or.inr (List.mem_cons_of_mem _ h)
    · exact Or.inr h

theorem mem_keys_mapInsert {α : Type} (k k' : Int) (v : α) (m : List (Int × α)) :
    k ∈ (mapInsert k' v m).map Prod.fst ↔ k = k' ∨ k ∈ m.map Prod.fst := by
  induction m with
  | nil => simp [mapInsert]
  | cons x r ih =>
    obtain ⟨k1, v1⟩ := x
    rw [mapInsert_cons]
    split_ifs with h1 h2
    · simp
    · simp only [List.map_cons, List.mem_cons, ih]
      tauto
    · have : k' = k1 := by omega
      subst this
      simp only [List.map_cons, List.mem_cons]
      tauto

theorem MapOK_mapInsert (m : List (Int × AssetEntry)) (a : AssetEntry) (h : MapOK m) :
    MapOK (mapInsert a.getId a m) := by
  obtain ⟨hs, hk⟩ := h
  refine ⟨?_, ?_⟩
  · clear hk
    induction m with
    | nil => simp [mapInsert]
    | cons x r ih =>
      obtain ⟨k1, v1⟩ := x
      simp only [List.map_cons, List.pairwise_cons] at hs
      rw [mapInsert_cons]
      split_ifs with h1 h2
      · simp only [List.map_cons, List.pairwise_cons]
        refine ⟨?_, hs.1, hs.2⟩
        intro b hb
        rcases List.mem_cons.mp hb with hb | hb
        · rw [hb]; exact h1
        · have := hs.1 b hb; omega
      · simp only [List.map_cons, List.pairwise_cons]
        refine ⟨?_, ih hs.2⟩
        intro b hb
        rcases (mem_keys_mapInsert b a.getId a r).mp hb with hb | hb
        · rw [hb]; exact h2
        · exact hs.1 b hb
      · simp only [List.map_cons, List.pairwise_cons]
        exact hs
  · intro e he
    rcases mem_of_mem_mapInsert _ _ _ _ he with he | he
    · rw [he]
    · exact hk e he

theorem mapFind_isSome_iff {α : Type} (k : Int) (m : List (Int × α)) :
    (mapFind k m).isSome = true ↔ k ∈ m.map Prod.fst := by
  induction m with
  | nil => simp [mapFind]
  | cons x r ih =>
    obtain ⟨k1, v1⟩ := x
    simp only [mapFind, List.map_cons, List.mem_cons]
    by_cases h : k1 = k
    · simp [h]
    · have h' : ¬ k = k1 := fun e => h e.symm
      simp [h, h', ih]

theorem sorted_keys_ext (l1 l2 : List Int) (h1 : l1.Pairwise (fun a b => a < b))
    (h2 : l2.Pairwise (fun a b => a < b)) (h : ∀ k, k ∈ l1 ↔ k ∈ l2) : l1 = l2 := by
  induction l1 generalizing l2 with
  | nil =>
    cases l2 with
    | nil => rfl
    | cons y ys => exact absurd ((h y).mpr (List.mem_cons_self _ _)) (List.not_mem_nil _)
  | cons x xs ih =>
    cases l2 with
    | nil => exact absurd ((h x).mp (List.mem_cons_self _ _)) (List.not_mem_nil _)
    | cons y ys =>
      rw [List.pairwise_cons] at h1 h2
      have hxy : x = y := by
        have hx := (h x).mp (List.mem_cons_self _ _)
        have hy := (h y).mpr (List.mem_cons_self _ _)
        rcases List.mem_cons.mp hx with hx | hx
        · exact hx
        · rcases List.mem_cons.mp hy with hy | hy
          · exact hy.symm
          · have a1 := h1.1 y hy
            have a2 := h2.1 x hx
            omega
      subst hxy
      congr 1
      apply ih ys h1.2 h2.2
      intro k
      constructor
      · intro hk
        have := (h k).mp (List.mem_cons_of_mem _ hk)
        rcases List.mem_cons.mp this with e | e
        · have := h1.1 k hk; omega
        · exact e
      · intro hk
        have := (h k).mpr (List.mem_cons_of_mem _ hk)
        rcases List.mem_cons.mp this with e | e
        · have := h2.1 k hk; omega
        · exact e

/-! ## Reading the asset records back -/

theorem put_int32_t_injective (i j : Int) (hi1 : -2 ^ 31 ≤ i) (hi2 : i < 2 ^ 31)
    (hj1 : -2 ^ 31 ≤ j) (hj2 : j < 2 ^ 31) (h : put_int32_t i = put_int32_t j) : i = j := by
  have a := get_int32_t_put i []
  have b := get_int32_t_put j []
  rw [h, b] at a
  simp only [Except.ok.injEq, Prod.mk.injEq, and_true] at a
  rw [wrapInt32_of_range i hi1 hi2, wrapInt32_of_range j hj1 hj2] at a
  exact a.symm

theorem serialize_decode (K : Constants) (hK : K.LabelsDistinct) (a : AssetEntry_Single)
    (hs : a.Storable) :
    ∃ body, a.serialize K = .ok (frame body) ∧ body.length < 2 ^ 64 ∧
      AssetEntry.deserialize K ((AssetEntry.Single a).getDbKey K) body = .ok (.Single a) := by
  obtain ⟨hlo, hhi, hu, hcp, hp, c, hc, hiv⟩ := hs
  have hcl := Cypher_serialize_length K c hiv
  have hf1 := frame_length_le (K.PUBKEY_UNCOMPRESSED_BYTE :: a.pubkey.uncompressed)
  have hf2 := frame_length_le (K.PUBKEY_COMPRESSED_BYTE :: a.pubkey.compressed)
  have hf3 := frame_length_le (K.PRIVKEY_BYTE :: a.privkey.data)
  have hf4 := frame_length_le (c.serialize K)
  obtain ⟨body, hbody⟩ : ∃ body : Bytes, body = K.AssetEntryType_Single ::
      ([K.PUBKEY_UNCOMPRESSED_BYTE :: a.pubkey.uncompressed,
        K.PUBKEY_COMPRESSED_BYTE :: a.pubkey.compressed,
        K.PRIVKEY_BYTE :: a.privkey.data,
        c.serialize K].map frame).flatten := ⟨_, rfl⟩
  have hlen : body.length < 2 ^ 64 := by
    rw [hbody]
    simp only [List.map_cons, List.map_nil, List.flatten_cons, List.flatten_nil,
      List.length_cons, List.length_append, List.length_nil] at hf1 hf2 hf3 hf4 ⊢
    omega
  have hser := AssetEntry_Single_serialize_frames K a c hc
  rw [← hbody] at hser
  refine ⟨body, hser, hlen, ?_⟩
  have hd := deserDBValue_serialize K hK a c hc a.index hu hcp hp hiv
  rw [← hbody] at hd
  simp only [AssetEntry.deserialize, AssetEntry.getDbKey, AssetEntry.getId, put_uint8_t,
    List.singleton_append, get_uint8_t, bind_ok_eq, ne_eq, not_true_eq_false, if_false]
  have hk := get_int32_t_put a.index []
  rw [List.append_nil] at hk
  rw [hk, wrapInt32_of_range _ hlo hhi]
  simpa using hd

theorem get_var_int_frame (body : Bytes) (h : body.length < 2 ^ 64) :
    get_var_int (frame body) = .ok (body.length, body) :=
  get_var_int_put _ h _

theorem bytesLt_nil_right (a : Bytes) : bytesLt a [] = false := by
  cases a <;> rfl

theorem bytesLt_cons_le (b b' : Byte) (r r' : Bytes) (h : bytesLt (b :: r) (b' :: r') = true) :
    b.val ≤ b'.val := by
  simp only [bytesLt] at h
  by_cases h1 : b.val < b'.val
  · omega
  · by_cases h2 : b'.val < b.val
    · simp [h1, h2] at h
    · omega

theorem head_ge_of_not_lt (b p : Byte) (r : Bytes) (h : bytesLt (b :: r) [p] = false) :
    p.val ≤ b.val := by
  simp only [bytesLt] at h
  by_cases h1 : b.val < p.val
  · simp [h1] at h
  · omega

theorem getDbKey_cons (K : Constants) (a : AssetEntry) :
    a.getDbKey K = K.ASSETENTRY_PREFIX :: put_int32_t a.getId := rfl

theorem scanAssets_header (K : Constants) (e : Bytes × Bytes) (L : List (Bytes × Bytes))
    (acc : List (Int × AssetEntry)) (h : IsHeaderRecord K e) :
    scanAssets K (e :: L) acc = .ok acc := by
  obtain ⟨⟨b, rest, hk, hb⟩, body, hv, hlen⟩ := h
  obtain ⟨k, v⟩ := e
  simp only at hk hv
  subst hk hv
  simp only [scanAssets, get_var_int_frame body hlen, ne_eq, not_true_eq_false, if_false,
    AssetEntry.deserialize, get_uint8_t, bind_ok_eq, hb, not_false_eq_true, if_true,
    throw_eq_error]

theorem scanAssets_asset (K : Constants) (hK : K.LabelsDistinct) (e : Bytes × Bytes)
    (L : List (Bytes × Bytes)) (acc : List (Int × AssetEntry)) (a : AssetEntry_Single)
    (h : IsAssetRecord K e a) :
    scanAssets K (e :: L) acc = scanAssets K L (mapInsert a.index (.Single a) acc) := by
  obtain ⟨hs, hk, hv⟩ := h
  obtain ⟨body, hser, hlen, hdec⟩ := serialize_decode K hK a hs
  obtain ⟨k, v⟩ := e
  simp only at hk hv
  rw [hser] at hv
  simp only [Except.ok.injEq] at hv
  subst hk hv
  simp only [scanAssets, get_var_int_frame body hlen, ne_eq, not_true_eq_false, if_false, hdec,
    AssetEntry.getId]

theorem HasAsset_cons_asset (K : Constants) (e : Bytes × Bytes) (L : List (Bytes × Bytes))
    (a : AssetEntry_Single) (h : IsAssetRecord K e a) (k : Int) :
    HasAsset K (e :: L) k ↔ k = a.index ∨ HasAsset K L k := by
  constructor
  · rintro ⟨e', he', a', ha', hk'⟩
    rcases List.mem_cons.mp he' with he' | he'
    · subst he'
      left
      have hkey : (AssetEntry.Single a').getDbKey K = (AssetEntry.Single a).getDbKey K := by
        rw [← ha'.2.1, ← h.2.1]
      simp only [getDbKey_cons, AssetEntry.getId, List.cons.injEq, true_and] at hkey
      have := put_int32_t_injective a'.index a.index ha'.1.1 ha'.1.2.1 h.1.1 h.1.2.1 hkey
      rw [← hk', this]
    · exact Or.inr ⟨e', he', a', ha', hk'⟩
  · rintro (hk | ⟨e', he', a', ha', hk'⟩)
    · exact ⟨e, List.mem_cons_self _ _, a, h, hk.symm⟩
    · exact ⟨e', List.mem_cons_of_mem _ he', a', ha', hk'⟩

theorem not_HasAsset_after_header (K : Constants) (e : Bytes × Bytes)
    (L : List (Bytes × Bytes)) (hsorted : Store.Sorted (e :: L))
    (hge : bytesLt e.1 [K.ASSETENTRY_PREFIX] = false) (h : IsHeaderRecord K e) (k : Int) :
    ¬ HasAsset K (e :: L) k := by
  obtain ⟨⟨b, rest, hk, hb⟩, -⟩ := h
  rintro ⟨e', he', a', ha', -⟩
  have hkey := ha'.2.1
  rw [getDbKey_cons] at hkey
  rw [hk] at hge
  have h1 := head_ge_of_not_lt b _ rest hge
  rcases List.mem_cons.mp he' with he' | he'
  · subst he'
    rw [hk] at hkey
    simp only [List.cons.injEq] at hkey
    exact hb hkey.1
  · unfold Store.Sorted at hsorted
    rw [List.pairwise_cons] at hsorted
    have hlt := hsorted.1 e' he'
    rw [hk, hkey] at hlt
    have h2 := bytesLt_cons_le _ _ _ _ hlt
    exact hb (Fin.ext (by omega))

theorem scanAssets_spec (K : Constants) (hK : K.LabelsDistinct) (L : List (Bytes × Bytes))
    (acc : List (Int × AssetEntry)) (hsorted : Store.Sorted L)
    (hge : ∀ e ∈ L, bytesLt e.1 [K.ASSETENTRY_PREFIX] = false)
    (hrec : ∀ e ∈ L, IsHeaderRecord K e ∨ ∃ a, IsAssetRecord K e a) (hacc : MapOK acc) :
    ∃ M, scanAssets K L acc = .ok M ∧ MapOK M ∧
      ∀ k, k ∈ M.map Prod.fst ↔ k ∈ acc.map Prod.fst ∨ HasAsset K L k := by
  induction L generalizing acc with
  | nil =>
    refine ⟨acc, rfl, hacc, fun k => ⟨Or.inl, ?_⟩⟩
    rintro (h | ⟨e, he, -⟩)
    · exact h
    · cases he
  | cons e L ih =>
    have hsorted' : Store.Sorted L := (List.pairwise_cons.mp hsorted).2
    rcases hrec e (List.mem_cons_self _ _) with hh | ⟨a, ha⟩
    · refine ⟨acc, scanAssets_header K e L acc hh, hacc, fun k => ⟨Or.inl, ?_⟩⟩
      rintro (h | h)
      · exact h
      · exact absurd h (not_HasAsset_after_header K e L hsorted
          (hge e (List.mem_cons_self _ _)) hh k)
    · obtain ⟨M, hM, hok, hkeys⟩ := ih (mapInsert a.index (.Single a) acc) hsorted'
        (fun e' he' => hge e' (List.mem_cons_of_mem _ he'))
        (fun e' he' => hrec e' (List.mem_cons_of_mem _ he'))
        (MapOK_mapInsert acc (.Single a) hacc)
      refine ⟨M, ?_, hok, ?_⟩
      · rw [scanAssets_asset K hK e L acc a ha]; exact hM
      · intro k
        rw [hkeys k, mem_keys_mapInsert, HasAsset_cons_asset K e L a ha k]
        tauto

/-! ## Opening a wallet -/

theorem getDataRefForKey_frame (w : AssetWallet) (key body : Bytes)
    (h : w.db.get_NoCopy key = some (frame body)) (hlen : body.length < 2 ^ 64) :
    w.getDataRefForKey key = .ok body := by
  simp only [AssetWallet.getDataRefForKey, h, get_var_int_frame body hlen, bind_ok_eq, ne_eq,
    not_true_eq_false, if_false, pure_eq_ok]

theorem put_int32_t_length (i : Int) : (put_int32_t i).length = 4 := leBytes_length _ _

theorem HasAsset_seekGE (K : Constants) (db : Store) (k : Int) :
    HasAsset K (db.seekGE (put_uint8_t K.ASSETENTRY_PREFIX)) k ↔ HasAsset K db k := by
  constructor
  · rintro ⟨e, he, a, ha, hk⟩
    exact ⟨e, (Store.seekGE_sublist _ db).subset he, a, ha, hk⟩
  · rintro ⟨e, he, a, ha, hk⟩
    refine ⟨e, Store.mem_seekGE _ db e he ?_, a, ha, hk⟩
    rw [ha.2.1, getDbKey_cons]
    simp only [put_uint8_t, bytesLt, lt_self_iff_false, if_false, bytesLt_nil_right]

theorem readFromFile_of_Readable (K : Constants) (hK : K.LabelsDistinct) (kind : WalletKind)
    (db : Store) (h : HeaderData) (hr : Readable K db h) :
    ∃ w', AssetWallet_Single.readFromFile K (AssetWallet.new kind db) = .ok w' ∧
      w'.db = db ∧ w'.kind = kind ∧ w'.walletMutex = false ∧
      w'.parentID = h.parentID ∧ w'.walletID = h.walletID ∧
      w'.derScheme = some h.derScheme ∧ w'.default_aet = h.aet ∧
      w'.highestUsedAddressIndex = h.top ∧ w'.root = some (.Single h.root) ∧
      w'.addresses = [] ∧ MapOK w'.assets ∧
      ∀ k, k ∈ w'.assets.map Prod.fst ↔ HasAsset K db k := by
  obtain ⟨⟨hsorted, hrec⟩, ⟨hp, hpl⟩, ⟨hw, hwl⟩, ⟨sb, hsch, hsl, hsd⟩, haet, ⟨htop, ht1, ht2⟩,
    rb, hroot, hrl, hrd⟩ := hr
  have g1 := getDataRefForKey_frame (AssetWallet.new kind db) _ _ hp hpl
  have g2 := getDataRefForKey_frame (AssetWallet.new kind db) _ _ hw hwl
  have g3 := getDataRefForKey_frame (AssetWallet.new kind db) _ _ hsch hsl
  have g4 := getDataRefForKey_frame (AssetWallet.new kind db) _ _ haet (by simp)
  have g5 := getDataRefForKey_frame (AssetWallet.new kind db) _ _ htop
    (by rw [put_int32_t_length]; omega)
  have g6 := getDataRefForKey_frame (AssetWallet.new kind db) _ _ hroot hrl
  have hti := get_int32_t_put h.top []
  rw [List.append_nil, wrapInt32_of_range _ ht1 ht2] at hti
  obtain ⟨M, hM, hok, hkeys⟩ := scanAssets_spec K hK
    (db.seekGE (put_uint8_t K.ASSETENTRY_PREFIX)) []
    (List.Pairwise.sublist (Store.seekGE_sublist _ db) hsorted)
    (fun e he => Store.seekGE_ge _ db hsorted e he)
    (fun e he => hrec e ((Store.seekGE_sublist _ db).subset he))
    ⟨by simp, by simp⟩
  have hM' : scanAssets K (Store.seekGE (put_uint8_t K.ASSETENTRY_PREFIX)
      (AssetWallet.new kind db).db) (AssetWallet.new kind db).assets = .ok M := hM
  refine ⟨{ AssetWallet.new kind db with
      parentID := h.parentID, walletID := h.walletID, derScheme := some h.derScheme,
      default_aet := h.aet, highestUsedAddressIndex := h.top, root := some (.Single h.root),
      assets := M }, ?_, rfl, rfl, rfl, rfl, rfl, rfl, rfl, rfl, rfl, rfl, hok, ?_⟩
  · simp only [AssetWallet_Single.readFromFile, g1, g2, g3, g4, g5, g6, bind_ok_eq, hsd,
      put_int32_t_length, ne_eq, not_true_eq_false, if_false, hti, hrd, hM', pure_eq_ok]
  · intro k
    rw [hkeys k, HasAsset_seekGE]
    simp

/-! ## Writing header and asset records -/

theorem put_uint32_t_ne (a b : Nat) (h : a % 2 ^ 32 ≠ b % 2 ^ 32) :
    put_uint32_t a ≠ put_uint32_t b := by
  intro e
  have ha := get_uint32_t_put a []
  have hb := get_uint32_t_put b []
  rw [e, hb] at ha
  simp only [Except.ok.injEq, Prod.mk.injEq, and_true] at ha
  exact h ha.symm

theorem put_uint32_t_cons (a : Nat) :
    ∃ rest, put_uint32_t a = byteOfNat (a % 2 ^ 32) :: rest := ⟨_, rfl⟩

theorem headerKey_head_ne (K : Constants) (k : Nat) (h : k % 256 ≠ K.ASSETENTRY_PREFIX.val) :
    ∃ b rest, put_uint32_t k = b :: rest ∧ b ≠ K.ASSETENTRY_PREFIX := by
  refine ⟨byteOfNat (k % 2 ^ 32), _, rfl, ?_⟩
  intro e
  have := congrArg Fin.val e
  simp only [byteOfNat] at this
  omega

theorem headerKey_ne_assetKey (K : Constants) (k : Nat) (a : AssetEntry)
    (h : k % 256 ≠ K.ASSETENTRY_PREFIX.val) : a.getDbKey K ≠ put_uint32_t k := by
  obtain ⟨b, rest, hk, hb⟩ := headerKey_head_ne K k h
  rw [hk, getDbKey_cons]
  intro e
  simp only [List.cons.injEq] at e
  exact hb e.1.symm

theorem StoreInv_nil (K : Constants) : StoreInv K [] :=
  ⟨List.Pairwise.nil, fun e he => by cases he⟩

theorem StoreInv_insert (K : Constants) (db : Store) (k v : Bytes) (h : StoreInv K db)
    (hr : IsHeaderRecord K (k, v) ∨ ∃ a, IsAssetRecord K (k, v) a) :
    StoreInv K (db.insert k v) := by
  refine ⟨Store.insert_sorted k v db h.1, ?_⟩
  intro e he
  rcases Store.mem_of_mem_insert k v db e he with he | he
  · rw [he]; exact hr
  · exact h.2 e he

theorem IsHeaderRecord_mk (K : Constants) (k : Nat) (body : Bytes)
    (hk : k % 256 ≠ K.ASSETENTRY_PREFIX.val) (hb : body.length < 2 ^ 64) :
    IsHeaderRecord K (put_uint32_t k, frame body) :=
  ⟨headerKey_head_ne K k hk, body, rfl, hb⟩

theorem Readable_insert_asset (K : Constants) (hS : K.KeysSeparate) (db : Store)
    (h : HeaderData) (a : AssetEntry_Single) (v : Bytes)
    (hr : Readable K db h) (ha : IsAssetRecord K ((AssetEntry.Single a).getDbKey K, v) a) :
    Readable K (db.insert ((AssetEntry.Single a).getDbKey K) v) h := by
  obtain ⟨hinv, hp, hw, hs, haet, htop, hroot⟩ := hr
  have hne : ∀ k ∈ K.headerKeys, (AssetEntry.Single a).getDbKey K ≠ put_uint32_t k :=
    fun k hk => headerKey_ne_assetKey K k _ (hS.2 k hk)
  simp only [Constants.headerKeys, List.mem_cons, List.mem_singleton, List.not_mem_nil,
    or_false, forall_eq_or_imp, forall_eq] at hne
  obtain ⟨-, n2, n3, n4, n5, n6, n7⟩ := hne
  refine ⟨StoreInv_insert K db _ v hinv (Or.inr ⟨a, ha⟩), ?_, ?_, ?_, ?_, ?_, ?_⟩
  · rw [Store.get_NoCopy_insert, if_neg n2]; exact hp
  · rw [Store.get_NoCopy_insert, if_neg n3]; exact hw
  · rw [Store.get_NoCopy_insert, if_neg n4]; exact hs
  · rw [Store.get_NoCopy_insert, if_neg n5]; exact haet
  · rw [Store.get_NoCopy_insert, if_neg n6]; exact htop
  · rw [Store.get_NoCopy_insert, if_neg n7]; exact hroot

theorem headerKeys_ne (K : Constants) (hS : K.KeysSeparate) :
    put_uint32_t K.TOPUSEDINDEX_KEY ≠ put_uint32_t K.PARENTID_KEY ∧
    put_uint32_t K.TOPUSEDINDEX_KEY ≠ put_uint32_t K.WALLETID_KEY ∧
    put_uint32_t K.TOPUSEDINDEX_KEY ≠ put_uint32_t K.DERIVATIONSCHEME_KEY ∧
    put_uint32_t K.TOPUSEDINDEX_KEY ≠ put_uint32_t K.ADDRESSENTRYTYPE_KEY ∧
    put_uint32_t K.TOPUSEDINDEX_KEY ≠ put_uint32_t K.ROOTASSET_KEY := by
  have h := hS.1
  simp only [Constants.headerKeys, List.map_cons, List.map_nil, List.nodup_cons,
    List.mem_cons, List.mem_singleton, List.not_mem_nil, not_or, or_false] at h
  refine ⟨put_uint32_t_ne _ _ ?_, put_uint32_t_ne _ _ ?_, put_uint32_t_ne _ _ ?_,
    put_uint32_t_ne _ _ ?_, put_uint32_t_ne _ _ ?_⟩ <;> omega

theorem Readable_insert_top (K : Constants) (hS : K.KeysSeparate) (db : Store)
    (h : HeaderData) (t : Int) (ht1 : -2 ^ 31 ≤ t) (ht2 : t < 2 ^ 31) (hr : Readable K db h) :
    Readable K (db.insert (put_uint32_t K.TOPUSEDINDEX_KEY) (put_var_int 4 ++ put_int32_t t))
      { h with top := t } := by
  obtain ⟨hinv, hp, hw, hs, haet, htop, hroot⟩ := hr
  obtain ⟨n1, n2, n3, n4, n5⟩ := headerKeys_ne K hS
  have hf : put_var_int 4 ++ put_int32_t t = frame (put_int32_t t) := by
    simp only [frame, put_int32_t_length]
  have hk : K.TOPUSEDINDEX_KEY % 256 ≠ K.ASSETENTRY_PREFIX.val :=
    hS.2 _ (by simp [Constants.headerKeys])
  rw [hf]
  refine ⟨StoreInv_insert K db _ _ hinv (Or.inl (IsHeaderRecord_mk K _ _ hk
    (by rw [put_int32_t_length]; omega))), ?_, ?_, ?_, ?_, ?_, ?_⟩
  · rw [Store.get_NoCopy_insert, if_neg n1]; exact hp
  · rw [Store.get_NoCopy_insert, if_neg n2]; exact hw
  · rw [Store.get_NoCopy_insert, if_neg n3]; exact hs
  · rw [Store.get_NoCopy_insert, if_neg n4]; exact haet
  · rw [Store.get_NoCopy_insert, if_pos rfl]; exact ⟨rfl, ht1, ht2⟩
  · rw [Store.get_NoCopy_insert, if_neg n5]; exact hroot

/-! ## Deriving and storing a chain -/

theorem wrapInt32_range (x : Int) : -2 ^ 31 ≤ wrapInt32 x ∧ wrapInt32 x < 2 ^ 31 := by
  unfold wrapInt32 int32_of_uint32 uint32_of_int32
  split <;> omega

theorem wrapInt32_add (x y : Int) : wrapInt32 (wrapInt32 x + y) = wrapInt32 (x + y) := by
  unfold wrapInt32 int32_of_uint32 uint32_of_int32
  split <;> split <;> omega

theorem HasAsset_insert (K : Constants) (db : Store) (a : AssetEntry_Single) (v : Bytes)
    (ha : IsAssetRecord K ((AssetEntry.Single a).getDbKey K, v) a) (k : Int) :
    HasAsset K (db.insert ((AssetEntry.Single a).getDbKey K) v) k ↔
      k = a.index ∨ HasAsset K db k := by
  constructor
  · rintro ⟨e, he, a', ha', hk'⟩
    rcases Store.mem_of_mem_insert _ _ db e he with he | he
    · left
      subst he
      have hkey : (AssetEntry.Single a').getDbKey K = (AssetEntry.Single a).getDbKey K := by
        rw [← ha'.2.1]
      simp only [getDbKey_cons, AssetEntry.getId, List.cons.injEq, true_and] at hkey
      rw [← hk', put_int32_t_injective a'.index a.index ha'.1.1 ha'.1.2.1 ha.1.1 ha.1.2.1 hkey]
    · exact Or.inr ⟨e, he, a', ha', hk'⟩
  · rintro (hk | ⟨e, he, a', ha', hk'⟩)
    · exact ⟨_, Store.mem_insert_self _ _ db, a, ha, hk.symm⟩
    · by_cases hkey : e.1 = (AssetEntry.Single a).getDbKey K
      · refine ⟨_, Store.mem_insert_self _ _ db, a, ha, ?_⟩
        have hkey' : (AssetEntry.Single a').getDbKey K = (AssetEntry.Single a).getDbKey K := by
          rw [← ha'.2.1, hkey]
        simp only [getDbKey_cons, AssetEntry.getId, List.cons.injEq, true_and] at hkey'
        rw [← hk', put_int32_t_injective a'.index a.index ha'.1.1 ha'.1.2.1 ha.1.1 ha.1.2.1 hkey']
      · exact ⟨e, Store.mem_insert_of_ne _ _ db e he hkey, a', ha', hk'⟩

theorem insertAssets_spec (K : Constants) (hK : K.LabelsDistinct) (hS : K.KeysSeparate)
    (h : HeaderData) (vec : List AssetEntry) (w : AssetWallet)
    (hvec : ∀ x ∈ vec, ∃ s : AssetEntry_Single, x = .Single s ∧ s.Storable)
    (hr : Readable K w.db h) (hm : MapOK w.assets)
    (hsync : ∀ k, k ∈ w.assets.map Prod.fst ↔ HasAsset K w.db k) :
    ∃ db' assets', w.insertAssets K vec = (.ok (), { w with db := db', assets := assets' }) ∧
      Readable K db' h ∧ MapOK assets' ∧
      (∀ k, k ∈ assets'.map Prod.fst ↔ HasAsset K db' k) ∧
      (∀ k, k ∈ assets'.map Prod.fst ↔ k ∈ w.assets.map Prod.fst ∨ k ∈ vec.map AssetEntry.getId) := by
  induction vec generalizing w with
  | nil => exact ⟨w.db, w.assets, rfl, hr, hm, hsync, fun k => by simp⟩
  | cons x rest ih =>
    obtain ⟨s, hx, hst⟩ := hvec x (List.mem_cons_self _ _)
    subst hx
    have hrest : ∀ y ∈ rest, ∃ s : AssetEntry_Single, y = .Single s ∧ s.Storable :=
      fun y hy => hvec y (List.mem_cons_of_mem _ hy)
    cases hf : mapFind (AssetEntry.Single s).getId w.assets with
    | some y =>
      rw [insertAssets_cons_some K w _ y rest hf]
      obtain ⟨db', assets', h1, h2, h3, h4, h5⟩ := ih w hrest hr hm hsync
      refine ⟨db', assets', h1, h2, h3, h4, ?_⟩
      intro k
      rw [h5 k]
      simp only [List.map_cons, List.mem_cons]
      have hin : (AssetEntry.Single s).getId ∈ w.assets.map Prod.fst :=
        (mapFind_isSome_iff _ _).mp (by rw [hf]; rfl)
      constructor
      · rintro (h | h)
        · exact Or.inl h
        · exact Or.inr (Or.inr h)
      · rintro (h | h | h)
        · exact Or.inl h
        · rw [h]; exact Or.inl hin
        · exact Or.inr h
    | none =>
      rw [insertAssets_cons_none K w _ rest hf]
      obtain ⟨body, hser, hlen, -⟩ := serialize_decode K hK s hst
      have hser' : (AssetEntry.Single s).serialize K = .ok (frame body) := hser
      rw [hser']
      simp only
      have hrec : IsAssetRecord K ((AssetEntry.Single s).getDbKey K, frame body) s :=
        ⟨hst, rfl, hser⟩
      obtain ⟨db', assets', h1, h2, h3, h4, h5⟩ := ih
        { w with db := w.db.insert ((AssetEntry.Single s).getDbKey K) (frame body),
                 assets := mapInsert (AssetEntry.Single s).getId (.Single s) w.assets }
        hrest (Readable_insert_asset K hS w.db h s _ hr hrec)
        (MapOK_mapInsert w.assets (.Single s) hm)
        (by
          intro k
          simp only
          rw [mem_keys_mapInsert, HasAsset_insert K w.db s _ hrec k, hsync k]
          rfl)
      refine ⟨db', assets', h1, h2, h3, h4, ?_⟩
      intro k
      rw [h5 k]
      simp only [List.map_cons, List.mem_cons, mem_keys_mapInsert]
      tauto

theorem nextAsset_storable (C : Crypto) (hC : C.Bounded) (sch : DerivationScheme_ArmoryLegacy)
    (a : AssetEntry_Single) (ha : ∃ c, a.privkey.cypher = some c) :
    ∃ a' : AssetEntry_Single, sch.nextAsset C (.Single a) = .ok (.Single a') ∧ a'.Storable ∧
      a'.index = wrapInt32 (a.index + 1) := by
  obtain ⟨c, hc⟩ := ha
  obtain ⟨-, h2, h3, h4, -, -⟩ := hC
  refine ⟨_, rfl, ⟨(wrapInt32_range _).1, (wrapInt32_range _).2, h3 _ _, h2 _, ?_,
    Cypher_AES_fresh, ?_, ?_⟩, rfl⟩
  · simp only [AssetEntry_Single.mk4]
    cases a.privkey.getKey with
    | key d =>
      simp only
      cases hk : C.ComputeChainedPrivateKey d sch.chainCode a.pubkey.uncompressed with
      | key k => exact h4 _ _ _ _ hk
      | unavailable => simp
      | cypherBlocked => simp
    | unavailable => simp
    | cypherBlocked => simp
  · simp only [AssetEntry_Single.mk4, hc]; rfl
  · simp [Cypher_AES_fresh]

theorem extendChain_legacy_spec (C : Crypto) (hC : C.Bounded)
    (sch : DerivationScheme_ArmoryLegacy) (a : AssetEntry_Single) (n : Nat)
    (ha : ∃ c, a.privkey.cypher = some c) :
    ∃ vec, sch.extendChain C (.Single a) n = .ok vec ∧
      (∀ x ∈ vec, ∃ s : AssetEntry_Single, x = .Single s ∧ s.Storable) ∧
      vec.map AssetEntry.getId =
        (List.range n).map (fun j : Nat => wrapInt32 (a.index + 1 + Int.ofNat j)) := by
  induction n generalizing a with
  | zero => exact ⟨[], rfl, fun x hx => (by cases hx), rfl⟩
  | succ n ih =>
    obtain ⟨a', hn, hst, hidx⟩ := nextAsset_storable C hC sch a ha
    obtain ⟨vec, hv, hall, hids⟩ := ih a' ⟨_, hst.2.2.2.2.2.choose_spec.1⟩
    refine ⟨.Single a' :: vec, ?_, ?_, ?_⟩
    · rw [extendChain_succ_single C sch a a' n hn, hv]; rfl
    · intro x hx
      rcases List.mem_cons.mp hx with hx | hx
      · exact ⟨a', hx, hst⟩
      · exact hall x hx
    · rw [List.range_succ_eq_map]
      simp only [List.map_cons, List.map_map, hids, AssetEntry.getId, hidx]
      congr 1
      · simp
      · apply List.map_congr_left
        intro j _
        simp only [Function.comp, Int.ofNat_eq_coe]
        rw [Int.add_assoc (wrapInt32 (a.index + 1)), wrapInt32_add]
        congr 1
        push_cast
        omega

/-! ## Creating a wallet -/

theorem initWalletDb_unfold (K : Constants) (C : Crypto) (file : Store) (parentID : Bytes)
    (aet : Byte) (seed : Bytes) (lookup : Nat) (data : Bytes)
    (hdata : (rootAsset C seed).serialize K = .ok data) :
    AssetWallet_Single.initWalletDb K C (AssetWallet.new .Single file) Cypher_AES_fresh parentID
        aet seed lookup =
      match AssetWallet_Single.readFromFile K (AssetWallet.new .Single
          (headerStore K file parentID (C.getWalletID (C.ComputePublicKey seed))
            (DerivationScheme_ArmoryLegacy.serialize K ⟨C.computeChainCode_Armory135 seed⟩)
            aet data)) with
      | .error e => .error e
      | .ok w =>
        match w.extendChain_from K C (.Single (rootAsset C seed)) (effectiveLookup lookup) with
        | (.ok (), w) => .ok w
        | (.error e, _) => .error e := by
  have hdata' : AssetEntry_Single.serialize K (AssetEntry_Single.mk4 C (-1)
      (C.ComputePublicKey seed) seed (some Cypher_AES_fresh)) = .ok data := hdata
  simp only [AssetWallet_Single.initWalletDb, AssetWallet_Single.putHeaderData,
    AssetWallet.putHeaderData, DerivationScheme.serialize, bind_ok_eq, hdata', pure_eq_ok,
    AssetWallet.putData, AssetWallet.new, headerStore, effectiveLookup, rootAsset]
  generalize AssetWallet_Single.readFromFile K _ = r
  cases r with
  | error e => rfl
  | ok w =>
    simp only [bind_ok_eq]
    generalize AssetWallet.extendChain_from K C w _ _ = q
    obtain ⟨q1, q2⟩ := q
    cases q1 <;> rfl

theorem headerKeys_later_ne (K : Constants) (hS : K.KeysSeparate) :
    (put_uint32_t K.WALLETID_KEY ≠ put_uint32_t K.PARENTID_KEY ∧
     put_uint32_t K.DERIVATIONSCHEME_KEY ≠ put_uint32_t K.PARENTID_KEY ∧
     put_uint32_t K.ADDRESSENTRYTYPE_KEY ≠ put_uint32_t K.PARENTID_KEY ∧
     put_uint32_t K.TOPUSEDINDEX_KEY ≠ put_uint32_t K.PARENTID_KEY ∧
     put_uint32_t K.ROOTASSET_KEY ≠ put_uint32_t K.PARENTID_KEY) ∧
    (put_uint32_t K.DERIVATIONSCHEME_KEY ≠ put_uint32_t K.WALLETID_KEY ∧
     put_uint32_t K.ADDRESSENTRYTYPE_KEY ≠ put_uint32_t K.WALLETID_KEY ∧
     put_uint32_t K.TOPUSEDINDEX_KEY ≠ put_uint32_t K.WALLETID_KEY ∧
     put_uint32_t K.ROOTASSET_KEY ≠ put_uint32_t K.WALLETID_KEY) ∧
    (put_uint32_t K.ADDRESSENTRYTYPE_KEY ≠ put_uint32_t K.DERIVATIONSCHEME_KEY ∧
     put_uint32_t K.TOPUSEDINDEX_KEY ≠ put_uint32_t K.DERIVATIONSCHEME_KEY ∧
     put_uint32_t K.ROOTASSET_KEY ≠ put_uint32_t K.DERIVATIONSCHEME_KEY) ∧
    (put_uint32_t K.TOPUSEDINDEX_KEY ≠ put_uint32_t K.ADDRESSENTRYTYPE_KEY ∧
     put_uint32_t K.ROOTASSET_KEY ≠ put_uint32_t K.ADDRESSENTRYTYPE_KEY) ∧
    put_uint32_t K.ROOTASSET_KEY ≠ put_uint32_t K.TOPUSEDINDEX_KEY := by
  have h := hS.1
  simp only [Constants.headerKeys, List.map_cons, List.map_nil, List.nodup_cons,
    List.mem_cons, List.mem_singleton, List.not_mem_nil, not_or, or_false] at h
  obtain ⟨-, ⟨p1, p2, p3, p4, p5⟩, ⟨q1, q2, q3, q4⟩, ⟨r1, r2, r3⟩, ⟨s1, s2⟩, t1, -⟩ := h
  exact ⟨⟨put_uint32_t_ne _ _ (Ne.symm p1), put_uint32_t_ne _ _ (Ne.symm p2),
      put_uint32_t_ne _ _ (Ne.symm p3), put_uint32_t_ne _ _ (Ne.symm p4),
      put_uint32_t_ne _ _ (Ne.symm p5)⟩,
    ⟨put_uint32_t_ne _ _ (Ne.symm q1), put_uint32_t_ne _ _ (Ne.symm q2),
      put_uint32_t_ne _ _ (Ne.symm q3), put_uint32_t_ne _ _ (Ne.symm q4)⟩,
    ⟨put_uint32_t_ne _ _ (Ne.symm r1), put_uint32_t_ne _ _ (Ne.symm r2),
      put_uint32_t_ne _ _ (Ne.symm r3)⟩,
    ⟨put_uint32_t_ne _ _ (Ne.symm s1), put_uint32_t_ne _ _ (Ne.symm s2)⟩,
    put_uint32_t_ne _ _ (Ne.symm t1)⟩

theorem rootAsset_storable (C : Crypto) (hC : C.Bounded) (seed : Bytes)
    (hseed : seed.length < 2 ^ 32) : (rootAsset C seed).Storable := by
  obtain ⟨h1, h2, -⟩ := hC
  refine ⟨by simp [rootAsset, AssetEntry_Single.mk4], by simp [rootAsset, AssetEntry_Single.mk4],
    h1 _, h2 _, hseed, Cypher_AES_fresh, rfl, by simp [Cypher_AES_fresh]⟩

theorem legacy_deserialize_bw (K : Constants) (cc : Bytes) (hcc : cc.length < 2 ^ 64) :
    DerivationScheme.deserialize K (DerivationScheme_ArmoryLegacy.bw K ⟨cc⟩) =
      .ok (.Legacy ⟨cc⟩) := by
  have hg := get_BinaryData_append cc []
  rw [List.append_nil] at hg
  simp [DerivationScheme.deserialize, DerivationScheme_ArmoryLegacy.bw, put_uint8_t,
    get_uint8_t, get_var_int_put _ hcc, hg]

theorem deserDBValue_of_deserialize (K : Constants) (a : AssetEntry_Single) (body : Bytes)
    (i : Int) (h : AssetEntry.deserialize K ((AssetEntry.Single a).getDbKey K) body =
      .ok (.Single a)) (hi : a.index = i) (hlo : -2 ^ 31 ≤ i) (hhi : i < 2 ^ 31) :
    AssetEntry.deserDBValue K i body = .ok (.Single a) := by
  have hk := get_int32_t_put a.index []
  rw [List.append_nil, hi, wrapInt32_of_range _ hlo hhi] at hk
  simp only [AssetEntry.deserialize, getDbKey_cons, AssetEntry.getId, get_uint8_t, bind_ok_eq,
    ne_eq, not_true_eq_false, if_false, hi, hk] at h
  exact h

theorem Readable_headerStore (K : Constants) (hK : K.LabelsDistinct) (hS : K.KeysSeparate)
    (C : Crypto) (hC : C.Bounded) (parentID : Bytes) (hpid : parentID.length < 2 ^ 64)
    (aet : Byte) (seed : Bytes) (hseed : seed.length < 2 ^ 32) :
    ∃ data, (rootAsset C seed).serialize K = .ok data ∧
      Readable K (headerStore K [] parentID (C.getWalletID (C.ComputePublicKey seed))
        (DerivationScheme_ArmoryLegacy.serialize K ⟨C.computeChainCode_Armory135 seed⟩) aet data)
        (rootHeader C parentID aet seed) ∧
      ∀ k, ¬ HasAsset K (headerStore K [] parentID (C.getWalletID (C.ComputePublicKey seed))
        (DerivationScheme_ArmoryLegacy.serialize K ⟨C.computeChainCode_Armory135 seed⟩) aet data)
        k := by
  have hroot := rootAsset_storable C hC seed hseed
  obtain ⟨rbody, hser, hrlen, hrdec⟩ := serialize_decode K hK (rootAsset C seed) hroot
  have hwid : (C.getWalletID (C.ComputePublicKey seed)).length < 2 ^ 32 := hC.2.2.2.2.1 _
  have hcc : (C.computeChainCode_Armory135 seed).length < 2 ^ 32 := hC.2.2.2.2.2 _
  have hbw : (DerivationScheme_ArmoryLegacy.bw K ⟨C.computeChainCode_Armory135 seed⟩).length
      < 2 ^ 64 := by
    have := put_var_int_length_le (C.computeChainCode_Armory135 seed).length
    simp only [DerivationScheme_ArmoryLegacy.bw, put_uint8_t, List.length_append,
      List.length_cons, List.length_nil]
    omega
  have hmem : ∀ k ∈ K.headerKeys, k % 256 ≠ K.ASSETENTRY_PREFIX.val := hS.2
  simp only [Constants.headerKeys, List.mem_cons, List.mem_singleton, List.not_mem_nil,
    or_false, forall_eq_or_imp, forall_eq] at hmem
  obtain ⟨m1, m2, m3, m4, m5, m6, m7⟩ := hmem
  obtain ⟨⟨a1, a2, a3, a4, a5⟩, ⟨b1, b2, b3, b4⟩, ⟨c1, c2, c3⟩, ⟨d1, d2⟩, e1⟩ :=
    headerKeys_later_ne K hS
  have r1 : IsHeaderRecord K (put_uint32_t K.WALLETTYPE_KEY,
      put_var_int 1 ++ put_uint8_t K.WALLETTYPE_SINGLE) :=
    IsHeaderRecord_mk K _ [K.WALLETTYPE_SINGLE] m1 (by simp)
  have r2 : IsHeaderRecord K (put_uint32_t K.PARENTID_KEY,
      put_var_int parentID.length ++ parentID) := IsHeaderRecord_mk K _ parentID m2 hpid
  have r3 : IsHeaderRecord K (put_uint32_t K.WALLETID_KEY,
      put_var_int (C.getWalletID (C.ComputePublicKey seed)).length ++
        C.getWalletID (C.ComputePublicKey seed)) := IsHeaderRecord_mk K _ _ m3 (by omega)
  have r4 : IsHeaderRecord K (put_uint32_t K.DERIVATIONSCHEME_KEY,
      DerivationScheme_ArmoryLegacy.serialize K ⟨C.computeChainCode_Armory135 seed⟩) :=
    IsHeaderRecord_mk K _ (DerivationScheme_ArmoryLegacy.bw K
      ⟨C.computeChainCode_Armory135 seed⟩) m4 hbw
  have r5 : IsHeaderRecord K (put_uint32_t K.ADDRESSENTRYTYPE_KEY,
      put_var_int 1 ++ put_uint8_t aet) := IsHeaderRecord_mk K _ [aet] m5 (by simp)
  have r6 : IsHeaderRecord K (put_uint32_t K.TOPUSEDINDEX_KEY,
      put_var_int 4 ++ put_int32_t 0) := by
    have := IsHeaderRecord_mk K K.TOPUSEDINDEX_KEY (put_int32_t 0) m6
      (by rw [put_int32_t_length]; omega)
    simpa only [frame, put_int32_t_length] using this
  have r7 : IsHeaderRecord K (put_uint32_t K.ROOTASSET_KEY, frame rbody) :=
    IsHeaderRecord_mk K _ rbody m7 hrlen
  have hall : ∀ e ∈ headerStore K [] parentID (C.getWalletID (C.ComputePublicKey seed))
      (DerivationScheme_ArmoryLegacy.serialize K ⟨C.computeChainCode_Armory135 seed⟩) aet
      (frame rbody), IsHeaderRecord K e := by
    intro e he
    unfold headerStore at he
    rcases Store.mem_of_mem_insert _ _ _ e he with he | he
    · rw [he]; exact r7
    rcases Store.mem_of_mem_insert _ _ _ e he with he | he
    · rw [he]; exact r6
    rcases Store.mem_of_mem_insert _ _ _ e he with he | he
    · rw [he]; exact r5
    rcases Store.mem_of_mem_insert _ _ _ e he with he | he
    · rw [he]; exact r4
    rcases Store.mem_of_mem_insert _ _ _ e he with he | he
    · rw [he]; exact r3
    rcases Store.mem_of_mem_insert _ _ _ e he with he | he
    · rw [he]; exact r2
    rcases Store.mem_of_mem_insert _ _ _ e he with he | he
    · rw [he]; exact r1
    · cases he
  refine ⟨frame rbody, hser, ⟨⟨?_, fun e he => Or.inl (hall e he)⟩, ?_, ?_, ?_, ?_, ?_, ?_⟩, ?_⟩
  · unfold headerStore
    exact Store.insert_sorted _ _ _ (Store.insert_sorted _ _ _ (Store.insert_sorted _ _ _
      (Store.insert_sorted _ _ _ (Store.insert_sorted _ _ _ (Store.insert_sorted _ _ _
      (Store.insert_sorted _ _ _ List.Pairwise.nil))))))
  · refine ⟨?_, hpid⟩
    simp only [headerStore, Store.get_NoCopy_insert, if_neg a1, if_neg a2, if_neg a3, if_neg a4,
      if_neg a5, if_true, rootHeader, frame]
  · refine ⟨?_, by simp only [rootHeader]; omega⟩
    simp only [headerStore, Store.get_NoCopy_insert, if_neg b1, if_neg b2, if_neg b3, if_neg b4,
      if_true, rootHeader, frame]
  · refine ⟨_, ?_, hbw, legacy_deserialize_bw K _ (by omega)⟩
    simp only [headerStore, Store.get_NoCopy_insert, if_neg c1, if_neg c2, if_neg c3, if_true,
      DerivationScheme_ArmoryLegacy.serialize, frame]
  · simp only [headerStore, Store.get_NoCopy_insert, if_neg d1, if_neg d2, if_true, rootHeader,
      frame, put_uint8_t, List.length_singleton]
  · refine ⟨?_, by simp [rootHeader], by simp [rootHeader]⟩
    simp only [headerStore, Store.get_NoCopy_insert, if_neg e1, if_true, rootHeader, frame,
      put_int32_t_length]
  · refine ⟨rbody, ?_, hrlen, deserDBValue_of_deserialize K _ rbody (-1) hrdec rfl (by omega)
      (by omega)⟩
    simp only [headerStore, Store.get_NoCopy_insert, if_true]
  · rintro k ⟨e, he, a, ha, -⟩
    obtain ⟨⟨b, rest, hk, hb⟩, -⟩ := hall e he
    have := ha.2.1
    rw [hk, getDbKey_cons] at this
    simp only [List.cons.injEq] at this
    exact hb this.1

theorem extendChain_from_spec (K : Constants) (hK : K.LabelsDistinct) (hS : K.KeysSeparate)
    (C : Crypto) (hC : C.Bounded) (w : AssetWallet) (h : HeaderData) (hw : WalletInv K w h)
    (sch : DerivationScheme_ArmoryLegacy) (hsch : h.derScheme = .Legacy sch)
    (a : AssetEntry_Single) (ha : ∃ c, a.privkey.cypher = some c) (n : Nat) :
    ∃ w', w.extendChain_from K C (.Single a) n = (.ok (), w') ∧ WalletInv K w' h ∧
      w'.addresses = w.addresses ∧
      ∀ k, k ∈ w'.assets.map Prod.fst ↔ k ∈ w.assets.map Prod.fst ∨
        k ∈ (List.range n).map (fun j : Nat => wrapInt32 (a.index + 1 + Int.ofNat j)) := by
  obtain ⟨hr, hm, hsync, hmx, htop, hder, haet, hroot, hkind⟩ := hw
  obtain ⟨vec, hvec, hall, hids⟩ := extendChain_legacy_spec C hC sch a n ha
  obtain ⟨db', assets', hins, hr', hm', hsync', hkeys⟩ :=
    insertAssets_spec K hK hS h vec { w with walletMutex := true } hall hr hm hsync
  have hsx : AssetWallet.schemeExtendChain C { w with walletMutex := true } (.Single a) n
      = .ok vec := by
    simp only [AssetWallet.schemeExtendChain, hder, hsch]
    exact hvec
  refine ⟨{ w with db := db', assets := assets' }, ?_, ⟨hr', hm', hsync', hmx, htop, hder, haet,
    hroot, hkind⟩, rfl, ?_⟩
  · unfold AssetWallet.extendChain_from
    rw [hmx]
    simp only [Bool.false_eq_true, if_false, hsx, hins]
  · intro k
    rw [hkeys k, hids]

theorem keys_eq_nil_of_no_asset (m : List (Int × AssetEntry))
    (h : ∀ k, ¬ k ∈ m.map Prod.fst) : m = [] := by
  cases m with
  | nil => rfl
  | cons e r => exact absurd (List.mem_cons_self _ _) (h e.1)

/-- What `createFromPrivateRoot_Armory135` on a new file returns: a wallet in step with its
store, with the default address type asked for, counter 0, no cached address, and assets
under exactly the indices `wrapInt32 0, ..., wrapInt32 (n - 1)` for the effective lookup
`n`. -/
theorem create_spec (K : Constants) (hK : K.LabelsDistinct) (hS : K.KeysSeparate) (C : Crypto)
    (hC : C.Bounded) (aet : Byte) (seed : Bytes) (hseed : seed.length < 2 ^ 32) (lookup : Nat) :
    ∃ w, AssetWallet_Single.createFromPrivateRoot_Armory135 K C [] aet seed lookup = .ok w ∧
      WalletInv K w (rootHeader C (C.getWalletID (C.ComputePublicKey seed)) aet seed) ∧
      w.addresses = [] ∧
      ∀ k, k ∈ w.assets.map Prod.fst ↔
        k ∈ (List.range (effectiveLookup lookup)).map (fun j : Nat => wrapInt32 (Int.ofNat j)) := by
  have hwid : (C.getWalletID (C.ComputePublicKey seed)).length < 2 ^ 32 := hC.2.2.2.2.1 _
  obtain ⟨data, hdata, hread, hno⟩ := Readable_headerStore K hK hS C hC
    (C.getWalletID (C.ComputePublicKey seed)) (by omega) aet seed hseed
  obtain ⟨w2, hw2, hdb, hkind, hmx, -, -, hder, haet, htop, hroot, haddr, hmok, hkeys⟩ :=
    readFromFile_of_Readable K hK .Single _ _ hread
  have hempty : w2.assets = [] := keys_eq_nil_of_no_asset _ (fun k hk => hno k ((hkeys k).mp hk))
  have hinv : WalletInv K w2 (rootHeader C (C.getWalletID (C.ComputePublicKey seed)) aet seed) :=
    ⟨by rw [hdb]; exact hread, hmok, by rw [hdb]; exact hkeys, hmx, htop, hder, haet, hroot,
      hkind⟩
  obtain ⟨w3, hw3, hinv3, haddr3, hkeys3⟩ := extendChain_from_spec K hK hS C hC w2 _ hinv
    ⟨C.computeChainCode_Armory135 seed⟩ rfl (rootAsset C seed) ⟨Cypher_AES_fresh, rfl⟩
    (effectiveLookup lookup)
  refine ⟨w3, ?_, hinv3, by rw [haddr3, haddr], ?_⟩
  · unfold AssetWallet_Single.createFromPrivateRoot_Armory135
    simp only
    rw [initWalletDb_unfold K C [] _ aet seed lookup data hdata, hw2]
    simp only [hw3]
  · intro k
    rw [hkeys3 k, hempty]
    simp only [List.map_nil, List.not_mem_nil, false_or, List.mem_map, List.mem_range]
    constructor
    · rintro ⟨j, hj, rfl⟩
      refine ⟨j, hj, ?_⟩
      congr 1
      simp [rootAsset, AssetEntry_Single.mk4]
    · rintro ⟨j, hj, rfl⟩
      refine ⟨j, hj, ?_⟩
      congr 1
      simp [rootAsset, AssetEntry_Single.mk4]

/-- Opening the store of a wallet that is in step with it: `readFromFile` on a new wallet
object succeeds and restores the header fields, the root asset and an asset map with the
same indices. -/
theorem reopen_spec (K : Constants) (hK : K.LabelsDistinct) (w : AssetWallet) (h : HeaderData)
    (hw : WalletInv K w h) :
    ∃ w', AssetWallet_Single.readFromFile K (AssetWallet.new .Single w.db) = .ok w' ∧
      WalletInv K w' h ∧ w'.assets.map Prod.fst = w.assets.map Prod.fst := by
  obtain ⟨hr, hm, hsync, hmx, htop, hder, haet, hroot, hkind⟩ := hw
  obtain ⟨w2, hw2, hdb, hkind2, hmx2, -, -, hder2, haet2, htop2, hroot2, -, hmok2, hkeys2⟩ :=
    readFromFile_of_Readable K hK .Single _ _ hr
  refine ⟨w2, hw2, ⟨by rw [hdb]; exact hr, hmok2, by rw [hdb]; exact hkeys2, hmx2, htop2, hder2,
    haet2, hroot2, hkind2⟩, ?_⟩
  exact sorted_keys_ext _ _ hmok2.1 hm.1 (fun k => by rw [hkeys2 k, hsync k])

theorem sampleCrypto_bounded : sampleCrypto.Bounded := by
  refine ⟨?_, ?_, ?_, ?_, ?_, ?_⟩
  · intro d; simp only [sampleCrypto, List.length_cons, List.length_take]; omega
  · intro d; simp only [sampleCrypto, List.length_cons, List.length_take]; omega
  · intro p c; simp only [sampleCrypto, List.length_cons, List.length_take]; omega
  · intro s c p k h
    simp only [sampleCrypto, KeyOutcome.key.injEq] at h
    rw [← h]; simp only [List.length_take]; omega
  · intro d; simp only [sampleCrypto, List.length_take]; omega
  · intro d; simp only [sampleCrypto, List.length_take]; omega

theorem effectiveLookup_le (lookup : Nat) (h : lookup ≤ 2 ^ 31 ∨ lookup = UINT32_MAX) :
    effectiveLookup lookup ≤ 2 ^ 31 := by
  unfold effectiveLookup DERIVATION_LOOKUP
  split
  · omega
  · rcases h with h | h
    · exact h
    · contradiction

theorem range_ofNat_sorted (n : Nat) :
    ((List.range n).map Int.ofNat).Pairwise (fun a b => a < b) := by
  rw [List.pairwise_map]
  exact (List.pairwise_lt_range n).imp (fun h => by simpa using h)

/-- C4 (as the code has it): for every seed (shorter than 2^32 bytes) and every lookup `k` up
to 2^31, creating a single wallet on a new file succeeds, and `readFromFile` on a new wallet
object over the same store succeeds and gives an asset map with exactly the indices
`0 .. k-1`, each entry under its own index, and the root asset with index -1; for the
sentinel `k = UINT32_MAX` the indices are `0 .. 99`. -/
theorem create_then_readFromFile (K : Constants) (hK : K.LabelsDistinct) (hS : K.KeysSeparate)
    (C : Crypto) (hC : C.Bounded) (aet : Byte) (seed : Bytes) (hseed : seed.length < 2 ^ 32)
    (lookup : Nat) (hl : lookup ≤ 2 ^ 31 ∨ lookup = UINT32_MAX) :
    ∃ w w', AssetWallet_Single.createFromPrivateRoot_Armory135 K C [] aet seed lookup = .ok w ∧
      AssetWallet_Single.readFromFile K (AssetWallet.new .Single w.db) = .ok w' ∧
      w'.assets.map Prod.fst =
        (List.range (if lookup = UINT32_MAX then DERIVATION_LOOKUP else lookup)).map Int.ofNat ∧
      (∀ e ∈ w'.assets, e.2.getId = e.1) ∧
      ∃ r, w'.root = some (.Single r) ∧ r.index = -1 := by
  have hn := effectiveLookup_le lookup hl
  obtain ⟨w, hw, hinv, -, hkeys⟩ := create_spec K hK hS C hC aet seed hseed lookup
  obtain ⟨w', hw', hinv', hk'⟩ := reopen_spec K hK w _ hinv
  refine ⟨w, w', hw, hw', ?_, hinv'.2.1.2, _, hinv'.2.2.2.2.2.2.2.1, rfl⟩
  rw [hk']
  apply sorted_keys_ext _ _ hinv.2.1.1 (range_ofNat_sorted _)
  intro k
  rw [hkeys k]
  simp only [List.mem_map, List.mem_range]
  constructor
  · rintro ⟨j, hj, rfl⟩
    refine ⟨j, hj, ?_⟩
    have hj' : j < effectiveLookup lookup := hj
    exact (wrapInt32_of_range _ (by simp only [Int.ofNat_eq_coe]; omega)
      (by simp only [Int.ofNat_eq_coe]; omega)).symm
  · rintro ⟨j, hj, rfl⟩
    refine ⟨j, hj, ?_⟩
    have hj' : j < effectiveLookup lookup := hj
    exact wrapInt32_of_range _ (by simp only [Int.ofNat_eq_coe]; omega)
      (by simp only [Int.ofNat_eq_coe]; omega)

/-- Scenario S1: the seed of 32 bytes `0x11` with lookup 5 meets the conditions; the reopened
wallet holds the indices 0..4 and the root. -/
theorem create_then_readFromFile_witness :
    ∃ w w', AssetWallet_Single.createFromPrivateRoot_Armory135 sampleConstants sampleCrypto []
        sampleConstants.AddressEntryType_P2PKH sampleSeed 5 = .ok w ∧
      AssetWallet_Single.readFromFile sampleConstants (AssetWallet.new .Single w.db) = .ok w' ∧
      w'.assets.map Prod.fst =
        (List.range (if 5 = UINT32_MAX then DERIVATION_LOOKUP else 5)).map Int.ofNat ∧
      (∀ e ∈ w'.assets, e.2.getId = e.1) ∧
      ∃ r, w'.root = some (.Single r) ∧ r.index = -1 :=
  create_then_readFromFile sampleConstants (by decide) (by decide) sampleCrypto
    sampleCrypto_bounded sampleConstants.AddressEntryType_P2PKH sampleSeed (by decide) 5
    (Or.inl (by decide))

/-- C4 fails as stated for a lookup above 2^31: with lookup 2^31 + 1 (not the sentinel) the
wallet is created and reopened, but the index after 2^31 - 1 does not fit the `int` index:
the reopened map holds an asset under -2^31, so its indices are not `0 .. k-1`. -/
theorem create_lookup_beyond_int_range :
    ∃ w w', AssetWallet_Single.createFromPrivateRoot_Armory135 sampleConstants sampleCrypto []
        sampleConstants.AddressEntryType_P2PKH sampleSeed (2 ^ 31 + 1) = .ok w ∧
      AssetWallet_Single.readFromFile sampleConstants (AssetWallet.new .Single w.db) = .ok w' ∧
      (-2147483648 : Int) ∈ w'.assets.map Prod.fst ∧
      w'.assets.map Prod.fst ≠ (List.range (2 ^ 31 + 1)).map Int.ofNat := by
  obtain ⟨w, hw, hinv, -, hkeys⟩ := create_spec sampleConstants (by decide) (by decide)
    sampleCrypto sampleCrypto_bounded sampleConstants.AddressEntryType_P2PKH sampleSeed
    (by decide) (2 ^ 31 + 1)
  obtain ⟨w', hw', hinv', hk'⟩ := reopen_spec sampleConstants (by decide) w _ hinv
  have hmem : (-2147483648 : Int) ∈ w'.assets.map Prod.fst := by
    rw [hk', hkeys]
    simp only [List.mem_map, List.mem_range]
    refine ⟨2 ^ 31, ?_, ?_⟩
    · have he : effectiveLookup (2 ^ 31 + 1) = 2 ^ 31 + 1 := by
        unfold effectiveLookup UINT32_MAX
        exact if_neg (by omega)
      rw [he]; omega
    · simp only [wrapInt32, int32_of_uint32, uint32_of_int32, Int.ofNat_eq_coe]
      omega
  refine ⟨w, w', hw, hw', hmem, ?_⟩
  intro e
  rw [e] at hmem
  simp only [List.mem_map] at hmem
  obtain ⟨j, -, hj⟩ := hmem
  simp only [Int.ofNat_eq_coe] at hj
  omega

/-! ## The persisted counter -/

theorem extendChain_held (K : Constants) (C : Crypto) (w : AssetWallet) (n : Nat)
    (h : w.walletMutex = true) : ∃ e, w.extendChain K C n = (.error e, w) := by
  unfold AssetWallet.extendChain
  cases w.assets.getLast? with
  | none => exact ⟨_, rfl⟩
  | some p => simp only [h, if_true]; exact ⟨_, rfl⟩

theorem getNewAddress_locked_frame (K : Constants) (C : Crypto) (w : AssetWallet) (index : Nat)
    (h : w.walletMutex = true) :
    ∃ r addrs, AssetWallet.getNewAddress_locked K C w index = (r, { w with addresses := addrs }) := by
  unfold AssetWallet.getNewAddress_locked
  cases mapFind (int32_of_uint32 index) w.addresses with
  | some addr => exact ⟨_, w.addresses, rfl⟩
  | none =>
    simp only
    cases mapFind (int32_of_uint32 index) w.assets with
    | some asset =>
      simp only
      cases w.getAddressEntryForAsset K asset w.default_aet with
      | error e => exact ⟨_, w.addresses, rfl⟩
      | ok ae => exact ⟨_, _, rfl⟩
    | none =>
      simp only
      by_cases hl : w.assets.length = 0
      · simp only [hl, if_true]; exact ⟨_, w.addresses, rfl⟩
      · obtain ⟨e, he⟩ := extendChain_held K C w DERIVATION_LOOKUP h
        simp only [hl, if_false, he]
        exact ⟨_, w.addresses, rfl⟩

theorem HasAsset_insert_header (K : Constants) (db : Store) (key : Nat) (v : Bytes)
    (hk : key % 256 ≠ K.ASSETENTRY_PREFIX.val) (k : Int) :
    HasAsset K (db.insert (put_uint32_t key) v) k ↔ HasAsset K db k := by
  constructor
  · rintro ⟨e, he, a, ha, hi⟩
    rcases Store.mem_of_mem_insert _ _ db e he with he | he
    · exfalso
      have := ha.2.1
      rw [he] at this
      exact headerKey_ne_assetKey K key (.Single a) hk this.symm
    · exact ⟨e, he, a, ha, hi⟩
  · rintro ⟨e, he, a, ha, hi⟩
    refine ⟨e, Store.mem_insert_of_ne _ _ db e he ?_, a, ha, hi⟩
    rw [ha.2.1]
    exact headerKey_ne_assetKey K key (.Single a) hk

/-- Every `getNewAddress` call, whether it returns an address or fails, leaves a wallet that
is in step with its store, with the counter raised by one in memory and in the store. -/
theorem getNewAddress_inv (K : Constants) (hS : K.KeysSeparate) (C : Crypto) (w : AssetWallet)
    (h : HeaderData) (hw : WalletInv K w h) :
    WalletInv K (w.getNewAddress K C).2 { h with top := wrapInt32 (h.top + 1) } ∧
    (w.getNewAddress K C).2.assets = w.assets := by
  obtain ⟨hr, hm, hsync, hmx, htop, hder, haet, hroot, hkind⟩ := hw
  have hk : K.TOPUSEDINDEX_KEY % 256 ≠ K.ASSETENTRY_PREFIX.val :=
    hS.2 _ (by simp [Constants.headerKeys])
  obtain ⟨r, addrs, hl⟩ := getNewAddress_locked_frame K C
    { w with highestUsedAddressIndex := wrapInt32 (w.highestUsedAddressIndex + 1),
             db := w.db.insert (put_uint32_t K.TOPUSEDINDEX_KEY)
               (put_var_int 4 ++ put_int32_t (wrapInt32 (w.highestUsedAddressIndex + 1))),
             walletMutex := true } (uint32_of_int32 w.highestUsedAddressIndex) rfl
  have hstep : w.getNewAddress K C = (r,
      { w with highestUsedAddressIndex := wrapInt32 (w.highestUsedAddressIndex + 1),
               db := w.db.insert (put_uint32_t K.TOPUSEDINDEX_KEY)
                 (put_var_int 4 ++ put_int32_t (wrapInt32 (w.highestUsedAddressIndex + 1))),
               walletMutex := false, addresses := addrs }) := by
    unfold AssetWallet.getNewAddress AssetWallet.getAndBumpHighestUsedIndex
    simp only [AssetWallet.putData, hmx, Bool.false_eq_true, if_false, hl]
  rw [hstep]
  refine ⟨⟨?_, hm, ?_, rfl, ?_, hder, haet, hroot, hkind⟩, rfl⟩
  · simp only [htop]
    exact Readable_insert_top K hS w.db h _ (wrapInt32_range _).1 (wrapInt32_range _).2 hr
  · intro k
    simp only
    rw [HasAsset_insert_header K w.db _ _ hk k]
    exact hsync k
  · simp only [htop]

theorem getNewAddresses_inv (K : Constants) (hS : K.KeysSeparate) (C : Crypto) (n : Nat)
    (w : AssetWallet) (h : HeaderData) (hw : WalletInv K w h) :
    WalletInv K (w.getNewAddresses K C n).2
      { h with top := wrapInt32 (h.top + Int.ofNat n) } := by
  induction n generalizing w h with
  | zero =>
    obtain ⟨hr, hm, hsync, hmx, htop, hder, haet, hroot, hkind⟩ := hw
    have e : wrapInt32 (h.top + Int.ofNat 0) = h.top := by
      simp only [Int.ofNat_eq_coe, Nat.cast_zero, Int.add_zero]
      exact wrapInt32_of_range _ hr.2.2.2.2.2.1.2.1 hr.2.2.2.2.2.1.2.2
    simp only [AssetWallet.getNewAddresses, e]
    exact ⟨hr, hm, hsync, hmx, htop, hder, haet, hroot, hkind⟩
  | succ n ih =>
    have h1 := (getNewAddress_inv K hS C w h hw).1
    have h2 := ih (w.getNewAddress K C).2 _ h1
    simp only [AssetWallet.getNewAddresses]
    have e : wrapInt32 (wrapInt32 (h.top + 1) + Int.ofNat n) =
        wrapInt32 (h.top + Int.ofNat (n + 1)) := by
      rw [wrapInt32_add]
      congr 1
      simp only [Int.ofNat_eq_coe]
      push_cast
      omega
    simp only [e] at h2
    exact h2

/-- C6: on a wallet freshly created on a new file (any lookup), after `N < 2^31` calls of
`getNewAddress`, whatever their results, the value stored under `TOPUSEDINDEX_KEY` is
`var_int(4)` followed by the little-endian `int32` encoding of `N`, and `readFromFile` on
that store succeeds and restores the counter to `N`. -/
theorem topUsedIndex_persisted (K : Constants) (hK : K.LabelsDistinct) (hS : K.KeysSeparate)
    (C : Crypto) (hC : C.Bounded) (aet : Byte) (seed : Bytes) (hseed : seed.length < 2 ^ 32)
    (lookup N : Nat) (hN : N < 2 ^ 31) :
    ∃ w w', AssetWallet_Single.createFromPrivateRoot_Armory135 K C [] aet seed lookup = .ok w ∧
      w.highestUsedAddressIndex = 0 ∧
      (w.getNewAddresses K C N).2.db.get_NoCopy (put_uint32_t K.TOPUSEDINDEX_KEY) =
        some (put_var_int 4 ++ put_int32_t (Int.ofNat N)) ∧
      AssetWallet_Single.readFromFile K
        (AssetWallet.new .Single (w.getNewAddresses K C N).2.db) = .ok w' ∧
      w'.highestUsedAddressIndex = Int.ofNat N := by
  obtain ⟨w, hw, hinv, -, -⟩ := create_spec K hK hS C hC aet seed hseed lookup
  have hN' := getNewAddresses_inv K hS C N w _ hinv
  have e : wrapInt32 ((rootHeader C (C.getWalletID (C.ComputePublicKey seed)) aet seed).top +
      Int.ofNat N) = Int.ofNat N := by
    simp only [rootHeader, Int.zero_add]
    exact wrapInt32_of_range _ (by simp only [Int.ofNat_eq_coe]; omega)
      (by simp only [Int.ofNat_eq_coe]; omega)
  rw [e] at hN'
  obtain ⟨w', hw', hinv', -⟩ := reopen_spec K hK _ _ hN'
  refine ⟨w, w', hw, hinv.2.2.2.2.1, ?_, hw', hinv'.2.2.2.2.1⟩
  have := hN'.1.2.2.2.2.2.1.1
  simpa only [frame, put_int32_t_length] using this

/-- Scenario S2 and beyond: on the wallet of seed `0x11`×32 and lookup 5, seven calls (the
last two fail) leave the counter 7 in the store. -/
theorem topUsedIndex_persisted_witness :
    ∃ w w', AssetWallet_Single.createFromPrivateRoot_Armory135 sampleConstants sampleCrypto []
        sampleConstants.AddressEntryType_P2PKH sampleSeed 5 = .ok w ∧
      w.highestUsedAddressIndex = 0 ∧
      (w.getNewAddresses sampleConstants sampleCrypto 7).2.db.get_NoCopy
          (put_uint32_t sampleConstants.TOPUSEDINDEX_KEY) =
        some (put_var_int 4 ++ put_int32_t (Int.ofNat 7)) ∧
      AssetWallet_Single.readFromFile sampleConstants
        (AssetWallet.new .Single (w.getNewAddresses sampleConstants sampleCrypto 7).2.db)
          = .ok w' ∧
      w'.highestUsedAddressIndex = Int.ofNat 7 :=
  topUsedIndex_persisted sampleConstants (by decide) (by decide) sampleCrypto
    sampleCrypto_bounded sampleConstants.AddressEntryType_P2PKH sampleSeed (by decide) 5 7
    (by decide)

/-! ## The multisig redeem script -/

theorem putPubKeys_singles (subs : List (Bytes × AssetEntry_Single))
    (hkeys : ∀ e ∈ subs, e.2.pubkey.compressed.length = 33) :
    AssetEntry_Multisig.putPubKeys (subs.map (fun e => (e.1, some e.2))) =
      .ok ((subs.map (fun e => (0x21 : Byte) :: e.2.pubkey.compressed)).flatten) := by
  induction subs with
  | nil => rfl
  | cons e rest ih =>
    have h1 := hkeys e (List.mem_cons_self _ _)
    have h2 := ih (fun x hx => hkeys x (List.mem_cons_of_mem _ hx))
    simp only [List.map_cons, AssetEntry_Multisig.putPubKeys, h1, ne_eq, not_true_eq_false,
      if_false, h2, List.flatten_cons, put_uint8_t]
    rfl

theorem pushes_length (subs : List (Bytes × AssetEntry_Single))
    (hkeys : ∀ e ∈ subs, e.2.pubkey.compressed.length = 33) :
    ((subs.map (fun e => (0x21 : Byte) :: e.2.pubkey.compressed)).flatten).length =
      34 * subs.length := by
  induction subs with
  | nil => rfl
  | cons e rest ih =>
    have h1 := hkeys e (List.mem_cons_self _ _)
    have h2 := ih (fun x hx => hkeys x (List.mem_cons_of_mem _ hx))
    simp only [List.map_cons, List.flatten_cons, List.length_append, List.length_cons, h1, h2]
    omega

/-- What `getScript` returns when the range checks pass: for an asset whose sub-assets are
single assets with 33-byte compressed keys, and `M`, `N` with `M ≤ N ≤ 16` (zero included), the
script is `0x50 + M`, the pushes of the keys in map order, `0x50 + N`, `OP_CHECKMULTISIG`.
The number of sub-assets plays no part. -/
theorem getScript_of_range (K : Constants) (hop : K.StandardOpcodes) (a : AssetEntry_Multisig)
    (subs : List (Bytes × AssetEntry_Single))
    (hmap : a.assetMap = subs.map (fun e => (e.1, some e.2)))
    (hkeys : ∀ e ∈ subs, e.2.pubkey.compressed.length = 33)
    (hMN : a.m ≤ a.n) (hN : a.n ≤ 16) :
    a.getScript K = .ok (byteOfNat (0x50 + a.m) ::
      ((subs.map (fun e => (0x21 : Byte) :: e.2.pubkey.compressed)).flatten ++
        [byteOfNat (0x50 + a.n), K.OP_CHECKMULTISIG])) := by
  obtain ⟨h1, h16⟩ := hop
  have em : (a.m + K.OP_1 + (2 ^ 32 - 1)) % 2 ^ 32 = 0x50 + a.m := by rw [h1]; omega
  have en : (a.n + K.OP_1 + (2 ^ 32 - 1)) % 2 ^ 32 = 0x50 + a.n := by rw [h1]; omega
  have c1 : ¬ (0x50 + a.m > K.OP_16) := by rw [h16]; omega
  have c2 : ¬ (0x50 + a.n > K.OP_16 ∨ 0x50 + a.n < 0x50 + a.m) := by rw [h16]; omega
  simp only [AssetEntry_Multisig.getScript, em, en, if_neg c1, if_neg c2, hmap,
    putPubKeys_singles subs hkeys, put_uint8_t, List.singleton_append, List.cons_append,
    List.append_assoc, List.nil_append]

theorem split_of_sorted (subs : List (Bytes × AssetEntry_Single))
    (hsorted : subs.Pairwise (fun x y => bytesLt x.1 y.1 = true))
    (e e' : Bytes × AssetEntry_Single) (he : e ∈ subs) (he' : e' ∈ subs)
    (hlt : bytesLt e.1 e'.1 = true) :
    ∃ l1 l2 l3, subs = l1 ++ e :: (l2 ++ e' :: l3) := by
  induction subs with
  | nil => cases he
  | cons x rest ih =>
    rw [List.pairwise_cons] at hsorted
    rcases List.mem_cons.mp he with h1 | h1
    · rcases List.mem_cons.mp he' with h2 | h2
      · rw [h1, h2, bytesLt_irrefl] at hlt
        cases hlt
      · obtain ⟨l2, l3, h3⟩ := List.append_of_mem h2
        exact ⟨[], l2, l3, by rw [h1, h3]; rfl⟩
    · rcases List.mem_cons.mp he' with h2 | h2
      · have h3 := hsorted.1 e h1
        rw [← h2, bytesLt_asymm _ _ hlt] at h3
        cases h3
      · obtain ⟨l1, l2, l3, h3⟩ := ih hsorted.2 h1 h2
        exact ⟨x :: l1, l2, l3, by rw [h3]; rfl⟩

/-- C11: for a Multisig asset with `1 ≤ M ≤ N ≤ 16` that holds `N` Single sub-assets with
33-byte compressed public keys (in a `std::map`, hence in ascending order of sub-wallet id),
`getScript` returns the byte `0x50 + M`, which is `OP_M`, then for each sub-asset the byte
`0x21` followed by its compressed public key, then the byte `0x50 + N`, which is `OP_N`, then
`OP_CHECKMULTISIG`; the key of a sub-wallet with a smaller id stands before the key of one
with a larger id, and the script is `3 + 34 * N` bytes long. -/
theorem AssetEntry_Multisig_getScript_layout (K : Constants) (hop : K.StandardOpcodes)
    (a : AssetEntry_Multisig) (subs : List (Bytes × AssetEntry_Single))
    (hmap : a.assetMap = subs.map (fun e => (e.1, some e.2)))
    (hsorted : subs.Pairwise (fun x y => bytesLt x.1 y.1 = true))
    (hcount : subs.length = a.n)
    (hkeys : ∀ e ∈ subs, e.2.pubkey.compressed.length = 33)
    (hM : 1 ≤ a.m) (hMN : a.m ≤ a.n) (hN : a.n ≤ 16) :
    ∃ script, a.getScript K = .ok script ∧
      script = byteOfNat (0x50 + a.m) ::
        ((subs.map (fun e => (0x21 : Byte) :: e.2.pubkey.compressed)).flatten ++
          [byteOfNat (0x50 + a.n), K.OP_CHECKMULTISIG]) ∧
      (byteOfNat (0x50 + a.m)).val = K.OP_1 + (a.m - 1) ∧
      (byteOfNat (0x50 + a.n)).val = K.OP_1 + (a.n - 1) ∧
      (∀ e ∈ subs, ∀ e' ∈ subs, bytesLt e.1 e'.1 = true →
        ∃ front mid back, script = front ++ ((0x21 : Byte) :: e.2.pubkey.compressed) ++ mid ++
          ((0x21 : Byte) :: e'.2.pubkey.compressed) ++ back) ∧
      script.length = 3 + 34 * a.n := by
  refine ⟨_, getScript_of_range K hop a subs hmap hkeys hMN hN, rfl, ?_, ?_, ?_, ?_⟩
  · simp only [byteOfNat, hop.1]; omega
  · simp only [byteOfNat, hop.1]; omega
  · intro e he e' he' hlt
    obtain ⟨l1, l2, l3, hs⟩ := split_of_sorted subs hsorted e e' he he' hlt
    refine ⟨byteOfNat (0x50 + a.m) ::
        (l1.map (fun e => (0x21 : Byte) :: e.2.pubkey.compressed)).flatten,
      (l2.map (fun e => (0x21 : Byte) :: e.2.pubkey.compressed)).flatten,
      (l3.map (fun e => (0x21 : Byte) :: e.2.pubkey.compressed)).flatten ++
        [byteOfNat (0x50 + a.n), K.OP_CHECKMULTISIG], ?_⟩
    rw [hs]
    simp only [List.map_append, List.map_cons, List.flatten_append, List.flatten_cons,
      List.append_assoc, List.cons_append]
  · simp only [List.length_cons, List.length_append, pushes_length subs hkeys, hcount,
      List.length_nil]
    omega

/-- Scenario S4: the 2-of-3 asset over the sub-wallets `[1]`, `[2]`, `[3]` meets the
conditions; its script has `3 + 34 * 3 = 105` bytes. -/
theorem AssetEntry_Multisig_getScript_layout_witness :
    ∃ script, sampleMultisigAsset.getScript sampleConstants = .ok script ∧
      script = byteOfNat (0x50 + sampleMultisigAsset.m) ::
        (([(([1] : Bytes), sampleSubAsset 0x21), ([2], sampleSubAsset 0x22),
            ([3], sampleSubAsset 0x23)].map
          (fun e => (0x21 : Byte) :: e.2.pubkey.compressed)).flatten ++
          [byteOfNat (0x50 + sampleMultisigAsset.n), sampleConstants.OP_CHECKMULTISIG]) ∧
      (byteOfNat (0x50 + sampleMultisigAsset.m)).val =
        sampleConstants.OP_1 + (sampleMultisigAsset.m - 1) ∧
      (byteOfNat (0x50 + sampleMultisigAsset.n)).val =
        sampleConstants.OP_1 + (sampleMultisigAsset.n - 1) ∧
      (∀ e ∈ [(([1] : Bytes), sampleSubAsset 0x21), ([2], sampleSubAsset 0x22),
            ([3], sampleSubAsset 0x23)],
        ∀ e' ∈ [(([1] : Bytes), sampleSubAsset 0x21), ([2], sampleSubAsset 0x22),
            ([3], sampleSubAsset 0x23)], bytesLt e.1 e'.1 = true →
        ∃ front mid back, script = front ++ ((0x21 : Byte) :: e.2.pubkey.compressed) ++ mid ++
          ((0x21 : Byte) :: e'.2.pubkey.compressed) ++ back) ∧
      script.length = 3 + 34 * sampleMultisigAsset.n :=
  AssetEntry_Multisig_getScript_layout sampleConstants (by decide) sampleMultisigAsset
    [([1], sampleSubAsset 0x21), ([2], sampleSubAsset 0x22), ([3], sampleSubAsset 0x23)]
    rfl (by decide) (by decide) (by decide) (by decide) (by decide) (by decide)

/-- C12 (what the code does for M = 0): `getScript` has no lower bound on `M`. For an asset
with `M = 0`, `N ≤ 16` and Single sub-assets with 33-byte compressed keys it does not fail: it
returns a script whose first byte is `0x50`, which is no `OP_M`. -/
theorem AssetEntry_Multisig_getScript_accepts_zero_m (K : Constants) (hop : K.StandardOpcodes)
    (a : AssetEntry_Multisig) (subs : List (Bytes × AssetEntry_Single))
    (hmap : a.assetMap = subs.map (fun e => (e.1, some e.2)))
    (hkeys : ∀ e ∈ subs, e.2.pubkey.compressed.length = 33)
    (hM : a.m = 0) (hN : a.n ≤ 16) :
    a.getScript K = .ok ((0x50 : Byte) ::
      ((subs.map (fun e => (0x21 : Byte) :: e.2.pubkey.compressed)).flatten ++
        [byteOfNat (0x50 + a.n), K.OP_CHECKMULTISIG])) := by
  have h := getScript_of_range K hop a subs hmap hkeys (by omega) hN
  rw [hM] at h
  exact h

/-- The asset with `M = 0`, `N = 1` and one sub-asset: `getScript` returns `0x50`, the push of
the key, `0x51`, `OP_CHECKMULTISIG`. -/
theorem AssetEntry_Multisig_getScript_accepts_zero_m_witness :
    sampleMultisigAssetZeroM.getScript sampleConstants = .ok ((0x50 : Byte) ::
      (([(([1] : Bytes), sampleSubAsset 0x21)].map
          (fun e => (0x21 : Byte) :: e.2.pubkey.compressed)).flatten ++
        [byteOfNat (0x50 + sampleMultisigAssetZeroM.n), sampleConstants.OP_CHECKMULTISIG])) :=
  AssetEntry_Multisig_getScript_accepts_zero_m sampleConstants (by decide)
    sampleMultisigAssetZeroM [([1], sampleSubAsset 0x21)] rfl (by decide) rfl (by decide)

/-- C13 fails as stated: the asset of scenario S5 holds two sub-assets while `N = 3`, and
`getScript` returns a script for it (with two pushes). -/
theorem getScript_ignores_sub_asset_count :
    sampleMultisigAssetShort.assetMap.length ≠ sampleMultisigAssetShort.n ∧
    ∃ script, sampleMultisigAssetShort.getScript sampleConstants = .ok script ∧
      script.length = 3 + 34 * 2 :=
  ⟨by decide, _, rfl, by decide⟩

/-- C13 (as the code has it): the number of sub-assets is compared with `N` by `getHash160` and
`getHash256`, the two callers of `getScript`, before the script is built. Each of the two fails
when the number of sub-assets differs from `N`, whatever `getScript` does on the asset; when
the number is `N`, each returns the hash of the script that `getScript` returns, and fails
where `getScript` fails. -/
theorem AssetEntry_Multisig_hash_guards_script (K : Constants) (C : Crypto)
    (a : AssetEntry_Multisig) :
    (a.assetMap.length ≠ a.n →
      (∃ e, a.getHash160 K C = .error e) ∧ (∃ e, a.getHash256 K C = .error e)) ∧
    (a.assetMap.length = a.n →
      a.getHash160 K C = (a.getScript K).map C.getHash160 ∧
      a.getHash256 K C = (a.getScript K).map C.getSha256) := by
  constructor
  · intro hc
    exact ⟨⟨.WalletException .asset_count_mismatch_in_multisig_entry, by
        simp only [AssetEntry_Multisig.getHash160, hc, ne_eq, not_false_eq_true, if_true]⟩,
      ⟨.WalletException .asset_count_mismatch_in_multisig_entry, by
        simp only [AssetEntry_Multisig.getHash256, hc, ne_eq, not_false_eq_true, if_true]⟩⟩
  · intro hc
    constructor
    · simp only [AssetEntry_Multisig.getHash160, hc, ne_eq, not_true_eq_false, if_false]
      cases a.getScript K <;> rfl
    · simp only [AssetEntry_Multisig.getHash256, hc, ne_eq, not_true_eq_false, if_false]
      cases a.getScript K <;> rfl

/-- The asset of scenario S5 (two sub-assets, `N = 3`): `getScript` returns a script for it,
and both hash getters fail. The 2-of-3 asset with its three sub-assets: both getters return
the hash of its script. -/
theorem AssetEntry_Multisig_hash_guards_script_witness :
    (sampleMultisigAssetShort.assetMap.length ≠ sampleMultisigAssetShort.n ∧
      (sampleMultisigAssetShort.getScript sampleConstants).toOption.isSome = true ∧
      (∃ e, sampleMultisigAssetShort.getHash160 sampleConstants sampleCrypto = .error e) ∧
      (∃ e, sampleMultisigAssetShort.getHash256 sampleConstants sampleCrypto = .error e)) ∧
    (sampleMultisigAsset.assetMap.length = sampleMultisigAsset.n ∧
      sampleMultisigAsset.getHash160 sampleConstants sampleCrypto =
        (sampleMultisigAsset.getScript sampleConstants).map sampleCrypto.getHash160 ∧
      sampleMultisigAsset.getHash256 sampleConstants sampleCrypto =
        (sampleMultisigAsset.getScript sampleConstants).map sampleCrypto.getSha256) :=
  ⟨⟨by decide, by decide,
      (AssetEntry_Multisig_hash_guards_script sampleConstants sampleCrypto
        sampleMultisigAssetShort).1 (by decide)⟩,
    ⟨by decide,
      (AssetEntry_Multisig_hash_guards_script sampleConstants sampleCrypto
        sampleMultisigAsset).2 (by decide)⟩⟩

/-- C14: `getHash160` and `getHash256` fail with the wallet error "asset count mismatch in
multisig entry" whenever the number of sub-assets held by the asset differs from `N`; neither
returns a hash in that case. -/
theorem AssetEntry_Multisig_hash_count_mismatch (K : Constants) (C : Crypto)
    (a : AssetEntry_Multisig) (h : a.assetMap.length ≠ a.n) :
    a.getHash160 K C = .error (.WalletException .asset_count_mismatch_in_multisig_entry) ∧
    a.getHash256 K C = .error (.WalletException .asset_count_mismatch_in_multisig_entry) ∧
    (∀ hash, a.getHash160 K C ≠ .ok hash) ∧ (∀ hash, a.getHash256 K C ≠ .ok hash) := by
  have h1 : a.getHash160 K C =
      .error (.WalletException .asset_count_mismatch_in_multisig_entry) := by
    simp only [AssetEntry_Multisig.getHash160, h, ne_eq, not_false_eq_true, if_true]
  have h2 : a.getHash256 K C =
      .error (.WalletException .asset_count_mismatch_in_multisig_entry) := by
    simp only [AssetEntry_Multisig.getHash256, h, ne_eq, not_false_eq_true, if_true]
  refine ⟨h1, h2, ?_, ?_⟩
  · intro hash e; rw [h1] at e; cases e
  · intro hash e; rw [h2] at e; cases e

/-- Scenario S5: a Multisig asset with `N = 3` and only two sub-assets populated fails on
`getHash160` and on `getHash256`. -/
theorem AssetEntry_Multisig_hash_count_mismatch_witness :
    sampleMultisigAssetShort.assetMap.length ≠ sampleMultisigAssetShort.n ∧
    sampleMultisigAssetShort.getHash160 sampleConstants sampleCrypto =
      .error (.WalletException .asset_count_mismatch_in_multisig_entry) ∧
    sampleMultisigAssetShort.getHash256 sampleConstants sampleCrypto =
      .error (.WalletException .asset_count_mismatch_in_multisig_entry) ∧
    (∀ hash, sampleMultisigAssetShort.getHash160 sampleConstants sampleCrypto ≠ .ok hash) ∧
    (∀ hash, sampleMultisigAssetShort.getHash256 sampleConstants sampleCrypto ≠ .ok hash) :=
  ⟨by decide, AssetEntry_Multisig_hash_count_mismatch sampleConstants sampleCrypto
    sampleMultisigAssetShort (by decide)⟩

theorem putPubKeys_bad_key (subs : List (Bytes × AssetEntry_Single))
    (hbad : ∃ e ∈ subs, e.2.pubkey.compressed.length ≠ 33) :
    AssetEntry_Multisig.putPubKeys (subs.map (fun e => (e.1, some e.2))) =
      .error (.WalletException .unexpected_compress_pub_key_len) := by
  induction subs with
  | nil => obtain ⟨e, he, -⟩ := hbad; cases he
  | cons x rest ih =>
    by_cases hx : x.2.pubkey.compressed.length = 33
    · have hrest : ∃ e ∈ rest, e.2.pubkey.compressed.length ≠ 33 := by
        obtain ⟨e, he, hne⟩ := hbad
        rcases List.mem_cons.mp he with h1 | h1
        · rw [h1] at hne; exact absurd hx hne
        · exact ⟨e, h1, hne⟩
      simp only [List.map_cons, AssetEntry_Multisig.putPubKeys, hx, ne_eq, not_true_eq_false,
        if_false, ih hrest]
    · simp only [List.map_cons, AssetEntry_Multisig.putPubKeys, ne_eq, hx, not_false_eq_true,
        if_true]

/-- The rejections `getScript` does make (the part of C12 that holds): with `M` and `N` small
enough for `M + OP_1 - 1` not to wrap, it fails when `M > 16`, when `N > 16`, when `N < M`
(so also for `N = 0 < M`), and when a Single sub-asset has a compressed key that is not 33
bytes long. -/
theorem getScript_rejects (K : Constants) (hop : K.StandardOpcodes) (a : AssetEntry_Multisig)
    (subs : List (Bytes × AssetEntry_Single))
    (hmap : a.assetMap = subs.map (fun e => (e.1, some e.2)))
    (hm : a.m < 2 ^ 32 - 0x50) (hn : a.n < 2 ^ 32 - 0x50)
    (h : 16 < a.m ∨ 16 < a.n ∨ a.n < a.m ∨ ∃ e ∈ subs, e.2.pubkey.compressed.length ≠ 33) :
    ∃ m, a.getScript K = .error (.WalletException m) := by
  obtain ⟨h1, h16⟩ := hop
  have em : (a.m + K.OP_1 + (2 ^ 32 - 1)) % 2 ^ 32 = 0x50 + a.m := by rw [h1]; omega
  have en : (a.n + K.OP_1 + (2 ^ 32 - 1)) % 2 ^ 32 = 0x50 + a.n := by rw [h1]; omega
  by_cases c1 : 0x50 + a.m > K.OP_16
  · exact ⟨.m_exceeds_OP_16, by simp only [AssetEntry_Multisig.getScript, em, if_pos c1]⟩
  · by_cases hbad : ∃ e ∈ subs, e.2.pubkey.compressed.length ≠ 33
    · exact ⟨.unexpected_compress_pub_key_len, by
        simp only [AssetEntry_Multisig.getScript, em, if_neg c1, hmap,
          putPubKeys_bad_key subs hbad]⟩
    · have hkeys : ∀ e ∈ subs, e.2.pubkey.compressed.length = 33 := by
        intro e he
        by_contra hne
        exact hbad ⟨e, he, hne⟩
      have c2 : 0x50 + a.n > K.OP_16 ∨ 0x50 + a.n < 0x50 + a.m := by
        rw [h16] at c1 ⊢
        rcases h with h | h | h | h
        · omega
        · omega
        · omega
        · exact absurd h hbad
      exact ⟨.invalid_n, by
        simp only [AssetEntry_Multisig.getScript, em, en, if_neg c1, hmap,
          putPubKeys_singles subs hkeys, if_pos c2]⟩

/-! ## Locked private keys in the legacy derivation -/

theorem nextAsset_privkey (C : Crypto) (s : DerivationScheme_ArmoryLegacy)
    (a : AssetEntry_Single) :
    ∃ a' : AssetEntry_Single, s.nextAsset C (.Single a) = .ok (.Single a') ∧
      (∀ k, s.keyStep C a = .key k → a'.privkey.data = k) ∧
      (s.keyStep C a = .unavailable ∨ s.keyStep C a = .cypherBlocked → a'.privkey.data = []) := by
  refine ⟨_, rfl, ?_, ?_⟩
  · intro k hk
    simp only [DerivationScheme_ArmoryLegacy.keyStep] at hk
    simp only [AssetEntry_Single.mk4]
    cases hg : a.privkey.getKey with
    | key d =>
      rw [hg] at hk
      simp only at hk
      simp only [hk]
    | unavailable => rw [hg] at hk; cases hk
    | cypherBlocked => rw [hg] at hk; cases hk
  · intro hk
    simp only [DerivationScheme_ArmoryLegacy.keyStep] at hk
    simp only [AssetEntry_Single.mk4]
    cases hg : a.privkey.getKey with
    | key d =>
      rw [hg] at hk
      simp only at hk
      rcases hk with hk | hk <;> simp only [hk]
    | unavailable => rfl
    | cypherBlocked => rfl

theorem keyStep_of_no_key (C : Crypto) (s : DerivationScheme_ArmoryLegacy)
    (a : AssetEntry_Single) (h : a.privkey.data = []) : s.keyStep C a = .unavailable := by
  simp [DerivationScheme_ArmoryLegacy.keyStep, Asset_PrivateKey.getKey, h]

theorem extendChain_no_key (C : Crypto) (s : DerivationScheme_ArmoryLegacy) (count : Nat)
    (a : AssetEntry_Single) (h : a.privkey.data = []) :
    ∃ vec : List AssetEntry_Single,
      s.extendChain C (.Single a) count = .ok (vec.map AssetEntry.Single) ∧
      vec.length = count ∧ ∀ r ∈ vec, r.privkey.data = [] := by
  induction count generalizing a with
  | zero => exact ⟨[], rfl, rfl, fun r hr => by cases hr⟩
  | succ n ih =>
    obtain ⟨a', ha', -, hno⟩ := nextAsset_privkey C s a
    have h' := hno (Or.inl (keyStep_of_no_key C s a h))
    obtain ⟨vec, hvec, hlen, hall⟩ := ih a' h'
    refine ⟨a' :: vec, ?_, by simp [hlen], ?_⟩
    · rw [extendChain_succ_single C s a a' n ha', hvec]; rfl
    · intro r hr
      rcases List.mem_cons.mp hr with h1 | h1
      · rw [h1]; exact h'
      · exact hall r h1

/-- C19: for every Single asset `a` and every count, the legacy `extendChain` does not fail
and returns `count` Single assets. At every step `st` (the step that derives the asset at
position `st` from its predecessor `p`, which is `a` for `st = 0`): when the private-key
derivation gives a key, the new asset carries that key; when it is reported unavailable
(`AssetUnavailableException`) or blocked by the cipher (`CypherException`), the asset of that
step and of every later step carries no private key. -/
theorem DerivationScheme_ArmoryLegacy_extendChain_locked (C : Crypto)
    (s : DerivationScheme_ArmoryLegacy) (a : AssetEntry_Single) (count : Nat) :
    ∃ vec : List AssetEntry_Single,
      s.extendChain C (.Single a) count = .ok (vec.map AssetEntry.Single) ∧
      vec.length = count ∧
      ∀ (st : Nat) (p q : AssetEntry_Single), (a :: vec)[st]? = some p → vec[st]? = some q →
        (∀ k, s.keyStep C p = .key k → q.privkey.data = k) ∧
        (s.keyStep C p = .unavailable ∨ s.keyStep C p = .cypherBlocked →
          ∀ (j : Nat) (r : AssetEntry_Single), st ≤ j → vec[j]? = some r →
            r.privkey.data = []) := by
  induction count generalizing a with
  | zero => exact ⟨[], rfl, rfl, fun st p q _ hq => by simp at hq⟩
  | succ n ih =>
    obtain ⟨a', ha', hkey, hno⟩ := nextAsset_privkey C s a
    obtain ⟨vec, hvec, hlen, hsteps⟩ := ih a'
    refine ⟨a' :: vec, ?_, by simp [hlen], ?_⟩
    · rw [extendChain_succ_single C s a a' n ha', hvec]; rfl
    · intro st p q hp hq
      cases st with
      | zero =>
        simp only [List.getElem?_cons_zero, Option.some.injEq] at hp hq
        subst hp hq
        refine ⟨hkey, fun hk j r _ hr => ?_⟩
        have h' := hno hk
        obtain ⟨vec', hvec', -, hall⟩ := extendChain_no_key C s n a' h'
        have hvv : vec = vec' := by
          have := hvec.symm.trans hvec'
          simp only [Except.ok.injEq] at this
          exact List.map_injective_iff.mpr (fun x y hxy => by cases hxy; rfl) this
        cases j with
        | zero =>
          simp only [List.getElem?_cons_zero, Option.some.injEq] at hr
          rw [← hr]; exact h'
        | succ j =>
          simp only [List.getElem?_cons_succ] at hr
          rw [hvv] at hr
          exact hall r (List.getElem?_mem hr)
      | succ st =>
        simp only [List.getElem?_cons_succ] at hp hq
        obtain ⟨h1, h2⟩ := hsteps st p q hp hq
        refine ⟨h1, fun hk j r hj hr => ?_⟩
        cases j with
        | zero => omega
        | succ j =>
          simp only [List.getElem?_cons_succ] at hr
          exact h2 hk j r (by omega) hr

/-- Scenario S6: with a private-key primitive that reports "locked" at step 3, the chain of
five assets derived from the root exists with indices 0..4 and 65-byte public keys; the
assets 0..2 carry a private key and the assets 3..4 carry none. -/
theorem DerivationScheme_ArmoryLegacy_extendChain_locked_witness :
    (∃ vec : List AssetEntry_Single,
      sampleSchemeLocking.extendChain sampleCryptoLocking (.Single sampleRootLocking) 5 =
        .ok (vec.map AssetEntry.Single) ∧
      vec.length = 5 ∧
      ∀ (st : Nat) (p q : AssetEntry_Single), (sampleRootLocking :: vec)[st]? = some p →
        vec[st]? = some q →
        (∀ k, sampleSchemeLocking.keyStep sampleCryptoLocking p = .key k →
          q.privkey.data = k) ∧
        (sampleSchemeLocking.keyStep sampleCryptoLocking p = .unavailable ∨
            sampleSchemeLocking.keyStep sampleCryptoLocking p = .cypherBlocked →
          ∀ (j : Nat) (r : AssetEntry_Single), st ≤ j → vec[j]? = some r →
            r.privkey.data = [])) ∧
    sampleSchemeLocking.extendChain sampleCryptoLocking (.Single sampleRootLocking) 5 =
      .ok (sampleChainLocking.map AssetEntry.Single) ∧
    sampleChainLocking.map (fun r => r.index) = [0, 1, 2, 3, 4] ∧
    sampleChainLocking.map (fun r => r.pubkey.uncompressed.length) = [65, 65, 65, 65, 65] ∧
    sampleChainLocking.map (fun r => r.privkey.data.length) = [32, 32, 32, 0, 0] ∧
    (sampleRootLocking :: sampleChainLocking).map
        (fun p => sampleSchemeLocking.keyStep sampleCryptoLocking p) =
      [.key ((1 : Byte) :: List.replicate 31 0x11), .key ((2 : Byte) :: List.replicate 31 0x11),
        .key ((3 : Byte) :: List.replicate 31 0x11), .cypherBlocked, .unavailable,
        .unavailable] :=
  ⟨DerivationScheme_ArmoryLegacy_extendChain_locked sampleCryptoLocking sampleSchemeLocking
    sampleRootLocking 5, by decide, by decide, by decide, by decide, by decide⟩
/-! ## Duplicate tags in an asset value -/

theorem readRecords_two (a b : Bytes) (ha : a.length < 2 ^ 64) (hb : b.length < 2 ^ 64) :
    readRecords (frame a ++ frame b) = .ok [a, b] := by
  have h := readRecords_frames [a, b] (by
    intro v hv
    rcases List.mem_cons.mp hv with h | h
    · rw [h]; exact ha
    · rw [List.mem_singleton.mp h]; exact hb)
  simpa using h

/-- C20 (what the code does when the first of two records with one tag is empty): the
duplicate checks of `deserDBValue` test whether the slot already holds bytes
(`getSize() != 0`), not whether the tag has been seen. A value with two records headed by
`PUBKEY_UNCOMPRESSED_BYTE`, by `PUBKEY_COMPRESSED_BYTE` or by `PRIVKEY_BYTE`, the first of
them with an empty payload, is decoded without error, and the slot takes the payload of the
second record. -/
theorem deserDBValue_accepts_duplicate_after_empty (K : Constants) (hK : K.LabelsDistinct)
    (index : Int) (p : Bytes) (hp : p.length + 1 < 2 ^ 64) :
    AssetEntry.deserDBValue K index (K.AssetEntryType_Single ::
        (frame [K.PUBKEY_UNCOMPRESSED_BYTE] ++ frame (K.PUBKEY_UNCOMPRESSED_BYTE :: p))) =
      .ok (.Single (AssetEntry_Single.mk5 index p [] [] none)) ∧
    AssetEntry.deserDBValue K index (K.AssetEntryType_Single ::
        (frame [K.PUBKEY_COMPRESSED_BYTE] ++ frame (K.PUBKEY_COMPRESSED_BYTE :: p))) =
      .ok (.Single (AssetEntry_Single.mk5 index [] p [] none)) ∧
    AssetEntry.deserDBValue K index (K.AssetEntryType_Single ::
        (frame [K.PRIVKEY_BYTE] ++ frame (K.PRIVKEY_BYTE :: p))) =
      .ok (.Single (AssetEntry_Single.mk5 index [] [] p none)) := by
  obtain ⟨h12, h13, -, h23, -, -, -, -, -⟩ := hK
  have r : ∀ t : Byte, readRecords (frame [t] ++ frame (t :: p)) = .ok [[t], t :: p] :=
    fun t => readRecords_two [t] (t :: p) (by simp) (by simpa using hp)
  refine ⟨?_, ?_, ?_⟩
  · simp [AssetEntry.deserDBValue, get_uint8_t, r, bindRecords, bindRecord]
  · simp [AssetEntry.deserDBValue, get_uint8_t, r, bindRecords, bindRecord, Ne.symm h12]
  · simp [AssetEntry.deserDBValue, get_uint8_t, r, bindRecords, bindRecord, Ne.symm h13,
      Ne.symm h23]

/-- A value with an empty `PRIVKEY_BYTE` record (what `serialize` writes for an asset without
private key) followed by a second `PRIVKEY_BYTE` record of 32 bytes is decoded without
error. -/
theorem deserDBValue_accepts_duplicate_after_empty_witness :
    AssetEntry.deserDBValue sampleConstants 0 (sampleConstants.AssetEntryType_Single ::
        (frame [sampleConstants.PUBKEY_UNCOMPRESSED_BYTE] ++
          frame (sampleConstants.PUBKEY_UNCOMPRESSED_BYTE :: sampleSeed))) =
      .ok (.Single (AssetEntry_Single.mk5 0 sampleSeed [] [] none)) ∧
    AssetEntry.deserDBValue sampleConstants 0 (sampleConstants.AssetEntryType_Single ::
        (frame [sampleConstants.PUBKEY_COMPRESSED_BYTE] ++
          frame (sampleConstants.PUBKEY_COMPRESSED_BYTE :: sampleSeed))) =
      .ok (.Single (AssetEntry_Single.mk5 0 [] sampleSeed [] none)) ∧
    AssetEntry.deserDBValue sampleConstants 0 (sampleConstants.AssetEntryType_Single ::
        (frame [sampleConstants.PRIVKEY_BYTE] ++
          frame (sampleConstants.PRIVKEY_BYTE :: sampleSeed))) =
      .ok (.Single (AssetEntry_Single.mk5 0 [] [] sampleSeed none)) :=
  deserDBValue_accepts_duplicate_after_empty sampleConstants (by decide) 0 sampleSeed
    (by decide)

/-! ## Creating a multisig wallet -/

/-- C15: `AssetWallet_Multisig::createFromPrivateRoot` fails with the wallet error "invalid
AddressEntryType for MS wallet" for every address type other than P2SH and P2WSH, whatever
the other arguments are, and leaves the environment as it was: nothing is opened or
written. -/
theorem AssetWallet_Multisig_create_rejects_address_type (K : Constants) (C : Crypto)
    (file : LMDBEnv) (aet : Byte) (M N : Nat) (privateRoot : Bytes) (lookup : Nat)
    (h1 : aet ≠ K.AddressEntryType_P2SH) (h2 : aet ≠ K.AddressEntryType_P2WSH) :
    AssetWallet_Multisig.createFromPrivateRoot K C file aet M N privateRoot lookup =
      (.error (.WalletException .invalid_AddressEntryType_for_MS_wallet), file) := by
  unfold AssetWallet_Multisig.createFromPrivateRoot
  rw [if_pos ⟨h1, h2⟩]

/-- Scenario S5: `createFromPrivateRoot(P2PKH, 2, 3, seed, 4)` fails and the new file stays
empty. -/
theorem AssetWallet_Multisig_create_rejects_address_type_witness :
    AssetWallet_Multisig.createFromPrivateRoot sampleConstants sampleCrypto LMDBEnv.empty
        sampleConstants.AddressEntryType_P2PKH 2 3 sampleSeed 4 =
      (.error (.WalletException .invalid_AddressEntryType_for_MS_wallet), LMDBEnv.empty) :=
  AssetWallet_Multisig_create_rejects_address_type sampleConstants sampleCrypto LMDBEnv.empty
    sampleConstants.AddressEntryType_P2PKH 2 3 sampleSeed 4 (by decide) (by decide)

/-- C16 (what the code does for M > N): `createFromPrivateRoot(P2SH, 4, 3, seed, 4)` on a new file
does not fail. It returns a wallet handle with chain length 4, three sub-wallets of four
assets each, the scheme `M = 4`, `N = 3` and the multisig assets 0..3, and leaves the header
and the three sub-databases written; the parameters are refused only when the script of an
asset is built (`getHash160` ends in "invalid n"). With lookup 0 the call returns a handle as
well, with the same scheme and no asset. -/
theorem AssetWallet_Multisig_create_accepts_m_above_n :
    (sampleCreateMultisig 4 3 4).1.toOption.map
        (fun w => (w.chainLength, w.assets.map Prod.fst,
          w.wallets.map (fun e => e.2.assets.length),
          w.derScheme.map (fun s => match s with
            | .Multisig ms => (ms.m, ms.n)
            | .Legacy _ => (0, 0)))) =
      some (4, [0, 1, 2, 3], [4, 4, 4], some (4, 3)) ∧
    (sampleCreateMultisig 4 3 4).2.main.length = 7 ∧
    (sampleCreateMultisig 4 3 4).2.subs.map List.length = [11, 11, 11] ∧
    (multisigAssetsOf (sampleCreateMultisig 4 3 4).1).map
        (fun a => a.getHash160 sampleConstants sampleCrypto) =
      List.replicate 4 (.error (.WalletException .invalid_n)) ∧
    (sampleCreateMultisig 4 3 0).1.toOption.map
        (fun w => (w.chainLength, w.assets.map Prod.fst,
          w.wallets.map (fun e => e.2.assets.length),
          w.derScheme.map (fun s => match s with
            | .Multisig ms => (ms.m, ms.n)
            | .Legacy _ => (0, 0)))) =
      some (0, [], [0, 0, 0], some (4, 3)) := by
  refine ⟨?_, ?_, ?_, ?_, ?_⟩ <;> decide

/-! ## Extending the sub-wallets of a multisig scheme -/

theorem extendCount_wraps (total cnt : Nat) (h1 : total < cnt) (h2 : cnt < 2 ^ 32) :
    DerivationScheme_Multisig.extendCount total cnt = 2 ^ 32 - (cnt - total) := by
  unfold DerivationScheme_Multisig.extendCount uint32_of_int32
  omega

/-- C18 (what the code does): in `DerivationScheme_Multisig::extendChain(first_asset, count)` with
`total = first_asset.index + 1 + count`, a sub-wallet that already holds more than `total`
assets is not asked to extend by zero: the unsigned difference `total - asset_count` wraps
around to `2^32 - (asset_count - total)`, which is not zero, and the sub-wallet's
`extendChain` is called with it. That call ends at its second `lock()` of the sub-wallet's
mutex, so the scheme's `extendChain` fails with it; the sub-wallets are left as they were. -/
theorem DerivationScheme_Multisig_extendChain_count_wraps (K : Constants) (C : Crypto)
    (o : DerivationScheme_Multisig.Object) (id : Bytes) (wlt : AssetWallet)
    (rest : List (Bytes × AssetWallet)) (firstAsset : AssetEntry) (count : Nat)
    (hw : o.wallets = (id, wlt) :: rest)
    (htot : uint32_of_int32 firstAsset.getId + 1 + count < wlt.getAssetCount)
    (hcnt : wlt.getAssetCount < 2 ^ 32) :
    DerivationScheme_Multisig.extendCount (uint32_of_int32 firstAsset.getId + 1 + count)
        wlt.getAssetCount =
      2 ^ 32 - (wlt.getAssetCount - (uint32_of_int32 firstAsset.getId + 1 + count)) ∧
    DerivationScheme_Multisig.extendCount (uint32_of_int32 firstAsset.getId + 1 + count)
        wlt.getAssetCount ≠ 0 ∧
    DerivationScheme_Multisig.Object.extendSubwallets K C
        (uint32_of_int32 firstAsset.getId + 1 + count) o.wallets =
      ((wlt.extendChain K C
        (2 ^ 32 - (wlt.getAssetCount - (uint32_of_int32 firstAsset.getId + 1 + count)))).1,
        o.wallets) ∧
    o.extendChain K C firstAsset count = (.error .MutexRelock, o) := by
  have hne : wlt.assets ≠ [] := by
    intro h
    simp only [AssetWallet.getAssetCount, h, List.length_nil] at htot
    omega
  have hwrap := extendCount_wraps _ _ htot hcnt
  have hsub : ∀ total, DerivationScheme_Multisig.Object.extendSubwallets K C total o.wallets =
      (.error .MutexRelock, o.wallets) := by
    intro total
    rw [hw]
    simp only [DerivationScheme_Multisig.Object.extendSubwallets,
      extendChain_second_lock K C wlt _ hne]
  refine ⟨hwrap, by rw [hwrap]; omega, ?_, ?_⟩
  · rw [hsub, extendChain_second_lock K C wlt _ hne]
  · simp only [DerivationScheme_Multisig.Object.extendChain, hsub]

/-- A scheme bound to a sub-wallet with five assets, extended from the asset of index 0 by
`count = 2`: `total = 3`, and the sub-wallet is asked to extend by `3 - 5` on 32 bits,
4294967294. -/
theorem DerivationScheme_Multisig_extendChain_count_wraps_witness :
    sampleWallet.getAssetCount = 5 ∧
    DerivationScheme_Multisig.extendCount
        (uint32_of_int32 (AssetEntry.Multisig sampleMultisigAsset).getId + 1 + 2)
        sampleWallet.getAssetCount =
      2 ^ 32 - (sampleWallet.getAssetCount -
        (uint32_of_int32 (AssetEntry.Multisig sampleMultisigAsset).getId + 1 + 2)) ∧
    DerivationScheme_Multisig.extendCount
        (uint32_of_int32 (AssetEntry.Multisig sampleMultisigAsset).getId + 1 + 2)
        sampleWallet.getAssetCount ≠ 0 ∧
    DerivationScheme_Multisig.Object.extendSubwallets sampleConstants sampleCrypto
        (uint32_of_int32 (AssetEntry.Multisig sampleMultisigAsset).getId + 1 + 2)
        sampleSchemeObject.wallets =
      ((sampleWallet.extendChain sampleConstants sampleCrypto
        (2 ^ 32 - (sampleWallet.getAssetCount -
          (uint32_of_int32 (AssetEntry.Multisig sampleMultisigAsset).getId + 1 + 2)))).1,
        sampleSchemeObject.wallets) ∧
    sampleSchemeObject.extendChain sampleConstants sampleCrypto
        (.Multisig sampleMultisigAsset) 2 = (.error .MutexRelock, sampleSchemeObject) :=
  ⟨by decide, DerivationScheme_Multisig_extendChain_count_wraps sampleConstants sampleCrypto
    sampleSchemeObject sampleWallet.getID sampleWallet [] (.Multisig sampleMultisigAsset) 2 rfl
    (by decide) (by decide)⟩

/-- The number the sub-wallet of the example is asked to extend by. -/
theorem extendCount_sample : DerivationScheme_Multisig.extendCount 3 5 = 4294967294 := by
  decide

/-! ## The environment of a multisig wallet -/

theorem LMDBEnv.main_setSub (env : LMDBEnv) (i : Nat) (s : Store) :
    (env.setSub i s).main = env.main := rfl

theorem LMDBEnv.sub_setSub (env : LMDBEnv) (i j : Nat) (s : Store) :
    (env.setSub i s).sub j = if j = i then s else env.sub j := by
  unfold LMDBEnv.sub LMDBEnv.setSub
  simp only [List.getD_eq_getElem?_getD, List.getElem?_set]
  by_cases hji : j = i
  · subst hji
    have hlt : j < env.subs.length + (j + 1 - env.subs.length) := by omega
    simp [hlt]
  · have hij : ¬ i = j := fun h => hji h.symm
    simp only [hij, if_false, hji]
    by_cases hlen : j < env.subs.length
    · rw [List.getElem?_append_left hlen]
    · have e1 : env.subs[j]? = none := List.getElem?_eq_none (by omega)
      rw [List.getElem?_append_right (by omega), e1, List.getElem?_replicate]
      split <;> rfl

theorem LMDBEnv.sub_empty (j : Nat) : LMDBEnv.empty.sub j = [] := by
  simp [LMDBEnv.sub, LMDBEnv.empty]

theorem setInsert_cons (x y : Bytes) (ys : List Bytes) :
    setInsert x (y :: ys) =
      if bytesLt x y = true then x :: y :: ys
      else if bytesLt y x = true then y :: setInsert x ys
      else y :: ys := rfl

theorem idMapAssign_cons {α : Type} (k k' : Bytes) (v v' : α) (r : List (Bytes × α)) :
    idMapAssign k v ((k', v') :: r) =
      if bytesLt k k' = true then (k, v) :: (k', v') :: r
      else if bytesLt k' k = true then (k', v') :: idMapAssign k v r
      else (k, v) :: r := rfl

theorem map_fst_idMapAssign {α : Type} (k : Bytes) (v : α) (m : List (Bytes × α)) :
    (idMapAssign k v m).map Prod.fst = setInsert k (m.map Prod.fst) := by
  induction m with
  | nil => rfl
  | cons e r ih =>
    obtain ⟨k', v'⟩ := e
    rw [idMapAssign_cons, List.map_cons, setInsert_cons]
    by_cases h1 : bytesLt k k' = true
    · rw [if_pos h1, if_pos h1]; rfl
    · rw [if_neg h1, if_neg h1]
      by_cases h2 : bytesLt k' k = true
      · rw [if_pos h2, if_pos h2, List.map_cons, ih]
      · rw [if_neg h2, if_neg h2]
        have hk : k = k' := bytesLt_total k k' (by simpa using h1) (by simpa using h2)
        rw [hk]; rfl

theorem mem_setInsert (x z : Bytes) (l : List Bytes) :
    z ∈ setInsert x l ↔ z = x ∨ z ∈ l := by
  induction l with
  | nil => simp [setInsert]
  | cons y ys ih =>
    rw [setInsert_cons]
    by_cases h1 : bytesLt x y = true
    · rw [if_pos h1]; simp
    · rw [if_neg h1]
      by_cases h2 : bytesLt y x = true
      · rw [if_pos h2, List.mem_cons, ih, List.mem_cons]
        tauto
      · rw [if_neg h2]
        have hk : x = y := bytesLt_total x y (by simpa using h1) (by simpa using h2)
        rw [hk, List.mem_cons]
        tauto

theorem length_setInsert (x : Bytes) (l : List Bytes) (h : x ∉ l) :
    (setInsert x l).length = l.length + 1 := by
  induction l with
  | nil => rfl
  | cons y ys ih =>
    rw [setInsert_cons]
    by_cases h1 : bytesLt x y = true
    · rw [if_pos h1]; rfl
    · rw [if_neg h1]
      by_cases h2 : bytesLt y x = true
      · rw [if_pos h2, List.length_cons, ih (fun hx => h (List.mem_cons_of_mem _ hx))]
        rfl
      · have hk : x = y := bytesLt_total x y (by simpa using h1) (by simpa using h2)
        exact absurd (hk ▸ List.mem_cons_self _ _) h

theorem length_foldl_setInsert (ids acc : List Bytes) (hnd : ids.Nodup)
    (hdis : ∀ x ∈ ids, x ∉ acc) :
    (ids.foldl (fun s id => setInsert id s) acc).length = acc.length + ids.length := by
  induction ids generalizing acc with
  | nil => rfl
  | cons x xs ih =>
    rw [List.nodup_cons] at hnd
    simp only [List.foldl_cons, List.length_cons]
    rw [ih (setInsert x acc) hnd.2 (fun z hz hmem => by
      rcases (mem_setInsert x z acc).mp hmem with h | h
      · rw [h] at hz; exact hnd.1 hz
      · exact hdis z (List.mem_cons_of_mem _ hz) h),
      length_setInsert x acc (hdis x (List.mem_cons_self _ _))]
    omega

theorem insertAssets_walletID (K : Constants) (vec : List AssetEntry) (w : AssetWallet) :
    (w.insertAssets K vec).2.walletID = w.walletID := by
  induction vec generalizing w with
  | nil => rfl
  | cons a rest ih =>
    cases hf : mapFind a.getId w.assets with
    | some x => rw [insertAssets_cons_some K w a x rest hf]; exact ih w
    | none =>
      rw [insertAssets_cons_none K w a rest hf]
      cases a.serialize K with
      | error e => rfl
      | ok ser => exact ih _

theorem extendChain_from_walletID (K : Constants) (C : Crypto) (w : AssetWallet)
    (a : AssetEntry) (n : Nat) : (w.extendChain_from K C a n).2.walletID = w.walletID := by
  unfold AssetWallet.extendChain_from
  by_cases hm : w.walletMutex = true
  · rw [if_pos hm]
  · rw [if_neg hm]
    simp only
    cases hs : AssetWallet.schemeExtendChain C { w with walletMutex := true } a n with
    | error e => rfl
    | ok vec => exact insertAssets_walletID K vec { w with walletMutex := true }

/-! ## Creating the sub-wallets -/

theorem initWalletDb_store_of_ok (K : Constants) (C : Crypto) (walletPtr : AssetWallet)
    (cypher : Cypher) (parentID : Bytes) (aet : Byte) (privateRoot : Bytes) (lookup : Nat)
    (w : AssetWallet)
    (h : AssetWallet_Single.initWalletDb K C walletPtr cypher parentID aet privateRoot lookup =
      .ok w) :
    AssetWallet_Single.initWalletDb_store K C walletPtr cypher parentID aet privateRoot lookup =
      (.ok w, w.db) := by
  simp only [AssetWallet_Single.initWalletDb, AssetWallet_Single.putHeaderData,
    AssetWallet.putHeaderData, DerivationScheme.serialize, bind_ok_eq, pure_eq_ok] at h
  simp only [AssetWallet_Single.initWalletDb_store, AssetWallet.putHeaderData_st,
    DerivationScheme.serialize]
  cases hs : AssetEntry_Single.serialize K
      (AssetEntry_Single.mk4 C (-1) (C.ComputePublicKey privateRoot) privateRoot (some cypher)) with
  | error e => rw [hs] at h; cases h
  | ok data =>
    rw [hs] at h
    simp only [bind_ok_eq] at h ⊢
    generalize hr : AssetWallet_Single.readFromFile K _ = r at h ⊢
    cases r with
    | error e => cases h
    | ok w2 =>
      simp only [bind_ok_eq] at h ⊢
      generalize hx : AssetWallet.extendChain_from K C w2 _ _ = q at h ⊢
      obtain ⟨q1, q2⟩ := q
      cases q1 with
      | error e => cases h
      | ok u =>
        cases u
        simp only [throw_eq_error, pure_eq_ok, Except.ok.injEq] at h ⊢
        rw [h]

/-- What `initWalletDb` on a new database gives for any parent id: a wallet in step with its
store, with assets under exactly the indices `wrapInt32 0, ..., wrapInt32 (n - 1)` for the
effective lookup `n`. -/
theorem initWalletDb_spec (K : Constants) (hK : K.LabelsDistinct) (hS : K.KeysSeparate)
    (C : Crypto) (hC : C.Bounded) (parentID : Bytes) (hpid : parentID.length < 2 ^ 64)
    (aet : Byte) (seed : Bytes) (hseed : seed.length < 2 ^ 32) (lookup : Nat) :
    ∃ w, AssetWallet_Single.initWalletDb K C (AssetWallet.new .Single []) Cypher_AES_fresh
        parentID aet seed lookup = .ok w ∧
      WalletInv K w (rootHeader C parentID aet seed) ∧
      w.walletID = C.getWalletID (C.ComputePublicKey seed) ∧
      ∀ k, k ∈ w.assets.map Prod.fst ↔
        k ∈ (List.range (effectiveLookup lookup)).map (fun j : Nat => wrapInt32 (Int.ofNat j)) := by
  obtain ⟨data, hdata, hread, hno⟩ := Readable_headerStore K hK hS C hC parentID hpid aet seed
    hseed
  obtain ⟨w2, hw2, hdb, hkind, hmx, -, hwid, hder, haet, htop, hroot, haddr, hmok, hkeys⟩ :=
    readFromFile_of_Readable K hK .Single _ _ hread
  have hempty : w2.assets = [] := keys_eq_nil_of_no_asset _ (fun k hk => hno k ((hkeys k).mp hk))
  have hinv : WalletInv K w2 (rootHeader C parentID aet seed) :=
    ⟨by rw [hdb]; exact hread, hmok, by rw [hdb]; exact hkeys, hmx, htop, hder, haet, hroot,
      hkind⟩
  obtain ⟨w3, hw3, hinv3, -, hkeys3⟩ := extendChain_from_spec K hK hS C hC w2 _ hinv
    ⟨C.computeChainCode_Armory135 seed⟩ rfl (rootAsset C seed) ⟨Cypher_AES_fresh, rfl⟩
    (effectiveLookup lookup)
  refine ⟨w3, ?_, hinv3, ?_, ?_⟩
  · rw [initWalletDb_unfold K C [] _ aet seed lookup data hdata, hw2]
    simp only [hw3]
  · have h3 := extendChain_from_walletID K C w2 (.Single (rootAsset C seed))
      (effectiveLookup lookup)
    rw [hw3] at h3
    rw [h3, hwid]
    rfl
  · intro k
    rw [hkeys3 k, hempty]
    simp only [List.map_nil, List.not_mem_nil, false_or, List.mem_map, List.mem_range]
    constructor
    · rintro ⟨j, hj, rfl⟩
      refine ⟨j, hj, ?_⟩
      congr 1
      simp [rootAsset, AssetEntry_Single.mk4]
    · rintro ⟨j, hj, rfl⟩
      refine ⟨j, hj, ?_⟩
      congr 1
      simp [rootAsset, AssetEntry_Single.mk4]

theorem createSubwallets_spec (K : Constants) (hK : K.LabelsDistinct) (hS : K.KeysSeparate)
    (C : Crypto) (hC : C.Bounded) (hH : C.BoundedHMAC) (wid : Bytes) (hwid : wid.length < 2 ^ 64)
    (seed : Bytes) (lookup : Nat) (rounds : Nat) :
    ∀ (i : Nat) (env : LMDBEnv) (subs : List (Bytes × AssetWallet)),
      (∀ j, i ≤ j → env.sub j = []) →
      ∃ subs' env', AssetWallet_Multisig.createSubwallets K C wid seed lookup rounds i env subs =
          (.ok subs', env') ∧
        env'.main = env.main ∧
        (∀ j, j < i → env'.sub j = env.sub j) ∧
        (∀ j, i ≤ j → j < i + rounds → ∀ k, HasAsset K (env'.sub j) k ↔
          k ∈ (List.range (effectiveLookup lookup)).map (fun n : Nat => wrapInt32 (Int.ofNat n))) ∧
        subs'.map Prod.fst =
          ((List.range' i rounds).map (subwalletID C seed)).foldl (fun s id => setInsert id s)
            (subs.map Prod.fst) := by
  induction rounds with
  | zero =>
    intro i env subs _
    exact ⟨subs, env, rfl, rfl, fun _ _ => rfl, fun j h1 h2 => by omega, rfl⟩
  | succ rounds ih =>
    intro i env subs hnew
    obtain ⟨w, hw, hinv, hid, hkeys⟩ := initWalletDb_spec K hK hS C hC wid hwid
      K.AddressEntryType_P2PKH (subwalletRoot C seed i) (hH _ _) lookup
    have hst := initWalletDb_store_of_ok K C _ _ _ _ _ _ w hw
    have hnew' : ∀ j, i + 1 ≤ j → (env.setSub i w.db).sub j = [] := by
      intro j hj
      rw [LMDBEnv.sub_setSub, if_neg (by omega)]
      exact hnew j (by omega)
    obtain ⟨subs', env', hrun, hmain, hbelow, hsubs, hids⟩ :=
      ih (i + 1) (env.setSub i w.db) (idMapAssign w.getID w subs) hnew'
    refine ⟨subs', env', ?_, ?_, ?_, ?_, ?_⟩
    · unfold subwalletRoot at hst
      simp only [AssetWallet_Multisig.createSubwallets, hnew i (le_refl _), hst]
      exact hrun
    · rw [hmain]; rfl
    · intro j hj
      rw [hbelow j (by omega), LMDBEnv.sub_setSub, if_neg (by omega)]
    · intro j h1 h2 k
      by_cases hji : j = i
      · subst hji
        rw [hbelow j (by omega), LMDBEnv.sub_setSub, if_pos rfl, ← hinv.2.2.1 k]
        exact hkeys k
      · exact hsubs j (by omega) (by omega) k
    · rw [hids, map_fst_idMapAssign]
      simp only [List.range'_succ, List.map_cons, List.foldl_cons, AssetWallet.getID, hid,
        subwalletID]

/-- What `AssetWallet_Multisig::createFromPrivateRoot` leaves in a new file, for P2SH or P2WSH, any
`M`, `N` and `lookup`, when the `N` sub-wallets have different ids: the record under the key
`ASSETENTRY_PREFIX` is `var_int(4)` and the raw `lookup`, and the database `Subwallet-i` of every
`i < N` holds asset records for exactly the indices of the effective lookup (100 for the
sentinel). -/
theorem multisig_create_store (K : Constants) (hK : K.LabelsDistinct) (hS : K.KeysSeparate)
    (C : Crypto) (hC : C.Bounded) (hH : C.BoundedHMAC) (aet : Byte)
    (haet : aet = K.AddressEntryType_P2SH ∨ aet = K.AddressEntryType_P2WSH) (M N : Nat)
    (seed : Bytes) (lookup : Nat) (hids : SubwalletIDsDistinct C seed N) :
    (AssetWallet_Multisig.createFromPrivateRoot K C LMDBEnv.empty aet M N seed lookup).2.main.get_NoCopy
        (put_uint8_t K.ASSETENTRY_PREFIX) = some (put_var_int 4 ++ put_uint32_t lookup) ∧
    ∀ i, i < N → ∀ k,
      HasAsset K
        ((AssetWallet_Multisig.createFromPrivateRoot K C LMDBEnv.empty aet M N seed lookup).2.sub i)
        k ↔
      k ∈ (List.range (effectiveLookup lookup)).map (fun n : Nat => wrapInt32 (Int.ofNat n)) := by
  have hgate : ¬ (aet ≠ K.AddressEntryType_P2SH ∧ aet ≠ K.AddressEntryType_P2WSH) := by
    rintro ⟨h1, h2⟩
    rcases haet with h | h
    · exact h1 h
    · exact h2 h
  have hwid : (C.getWalletID (C.getHMAC256 (C.ComputePublicKey seed)
      (decimal M ++ asciiBytes "_of_" ++ decimal N))).length < 2 ^ 64 := by
    have := hC.2.2.2.2.1 (C.getHMAC256 (C.ComputePublicKey seed)
      (decimal M ++ asciiBytes "_of_" ++ decimal N))
    omega
  obtain ⟨subs', env', hrun, hmain, -, hsubs, hkeys⟩ := createSubwallets_spec K hK hS C hC hH _
    hwid seed lookup N 0 LMDBEnv.empty [] (fun j _ => LMDBEnv.sub_empty j)
  have hlen : (subs'.map Prod.fst).length = N := by
    rw [hkeys, ← List.range_eq_range',
      length_foldl_setInsert _ _ hids (fun x _ hx => by cases hx)]
    simp
  have hser : DerivationScheme.serialize K (.Multisig ⟨N, M, subs'.map Prod.fst⟩) =
      .ok (put_var_int (DerivationScheme_Multisig.bw K ⟨N, M, subs'.map Prod.fst⟩).length ++
        DerivationScheme_Multisig.bw K ⟨N, M, subs'.map Prod.fst⟩) := by
    simp only [DerivationScheme.serialize, DerivationScheme_Multisig.serialize, hlen, ne_eq,
      not_true_eq_false, if_false]
  simp only [AssetWallet_Multisig.createFromPrivateRoot, if_neg hgate, hrun,
    DerivationScheme_Multisig.Object.ofWallets, AssetWallet.putHeaderData_st, hser,
    AssetWallet.putData, Store.get_NoCopy_insert, if_true, true_and]
  intro i hi k
  exact hsubs i (Nat.zero_le _) (by omega) k

theorem sampleCrypto_boundedHMAC : sampleCrypto.BoundedHMAC := by
  intro key msg
  simp only [sampleCrypto, List.length_take]
  omega

/-- The part of C17 that holds: for a lookup up to 2^31 (so not the sentinel) the chain length
written is `lookup` itself, and the database of every sub-wallet holds an asset record for
every index below it. -/
theorem multisig_create_chain_covered (K : Constants) (hK : K.LabelsDistinct)
    (hS : K.KeysSeparate) (C : Crypto) (hC : C.Bounded) (hH : C.BoundedHMAC) (aet : Byte)
    (haet : aet = K.AddressEntryType_P2SH ∨ aet = K.AddressEntryType_P2WSH) (M N : Nat)
    (seed : Bytes) (lookup : Nat) (hl : lookup ≤ 2 ^ 31)
    (hids : SubwalletIDsDistinct C seed N) :
    (AssetWallet_Multisig.createFromPrivateRoot K C LMDBEnv.empty aet M N seed lookup).2.main.get_NoCopy
        (put_uint8_t K.ASSETENTRY_PREFIX) = some (put_var_int 4 ++ put_uint32_t lookup) ∧
    get_uint32_t (put_uint32_t lookup) = .ok (lookup, []) ∧
    ∀ i, i < N → ∀ j : Nat, j < lookup →
      HasAsset K
        ((AssetWallet_Multisig.createFromPrivateRoot K C LMDBEnv.empty aet M N seed lookup).2.sub i)
        (Int.ofNat j) := by
  obtain ⟨h1, h2⟩ := multisig_create_store K hK hS C hC hH aet haet M N seed lookup hids
  have he : effectiveLookup lookup = lookup := by
    unfold effectiveLookup UINT32_MAX
    exact if_neg (by omega)
  refine ⟨h1, ?_, ?_⟩
  · have := get_uint32_t_put lookup []
    rw [List.append_nil, Nat.mod_eq_of_lt (by omega)] at this
    exact this
  · intro i hi j hj
    rw [h2 i hi, he]
    simp only [List.mem_map, List.mem_range]
    exact ⟨j, hj, wrapInt32_of_range _ (by simp only [Int.ofNat_eq_coe]; omega)
      (by simp only [Int.ofNat_eq_coe]; omega)⟩

/-- C17 (what the code does for the sentinel): after `createFromPrivateRoot(aet, M, N, seed,
UINT32_MAX)` on a new file, for P2SH or P2WSH, any `M` and any `N` sub-wallets with different
ids, the chain length persisted under the key `ASSETENTRY_PREFIX` is the raw sentinel,
`var_int(4)` and `ff ff ff ff`, read back as 4294967295, while `initWalletDb` has replaced the
sentinel by `DERIVATION_LOOKUP` in every sub-wallet: each sub-database holds an asset record
of index 99 and none of index 100. -/
theorem AssetWallet_Multisig_create_sentinel_chain_length (K : Constants)
    (hK : K.LabelsDistinct) (hS : K.KeysSeparate) (C : Crypto) (hC : C.Bounded)
    (hH : C.BoundedHMAC) (aet : Byte)
    (haet : aet = K.AddressEntryType_P2SH ∨ aet = K.AddressEntryType_P2WSH) (M N : Nat)
    (seed : Bytes) (hids : SubwalletIDsDistinct C seed N) :
    (AssetWallet_Multisig.createFromPrivateRoot K C LMDBEnv.empty aet M N seed
        UINT32_MAX).2.main.get_NoCopy (put_uint8_t K.ASSETENTRY_PREFIX) =
      some (put_var_int 4 ++ put_uint32_t UINT32_MAX) ∧
    get_uint32_t (put_uint32_t UINT32_MAX) = .ok (4294967295, []) ∧
    ∀ i, i < N →
      HasAsset K ((AssetWallet_Multisig.createFromPrivateRoot K C LMDBEnv.empty aet M N seed
        UINT32_MAX).2.sub i) 99 ∧
      ¬ HasAsset K ((AssetWallet_Multisig.createFromPrivateRoot K C LMDBEnv.empty aet M N seed
        UINT32_MAX).2.sub i) 100 := by
  obtain ⟨h1, h2⟩ := multisig_create_store K hK hS C hC hH aet haet M N seed UINT32_MAX hids
  have he : effectiveLookup UINT32_MAX = 100 := rfl
  refine ⟨h1, by decide, fun i hi => ⟨?_, ?_⟩⟩
  · rw [h2 i hi, he]
    simp only [List.mem_map, List.mem_range]
    exact ⟨99, by omega, by decide⟩
  · rw [h2 i hi, he]
    simp only [List.mem_map, List.mem_range, not_exists, not_and]
    intro j hj hw
    rw [wrapInt32_of_range _ (by simp only [Int.ofNat_eq_coe]; omega)
      (by simp only [Int.ofNat_eq_coe]; omega)] at hw
    simp only [Int.ofNat_eq_coe] at hw
    omega

/-- The 2-of-3 wallet of scenario S4 created with the sentinel lookup: the chain length on
disk is 4294967295, and each of the three sub-databases holds the asset of index 99 and no
asset of index 100. -/
theorem AssetWallet_Multisig_create_sentinel_chain_length_witness :
    (AssetWallet_Multisig.createFromPrivateRoot sampleConstants sampleCrypto LMDBEnv.empty
        sampleConstants.AddressEntryType_P2SH 2 3 sampleSeed UINT32_MAX).2.main.get_NoCopy
        (put_uint8_t sampleConstants.ASSETENTRY_PREFIX) =
      some (put_var_int 4 ++ put_uint32_t UINT32_MAX) ∧
    get_uint32_t (put_uint32_t UINT32_MAX) = .ok (4294967295, []) ∧
    ∀ i, i < 3 →
      HasAsset sampleConstants ((AssetWallet_Multisig.createFromPrivateRoot sampleConstants
        sampleCrypto LMDBEnv.empty sampleConstants.AddressEntryType_P2SH 2 3 sampleSeed
        UINT32_MAX).2.sub i) 99 ∧
      ¬ HasAsset sampleConstants ((AssetWallet_Multisig.createFromPrivateRoot sampleConstants
        sampleCrypto LMDBEnv.empty sampleConstants.AddressEntryType_P2SH 2 3 sampleSeed
        UINT32_MAX).2.sub i) 100 :=
  AssetWallet_Multisig_create_sentinel_chain_length sampleConstants (by decide) (by decide)
    sampleCrypto sampleCrypto_bounded sampleCrypto_boundedHMAC
    sampleConstants.AddressEntryType_P2SH (Or.inl rfl) 2 3 sampleSeed (by decide)

theorem bindRecord_cons (K : Constants) (s : SingleSlots) (t : Byte) (p : Bytes) :
    bindRecord K s (t :: p) =
      if t = K.PUBKEY_UNCOMPRESSED_BYTE then
        if s.pubKeyUncompressed.length ≠ 0 then
          .error (.AssetDeserException .multiple_pub_keys_for_entry)
        else .ok { s with pubKeyUncompressed := p }
      else if t = K.PUBKEY_COMPRESSED_BYTE then
        if s.pubKeyCompressed.length ≠ 0 then
          .error (.AssetDeserException .multiple_pub_keys_for_entry)
        else .ok { s with pubKeyCompressed := p }
      else if t = K.PRIVKEY_BYTE then
        if s.privKey.length ≠ 0 then
          .error (.AssetDeserException .multiple_pub_keys_for_entry)
        else .ok { s with privKey := p }
      else if t = K.CYPHER_BYTE then
        if s.cypher.isSome then
          .error (.AssetDeserException .multiple_cyphers_for_entry)
        else
          match Cypher.deserialize K p with
          | .ok (c, _) => .ok { s with cypher := some c }
          | .error e => .error e
      else .error (.AssetDeserException .unknown_key_type_byte) := by
  simp only [bindRecord, get_uint8_t_cons, bind_ok_eq, throw_eq_error, pure_eq_ok]
  split_ifs <;> try rfl
  cases Cypher.deserialize K p with
  | error e => rfl
  | ok v => rfl

theorem bindRecord_taken (K : Constants) (hK : K.LabelsDistinct) (s : SingleSlots) (t : Byte)
    (p : Bytes) (h : s.Taken K t) : ∃ e, bindRecord K s (t :: p) = .error e := by
  obtain ⟨h12, h13, h14, h23, h24, h34, -⟩ := hK
  rw [bindRecord_cons]
  rcases h with ⟨ht, hs⟩ | ⟨ht, hs⟩ | ⟨ht, hs⟩ | ⟨ht, hs⟩
  · have : s.pubKeyUncompressed.length ≠ 0 := fun e => hs (List.length_eq_zero.mp e)
    exact ⟨_, by rw [if_pos ht, if_pos this]⟩
  · have : s.pubKeyCompressed.length ≠ 0 := fun e => hs (List.length_eq_zero.mp e)
    exact ⟨_, by rw [if_neg (by rw [ht]; exact Ne.symm h12), if_pos ht, if_pos this]⟩
  · have : s.privKey.length ≠ 0 := fun e => hs (List.length_eq_zero.mp e)
    exact ⟨_, by rw [if_neg (by rw [ht]; exact Ne.symm h13),
      if_neg (by rw [ht]; exact Ne.symm h23), if_pos ht, if_pos this]⟩
  · exact ⟨_, by rw [if_neg (by rw [ht]; exact Ne.symm h14),
      if_neg (by rw [ht]; exact Ne.symm h24), if_neg (by rw [ht]; exact Ne.symm h34),
      if_pos ht, if_pos hs]⟩

theorem bindRecord_keeps_taken (K : Constants) (s s' : SingleSlots) (d : Bytes) (t : Byte)
    (h : s.Taken K t) (hb : bindRecord K s d = .ok s') : s'.Taken K t := by
  cases d with
  | nil => simp [bindRecord, get_uint8_t] at hb
  | cons b p =>
    rw [bindRecord_cons] at hb
    split_ifs at hb with c1 c2 c3 c4 c5 c6 c7 c8
    · cases hb
      rcases h with ⟨ht, hs⟩ | h | h | h
      · exact absurd (List.length_eq_zero.mp (by simpa using c2)) hs
      · exact Or.inr (Or.inl h)
      · exact Or.inr (Or.inr (Or.inl h))
      · exact Or.inr (Or.inr (Or.inr h))
    · cases hb
      rcases h with h | ⟨ht, hs⟩ | h | h
      · exact Or.inl h
      · exact absurd (List.length_eq_zero.mp (by simpa using c4)) hs
      · exact Or.inr (Or.inr (Or.inl h))
      · exact Or.inr (Or.inr (Or.inr h))
    · cases hb
      rcases h with h | h | ⟨ht, hs⟩ | h
      · exact Or.inl h
      · exact Or.inr (Or.inl h)
      · exact absurd (List.length_eq_zero.mp (by simpa using c6)) hs
      · exact Or.inr (Or.inr (Or.inr h))
    · cases hd : Cypher.deserialize K p with
      | error e => rw [hd] at hb; cases hb
      | ok v =>
        rw [hd] at hb
        cases hb
        rcases h with h | h | h | ⟨ht, hs⟩
        · exact Or.inl h
        · exact Or.inr (Or.inl h)
        · exact Or.inr (Or.inr (Or.inl h))
        · exact absurd hs c8

theorem bindRecord_takes (K : Constants) (hK : K.LabelsDistinct) (s s' : SingleSlots)
    (t : Byte) (p : Bytes) (hp : p ≠ [] ∨ t = K.CYPHER_BYTE)
    (hb : bindRecord K s (t :: p) = .ok s') : s'.Taken K t := by
  obtain ⟨h12, h13, h14, h23, h24, h34, -⟩ := hK
  rw [bindRecord_cons] at hb
  split_ifs at hb with c1 c2 c3 c4 c5 c6 c7 c8
  · cases hb
    rcases hp with hp | hp
    · exact Or.inl ⟨c1, hp⟩
    · exact absurd (c1.symm.trans hp) h14
  · cases hb
    rcases hp with hp | hp
    · exact Or.inr (Or.inl ⟨c3, hp⟩)
    · exact absurd (c3.symm.trans hp) h24
  · cases hb
    rcases hp with hp | hp
    · exact Or.inr (Or.inr (Or.inl ⟨c5, hp⟩))
    · exact absurd (c5.symm.trans hp) h34
  · cases hd : Cypher.deserialize K p with
    | error e => rw [hd] at hb; cases hb
    | ok v =>
      rw [hd] at hb
      cases hb
      exact Or.inr (Or.inr (Or.inr ⟨c7, rfl⟩))

theorem bindRecords_taken_fails (K : Constants) (hK : K.LabelsDistinct) (t : Byte)
    (recs : List Bytes) (s : SingleSlots) (h : s.Taken K t) (hmem : ∃ p, t :: p ∈ recs) :
    ∃ e, bindRecords K s recs = .error e := by
  induction recs generalizing s with
  | nil => obtain ⟨p, hp⟩ := hmem; cases hp
  | cons d ds ih =>
    cases hb : bindRecord K s d with
    | error e => exact ⟨e, by simp only [bindRecords, hb, bind_error_eq]⟩
    | ok s1 =>
      obtain ⟨p, hp⟩ := hmem
      rcases List.mem_cons.mp hp with h1 | h1
      · obtain ⟨e, he⟩ := bindRecord_taken K hK s t p h
        rw [h1, hb] at he
        cases he
      · obtain ⟨e, he⟩ := ih s1 (bindRecord_keeps_taken K s s1 d t h hb) ⟨p, h1⟩
        exact ⟨e, by simp only [bindRecords, hb, bind_ok_eq, he]⟩

/-- The duplicates `deserDBValue` does refuse (the part of C20 that holds): when a tag heads
two records of a Single-asset value and the earlier of the two has a payload that is not
empty, or the tag is `CYPHER_BYTE`, the value is not decoded. -/
theorem deserDBValue_duplicate_fails (K : Constants) (hK : K.LabelsDistinct) (index : Int)
    (front back : List Bytes) (t : Byte) (p p' : Bytes) (hp : p ≠ [] ∨ t = K.CYPHER_BYTE)
    (hdup : t :: p' ∈ back)
    (hlen : ∀ v ∈ front ++ (t :: p) :: back, v.length < 2 ^ 64) :
    ∃ e, AssetEntry.deserDBValue K index (K.AssetEntryType_Single ::
      ((front ++ (t :: p) :: back).map frame).flatten) = .error e := by
  have hrec := readRecords_frames (front ++ (t :: p) :: back) hlen
  have hbind : ∀ (front : List Bytes) (s : SingleSlots),
      ∃ e, bindRecords K s (front ++ (t :: p) :: back) = .error e := by
    intro front
    induction front with
    | nil =>
      intro s
      cases hb : bindRecord K s (t :: p) with
      | error e => exact ⟨e, by simp only [List.nil_append, bindRecords, hb, bind_error_eq]⟩
      | ok s1 =>
        obtain ⟨e, he⟩ := bindRecords_taken_fails K hK t back s1
          (bindRecord_takes K hK s s1 t p hp hb) ⟨p', hdup⟩
        exact ⟨e, by simp only [List.nil_append, bindRecords, hb, bind_ok_eq, he]⟩
    | cons d ds ih =>
      intro s
      cases hb : bindRecord K s d with
      | error e => exact ⟨e, by simp only [List.cons_append, bindRecords, hb, bind_error_eq]⟩
      | ok s1 =>
        obtain ⟨e, he⟩ := ih s1
        exact ⟨e, by rw [List.cons_append, bindRecords, hb, bind_ok_eq, he]⟩
  obtain ⟨e, he⟩ := hbind front ⟨[], [], [], none⟩
  exact ⟨e, by simp only [AssetEntry.deserDBValue, get_uint8_t_cons, bind_ok_eq, if_true, hrec,
    he, bind_error_eq]⟩

/-- The parameter `M = 0` reaches `getScript` through the wallet: `createFromPrivateRoot(P2SH, 0, 1,
seed, 4)` on a new file returns a wallet whose four assets carry `M = 0`, `N = 1` and one
sub-asset; their scripts start with the byte `0x50`, and `getHash160` returns a hash for
each. -/
theorem create_zero_m_sample :
    (multisigAssetsOf (sampleCreateMultisig 0 1 4).1).map
        (fun a => (a.m, a.n, a.assetMap.length)) = List.replicate 4 (0, 1, 1) ∧
    (multisigAssetsOf (sampleCreateMultisig 0 1 4).1).map
        (fun a => (a.getScript sampleConstants).toOption.map (fun s => s.take 1)) =
      List.replicate 4 (some [(0x50 : Byte)]) ∧
    (multisigAssetsOf (sampleCreateMultisig 0 1 4).1).map
        (fun a => (a.getHash160 sampleConstants sampleCrypto).toOption.isSome) =
      List.replicate 4 true := by
  refine ⟨?_, ?_, ?_⟩ <;> decide

/-! ## Reading a value under a key -/

theorem Store.get_NoCopy_eq_none (key : Bytes) (s : Store) (h : ∀ v, (key, v) ∉ s) :
    Store.get_NoCopy key s = none := by
  induction s with
  | nil => rfl
  | cons e r ih =>
    obtain ⟨k, v⟩ := e
    rw [Store.get_NoCopy_cons]
    by_cases hk : k = key
    · subst hk
      exact absurd (List.mem_cons_self _ _) (h v)
    · rw [if_neg hk]
      exact ih (fun v' hv' => h v' (List.mem_cons_of_mem _ hv'))

theorem Store.mem_of_get_NoCopy (key v : Bytes) (s : Store) (h : Store.get_NoCopy key s = some v) :
    (key, v) ∈ s := by
  induction s with
  | nil => cases h
  | cons e r ih =>
    obtain ⟨k, v'⟩ := e
    rw [Store.get_NoCopy_cons] at h
    by_cases hk : k = key
    · rw [if_pos hk] at h
      cases h
      subst hk
      exact List.mem_cons_self _ _
    · rw [if_neg hk] at h
      exact List.mem_cons_of_mem _ (ih h)

/-- C23: `AssetWallet::getDataRefForKey` returns the payload `p` when the value stored under the
key is `var_int(|p|) ‖ p`; it fails with the wallet error "on disk data length mismatch" when
the length the `var_int` declares differs from the number of bytes that follow it; it fails
with `NoEntryInWalletException` when the store has no record under the key; and whenever it
returns a payload, the stored value declares exactly the length of that payload. -/
theorem AssetWallet_getDataRefForKey_contract (w : AssetWallet) (key : Bytes) :
    (∀ p : Bytes, p.length < 2 ^ 64 → w.db.get_NoCopy key = some (put_var_int p.length ++ p) →
      w.getDataRefForKey key = .ok p) ∧
    (∀ (ref : Bytes) (len : Nat) (rest : Bytes), w.db.get_NoCopy key = some ref →
      get_var_int ref = .ok (len, rest) → len ≠ rest.length →
      w.getDataRefForKey key = .error (.WalletException .on_disk_data_length_mismatch)) ∧
    ((∀ v, (key, v) ∉ w.db) → w.getDataRefForKey key = .error .NoEntryInWalletException) ∧
    (∀ p : Bytes, w.getDataRefForKey key = .ok p →
      ∃ ref, (key, ref) ∈ w.db ∧ get_var_int ref = .ok (p.length, p)) := by
  refine ⟨?_, ?_, ?_, ?_⟩
  · intro p hp h
    exact getDataRefForKey_frame w key p h hp
  · intro ref len rest h hv hne
    simp only [AssetWallet.getDataRefForKey, h, hv, bind_ok_eq, ne_eq, hne, not_false_eq_true,
      if_true, throw_eq_error]
  · intro h
    simp only [AssetWallet.getDataRefForKey, Store.get_NoCopy_eq_none key w.db h]
  · intro p h
    unfold AssetWallet.getDataRefForKey at h
    cases hg : w.db.get_NoCopy key with
    | none => rw [hg] at h; cases h
    | some ref =>
      rw [hg] at h
      simp only at h
      refine ⟨ref, Store.mem_of_get_NoCopy key ref w.db hg, ?_⟩
      cases hv : get_var_int ref with
      | error e => rw [hv] at h; simp only [bind_error_eq] at h; cases h
      | ok lr =>
        obtain ⟨len, brr⟩ := lr
        rw [hv] at h
        simp only [bind_ok_eq] at h
        by_cases hl : len = brr.length
        · simp only [hl, ne_eq, not_true_eq_false, if_false, pure_eq_ok, Except.ok.injEq] at h
          subst h
          rw [hl]
        · simp only [ne_eq, hl, not_false_eq_true, if_true, throw_eq_error] at h
          cases h

/-- A framed value, a value whose `var_int` declares 5 bytes before 2, and an absent key. -/
theorem AssetWallet_getDataRefForKey_contract_witness :
    (AssetWallet.new .Single [([1], [2, 7, 8])]).getDataRefForKey [1] = .ok [7, 8] ∧
    (AssetWallet.new .Single [([1], [5, 7, 8])]).getDataRefForKey [1] =
      .error (.WalletException .on_disk_data_length_mismatch) ∧
    (AssetWallet.new .Single [([1], [2, 7, 8])]).getDataRefForKey [3] =
      .error .NoEntryInWalletException ∧
    (∃ ref, (([1] : Bytes), ref) ∈ (AssetWallet.new .Single [([1], [2, 7, 8])]).db ∧
      get_var_int ref = .ok (([7, 8] : Bytes).length, [7, 8])) :=
  ⟨(AssetWallet_getDataRefForKey_contract (AssetWallet.new .Single [([1], [2, 7, 8])]) [1]).1
      [7, 8] (by decide) (by decide),
    (AssetWallet_getDataRefForKey_contract (AssetWallet.new .Single [([1], [5, 7, 8])]) [1]).2.1
      [5, 7, 8] 5 [7, 8] (by decide) (by decide) (by decide),
    (AssetWallet_getDataRefForKey_contract (AssetWallet.new .Single [([1], [2, 7, 8])]) [3]).2.2.1
      (by simp [AssetWallet.new]),
    (AssetWallet_getDataRefForKey_contract (AssetWallet.new .Single [([1], [2, 7, 8])]) [1]).2.2.2
      [7, 8] (by decide)⟩

/-! ## Binding sub-wallets to a multisig scheme -/

theorem setInsert_pairwise (x : Bytes) (l : List Bytes)
    (h : l.Pairwise (fun a b => bytesLt a b = true)) :
    (setInsert x l).Pairwise (fun a b => bytesLt a b = true) := by
  induction l with
  | nil => simp [setInsert]
  | cons y ys ih =>
    rw [List.pairwise_cons] at h
    rw [setInsert_cons]
    split_ifs with h1 h2
    · rw [List.pairwise_cons]
      refine ⟨?_, List.pairwise_cons.mpr h⟩
      intro e he
      rcases List.mem_cons.mp he with he | he
      · rw [he]; exact h1
      · exact bytesLt_trans _ _ _ h1 (h.1 e he)
    · rw [List.pairwise_cons]
      refine ⟨?_, ih h.2⟩
      intro e he
      rcases (mem_setInsert x e ys).mp he with he | he
      · rw [he]; exact h2
      · exact h.1 e he
    · exact List.pairwise_cons.mpr h

theorem foldl_setInsert_pairwise (ids acc : List Bytes)
    (h : acc.Pairwise (fun a b => bytesLt a b = true)) :
    (ids.foldl (fun s id => setInsert id s) acc).Pairwise (fun a b => bytesLt a b = true) := by
  induction ids generalizing acc with
  | nil => exact h
  | cons x xs ih => exact ih (setInsert x acc) (setInsert_pairwise x acc h)

theorem mem_foldl_setInsert (ids acc : List Bytes) (z : Bytes) :
    z ∈ ids.foldl (fun s id => setInsert id s) acc ↔ z ∈ acc ∨ z ∈ ids := by
  induction ids generalizing acc with
  | nil => simp
  | cons x xs ih =>
    rw [List.foldl_cons, ih (setInsert x acc), mem_setInsert, List.mem_cons]
    tauto

theorem sorted_ids_ext (l1 l2 : List Bytes) (h1 : l1.Pairwise (fun a b => bytesLt a b = true))
    (h2 : l2.Pairwise (fun a b => bytesLt a b = true)) (h : ∀ k, k ∈ l1 ↔ k ∈ l2) : l1 = l2 := by
  induction l1 generalizing l2 with
  | nil =>
    cases l2 with
    | nil => rfl
    | cons y ys => exact absurd ((h y).mpr (List.mem_cons_self _ _)) (List.not_mem_nil _)
  | cons x xs ih =>
    cases l2 with
    | nil => exact absurd ((h x).mp (List.mem_cons_self _ _)) (List.not_mem_nil _)
    | cons y ys =>
      rw [List.pairwise_cons] at h1 h2
      have hxy : x = y := by
        have hx := (h x).mp (List.mem_cons_self _ _)
        have hy := (h y).mpr (List.mem_cons_self _ _)
        rcases List.mem_cons.mp hx with hx | hx
        · exact hx
        · rcases List.mem_cons.mp hy with hy | hy
          · exact hy.symm
          · have a1 := h1.1 y hy
            have a2 := h2.1 x hx
            rw [bytesLt_asymm _ _ a1] at a2
            cases a2
      subst hxy
      congr 1
      apply ih ys h1.2 h2.2
      intro k
      constructor
      · intro hk
        have := (h k).mp (List.mem_cons_of_mem _ hk)
        rcases List.mem_cons.mp this with e | e
        · have a := h1.1 k hk
          rw [e, bytesLt_irrefl] at a
          cases a
        · exact e
      · intro hk
        have := (h k).mpr (List.mem_cons_of_mem _ hk)
        rcases List.mem_cons.mp this with e | e
        · have a := h2.1 k hk
          rw [e, bytesLt_irrefl] at a
          cases a
        · exact e

theorem keySet_eq_iff {α : Type} (ptrMap : List (Bytes × α)) (ids : List Bytes)
    (hs : ids.Pairwise (fun a b => bytesLt a b = true)) :
    ptrMap.foldl (fun s wltPtr => setInsert wltPtr.1 s) [] = ids ↔
      ∀ id, id ∈ ptrMap.map Prod.fst ↔ id ∈ ids := by
  have hfold : ptrMap.foldl (fun s wltPtr => setInsert wltPtr.1 s) [] =
      (ptrMap.map Prod.fst).foldl (fun s id => setInsert id s) [] := by
    rw [List.foldl_map]
  rw [hfold]
  constructor
  · intro h id
    rw [← h, mem_foldl_setInsert]
    simp
  · intro h
    apply sorted_ids_ext _ _ (foldl_setInsert_pairwise _ _ List.Pairwise.nil) hs
    intro k
    rw [mem_foldl_setInsert, ← h k]
    simp

/-- C24: `DerivationScheme_Multisig::setSubwalletPointers` succeeds exactly when the set of keys
of the given map equals the id set `walletIDs_` of the scheme (a `std::set`, hence in strictly
ascending order); it then binds the given map. On a mismatch it fails with
`DerivationSchemeDeserException` ("ids set mismatch") and the scheme, its map of sub-wallet
handles included, is as before the call. -/
theorem DerivationScheme_Multisig_setSubwalletPointers_contract
    (o : DerivationScheme_Multisig.Object) (ptrMap : List (Bytes × AssetWallet))
    (hs : o.scheme.walletIDs.Pairwise (fun a b => bytesLt a b = true)) :
    ((o.setSubwalletPointers ptrMap).1 = .ok () ↔
      ∀ id, id ∈ ptrMap.map Prod.fst ↔ id ∈ o.scheme.walletIDs) ∧
    ((∀ id, id ∈ ptrMap.map Prod.fst ↔ id ∈ o.scheme.walletIDs) →
      o.setSubwalletPointers ptrMap = (.ok (), { o with wallets := ptrMap })) ∧
    (¬ (∀ id, id ∈ ptrMap.map Prod.fst ↔ id ∈ o.scheme.walletIDs) →
      o.setSubwalletPointers ptrMap =
        (.error (.DerivationSchemeDeserException .ids_set_mismatch), o)) := by
  have key := keySet_eq_iff ptrMap o.scheme.walletIDs hs
  have hok : (∀ id, id ∈ ptrMap.map Prod.fst ↔ id ∈ o.scheme.walletIDs) →
      o.setSubwalletPointers ptrMap = (.ok (), { o with wallets := ptrMap }) := by
    intro h
    simp only [DerivationScheme_Multisig.Object.setSubwalletPointers, key.mpr h, ne_eq,
      not_true_eq_false, if_false]
  have hbad : ¬ (∀ id, id ∈ ptrMap.map Prod.fst ↔ id ∈ o.scheme.walletIDs) →
      o.setSubwalletPointers ptrMap =
        (.error (.DerivationSchemeDeserException .ids_set_mismatch), o) := by
    intro h
    have hne : ¬ ptrMap.foldl (fun s wltPtr => setInsert wltPtr.1 s) [] = o.scheme.walletIDs :=
      fun e => h (key.mp e)
    simp only [DerivationScheme_Multisig.Object.setSubwalletPointers, ne_eq, hne,
      not_false_eq_true, if_true]
  refine ⟨⟨?_, fun h => by rw [hok h]⟩, hok, hbad⟩
  intro h
  by_contra hn
  rw [hbad hn] at h
  cases h

/-- A scheme with the ids `[1]`, `[2]`: a map with these two keys is bound, a map with the keys
`[1]`, `[3]` is refused and the scheme stays unbound. -/
theorem DerivationScheme_Multisig_setSubwalletPointers_contract_witness :
    (sampleSchemeUnbound.setSubwalletPointers
        [([2], AssetWallet.new .Single []), ([1], AssetWallet.new .Single [])] =
      (.ok (), { sampleSchemeUnbound with
        wallets := [([2], AssetWallet.new .Single []), ([1], AssetWallet.new .Single [])] })) ∧
    (sampleSchemeUnbound.setSubwalletPointers
        [([1], AssetWallet.new .Single []), ([3], AssetWallet.new .Single [])] =
      (.error (.DerivationSchemeDeserException .ids_set_mismatch), sampleSchemeUnbound)) :=
  ⟨(DerivationScheme_Multisig_setSubwalletPointers_contract sampleSchemeUnbound
      [([2], AssetWallet.new .Single []), ([1], AssetWallet.new .Single [])]
      (by decide)).2.1 (by simp [sampleSchemeUnbound]; intro id; tauto),
    (DerivationScheme_Multisig_setSubwalletPointers_contract sampleSchemeUnbound
      [([1], AssetWallet.new .Single []), ([3], AssetWallet.new .Single [])]
      (by decide)).2.2 (fun h => by
        have := (h [3]).mp (by simp)
        simp [sampleSchemeUnbound] at this)⟩

/-! ## The id records of a multisig scheme blob -/

theorem deserialize_multisigBlob (K : Constants) (hK : K.LabelsDistinct) (m n : Nat)
    (hm : m < 2 ^ 32) (hn : n < 2 ^ 32) (recs : List Bytes)
    (hrecs : ∀ r ∈ recs, r.length < 2 ^ 64) :
    DerivationScheme.deserialize K (multisigBlob K m n recs) =
      if (recs.foldl (fun s id => setInsert id s) []).length ≠ n then
        .error (.DerivationSchemeDeserException .id_count_mismatch)
      else .ok (.Multisig ⟨n, m, recs.foldl (fun s id => setInsert id s) []⟩) := by
  have hframes : (recs.map (fun id => put_var_int id.length ++ id)) = recs.map frame := rfl
  have hr := readIds_frames recs hrecs _ [] (le_refl _)
  have hne : K.DERIVATIONSCHEME_MULTISIG ≠ K.DERIVATIONSCHEME_LEGACY :=
    fun h => hK.2.2.2.2.2.2.1 h.symm
  have g1 := get_uint32_t_put m (put_uint32_t n ++ (recs.map frame).flatten)
  have g2 := get_uint32_t_put n (recs.map frame).flatten
  rw [Nat.mod_eq_of_lt hm] at g1
  rw [Nat.mod_eq_of_lt hn] at g2
  simp only [DerivationScheme.deserialize, multisigBlob,
    put_uint8_t, List.singleton_append, List.cons_append, get_uint8_t, bind_ok_eq, hne,
    if_false, if_true, hframes, List.append_assoc, g1, g2, hr, List.nil_append, ne_eq,
    pure_eq_ok, throw_eq_error]

/-- A blob that records one id of an ascending id list a second time is decoded into the
scheme with these ids. -/
theorem deserialize_repeated_id (K : Constants) (hK : K.LabelsDistinct)
    (m : Nat) (hm : m < 2 ^ 32) (ids : List Bytes)
    (hsorted : ids.Pairwise (fun a b => bytesLt a b = true))
    (hlen : ∀ r ∈ ids, r.length < 2 ^ 64) (hn : ids.length < 2 ^ 32)
    (a : Bytes) (ha : a ∈ ids) :
    DerivationScheme.deserialize K (multisigBlob K m ids.length (a :: ids)) =
      .ok (.Multisig ⟨ids.length, m, ids⟩) := by
  have hfold : (a :: ids).foldl (fun s id => setInsert id s) [] = ids := by
    apply sorted_ids_ext _ _ (foldl_setInsert_pairwise _ _ List.Pairwise.nil) hsorted
    intro k
    rw [mem_foldl_setInsert, List.mem_cons]
    constructor
    · rintro (h | h | h)
      · cases h
      · rw [h]; exact ha
      · exact h
    · intro h; exact Or.inr (Or.inr h)
  rw [deserialize_multisigBlob K hK m ids.length hm hn (a :: ids)
    (fun r hr => by
      rcases List.mem_cons.mp hr with h | h
      · rw [h]; exact hlen a ha
      · exact hlen r h), hfold]
  simp

/-- C25 (a blob for which the claim fails): the blob records `M = 1`, `N = 2` and the three
ids `[1]`, `[1]`, `[2]`. The number of id records differs from `N`, and the blob is decoded
into the scheme with the two ids `[1]` and `[2]`. -/
theorem DerivationScheme_deserialize_accepts_repeated_id :
    ([[1], [1], [2]] : List Bytes).length ≠ 2 ∧
    DerivationScheme.deserialize sampleConstants
        (multisigBlob sampleConstants 1 2 [[1], [1], [2]]) =
      .ok (.Multisig ⟨2, 1, [[1], [2]]⟩) :=
  ⟨by decide, deserialize_repeated_id sampleConstants (by decide) 1 (by decide) [[1], [2]]
    (by decide) (by decide) (by decide) [1] (by decide)⟩

/-- C25 (amended): `DerivationScheme::deserialize` collects the id records of a Multisig blob
in a `std::set` and compares the size of the set with `n`: the decode fails with "id count
mismatch" whenever the number of different ids among the id records differs from `n`, and
otherwise returns the scheme with `n`, `m` and that id set, whatever the number of id
records. -/
theorem DerivationScheme_deserialize_counts_distinct_ids (K : Constants) (hK : K.LabelsDistinct)
    (m n : Nat) (hm : m < 2 ^ 32) (hn : n < 2 ^ 32) (recs : List Bytes)
    (hrecs : ∀ r ∈ recs, r.length < 2 ^ 64) :
    ((recs.foldl (fun s id => setInsert id s) []).length ≠ n →
      DerivationScheme.deserialize K (multisigBlob K m n recs) =
        .error (.DerivationSchemeDeserException .id_count_mismatch)) ∧
    ((recs.foldl (fun s id => setInsert id s) []).length = n →
      DerivationScheme.deserialize K (multisigBlob K m n recs) =
        .ok (.Multisig ⟨n, m, recs.foldl (fun s id => setInsert id s) []⟩)) := by
  rw [deserialize_multisigBlob K hK m n hm hn recs hrecs]
  exact ⟨fun h => by rw [if_pos h], fun h => by rw [if_neg (by simpa using h)]⟩

/-- A blob with `N = 2` whose two id records hold the same id is refused; with the ids `[2]`
and `[1]` it is decoded, the ids in ascending order. -/
theorem DerivationScheme_deserialize_counts_distinct_ids_witness :
    DerivationScheme.deserialize sampleConstants (multisigBlob sampleConstants 1 2 [[1], [1]]) =
      .error (.DerivationSchemeDeserException .id_count_mismatch) ∧
    DerivationScheme.deserialize sampleConstants (multisigBlob sampleConstants 1 2 [[2], [1]]) =
      .ok (.Multisig ⟨2, 1, ([[2], [1]] : List Bytes).foldl (fun s id => setInsert id s) []⟩) :=
  ⟨(DerivationScheme_deserialize_counts_distinct_ids sampleConstants (by decide) 1 2 (by decide)
      (by decide) [[1], [1]] (by decide)).1 (by decide),
    (DerivationScheme_deserialize_counts_distinct_ids sampleConstants (by decide) 1 2 (by decide)
      (by decide) [[2], [1]] (by decide)).2 (by decide)⟩

/-! ## Values that are not decoded -/

theorem bindRecord_unknown (K : Constants) (s : SingleSlots) (t : Byte) (p : Bytes)
    (h : ¬ K.IsRecordTag t) :
    bindRecord K s (t :: p) = .error (.AssetDeserException .unknown_key_type_byte) := by
  unfold Constants.IsRecordTag at h
  rw [bindRecord_cons, if_neg (fun e => h (Or.inl e)), if_neg (fun e => h (Or.inr (Or.inl e))),
    if_neg (fun e => h (Or.inr (Or.inr (Or.inl e)))),
    if_neg (fun e => h (Or.inr (Or.inr (Or.inr e))))]

theorem bindRecords_append (K : Constants) (pre rest : List Bytes) (s s1 : SingleSlots)
    (h : bindRecords K s pre = .ok s1) :
    bindRecords K s (pre ++ rest) = bindRecords K s1 rest := by
  induction pre generalizing s with
  | nil =>
    simp only [bindRecords, Except.ok.injEq] at h
    rw [List.nil_append, h]
  | cons d ds ih =>
    cases hb : bindRecord K s d with
    | error e => simp only [bindRecords, hb, bind_error_eq] at h; cases h
    | ok s2 =>
      simp only [bindRecords, hb, bind_ok_eq] at h
      rw [List.cons_append, bindRecords, hb, bind_ok_eq, ih s2 h]

theorem bindRecords_unknown_fails (K : Constants) (recs : List Bytes) (s : SingleSlots)
    (h : ∃ r ∈ recs, ∃ t p, r = t :: p ∧ ¬ K.IsRecordTag t) :
    ∃ e, bindRecords K s recs = .error e := by
  induction recs generalizing s with
  | nil => obtain ⟨r, hr, -⟩ := h; cases hr
  | cons d ds ih =>
    cases hb : bindRecord K s d with
    | error e => exact ⟨e, by simp only [bindRecords, hb, bind_error_eq]⟩
    | ok s1 =>
      obtain ⟨r, hr, t, p, hrt, ht⟩ := h
      rcases List.mem_cons.mp hr with h1 | h1
      · rw [← h1, hrt, bindRecord_unknown K s t p ht] at hb
        cases hb
      · obtain ⟨e, he⟩ := ih s1 ⟨r, h1, t, p, hrt, ht⟩
        exact ⟨e, by simp only [bindRecords, hb, bind_ok_eq, he]⟩

theorem bindRecord_plain (K : Constants) (s : SingleSlots) (t : Byte) (p : Bytes)
    (h : t ≠ K.CYPHER_BYTE) :
    (∃ s1, bindRecord K s (t :: p) = .ok s1) ∨
      ∃ m, bindRecord K s (t :: p) = .error (.AssetDeserException m) := by
  rw [bindRecord_cons]
  split_ifs
  all_goals first
    | exact Or.inl ⟨_, rfl⟩
    | exact Or.inr ⟨_, rfl⟩

theorem bindRecords_plain (K : Constants) (pre : List Bytes) (s : SingleSlots)
    (h : ∀ r ∈ pre, ∃ t p, r = t :: p ∧ t ≠ K.CYPHER_BYTE) :
    (∃ s1, bindRecords K s pre = .ok s1) ∨
      ∃ m, bindRecords K s pre = .error (.AssetDeserException m) := by
  induction pre generalizing s with
  | nil => exact Or.inl ⟨s, rfl⟩
  | cons d ds ih =>
    obtain ⟨t, p, hd, ht⟩ := h d (List.mem_cons_self _ _)
    subst hd
    rcases bindRecord_plain K s t p ht with ⟨s1, h1⟩ | ⟨m, h1⟩
    · rcases ih s1 (fun r hr => h r (List.mem_cons_of_mem _ hr)) with ⟨s2, h2⟩ | ⟨m, h2⟩
      · exact Or.inl ⟨s2, by simp only [bindRecords, h1, bind_ok_eq, h2]⟩
      · exact Or.inr ⟨m, by simp only [bindRecords, h1, bind_ok_eq, h2]⟩
    · exact Or.inr ⟨m, by simp only [bindRecords, h1, bind_error_eq]⟩

/-- C21 (a value for which the claim fails): the second record of the value starts with
`0xee`, none of the four tags, and the first is a cipher record with the type byte `0x77`.
`deserDBValue` binds the records in order, `Cypher::deserialize` throws on the first one, and
the call ends with `CypherException`, not with `AssetDeserException`. -/
theorem deserDBValue_unknown_tag_behind_cypher_type :
    ¬ sampleConstants.IsRecordTag 0xee ∧
    readRecords (frame [sampleConstants.CYPHER_BYTE, 0x77] ++ frame [0xee]) =
      .ok [[sampleConstants.CYPHER_BYTE, 0x77], [0xee]] ∧
    AssetEntry.deserDBValue sampleConstants 0 (sampleConstants.AssetEntryType_Single ::
        (frame [sampleConstants.CYPHER_BYTE, 0x77] ++ frame [0xee])) =
      .error (.CypherException .unexpected_cypher_type) := by
  refine ⟨by decide, by decide, by decide⟩

/-- C21 (amended): `AssetEntry::deserDBValue` fails with `AssetDeserException` when the
entry-type byte is not `AssetEntryType_Single`. When a record of a Single value starts with
a byte that is none of the four tags the call never returns an asset; the exception is that
of the first record that cannot be bound: it is `AssetDeserException` ("unknown key type
byte") when the records before the unknown tag are bound without exception, and some
`AssetDeserException` when none of the records before it is empty or a cipher record.
`AssetEntry::deserialize` fails for every key that does not start with `ASSETENTRY_PREFIX`,
with `AssetDeserException` when the key is not empty. -/
theorem AssetEntry_deserDBValue_rejects (K : Constants) (index : Int) :
    (∀ (t : Byte) (rest : Bytes), t ≠ K.AssetEntryType_Single →
      AssetEntry.deserDBValue K index (t :: rest) =
        .error (.AssetDeserException .invalid_asset_entry_type)) ∧
    (∀ recs : List Bytes, (∀ r ∈ recs, r.length < 2 ^ 64) →
      (∃ r ∈ recs, ∃ t p, r = t :: p ∧ ¬ K.IsRecordTag t) →
      ∃ e, AssetEntry.deserDBValue K index
        (K.AssetEntryType_Single :: (recs.map frame).flatten) = .error e) ∧
    (∀ (pre post : List Bytes) (t : Byte) (p : Bytes) (s : SingleSlots),
      (∀ r ∈ pre ++ (t :: p) :: post, r.length < 2 ^ 64) → ¬ K.IsRecordTag t →
      bindRecords K ⟨[], [], [], none⟩ pre = .ok s →
      AssetEntry.deserDBValue K index
          (K.AssetEntryType_Single :: ((pre ++ (t :: p) :: post).map frame).flatten) =
        .error (.AssetDeserException .unknown_key_type_byte)) ∧
    (∀ (pre post : List Bytes) (t : Byte) (p : Bytes),
      (∀ r ∈ pre ++ (t :: p) :: post, r.length < 2 ^ 64) → ¬ K.IsRecordTag t →
      (∀ r ∈ pre, ∃ t' p', r = t' :: p' ∧ t' ≠ K.CYPHER_BYTE) →
      ∃ m, AssetEntry.deserDBValue K index
          (K.AssetEntryType_Single :: ((pre ++ (t :: p) :: post).map frame).flatten) =
        .error (.AssetDeserException m)) ∧
    (∀ key value : Bytes, (∀ rest, key ≠ K.ASSETENTRY_PREFIX :: rest) →
      ∃ e, AssetEntry.deserialize K key value = .error e) ∧
    (∀ (b : Byte) (rest value : Bytes), b ≠ K.ASSETENTRY_PREFIX →
      AssetEntry.deserialize K (b :: rest) value =
        .error (.AssetDeserException .invalid_key_head)) := by
  have hunk : ∀ (post : List Bytes) (t : Byte) (p : Bytes) (s : SingleSlots),
      ¬ K.IsRecordTag t → bindRecords K s ((t :: p) :: post) =
        .error (.AssetDeserException .unknown_key_type_byte) := by
    intro post t p s ht
    simp only [bindRecords, bindRecord_unknown K s t p ht, bind_error_eq]
  refine ⟨?_, ?_, ?_, ?_, ?_, ?_⟩
  · intro t rest ht
    simp only [AssetEntry.deserDBValue, get_uint8_t_cons, bind_ok_eq, ht, if_false,
      throw_eq_error]
  · intro recs hlen h
    obtain ⟨e, he⟩ := bindRecords_unknown_fails K recs ⟨[], [], [], none⟩ h
    exact ⟨e, by simp only [AssetEntry.deserDBValue, get_uint8_t_cons, bind_ok_eq, if_true,
      readRecords_frames recs hlen, he, bind_error_eq]⟩
  · intro pre post t p s hlen ht hpre
    simp only [AssetEntry.deserDBValue, get_uint8_t_cons, bind_ok_eq, if_true,
      readRecords_frames _ hlen, bindRecords_append K pre _ _ s hpre, hunk post t p s ht,
      bind_error_eq]
  · intro pre post t p hlen ht hpre
    rcases bindRecords_plain K pre ⟨[], [], [], none⟩ hpre with ⟨s, hs⟩ | ⟨m, hm⟩
    · exact ⟨.unknown_key_type_byte, by
        simp only [AssetEntry.deserDBValue, get_uint8_t_cons, bind_ok_eq, if_true,
          readRecords_frames _ hlen, bindRecords_append K pre _ _ s hs, hunk post t p s ht,
          bind_error_eq]⟩
    · have hfail : ∀ (rest : List Bytes) (s : SingleSlots) (l : List Bytes),
          bindRecords K s l = .error (.AssetDeserException m) →
          bindRecords K s (l ++ rest) = .error (.AssetDeserException m) := by
        intro rest s l
        induction l generalizing s with
        | nil => intro h; simp only [bindRecords] at h; cases h
        | cons d ds ih =>
          intro h
          cases hb : bindRecord K s d with
          | error e =>
            simp only [bindRecords, hb, bind_error_eq] at h
            simp only [List.cons_append, bindRecords, hb, bind_error_eq, h]
          | ok s2 =>
            simp only [bindRecords, hb, bind_ok_eq] at h
            rw [List.cons_append, bindRecords, hb, bind_ok_eq, ih s2 h]
      exact ⟨m, by simp only [AssetEntry.deserDBValue, get_uint8_t_cons, bind_ok_eq, if_true,
        readRecords_frames _ hlen, hfail _ _ pre hm, bind_error_eq]⟩
  · intro key value hkey
    cases key with
    | nil =>
      exact ⟨.BufferOverrun, by simp only [AssetEntry.deserialize, get_uint8_t, bind_error_eq]⟩
    | cons b rest =>
      have hb : b ≠ K.ASSETENTRY_PREFIX := fun e => hkey rest (by rw [e])
      exact ⟨.AssetDeserException .invalid_key_head, by
        simp only [AssetEntry.deserialize, get_uint8_t_cons, bind_ok_eq, ne_eq, hb,
          not_false_eq_true, if_true, throw_eq_error]⟩
  · intro b rest value hb
    simp only [AssetEntry.deserialize, get_uint8_t_cons, bind_ok_eq, ne_eq, hb,
      not_false_eq_true, if_true, throw_eq_error]

/-- An entry-type byte other than Single, an unknown tag behind a cipher record of unsupported
type, an unknown tag behind a private-key record, and a key that starts with a header
byte. -/
theorem AssetEntry_deserDBValue_rejects_witness :
    AssetEntry.deserDBValue sampleConstants 0 [sampleConstants.AssetEntryType_Multisig] =
      .error (.AssetDeserException .invalid_asset_entry_type) ∧
    (∃ e, AssetEntry.deserDBValue sampleConstants 0 (sampleConstants.AssetEntryType_Single ::
        (([[sampleConstants.CYPHER_BYTE, 0x77], [0xee]] : List Bytes).map frame).flatten) =
      .error e) ∧
    AssetEntry.deserDBValue sampleConstants 0 (sampleConstants.AssetEntryType_Single ::
        (([sampleConstants.PRIVKEY_BYTE :: sampleSeed] ++ ([0xee, 1] : Bytes) :: []).map
          frame).flatten) = .error (.AssetDeserException .unknown_key_type_byte) ∧
    (∃ m, AssetEntry.deserDBValue sampleConstants 0 (sampleConstants.AssetEntryType_Single ::
        (([sampleConstants.PRIVKEY_BYTE :: sampleSeed] ++ ([0xee, 1] : Bytes) :: []).map
          frame).flatten) = .error (.AssetDeserException m)) ∧
    (∃ e, AssetEntry.deserialize sampleConstants [0x07, 0, 0, 0]
        [sampleConstants.AssetEntryType_Single] = .error e) ∧
    AssetEntry.deserialize sampleConstants [0x07, 0, 0, 0]
        [sampleConstants.AssetEntryType_Single] =
      .error (.AssetDeserException .invalid_key_head) :=
  ⟨(AssetEntry_deserDBValue_rejects sampleConstants 0).1 _ [] (by decide),
    (AssetEntry_deserDBValue_rejects sampleConstants 0).2.1 _ (by decide)
      ⟨[0xee], by simp, 0xee, [], rfl, by decide⟩,
    (AssetEntry_deserDBValue_rejects sampleConstants 0).2.2.1 _ [] 0xee [1]
      ⟨sampleSeed, [], [], none⟩ (by decide) (by decide) (by decide),
    (AssetEntry_deserDBValue_rejects sampleConstants 0).2.2.2.1 _ [] 0xee [1] (by decide)
      (by decide) (by
        intro r hr
        rw [List.mem_singleton.mp hr]
        exact ⟨_, _, rfl, by decide⟩),
    (AssetEntry_deserDBValue_rejects sampleConstants 0).2.2.2.2.1 _ _ (by
      intro rest h
      have h1 : (0x07 : Byte) = sampleConstants.ASSETENTRY_PREFIX := (List.cons.inj h).1
      revert h1
      decide),
    (AssetEntry_deserDBValue_rejects sampleConstants 0).2.2.2.2.2 _ _ _ (by decide)⟩

/-! ## Script-hash addresses and unsupported pairings -/

/-- C27: for a Multisig asset with `M ≤ N ≤ 16` (so for every valid `1 ≤ M ≤ N ≤ 16`) and `N`
Single sub-assets with 33-byte compressed keys, `getScript` returns a script,
`AddressEntry_P2SH::getAddress` of a new entry returns
`scrAddrToBase58(script-hash prefix ‖ HASH160(script))`, and `AddressEntry_P2WSH::getAddress` of
a new entry returns, not encoded, the script-hash prefix followed by the single SHA-256 of
the script; each call leaves its result in the memo of the entry. -/
theorem AddressEntry_script_hash_getAddress (K : Constants) (hop : K.StandardOpcodes)
    (C : Crypto) (cfg : Config) (a : AssetEntry_Multisig)
    (subs : List (Bytes × AssetEntry_Single))
    (hmap : a.assetMap = subs.map (fun e => (e.1, some e.2)))
    (hcount : subs.length = a.n)
    (hkeys : ∀ e ∈ subs, e.2.pubkey.compressed.length = 33)
    (hMN : a.m ≤ a.n) (hN : a.n ≤ 16) :
    ∃ script, a.getScript K = .ok script ∧
      AddressEntry_P2SH.getAddress K C cfg (AddressEntry.new .P2SH (.Multisig a)) =
        (.ok (C.scrAddrToBase58 (cfg.scriptHashPrefix :: C.getHash160 script)),
          ⟨.P2SH, .Multisig a, C.scrAddrToBase58 (cfg.scriptHashPrefix :: C.getHash160 script)⟩) ∧
      AddressEntry_P2WSH.getAddress K C cfg (AddressEntry.new .P2WSH (.Multisig a)) =
        (.ok (cfg.scriptHashPrefix :: C.getSha256 script),
          ⟨.P2WSH, .Multisig a, cfg.scriptHashPrefix :: C.getSha256 script⟩) := by
  have hs := getScript_of_range K hop a subs hmap hkeys hMN hN
  have hlen : a.assetMap.length = a.n := by rw [hmap, List.length_map, hcount]
  refine ⟨_, hs, ?_, ?_⟩
  · simp only [AddressEntry_P2SH.getAddress, AddressEntry.new, List.length_nil, if_true,
      AssetEntry_Multisig.getHash160, hlen, ne_eq, not_true_eq_false, if_false, hs,
      List.nil_append, List.singleton_append]
  · simp only [AddressEntry_P2WSH.getAddress, AddressEntry.new, List.length_nil, if_true,
      AssetEntry_Multisig.getHash256, hlen, ne_eq, not_true_eq_false, if_false, hs,
      List.nil_append, List.singleton_append]

/-- The 2-of-3 sample asset: both addresses are built from the hash of its script. -/
theorem AddressEntry_script_hash_getAddress_witness :
    ∃ script, sampleMultisigAsset.getScript sampleConstants = .ok script ∧
      AddressEntry_P2SH.getAddress sampleConstants sampleCrypto sampleConfig
          (AddressEntry.new .P2SH (.Multisig sampleMultisigAsset)) =
        (.ok (sampleCrypto.scrAddrToBase58
            (sampleConfig.scriptHashPrefix :: sampleCrypto.getHash160 script)),
          ⟨.P2SH, .Multisig sampleMultisigAsset, sampleCrypto.scrAddrToBase58
            (sampleConfig.scriptHashPrefix :: sampleCrypto.getHash160 script)⟩) ∧
      AddressEntry_P2WSH.getAddress sampleConstants sampleCrypto sampleConfig
          (AddressEntry.new .P2WSH (.Multisig sampleMultisigAsset)) =
        (.ok (sampleConfig.scriptHashPrefix :: sampleCrypto.getSha256 script),
          ⟨.P2WSH, .Multisig sampleMultisigAsset,
            sampleConfig.scriptHashPrefix :: sampleCrypto.getSha256 script⟩) :=
  AddressEntry_script_hash_getAddress sampleConstants (by decide) sampleCrypto sampleConfig
    sampleMultisigAsset
    [([1], sampleSubAsset 0x21), ([2], sampleSubAsset 0x22), ([3], sampleSubAsset 0x23)]
    rfl (by decide) (by decide) (by decide) (by decide)

/-- C29: the unsupported pairings fail and return neither an address nor a recipient.
For every Multisig asset, `getAddress` and `getRecipient` of `AddressEntry_P2PKH` and of
`AddressEntry_P2WPKH` on the entry built for the asset fail with the wallet error "unexpected asset entry
type" (the entry is not changed by a failing call, so every later call fails as well);
`AssetWallet_Single::getAddressEntryForAsset` fails with "unsupported address entry type" for
every type other than P2PKH and P2WPKH, and `AssetWallet_Multisig::getAddressEntryForAsset` for
every type other than P2SH and P2WSH. -/
theorem AddressEntry_unsupported_pairings (K : Constants) (C : Crypto) (cfg : Config) :
    (∀ (a : AssetEntry_Multisig) (value : Nat),
      AddressEntry_P2PKH.getAddress C cfg (AddressEntry.new .P2PKH (.Multisig a)) =
        .error (.WalletException .unexpected_asset_entry_type) ∧
      AddressEntry_P2PKH.getRecipient C (AddressEntry.new .P2PKH (.Multisig a)) value =
        .error (.WalletException .unexpected_asset_entry_type) ∧
      AddressEntry_P2WPKH.getAddress C (AddressEntry.new .P2WPKH (.Multisig a)) =
        .error (.WalletException .unexpected_asset_entry_type) ∧
      AddressEntry_P2WPKH.getRecipient C (AddressEntry.new .P2WPKH (.Multisig a)) value =
        .error (.WalletException .unexpected_asset_entry_type)) ∧
    (∀ (asset : AssetEntry) (ae_type : Byte),
      ae_type ≠ K.AddressEntryType_P2PKH → ae_type ≠ K.AddressEntryType_P2WPKH →
      AssetWallet_Single.getAddressEntryForAsset K asset ae_type =
        .error (.WalletException .unsupported_address_entry_type)) ∧
    (∀ (asset : AssetEntry) (ae_type : Byte),
      ae_type ≠ K.AddressEntryType_P2SH → ae_type ≠ K.AddressEntryType_P2WSH →
      AssetWallet_Multisig.getAddressEntryForAsset K asset ae_type =
        .error (.WalletException .unsupported_address_entry_type)) := by
  refine ⟨fun a value => ⟨rfl, rfl, rfl, rfl⟩, ?_, ?_⟩
  · intro asset ae_type h1 h2
    simp only [AssetWallet_Single.getAddressEntryForAsset, h1, h2, if_false]
  · intro asset ae_type h1 h2
    simp only [AssetWallet_Multisig.getAddressEntryForAsset, h1, h2, if_false]

/-- A single wallet asked for a P2SH entry and a multisig wallet asked for a P2PKH entry. -/
theorem AddressEntry_unsupported_pairings_witness :
    AssetWallet_Single.getAddressEntryForAsset sampleConstants (.Single sampleAsset)
        sampleConstants.AddressEntryType_P2SH =
      .error (.WalletException .unsupported_address_entry_type) ∧
    AssetWallet_Multisig.getAddressEntryForAsset sampleConstants (.Multisig sampleMultisigAsset)
        sampleConstants.AddressEntryType_P2PKH =
      .error (.WalletException .unsupported_address_entry_type) :=
  ⟨(AddressEntry_unsupported_pairings sampleConstants sampleCrypto sampleConfig).2.1 _ _
      (by decide) (by decide),
    (AddressEntry_unsupported_pairings sampleConstants sampleCrypto sampleConfig).2.2 _ _
      (by decide) (by decide)⟩

/-! ## The hash vector of a single wallet -/

theorem addrHashLoop_spec (C : Crypto) (hC : ∀ d, (C.getHash160 d).length = 20) (cfg : Config)
    (l : List (Int × AssetEntry)) (k : Nat)
    (hkeys : l.map Prod.fst = (List.range' k l.length).map Int.ofNat)
    (hsingle : ∀ e ∈ l, e.2.asSingle.isSome = true) :
    ∃ v, AssetWallet_Single.addrHashLoop C cfg l = .ok v ∧ v.length = 2 * l.length ∧
      (∀ e ∈ v, e.length = 21) ∧
      ∀ i, i < l.length → ∃ s : AssetEntry_Single,
        mapFind (Int.ofNat (k + i)) l = some (.Single s) ∧
        v[2 * i]? = some (cfg.pubkeyHashPrefix :: C.getHash160 s.pubkey.uncompressed) ∧
        v[2 * i + 1]? = some (cfg.pubkeyHashPrefix :: C.getHash160 s.pubkey.compressed) := by
  induction l generalizing k with
  | nil => exact ⟨[], rfl, rfl, fun e he => (by cases he), fun i hi => (by cases hi)⟩
  | cons x rest ih =>
    obtain ⟨key, entry⟩ := x
    simp only [List.map_cons, List.length_cons, List.range'_succ, List.cons.injEq] at hkeys
    obtain ⟨hkey, hrest⟩ := hkeys
    have h0 := hsingle (key, entry) (List.mem_cons_self _ _)
    cases entry with
    | Multisig m => simp [AssetEntry.asSingle] at h0
    | Single s0 =>
      obtain ⟨v, hv, hlen, h21, hpos⟩ := ih (k + 1) hrest
        (fun e he => hsingle e (List.mem_cons_of_mem _ he))
      refine ⟨(cfg.pubkeyHashPrefix :: C.getHash160 s0.pubkey.uncompressed) ::
        (cfg.pubkeyHashPrefix :: C.getHash160 s0.pubkey.compressed) :: v, ?_, ?_, ?_, ?_⟩
      · simp only [AssetWallet_Single.addrHashLoop, AssetEntry.asSingle, hv, put_uint8_t,
          List.singleton_append, AssetEntry_Single.getHash160Uncompressed,
          AssetEntry_Single.getHash160Compressed]
      · simp only [List.length_cons, hlen]; omega
      · intro e he
        rcases List.mem_cons.mp he with h | h
        · rw [h, List.length_cons, hC]
        · rcases List.mem_cons.mp h with h | h
          · rw [h, List.length_cons, hC]
          · exact h21 e h
      · intro i hi
        cases i with
        | zero =>
          refine ⟨s0, ?_, rfl, ?_⟩
          · simp only [mapFind, hkey, Nat.add_zero, if_true]
          · simp
        | succ j =>
          obtain ⟨s, hs, h1, h2⟩ := hpos j (by simpa using hi)
          refine ⟨s, ?_, ?_, ?_⟩
          · have hne : ¬ key = Int.ofNat (k + (j + 1)) := by
              rw [hkey]; simp only [Int.ofNat_eq_coe]; omega
            have he : k + (j + 1) = k + 1 + j := by omega
            simp only [mapFind, hne, if_false]
            rw [he]; exact hs
          · have : 2 * (j + 1) = 2 * j + 1 + 1 := by omega
            rw [this, List.getElem?_cons_succ, List.getElem?_cons_succ]; exact h1
          · have : 2 * (j + 1) + 1 = 2 * j + 1 + 1 + 1 := by omega
            rw [this, List.getElem?_cons_succ, List.getElem?_cons_succ]; exact h2

/-- C28: for a single wallet whose asset map holds Single assets at the indices `0 .. n-1`,
`AssetWallet_Single::getAddrHashVec` returns `2n` entries; the entries `2i` and `2i + 1` are
those of the asset of index `i`: the pubkey-hash prefix byte followed by HASH160 of its
uncompressed public key, then the prefix byte followed by HASH160 of its compressed public
key. With a HASH160 of 20 bytes every entry is 21 bytes long. -/
theorem AssetWallet_Single_getAddrHashVec_layout (C : Crypto)
    (hC : ∀ d, (C.getHash160 d).length = 20) (cfg : Config) (w : AssetWallet) (n : Nat)
    (hkeys : w.assets.map Prod.fst = (List.range n).map Int.ofNat)
    (hsingle : ∀ e ∈ w.assets, e.2.asSingle.isSome = true) :
    ∃ v, AssetWallet_Single.getAddrHashVec C cfg w = .ok v ∧ v.length = 2 * n ∧
      (∀ e ∈ v, e.length = 21) ∧
      ∀ i, i < n → ∃ s : AssetEntry_Single,
        mapFind (Int.ofNat i) w.assets = some (.Single s) ∧
        v[2 * i]? = some (cfg.pubkeyHashPrefix :: C.getHash160 s.pubkey.uncompressed) ∧
        v[2 * i + 1]? = some (cfg.pubkeyHashPrefix :: C.getHash160 s.pubkey.compressed) := by
  have hlen : w.assets.length = n := by
    have := congrArg List.length hkeys
    simpa using this
  have hk : w.assets.map Prod.fst = (List.range' 0 w.assets.length).map Int.ofNat := by
    rw [hkeys, hlen, List.range_eq_range']
  obtain ⟨v, hv, hl, h21, hpos⟩ := addrHashLoop_spec C hC cfg w.assets 0 hk hsingle
  refine ⟨v, hv, by rw [hl, hlen], h21, ?_⟩
  intro i hi
  obtain ⟨s, hs, h1, h2⟩ := hpos i (by rw [hlen]; exact hi)
  rw [Nat.zero_add] at hs
  exact ⟨s, hs, h1, h2⟩

/-- The wallet of scenario S1 (five assets): ten entries of 21 bytes. -/
theorem AssetWallet_Single_getAddrHashVec_layout_witness :
    ∃ v, AssetWallet_Single.getAddrHashVec sampleCrypto sampleConfig sampleWallet = .ok v ∧
      v.length = 2 * 5 ∧
      (∀ e ∈ v, e.length = 21) ∧
      ∀ i, i < 5 → ∃ s : AssetEntry_Single,
        mapFind (Int.ofNat i) sampleWallet.assets = some (.Single s) ∧
        v[2 * i]? = some (sampleConfig.pubkeyHashPrefix ::
          sampleCrypto.getHash160 s.pubkey.uncompressed) ∧
        v[2 * i + 1]? = some (sampleConfig.pubkeyHashPrefix ::
          sampleCrypto.getHash160 s.pubkey.compressed) :=
  AssetWallet_Single_getAddrHashVec_layout sampleCrypto (by intro d; simp [sampleCrypto])
    sampleConfig sampleWallet 5 (by decide) (by decide)

/-! ## The counter of a wallet without assets -/

theorem getNewAddress_empty (K : Constants) (C : Crypto) (w : AssetWallet)
    (hm : w.walletMutex = false) (ha : w.assets = []) (hc : w.addresses = []) :
    w.getNewAddress K C = (.error (.WalletException .uninitialized_wallet),
      { w with highestUsedAddressIndex := wrapInt32 (w.highestUsedAddressIndex + 1),
               db := w.db.insert (put_uint32_t K.TOPUSEDINDEX_KEY)
                 (put_var_int 4 ++ put_int32_t (wrapInt32 (w.highestUsedAddressIndex + 1))),
               walletMutex := false }) := by
  unfold AssetWallet.getNewAddress AssetWallet.getAndBumpHighestUsedIndex
  simp only [AssetWallet.putData, hm, Bool.false_eq_true, if_false]
  unfold AssetWallet.getNewAddress_locked
  simp only [ha, hc, mapFind, List.length_nil, if_true]

theorem getNewAddresses_empty (K : Constants) (C : Crypto) (N : Nat) (w : AssetWallet) (t : Nat)
    (ht : t + N < 2 ^ 31) (hm : w.walletMutex = false) (ha : w.assets = [])
    (hc : w.addresses = []) (htop : w.highestUsedAddressIndex = Int.ofNat t)
    (hdb : w.db.get_NoCopy (put_uint32_t K.TOPUSEDINDEX_KEY) =
      some (put_var_int 4 ++ put_int32_t (Int.ofNat t))) :
    (w.getNewAddresses K C N).1 =
      List.replicate N (.error (.WalletException .uninitialized_wallet)) ∧
    (w.getNewAddresses K C N).2.assets = [] ∧
    (w.getNewAddresses K C N).2.highestUsedAddressIndex = Int.ofNat (t + N) ∧
    (w.getNewAddresses K C N).2.db.get_NoCopy (put_uint32_t K.TOPUSEDINDEX_KEY) =
      some (put_var_int 4 ++ put_int32_t (Int.ofNat (t + N))) := by
  induction N generalizing w t with
  | zero => exact ⟨rfl, ha, htop, hdb⟩
  | succ n ih =>
    have hstep := getNewAddress_empty K C w hm ha hc
    have hw : wrapInt32 (w.highestUsedAddressIndex + 1) = Int.ofNat (t + 1) := by
      rw [htop]
      have : Int.ofNat t + 1 = Int.ofNat (t + 1) := by simp
      rw [this]
      exact wrapInt32_of_range _ (by simp only [Int.ofNat_eq_coe]; omega)
        (by simp only [Int.ofNat_eq_coe]; omega)
    rw [hw] at hstep
    obtain ⟨h1, h2, h3, h4⟩ := ih
      { w with highestUsedAddressIndex := Int.ofNat (t + 1),
               db := w.db.insert (put_uint32_t K.TOPUSEDINDEX_KEY)
                 (put_var_int 4 ++ put_int32_t (Int.ofNat (t + 1))),
               walletMutex := false } (t + 1) (by omega) rfl ha hc rfl
      (by simp only [Store.get_NoCopy_insert, if_true])
    have e : t + 1 + n = t + (n + 1) := by omega
    rw [e] at h3 h4
    simp only [AssetWallet.getNewAddresses, hstep, List.replicate_succ]
    exact ⟨by rw [h1], h2, h3, h4⟩

/-- On the wallet created with lookup 0 the chain holds no asset, every `getNewAddress` call
fails with "uninitialized wallet", and after `N` calls the counter is `N` in memory and in
the store while the number of assets is still 0. -/
theorem getNewAddresses_on_empty_chain (K : Constants) (hK : K.LabelsDistinct)
    (hS : K.KeysSeparate) (C : Crypto) (hC : C.Bounded) (aet : Byte) (seed : Bytes)
    (hseed : seed.length < 2 ^ 32) (N : Nat) (hN : N < 2 ^ 31) :
    ∃ w, AssetWallet_Single.createFromPrivateRoot_Armory135 K C [] aet seed 0 = .ok w ∧
      w.assets.length = 0 ∧ w.highestUsedAddressIndex = 0 ∧
      (w.getNewAddresses K C N).1 =
        List.replicate N (.error (.WalletException .uninitialized_wallet)) ∧
      (w.getNewAddresses K C N).2.assets.length = 0 ∧
      (w.getNewAddresses K C N).2.highestUsedAddressIndex = Int.ofNat N ∧
      (w.getNewAddresses K C N).2.db.get_NoCopy (put_uint32_t K.TOPUSEDINDEX_KEY) =
        some (put_var_int 4 ++ put_int32_t (Int.ofNat N)) := by
  obtain ⟨w, hw, hinv, haddr, hkeys⟩ := create_spec K hK hS C hC aet seed hseed 0
  have hempty : w.assets = [] := by
    apply keys_eq_nil_of_no_asset
    intro k hk
    have := (hkeys k).mp hk
    simp [effectiveLookup, UINT32_MAX] at this
  obtain ⟨hr, -, -, hmx, htop, -⟩ := hinv
  have htop0 : w.highestUsedAddressIndex = Int.ofNat 0 := by
    rw [htop]; rfl
  have hdb : w.db.get_NoCopy (put_uint32_t K.TOPUSEDINDEX_KEY) =
      some (put_var_int 4 ++ put_int32_t (Int.ofNat 0)) := by
    have := hr.2.2.2.2.2.1.1
    simpa only [frame, put_int32_t_length, rootHeader] using this
  obtain ⟨h1, h2, h3, h4⟩ := getNewAddresses_empty K C N w 0 (by omega) hmx hempty haddr htop0 hdb
  rw [Nat.zero_add] at h3 h4
  exact ⟨w, hw, by rw [hempty]; rfl, by rw [htop]; rfl, h1, by rw [h2]; rfl, h3, h4⟩

/-- C26 (a run for which the claim fails): `createFromPrivateRoot_Armory135(P2PKH, seed, 0)` on
a new file returns a wallet without assets; one `getNewAddress` call on it fails with
"uninitialized wallet", and after the call the counter is 1 in memory and in the store while
the chain holds 0 assets. -/
theorem getNewAddress_counter_passes_empty_chain :
    ∃ w, AssetWallet_Single.createFromPrivateRoot_Armory135 sampleConstants sampleCrypto []
        sampleConstants.AddressEntryType_P2PKH sampleSeed 0 = .ok w ∧
      w.assets.length = 0 ∧ w.highestUsedAddressIndex = 0 ∧
      (w.getNewAddresses sampleConstants sampleCrypto 1).1 =
        List.replicate 1 (.error (.WalletException .uninitialized_wallet)) ∧
      (w.getNewAddresses sampleConstants sampleCrypto 1).2.assets.length = 0 ∧
      (w.getNewAddresses sampleConstants sampleCrypto 1).2.highestUsedAddressIndex =
        Int.ofNat 1 ∧
      (w.getNewAddresses sampleConstants sampleCrypto 1).2.db.get_NoCopy
          (put_uint32_t sampleConstants.TOPUSEDINDEX_KEY) =
        some (put_var_int 4 ++ put_int32_t (Int.ofNat 1)) :=
  getNewAddresses_on_empty_chain sampleConstants (by decide) (by decide)
    sampleCrypto sampleCrypto_bounded sampleConstants.AddressEntryType_P2PKH sampleSeed
    (by decide) 1 (by decide)

/-! ## The counter along calls that are served -/

theorem mem_of_mapFind {α : Type} (k : Int) (v : α) (m : List (Int × α))
    (h : mapFind k m = some v) : (k, v) ∈ m := by
  induction m with
  | nil => cases h
  | cons x r ih =>
    obtain ⟨k1, v1⟩ := x
    simp only [mapFind] at h
    by_cases hk : k1 = k
    · rw [if_pos hk] at h
      cases h
      rw [hk]
      exact List.mem_cons_self _ _
    · rw [if_neg hk] at h
      exact List.mem_cons_of_mem _ (ih h)

theorem getAddressEntryForAsset_asset (K : Constants) (w : AssetWallet) (a : AssetEntry)
    (ty : Byte) (e : AddressEntry) (h : w.getAddressEntryForAsset K a ty = .ok e) :
    e.asset = a := by
  unfold AssetWallet.getAddressEntryForAsset at h
  cases hk : w.kind <;> rw [hk] at h <;> simp only at h
  · unfold AssetWallet_Single.getAddressEntryForAsset at h
    split_ifs at h <;> cases h <;> rfl
  · unfold AssetWallet_Multisig.getAddressEntryForAsset at h
    split_ifs at h <;> cases h <;> rfl

/-- A `getNewAddress` call that returns an address: the wallet holds an asset under the counter
value from before the call, and the call changes the counter, its record and the address
cache only. -/
theorem getNewAddress_served (K : Constants) (C : Crypto) (w : AssetWallet) (e : AddressEntry)
    (hm : w.walletMutex = false)
    (hlo : -2 ^ 31 ≤ w.highestUsedAddressIndex) (hhi : w.highestUsedAddressIndex < 2 ^ 31)
    (hkeyed : ∀ k a, mapFind k w.assets = some a → a.getId = k)
    (hback : ∀ k, (mapFind k w.addresses).isSome = true → (mapFind k w.assets).isSome = true)
    (h : (w.getNewAddress K C).1 = .ok e) :
    (mapFind w.highestUsedAddressIndex w.assets).isSome = true ∧
    ∃ addrs, (w.getNewAddress K C).2 =
        { w with highestUsedAddressIndex := wrapInt32 (w.highestUsedAddressIndex + 1),
                 db := w.db.insert (put_uint32_t K.TOPUSEDINDEX_KEY)
                   (put_var_int 4 ++ put_int32_t (wrapInt32 (w.highestUsedAddressIndex + 1))),
                 walletMutex := false, addresses := addrs } ∧
      ∀ k e', mapFind k addrs = some e' →
        mapFind k w.addresses = some e' ∨ (k = w.highestUsedAddressIndex ∧ e'.getIndex = k) := by
  have hidx := int32_of_uint32_of_int32 w.highestUsedAddressIndex hlo hhi
  unfold AssetWallet.getNewAddress AssetWallet.getAndBumpHighestUsedIndex at h ⊢
  simp only [AssetWallet.putData, hm, Bool.false_eq_true, if_false] at h ⊢
  unfold AssetWallet.getNewAddress_locked at h ⊢
  simp only [hidx] at h ⊢
  cases hc : mapFind w.highestUsedAddressIndex w.addresses with
  | some addr =>
    refine ⟨hback _ (by rw [hc]; rfl), w.addresses, rfl, fun k e' he' => Or.inl he'⟩
  | none =>
    simp only [hc] at h ⊢
    cases ha : mapFind w.highestUsedAddressIndex w.assets with
    | some a =>
      simp only [ha] at h ⊢
      cases hg : AssetWallet.getAddressEntryForAsset K
          { w with highestUsedAddressIndex := wrapInt32 (w.highestUsedAddressIndex + 1),
                   db := w.db.insert (put_uint32_t K.TOPUSEDINDEX_KEY)
                     (put_var_int 4 ++
                       put_int32_t (wrapInt32 (w.highestUsedAddressIndex + 1))),
                   walletMutex := true } a w.default_aet with
      | error err => simp only [hg] at h; cases h
      | ok ae =>
        simp only [hg]
        refine ⟨rfl, _, rfl, ?_⟩
        have hae : ae.getIndex = w.highestUsedAddressIndex := by
          rw [AddressEntry.getIndex, getAddressEntryForAsset_asset K _ a _ ae hg]
          exact hkeyed _ _ ha
        intro k e' he'
        rw [mapFind_mapAssign] at he'
        by_cases hk : ae.getIndex = k
        · rw [if_pos hk] at he'
          cases he'
          exact Or.inr ⟨by rw [← hk, hae], hk⟩
        · rw [if_neg hk] at he'
          exact Or.inl he'
    | none =>
      simp only [ha] at h
      by_cases hl : w.assets.length = 0
      · simp only [hl, if_true] at h; cases h
      · obtain ⟨err, herr⟩ := extendChain_held K C
          { w with highestUsedAddressIndex := wrapInt32 (w.highestUsedAddressIndex + 1),
                   db := w.db.insert (put_uint32_t K.TOPUSEDINDEX_KEY)
                     (put_var_int 4 ++
                       put_int32_t (wrapInt32 (w.highestUsedAddressIndex + 1))),
                   walletMutex := true } DERIVATION_LOOKUP rfl
        simp only [hl, if_false, herr] at h
        cases h

theorem keyed_of_MapOK (m : List (Int × AssetEntry)) (h : MapOK m) :
    ∀ k a, mapFind k m = some a → a.getId = k :=
  fun k a hf => h.2 (k, a) (mem_of_mapFind k a m hf)

theorem CounterInv_getNewAddress (K : Constants) (C : Crypto) (w : AssetWallet)
    (e : AddressEntry) (hw : w.CounterInv K) (h : (w.getNewAddress K C).1 = .ok e) :
    (w.getNewAddress K C).2.CounterInv K := by
  obtain ⟨hm, hlo, hhi, hmap, hkey, hback, hdense, hdb⟩ := hw
  obtain ⟨hasset, addrs, hst, haddrs⟩ := getNewAddress_served K C w e hm hlo hhi
    (keyed_of_MapOK _ hmap) hback h
  rw [hst]
  have hr := wrapInt32_range (w.highestUsedAddressIndex + 1)
  refine ⟨rfl, hr.1, hr.2, hmap, ?_, ?_, ?_, ?_⟩
  · intro k e' he'
    rcases haddrs k e' he' with h1 | ⟨-, h2⟩
    · exact hkey k e' h1
    · exact h2
  · intro k hk
    obtain ⟨e', he'⟩ := Option.isSome_iff_exists.mp hk
    rcases haddrs k e' he' with h1 | ⟨h2, -⟩
    · exact hback k (by rw [h1]; rfl)
    · rw [h2]; exact hasset
  · intro i hi0 hi
    simp only at hi
    by_cases hlt : w.highestUsedAddressIndex + 1 < 2 ^ 31
    · rw [wrapInt32_of_range _ (by omega) hlt] at hi
      by_cases hi' : i < w.highestUsedAddressIndex
      · exact hdense i hi0 hi'
      · have : i = w.highestUsedAddressIndex := by omega
        rw [this]; exact hasset
    · have he : w.highestUsedAddressIndex + 1 = 2 ^ 31 := by omega
      rw [he] at hi
      have : wrapInt32 (2 ^ 31) = -2 ^ 31 := by decide
      rw [this] at hi
      omega
  · simp only [Store.get_NoCopy_insert, if_true]

theorem insertAssets_frame (K : Constants) (hS : K.KeysSeparate) (vec : List AssetEntry)
    (w : AssetWallet) :
    (w.insertAssets K vec).2.walletMutex = w.walletMutex ∧
    (w.insertAssets K vec).2.highestUsedAddressIndex = w.highestUsedAddressIndex ∧
    (w.insertAssets K vec).2.addresses = w.addresses ∧
    (MapOK w.assets → MapOK (w.insertAssets K vec).2.assets) ∧
    (∀ k, (mapFind k w.assets).isSome = true →
      (mapFind k (w.insertAssets K vec).2.assets).isSome = true) ∧
    (w.insertAssets K vec).2.db.get_NoCopy (put_uint32_t K.TOPUSEDINDEX_KEY) =
      w.db.get_NoCopy (put_uint32_t K.TOPUSEDINDEX_KEY) := by
  induction vec generalizing w with
  | nil => exact ⟨rfl, rfl, rfl, fun h => h, fun k hk => hk, rfl⟩
  | cons a rest ih =>
    cases hf : mapFind a.getId w.assets with
    | some x =>
      rw [insertAssets_cons_some K w a x rest hf]
      exact ih w
    | none =>
      rw [insertAssets_cons_none K w a rest hf]
      cases hs : a.serialize K with
      | error e => exact ⟨rfl, rfl, rfl, fun h => h, fun k hk => hk, rfl⟩
      | ok ser =>
        simp only
        obtain ⟨h1, h2, h3, h4, h5, h6⟩ := ih
          { w with db := w.db.insert (a.getDbKey K) ser,
                   assets := mapInsert a.getId a w.assets }
        refine ⟨h1, h2, h3, fun hm => h4 (MapOK_mapInsert w.assets a hm),
          fun k hk => h5 k (mapFind_mapInsert_isSome k _ _ _ hk), ?_⟩
        rw [h6]
        simp only
        rw [Store.get_NoCopy_insert, if_neg]
        exact headerKey_ne_assetKey K _ a (hS.2 _ (by simp [Constants.headerKeys]))

theorem CounterInv_extendChain_from (K : Constants) (hS : K.KeysSeparate) (C : Crypto)
    (w : AssetWallet) (a : AssetEntry) (count : Nat) (hw : w.CounterInv K) :
    (w.extendChain_from K C a count).2.CounterInv K := by
  obtain ⟨hm, hlo, hhi, hmap, hkey, hback, hdense, hdb⟩ := hw
  unfold AssetWallet.extendChain_from
  simp only [hm, Bool.false_eq_true, if_false]
  cases hsch : AssetWallet.schemeExtendChain C { w with walletMutex := true } a count with
  | error e => exact ⟨rfl, hlo, hhi, hmap, hkey, hback, hdense, hdb⟩
  | ok assetVec =>
    simp only
    obtain ⟨-, h2, h3, h4, h5, h6⟩ :=
      insertAssets_frame K hS assetVec { w with walletMutex := true }
    refine ⟨rfl, ?_, ?_, h4 hmap, ?_, ?_, ?_, ?_⟩
    · simp only [h2]; exact hlo
    · simp only [h2]; exact hhi
    · simp only [h3]; exact hkey
    · intro k hk
      simp only [h3] at hk
      exact h5 k (hback k hk)
    · intro i hi0 hi
      simp only [h2] at hi
      exact h5 i (hdense i hi0 hi)
    · simp only [h6, h2]; exact hdb

theorem extendChain_state (K : Constants) (C : Crypto) (w : AssetWallet) (count : Nat) :
    (w.extendChain K C count).2 = w := by
  by_cases hne : w.assets = []
  · unfold AssetWallet.extendChain
    rw [hne]
    rfl
  · rw [extendChain_second_lock K C w count hne]

theorem length_ge_of_dense (m : List (Int × AssetEntry)) (t : Nat)
    (h : ∀ i : Int, 0 ≤ i → i < (t : Int) → (mapFind i m).isSome = true) :
    t ≤ m.length := by
  have hsub : (List.range t).map Int.ofNat ⊆ m.map Prod.fst := by
    intro k hk
    obtain ⟨i, hi, rfl⟩ := List.mem_map.mp hk
    have hi' := List.mem_range.mp hi
    exact (mapFind_isSome_iff _ m).mp (h _ (by simp) (by simp only [Int.ofNat_eq_coe]; omega))
  have hnd : ((List.range t).map Int.ofNat).Nodup :=
    (List.nodup_range t).map (fun a b hab => by simpa using hab)
  have := (List.subperm_of_subset hnd hsub).length_le
  simpa using this

theorem CounterInv_of_Reachable (K : Constants) (hS : K.KeysSeparate) (C : Crypto)
    (w0 w : AssetWallet) (h0 : w0.CounterInv K) (hr : AssetWallet.Reachable K C w0 w) :
    w.CounterInv K := by
  induction hr with
  | start => exact h0
  | getNewAddress w _ he ih =>
    cases hres : (w.getNewAddress K C).1 with
    | error err => rw [hres] at he; cases he
    | ok e => exact CounterInv_getNewAddress K C w e ih hres
  | extendChain w count _ ih => rw [extendChain_state]; exact ih
  | extendChain_from w a count _ ih => exact CounterInv_extendChain_from K hS C w a count ih

/-- C26 (amended): in every state of a single wallet reached from creation on a new file (any
lookup, 0 included) by calls of the two `extendChain` overloads, whether they return or fail,
and by `getNewAddress` calls that return an address, the counter `TopUsedIndex` is at most
the number of assets in the chain, and the value stored under `TOPUSEDINDEX_KEY` is that
counter. -/
theorem AssetWallet_counter_within_chain (K : Constants) (hK : K.LabelsDistinct)
    (hS : K.KeysSeparate) (C : Crypto) (hC : C.Bounded) (aet : Byte) (seed : Bytes)
    (hseed : seed.length < 2 ^ 32) (lookup : Nat) :
    ∃ w0, AssetWallet_Single.createFromPrivateRoot_Armory135 K C [] aet seed lookup = .ok w0 ∧
      ∀ w, AssetWallet.Reachable K C w0 w →
        w.highestUsedAddressIndex ≤ Int.ofNat w.assets.length ∧
        w.db.get_NoCopy (put_uint32_t K.TOPUSEDINDEX_KEY) =
          some (put_var_int 4 ++ put_int32_t w.highestUsedAddressIndex) := by
  obtain ⟨w0, hw0, hinv, haddr, -⟩ := create_spec K hK hS C hC aet seed hseed lookup
  obtain ⟨hr, hmap, -, hmx, htop, -⟩ := hinv
  have htop0 : w0.highestUsedAddressIndex = 0 := by rw [htop]; rfl
  have hdb : w0.db.get_NoCopy (put_uint32_t K.TOPUSEDINDEX_KEY) =
      some (put_var_int 4 ++ put_int32_t w0.highestUsedAddressIndex) := by
    have := hr.2.2.2.2.2.1.1
    rw [htop0]
    simpa only [frame, put_int32_t_length, rootHeader] using this
  have h0 : w0.CounterInv K := by
    refine ⟨hmx, by rw [htop0]; decide, by rw [htop0]; decide, hmap, ?_, ?_, ?_, hdb⟩
    · intro k e he; rw [haddr] at he; cases he
    · intro k hk; rw [haddr] at hk; cases hk
    · intro i hi0 hi; rw [htop0] at hi; omega
  refine ⟨w0, hw0, ?_⟩
  intro w hreach
  obtain ⟨-, -, -, -, -, -, hdense, hdb'⟩ := CounterInv_of_Reachable K hS C w0 w h0 hreach
  refine ⟨?_, hdb'⟩
  by_cases hneg : w.highestUsedAddressIndex < 0
  · simp only [Int.ofNat_eq_coe]; omega
  · obtain ⟨t, ht⟩ := Int.eq_ofNat_of_zero_le (by omega : 0 ≤ w.highestUsedAddressIndex)
    rw [ht] at hdense ⊢
    have := length_ge_of_dense w.assets t hdense
    simp only [Int.ofNat_eq_coe]; omega

/-- The wallet of scenario S1 after one `getNewAddress` call that returns and one
`extendChain(asset, 2)` call: the counter is within the chain. -/
theorem AssetWallet_counter_within_chain_witness :
    ((sampleWallet.getNewAddress sampleConstants sampleCrypto).2.extendChain_from
        sampleConstants sampleCrypto sampleWallet.topAsset 2).2.highestUsedAddressIndex ≤
      Int.ofNat ((sampleWallet.getNewAddress sampleConstants sampleCrypto).2.extendChain_from
        sampleConstants sampleCrypto sampleWallet.topAsset 2).2.assets.length ∧
    ((sampleWallet.getNewAddress sampleConstants sampleCrypto).2.extendChain_from
        sampleConstants sampleCrypto sampleWallet.topAsset 2).2.db.get_NoCopy
        (put_uint32_t sampleConstants.TOPUSEDINDEX_KEY) =
      some (put_var_int 4 ++ put_int32_t
        ((sampleWallet.getNewAddress sampleConstants sampleCrypto).2.extendChain_from
          sampleConstants sampleCrypto sampleWallet.topAsset 2).2.highestUsedAddressIndex) := by
  obtain ⟨w0, hw0, hall⟩ := AssetWallet_counter_within_chain sampleConstants (by decide)
    (by decide) sampleCrypto sampleCrypto_bounded sampleConstants.AddressEntryType_P2PKH
    sampleSeed (by decide) 5
  have e : sampleWallet = w0 := by simp only [sampleWallet, hw0]
  rw [← e] at hall
  exact hall _ (.extendChain_from _ _ _ (.getNewAddress _ .start (by decide)))

/-! ## Damaged asset records in the scan -/

theorem Store.seekGE_cons (key k1 v1 : Bytes) (r : Store) :
    Store.seekGE key ((k1, v1) :: r) =
      if bytesLt k1 key = true then Store.seekGE key r else (k1, v1) :: r := by
  unfold Store.seekGE
  rw [List.dropWhile_cons]

theorem Store.seekGE_insert (key k v : Bytes) (s : Store) (hk : bytesLt k key = false) :
    Store.seekGE key (Store.insert k v s) = Store.insert k v (Store.seekGE key s) := by
  induction s with
  | nil =>
    simp only [Store.insert, Store.seekGE, List.dropWhile_cons, hk, Bool.false_eq_true,
      if_false, List.dropWhile_nil]
  | cons x r ih =>
    obtain ⟨k1, v1⟩ := x
    rw [Store.seekGE_cons]
    by_cases h1 : bytesLt k1 key = true
    · rw [if_pos h1, Store.insert_cons]
      by_cases h2 : bytesLt k k1 = true
      · have := bytesLt_trans _ _ _ h2 h1
        rw [hk] at this
        cases this
      · rw [if_neg h2]
        by_cases h3 : bytesLt k1 k = true
        · rw [if_pos h3, Store.seekGE_cons, if_pos h1, ih]
        · have hkk : k = k1 := bytesLt_total k k1 (by simpa using h2) (by simpa using h3)
          rw [hkk] at hk
          rw [hk] at h1
          cases h1
    · rw [if_neg h1, Store.insert_cons]
      split_ifs with h2 h3
      · rw [Store.seekGE_cons, if_neg (by rw [hk]; simp)]
      · rw [Store.seekGE_cons, if_neg h1]
      · rw [Store.seekGE_cons, if_neg (by rw [hk]; simp)]

theorem HasAssetBelow_cons_asset (K : Constants) (e : Bytes × Bytes) (L : List (Bytes × Bytes))
    (a : AssetEntry_Single) (h : IsAssetRecord K e a) (key : Bytes)
    (hlt : bytesLt e.1 key = true) (k : Int) :
    HasAssetBelow K (e :: L) key k ↔ k = a.index ∨ HasAssetBelow K L key k := by
  constructor
  · rintro ⟨e', he', a', ha', hk', hb'⟩
    rcases List.mem_cons.mp he' with he' | he'
    · subst he'
      left
      have hkey : (AssetEntry.Single a').getDbKey K = (AssetEntry.Single a).getDbKey K := by
        rw [← ha'.2.1, ← h.2.1]
      simp only [getDbKey_cons, AssetEntry.getId, List.cons.injEq, true_and] at hkey
      have := put_int32_t_injective a'.index a.index ha'.1.1 ha'.1.2.1 h.1.1 h.1.2.1 hkey
      rw [← hk', this]
    · exact Or.inr ⟨e', he', a', ha', hk', hb'⟩
  · rintro (hk | ⟨e', he', a', ha', hk', hb'⟩)
    · exact ⟨e, List.mem_cons_self _ _, a, h, hk.symm, hlt⟩
    · exact ⟨e', List.mem_cons_of_mem _ he', a', ha', hk', hb'⟩

theorem not_HasAssetBelow_of_le (K : Constants) (L : List (Bytes × Bytes)) (key : Bytes)
    (h : ∀ e ∈ L, bytesLt e.1 key = false) (k : Int) : ¬ HasAssetBelow K L key k := by
  rintro ⟨e, he, a, -, -, hb⟩
  rw [h e he] at hb
  cases hb

/-- The scan of `readFromFile` over a well-formed range of records into which the record
`(kb, vb)` has been written: the scan takes the asset records that stand before `kb` in key
order and then meets the record `(kb, vb)`, where it ends as `R` says. -/
theorem scanAssets_insert (K : Constants) (hK : K.LabelsDistinct) (kb vb : Bytes)
    (R : List (Int × AssetEntry) → Except Error (List (Int × AssetEntry)))
    (hbad : ∀ rest acc, scanAssets K ((kb, vb) :: rest) acc = R acc)
    (hkb : ∃ rest, kb = K.ASSETENTRY_PREFIX :: rest)
    (L : List (Bytes × Bytes)) (acc : List (Int × AssetEntry)) (hsorted : Store.Sorted L)
    (hge : ∀ e ∈ L, bytesLt e.1 [K.ASSETENTRY_PREFIX] = false)
    (hrec : ∀ e ∈ L, IsHeaderRecord K e ∨ ∃ a, IsAssetRecord K e a) (hacc : MapOK acc) :
    ∃ M, scanAssets K (Store.insert kb vb L) acc = R M ∧ MapOK M ∧
      ∀ k, k ∈ M.map Prod.fst ↔ k ∈ acc.map Prod.fst ∨ HasAssetBelow K L kb k := by
  induction L generalizing acc with
  | nil =>
    refine ⟨acc, hbad [] acc, hacc, fun k => ⟨Or.inl, ?_⟩⟩
    rintro (h | ⟨e, he, -⟩)
    · exact h
    · cases he
  | cons e L ih =>
    obtain ⟨k1, v1⟩ := e
    have hs := List.pairwise_cons.mp hsorted
    rw [Store.insert_cons]
    by_cases h1 : bytesLt kb k1 = true
    · rw [if_pos h1]
      refine ⟨acc, hbad _ acc, hacc, fun k => ⟨Or.inl, ?_⟩⟩
      rintro (h | h)
      · exact h
      · refine absurd h (not_HasAssetBelow_of_le K _ kb ?_ k)
        intro e' he'
        rcases List.mem_cons.mp he' with h' | h'
        · rw [h']; exact bytesLt_asymm _ _ h1
        · exact bytesLt_asymm _ _ (bytesLt_trans _ _ _ h1 (hs.1 e' h'))
    · rw [if_neg h1]
      by_cases h2 : bytesLt k1 kb = true
      · rw [if_pos h2]
        rcases hrec (k1, v1) (List.mem_cons_self _ _) with hh | ⟨a, ha⟩
        · exfalso
          obtain ⟨⟨b, rest, hk, hb⟩, -⟩ := hh
          obtain ⟨rkb, hrkb⟩ := hkb
          simp only at hk
          have hge1 := hge (k1, v1) (List.mem_cons_self _ _)
          simp only at hge1
          rw [hk] at hge1 h2
          rw [hrkb] at h2
          have c1 := head_ge_of_not_lt b _ rest hge1
          have c2 := bytesLt_cons_le _ _ _ _ h2
          exact hb (Fin.ext (by omega))
        · obtain ⟨M, hM, hok, hkeys⟩ := ih (mapInsert a.index (.Single a) acc) hs.2
            (fun e' he' => hge e' (List.mem_cons_of_mem _ he'))
            (fun e' he' => hrec e' (List.mem_cons_of_mem _ he'))
            (MapOK_mapInsert acc (.Single a) hacc)
          refine ⟨M, ?_, hok, ?_⟩
          · rw [scanAssets_asset K hK (k1, v1) _ acc a ha]; exact hM
          · intro k
            rw [hkeys k, mem_keys_mapInsert, HasAssetBelow_cons_asset K (k1, v1) L a ha kb h2 k]
            tauto
      · rw [if_neg h2]
        have hkk : kb = k1 := bytesLt_total kb k1 (by simpa using h1) (by simpa using h2)
        refine ⟨acc, hbad _ acc, hacc, fun k => ⟨Or.inl, ?_⟩⟩
        rintro (h | h)
        · exact h
        · refine absurd h (not_HasAssetBelow_of_le K _ kb ?_ k)
          intro e' he'
          rcases List.mem_cons.mp he' with h' | h'
          · rw [h', hkk]; exact bytesLt_irrefl _
          · rw [hkk]; exact bytesLt_asymm _ _ (hs.1 e' h')

theorem HasAssetBelow_seekGE (K : Constants) (db : Store) (key : Bytes) (k : Int) :
    HasAssetBelow K (db.seekGE (put_uint8_t K.ASSETENTRY_PREFIX)) key k ↔
      HasAssetBelow K db key k := by
  constructor
  · rintro ⟨e, he, a, ha, hk, hb⟩
    exact ⟨e, (Store.seekGE_sublist _ db).subset he, a, ha, hk, hb⟩
  · rintro ⟨e, he, a, ha, hk, hb⟩
    refine ⟨e, Store.mem_seekGE _ db e he ?_, a, ha, hk, hb⟩
    rw [ha.2.1, getDbKey_cons]
    simp only [put_uint8_t, bytesLt, lt_self_iff_false, if_false, bytesLt_nil_right]

/-- What `readFromFile` does on a store whose header records are those of a readable store:
it restores the header fields and then runs the scan over the asset range. -/
theorem readFromFile_headers (K : Constants) (kind : WalletKind) (db db' : Store)
    (h : HeaderData) (hr : Readable K db h)
    (hsame : ∀ k ∈ K.headerKeys,
      db'.get_NoCopy (put_uint32_t k) = db.get_NoCopy (put_uint32_t k)) :
    AssetWallet_Single.readFromFile K (AssetWallet.new kind db') =
      match scanAssets K (db'.seekGE (put_uint8_t K.ASSETENTRY_PREFIX)) [] with
      | .error e => .error e
      | .ok M => .ok { AssetWallet.new kind db' with
          parentID := h.parentID, walletID := h.walletID, derScheme := some h.derScheme,
          default_aet := h.aet, highestUsedAddressIndex := h.top,
          root := some (.Single h.root), assets := M } := by
  obtain ⟨-, ⟨hp, hpl⟩, ⟨hw, hwl⟩, ⟨sb, hsch, hsl, hsd⟩, haet, ⟨htop, ht1, ht2⟩,
    rb, hroot, hrl, hrd⟩ := hr
  rw [← hsame _ (by simp [Constants.headerKeys])] at hp hw hsch haet htop hroot
  have g1 := getDataRefForKey_frame (AssetWallet.new kind db') _ _ hp hpl
  have g2 := getDataRefForKey_frame (AssetWallet.new kind db') _ _ hw hwl
  have g3 := getDataRefForKey_frame (AssetWallet.new kind db') _ _ hsch hsl
  have g4 := getDataRefForKey_frame (AssetWallet.new kind db') _ _ haet (by simp)
  have g5 := getDataRefForKey_frame (AssetWallet.new kind db') _ _ htop
    (by rw [put_int32_t_length]; omega)
  have g6 := getDataRefForKey_frame (AssetWallet.new kind db') _ _ hroot hrl
  have hti := get_int32_t_put h.top []
  rw [List.append_nil, wrapInt32_of_range _ ht1 ht2] at hti
  have hscan : scanAssets K (Store.seekGE (put_uint8_t K.ASSETENTRY_PREFIX)
      (AssetWallet.new kind db').db) (AssetWallet.new kind db').assets =
      scanAssets K (db'.seekGE (put_uint8_t K.ASSETENTRY_PREFIX)) [] := rfl
  simp only [AssetWallet_Single.readFromFile, g1, g2, g3, g4, g5, g6, bind_ok_eq, hsd,
    put_int32_t_length, ne_eq, not_true_eq_false, if_false, hti, hrd, hscan]
  cases scanAssets K (db'.seekGE (put_uint8_t K.ASSETENTRY_PREFIX)) [] with
  | error e => rfl
  | ok M => rfl

/-- The function `readFromFile` on a readable store into which a record `(kb, vb)` has been
written under a key that starts with `ASSETENTRY_PREFIX`: the header is restored, the scan
takes the asset records that stand before `kb` in key order, and the record `(kb, vb)` decides
how the call ends. -/
theorem readFromFile_insert (K : Constants) (hK : K.LabelsDistinct) (hS : K.KeysSeparate)
    (db : Store) (h : HeaderData) (hr : Readable K db h) (kb vb : Bytes)
    (hkb : ∃ rest, kb = K.ASSETENTRY_PREFIX :: rest)
    (R : List (Int × AssetEntry) → Except Error (List (Int × AssetEntry)))
    (hbad : ∀ rest acc, scanAssets K ((kb, vb) :: rest) acc = R acc) :
    ∃ M, (∀ k, k ∈ M.map Prod.fst ↔ HasAssetBelow K db kb k) ∧
      AssetWallet_Single.readFromFile K (AssetWallet.new .Single (db.insert kb vb)) =
        match R M with
        | .error e => .error e
        | .ok M' => .ok { AssetWallet.new .Single (db.insert kb vb) with
            parentID := h.parentID, walletID := h.walletID, derScheme := some h.derScheme,
            default_aet := h.aet, highestUsedAddressIndex := h.top,
            root := some (.Single h.root), assets := M' } := by
  have hsame : ∀ k ∈ K.headerKeys,
      (db.insert kb vb).get_NoCopy (put_uint32_t k) = db.get_NoCopy (put_uint32_t k) := by
    intro k hk
    obtain ⟨b, rest, hb, hne⟩ := headerKey_head_ne K k (hS.2 k hk)
    obtain ⟨r, hr'⟩ := hkb
    rw [Store.get_NoCopy_insert, if_neg]
    rw [hb, hr']
    intro e
    exact hne (List.cons.inj e).1.symm
  have hkge : bytesLt kb (put_uint8_t K.ASSETENTRY_PREFIX) = false := by
    obtain ⟨r, hr'⟩ := hkb
    rw [hr']
    simp only [put_uint8_t, bytesLt, lt_self_iff_false, if_false, bytesLt_nil_right]
  obtain ⟨M, hM, -, hkeys⟩ := scanAssets_insert K hK kb vb R hbad hkb
    (db.seekGE (put_uint8_t K.ASSETENTRY_PREFIX)) []
    (List.Pairwise.sublist (Store.seekGE_sublist _ db) hr.1.1)
    (fun e he => Store.seekGE_ge _ db hr.1.1 e he)
    (fun e he => hr.1.2 e ((Store.seekGE_sublist _ db).subset he))
    ⟨by simp, by simp⟩
  refine ⟨M, ?_, ?_⟩
  · intro k
    rw [hkeys k, HasAssetBelow_seekGE]
    simp
  · rw [readFromFile_headers K .Single db _ h hr hsame, Store.seekGE_insert _ _ _ _ hkge, hM]

theorem deserialize_cypherTypeValue (K : Constants) (hK : K.LabelsDistinct)
    (a : AssetEntry_Single) (hs : a.Storable) (t : Byte) (ht : t ≠ K.CypherType_AES) :
    ∃ body, cypherTypeValue K a t = frame body ∧ body.length < 2 ^ 64 ∧
      AssetEntry.deserialize K ((AssetEntry.Single a).getDbKey K) body =
        .error (.CypherException .unexpected_cypher_type) := by
  obtain ⟨hlo, hhi, hu, hcp, hp, c, hc, hiv⟩ := hs
  obtain ⟨h1, h2, h3, h4, h5, h6, -⟩ := hK
  have hf1 := frame_length_le (K.PUBKEY_UNCOMPRESSED_BYTE :: a.pubkey.uncompressed)
  have hf2 := frame_length_le (K.PUBKEY_COMPRESSED_BYTE :: a.pubkey.compressed)
  have hf3 := frame_length_le (K.PRIVKEY_BYTE :: a.privkey.data)
  have hf4 := frame_length_le (K.CYPHER_BYTE :: t :: (put_var_int c.iv.length ++ c.iv))
  have hv := put_var_int_length_le c.iv.length
  have hrl : ∀ v ∈ [K.PUBKEY_UNCOMPRESSED_BYTE :: a.pubkey.uncompressed,
      K.PUBKEY_COMPRESSED_BYTE :: a.pubkey.compressed,
      K.PRIVKEY_BYTE :: a.privkey.data,
      K.CYPHER_BYTE :: t :: (put_var_int c.iv.length ++ c.iv)], v.length < 2 ^ 64 := by
    intro v hv'
    simp only [List.mem_cons, List.mem_singleton, List.not_mem_nil, or_false] at hv'
    rcases hv' with rfl | rfl | rfl | rfl <;>
      (simp only [List.length_cons, List.length_append]; omega)
  have hr := readRecords_frames _ hrl
  obtain ⟨body, hbody⟩ : ∃ body : Bytes, body = K.AssetEntryType_Single ::
      ([K.PUBKEY_UNCOMPRESSED_BYTE :: a.pubkey.uncompressed,
        K.PUBKEY_COMPRESSED_BYTE :: a.pubkey.compressed,
        K.PRIVKEY_BYTE :: a.privkey.data,
        K.CYPHER_BYTE :: t :: (put_var_int c.iv.length ++ c.iv)].map frame).flatten := ⟨_, rfl⟩
  have hlen : body.length < 2 ^ 64 := by
    rw [hbody]
    simp only [List.map_cons, List.map_nil, List.flatten_cons, List.flatten_nil,
      List.length_cons, List.length_append, List.length_nil] at hf1 hf2 hf3 hf4 hv ⊢
    omega
  refine ⟨body, ?_, hlen, ?_⟩
  · rw [hbody]
    simp only [cypherTypeValue, hc, Option.map_some', Option.getD_some]
  · have hk := get_int32_t_put a.index []
    rw [List.append_nil] at hk
    have hb : bindRecords K ⟨[], [], [], none⟩
        [K.PUBKEY_UNCOMPRESSED_BYTE :: a.pubkey.uncompressed,
          K.PUBKEY_COMPRESSED_BYTE :: a.pubkey.compressed,
          K.PRIVKEY_BYTE :: a.privkey.data,
          K.CYPHER_BYTE :: t :: (put_var_int c.iv.length ++ c.iv)] =
        .error (.CypherException .unexpected_cypher_type) := by
      simp only [bindRecords, bindRecord, get_uint8_t, bind_ok_eq, h1.symm, h2.symm, h3.symm,
        h4.symm, h5.symm, h6.symm, if_true, if_false, pure_eq_ok, List.length_nil, ne_eq,
        not_true_eq_false, Option.isSome_none, Bool.false_eq_true, Cypher.deserialize, ht,
        throw_eq_error, bind_error_eq]
    rw [hbody]
    simp only [AssetEntry.deserialize, AssetEntry.getDbKey, AssetEntry.getId, put_uint8_t,
      List.singleton_append, get_uint8_t, bind_ok_eq, ne_eq, not_true_eq_false, if_false, hk,
      AssetEntry.deserDBValue, if_true, hr, hb, bind_error_eq]

theorem scanAssets_error (K : Constants) (key body : Bytes) (hlen : body.length < 2 ^ 64)
    (e : Error) (he : ∀ m, e ≠ .AssetDeserException m)
    (hdec : AssetEntry.deserialize K key body = .error e) (rest : List (Bytes × Bytes))
    (acc : List (Int × AssetEntry)) :
    scanAssets K ((key, frame body) :: rest) acc = .error e := by
  cases e with
  | AssetDeserException m => exact absurd rfl (he m)
  | _ =>
    simp only [scanAssets, get_var_int_frame body hlen, ne_eq, not_true_eq_false, if_false,
      hdec]

theorem scanAssets_stop (K : Constants) (key body : Bytes) (hlen : body.length < 2 ^ 64)
    (m : Msg) (hdec : AssetEntry.deserialize K key body = .error (.AssetDeserException m))
    (rest : List (Bytes × Bytes)) (acc : List (Int × AssetEntry)) :
    scanAssets K ((key, frame body) :: rest) acc = .ok acc := by
  simp only [scanAssets, get_var_int_frame body hlen, ne_eq, not_true_eq_false, if_false, hdec]

/-- C22 (the code departs from the claim): the scan of `readFromFile` catches
`AssetDeserException` only. On a readable store in which the record of an asset carries a
cipher record with a type byte other than `CypherType_AES`, `Cypher::deserialize` throws
`CypherException`, which leaves the scan loop and `readFromFile`: the call fails and no
wallet state is returned. When the record fails to decode with `AssetDeserException`
(unknown tag, duplicate tag, invalid entry type) the call returns, and the asset map holds
the assets whose records stand before that record in the key order of the store. -/
theorem AssetWallet_Single_readFromFile_cypher_type_escapes (K : Constants)
    (hK : K.LabelsDistinct) (hS : K.KeysSeparate) (db : Store) (h : HeaderData)
    (hr : Readable K db h) (a : AssetEntry_Single) (ha : a.Storable) (t : Byte)
    (ht : t ≠ K.CypherType_AES) :
    AssetWallet_Single.readFromFile K (AssetWallet.new .Single
        (db.insert ((AssetEntry.Single a).getDbKey K) (cypherTypeValue K a t))) =
      .error (.CypherException .unexpected_cypher_type) ∧
    ∀ (body : Bytes) (m : Msg), body.length < 2 ^ 64 →
      AssetEntry.deserialize K ((AssetEntry.Single a).getDbKey K) body =
        .error (.AssetDeserException m) →
      ∃ w', AssetWallet_Single.readFromFile K (AssetWallet.new .Single
          (db.insert ((AssetEntry.Single a).getDbKey K) (frame body))) = .ok w' ∧
        ∀ k, k ∈ w'.assets.map Prod.fst ↔
          HasAssetBelow K db ((AssetEntry.Single a).getDbKey K) k := by
  constructor
  · obtain ⟨body, hv, hlen, hdec⟩ := deserialize_cypherTypeValue K hK a ha t ht
    obtain ⟨M, -, hM⟩ := readFromFile_insert K hK hS db h hr _ (cypherTypeValue K a t)
      ⟨_, getDbKey_cons K (.Single a)⟩
      (fun _ => .error (.CypherException .unexpected_cypher_type))
      (fun rest acc => by
        rw [hv]
        exact scanAssets_error K _ body hlen _ (fun m => by simp) hdec rest acc)
    rw [hM]
  · intro body m hlen hdec
    obtain ⟨M, hkeys, hM⟩ := readFromFile_insert K hK hS db h hr _ (frame body)
      ⟨_, getDbKey_cons K (.Single a)⟩ (fun acc => .ok acc)
      (fun rest acc => scanAssets_stop K _ body hlen m hdec rest acc)
    exact ⟨_, hM, hkeys⟩

/-- The wallet of scenario S1 with the cipher type byte of the record of index 2 changed to
`0x77`: `readFromFile` fails with `CypherException`. -/
theorem AssetWallet_Single_readFromFile_cypher_type_escapes_witness :
    AssetWallet_Single.readFromFile sampleConstants (AssetWallet.new .Single
        (sampleWallet.db.insert ((AssetEntry.Single { sampleAsset with index := 2 }).getDbKey
          sampleConstants) (cypherTypeValue sampleConstants { sampleAsset with index := 2 }
            0x77))) =
      .error (.CypherException .unexpected_cypher_type) := by
  obtain ⟨w, hw, hinv, -, -⟩ := create_spec sampleConstants (by decide) (by decide) sampleCrypto
    sampleCrypto_bounded sampleConstants.AddressEntryType_P2PKH sampleSeed (by decide) 5
  have e : sampleWallet = w := by simp only [sampleWallet, hw]
  rw [e]
  exact (AssetWallet_Single_readFromFile_cypher_type_escapes sampleConstants (by decide)
    (by decide) w.db _ hinv.1 { sampleAsset with index := 2 }
    ⟨by decide, by decide, by decide, by decide, by decide, Cypher_AES_fresh, rfl, by decide⟩
    0x77 (by decide)).1

theorem put_int32_t_small (j : Nat) (hj : j < 256) :
    put_int32_t (Int.ofNat j) = [byteOfNat j, 0, 0, 0] := by
  have h1 : uint32_of_int32 (Int.ofNat j) = j := by
    simp only [uint32_of_int32, Int.ofNat_eq_coe]
    omega
  have h2 : j / 256 = 0 := by omega
  simp only [put_int32_t, h1, leBytes, h2, Nat.zero_div]
  rfl

theorem assetKey_256_lt (K : Constants) (j : Nat) (hj1 : 0 < j) (hj2 : j < 256) :
    bytesLt (K.ASSETENTRY_PREFIX :: put_int32_t 256) (K.ASSETENTRY_PREFIX :: put_int32_t (Int.ofNat j))
      = true := by
  rw [put_int32_t_small j hj2]
  have h256 : put_int32_t 256 = [0, 1, 0, 0] := by decide
  have hb : (byteOfNat j).val = j := by
    simp only [byteOfNat]; omega
  rw [h256]
  simp only [bytesLt, lt_self_iff_false, if_false, hb]
  simp [hj1]

theorem assetKey_0_lt (K : Constants) (j : Nat) (hj1 : 0 < j) (hj2 : j < 256) :
    bytesLt (K.ASSETENTRY_PREFIX :: put_int32_t 0) (K.ASSETENTRY_PREFIX :: put_int32_t (Int.ofNat j))
      = true := by
  rw [put_int32_t_small j hj2]
  have h0 : put_int32_t 0 = [0, 0, 0, 0] := by decide
  have hb : (byteOfNat j).val = j := by
    simp only [byteOfNat]; omega
  rw [h0]
  simp only [bytesLt, lt_self_iff_false, if_false, hb]
  simp [hj1]

/-- C30 (the code departs from the claim): the key of an asset record is `ASSETENTRY_PREFIX`
followed by the little-endian bytes of the index, and the scan of `readFromFile` walks the
records in the byte order of the keys. In that order the record of index 256 (key bytes
`00 01 00 00`) stands before the record of every index `j` from 1 to 255 (key bytes
`j 00 00 00`). In the wallet created with `n > 256` assets, when the record of such an index
`j` fails to decode, `readFromFile` returns an asset map that holds the indices 0 and 256 and
not the index `j`: the map is not a contiguous range and holds an index above `j`. -/
theorem AssetWallet_Single_readFromFile_truncates_in_key_order (K : Constants)
    (hK : K.LabelsDistinct) (hS : K.KeysSeparate) (C : Crypto) (hC : C.Bounded) (aet : Byte)
    (seed : Bytes) (hseed : seed.length < 2 ^ 32) (n : Nat) (hn1 : 256 < n) (hn2 : n ≤ 2 ^ 31)
    (j : Nat) (hj1 : 0 < j) (hj2 : j < 256) (body : Bytes) (hlen : body.length < 2 ^ 64)
    (m : Msg)
    (hbody : AssetEntry.deserialize K (K.ASSETENTRY_PREFIX :: put_int32_t (Int.ofNat j)) body =
      .error (.AssetDeserException m)) :
    ∃ w w', AssetWallet_Single.createFromPrivateRoot_Armory135 K C [] aet seed n = .ok w ∧
      (∀ k, k ∈ w.assets.map Prod.fst ↔ k ∈ (List.range n).map Int.ofNat) ∧
      AssetWallet_Single.readFromFile K (AssetWallet.new .Single
        (w.db.insert (K.ASSETENTRY_PREFIX :: put_int32_t (Int.ofNat j)) (frame body))) = .ok w' ∧
      (0 : Int) ∈ w'.assets.map Prod.fst ∧
      Int.ofNat j ∉ w'.assets.map Prod.fst ∧
      (256 : Int) ∈ w'.assets.map Prod.fst := by
  obtain ⟨w, hw, hinv, -, hkeys⟩ := create_spec K hK hS C hC aet seed hseed n
  have heff : effectiveLookup n = n := by
    simp only [effectiveLookup, UINT32_MAX]
    rw [if_neg (by omega)]
  rw [heff] at hkeys
  have hkeys' : ∀ k, k ∈ w.assets.map Prod.fst ↔ k ∈ (List.range n).map Int.ofNat := by
    intro k
    rw [hkeys k]
    simp only [List.mem_map, List.mem_range]
    constructor
    · rintro ⟨i, hi, rfl⟩
      exact ⟨i, hi, (wrapInt32_of_range _ (by simp only [Int.ofNat_eq_coe]; omega)
        (by simp only [Int.ofNat_eq_coe]; omega)).symm⟩
    · rintro ⟨i, hi, rfl⟩
      exact ⟨i, hi, wrapInt32_of_range _ (by simp only [Int.ofNat_eq_coe]; omega)
        (by simp only [Int.ofNat_eq_coe]; omega)⟩
  obtain ⟨hr, -, hsync, -⟩ := hinv
  obtain ⟨M, hM, hread⟩ := readFromFile_insert K hK hS w.db _ hr
    (K.ASSETENTRY_PREFIX :: put_int32_t (Int.ofNat j)) (frame body) ⟨_, rfl⟩
    (fun acc => .ok acc) (fun rest acc => scanAssets_stop K _ body hlen m hbody rest acc)
  have hbelow : ∀ i : Nat, i < n →
      bytesLt (K.ASSETENTRY_PREFIX :: put_int32_t (Int.ofNat i))
        (K.ASSETENTRY_PREFIX :: put_int32_t (Int.ofNat j)) = true →
      Int.ofNat i ∈ M.map Prod.fst := by
    intro i hi hlt
    rw [hM]
    have hmem : Int.ofNat i ∈ w.assets.map Prod.fst :=
      (hkeys' _).mpr (List.mem_map.mpr ⟨i, List.mem_range.mpr hi, rfl⟩)
    obtain ⟨e, he, a, ha, hidx⟩ := (hsync _).mp hmem
    refine ⟨e, he, a, ha, hidx, ?_⟩
    rw [ha.2.1, getDbKey_cons, AssetEntry.getId, hidx]
    exact hlt
  refine ⟨w, _, hw, hkeys', hread, hbelow 0 (by omega) (assetKey_0_lt K j hj1 hj2), ?_,
    hbelow 256 hn1 (assetKey_256_lt K j hj1 hj2)⟩
  intro hmem
  obtain ⟨e, -, a, ha, hidx, hlt⟩ := (hM _).mp hmem
  rw [ha.2.1, getDbKey_cons, AssetEntry.getId, hidx, bytesLt_irrefl] at hlt
  cases hlt

/-- The wallet created with 257 assets, with the entry-type byte of the record of index 1
changed: the reopened map holds the indices 0 and 256 and not the index 1. -/
theorem AssetWallet_Single_readFromFile_truncates_in_key_order_witness :
    ∃ w w', AssetWallet_Single.createFromPrivateRoot_Armory135 sampleConstants sampleCrypto []
        sampleConstants.AddressEntryType_P2PKH sampleSeed 257 = .ok w ∧
      (∀ k, k ∈ w.assets.map Prod.fst ↔ k ∈ (List.range 257).map Int.ofNat) ∧
      AssetWallet_Single.readFromFile sampleConstants (AssetWallet.new .Single
        (w.db.insert (sampleConstants.ASSETENTRY_PREFIX :: put_int32_t (Int.ofNat 1))
          (frame [sampleConstants.AssetEntryType_Multisig]))) = .ok w' ∧
      (0 : Int) ∈ w'.assets.map Prod.fst ∧
      Int.ofNat 1 ∉ w'.assets.map Prod.fst ∧
      (256 : Int) ∈ w'.assets.map Prod.fst :=
  AssetWallet_Single_readFromFile_truncates_in_key_order sampleConstants (by decide) (by decide)
    sampleCrypto sampleCrypto_bounded sampleConstants.AddressEntryType_P2PKH sampleSeed
    (by decide) 257 (by decide) (by decide) 1 (by decide) (by decide)
    [sampleConstants.AssetEntryType_Multisig] (by decide) .invalid_asset_entry_type (by decide)

/-! ## Where key order and index order agree -/

theorem assetKey_lt_iff (K : Constants) (i j : Nat) (hi : i < 256) (hj : j < 256) :
    bytesLt (K.ASSETENTRY_PREFIX :: put_int32_t (Int.ofNat i))
      (K.ASSETENTRY_PREFIX :: put_int32_t (Int.ofNat j)) = true ↔ i < j := by
  rw [put_int32_t_small i hi, put_int32_t_small j hj]
  have hbi : (byteOfNat i).val = i := by simp only [byteOfNat]; omega
  have hbj : (byteOfNat j).val = j := by simp only [byteOfNat]; omega
  simp only [bytesLt, lt_self_iff_false, if_false, hbi, hbj]
  by_cases h : i < j
  · simp [h]
  · simp [h]

/-- Where the claim of a truncated chain holds: in a wallet created with at most 256 assets
the byte order of the keys is the order of the indices, and when the record of the index `j`
fails to decode, `readFromFile` returns the asset map with exactly the indices below `j`. -/
theorem readFromFile_truncates_below_256 (K : Constants) (hK : K.LabelsDistinct)
    (hS : K.KeysSeparate) (C : Crypto) (hC : C.Bounded) (aet : Byte) (seed : Bytes)
    (hseed : seed.length < 2 ^ 32) (n : Nat) (hn : n ≤ 256) (j : Nat) (hj : j < n)
    (body : Bytes) (hlen : body.length < 2 ^ 64) (m : Msg)
    (hbody : AssetEntry.deserialize K (K.ASSETENTRY_PREFIX :: put_int32_t (Int.ofNat j)) body =
      .error (.AssetDeserException m)) :
    ∃ w w', AssetWallet_Single.createFromPrivateRoot_Armory135 K C [] aet seed n = .ok w ∧
      AssetWallet_Single.readFromFile K (AssetWallet.new .Single
        (w.db.insert (K.ASSETENTRY_PREFIX :: put_int32_t (Int.ofNat j)) (frame body))) = .ok w' ∧
      ∀ k, k ∈ w'.assets.map Prod.fst ↔ k ∈ (List.range j).map Int.ofNat := by
  obtain ⟨w, hw, hinv, -, hkeys⟩ := create_spec K hK hS C hC aet seed hseed n
  have heff : effectiveLookup n = n := by
    simp only [effectiveLookup, UINT32_MAX]
    rw [if_neg (by omega)]
  rw [heff] at hkeys
  obtain ⟨hr, -, hsync, -⟩ := hinv
  obtain ⟨M, hM, hread⟩ := readFromFile_insert K hK hS w.db _ hr
    (K.ASSETENTRY_PREFIX :: put_int32_t (Int.ofNat j)) (frame body) ⟨_, rfl⟩
    (fun acc => .ok acc) (fun rest acc => scanAssets_stop K _ body hlen m hbody rest acc)
  refine ⟨w, _, hw, hread, ?_⟩
  intro k
  simp only
  rw [hM]
  constructor
  · rintro ⟨e, he, a, ha, hidx, hlt⟩
    have hmem : k ∈ w.assets.map Prod.fst := (hsync k).mpr ⟨e, he, a, ha, hidx⟩
    obtain ⟨i, hi, hik⟩ := List.mem_map.mp ((hkeys k).mp hmem)
    have hi' := List.mem_range.mp hi
    rw [wrapInt32_of_range _ (by simp only [Int.ofNat_eq_coe]; omega)
      (by simp only [Int.ofNat_eq_coe]; omega)] at hik
    rw [ha.2.1, getDbKey_cons, AssetEntry.getId, hidx, ← hik] at hlt
    exact List.mem_map.mpr ⟨i, List.mem_range.mpr
      ((assetKey_lt_iff K i j (by omega) (by omega)).mp hlt), hik⟩
  · intro hk
    obtain ⟨i, hi, hik⟩ := List.mem_map.mp hk
    have hi' := List.mem_range.mp hi
    have hmem : k ∈ w.assets.map Prod.fst := by
      rw [hkeys k]
      exact List.mem_map.mpr ⟨i, List.mem_range.mpr (by omega), by
        rw [← hik]
        exact wrapInt32_of_range _ (by simp only [Int.ofNat_eq_coe]; omega)
          (by simp only [Int.ofNat_eq_coe]; omega)⟩
    obtain ⟨e, he, a, ha, hidx⟩ := (hsync k).mp hmem
    refine ⟨e, he, a, ha, hidx, ?_⟩
    rw [ha.2.1, getDbKey_cons, AssetEntry.getId, hidx, ← hik]
    exact (assetKey_lt_iff K i j (by omega) (by omega)).mpr hi'

/-! ## The public part of the legacy derivation -/

/-- C31 fails as stated at the end of the `int` range: from an asset of index 2^31 - 1 the
legacy `extendChain` with count 1 returns one asset, whose index is not 2^31 (the model wraps
`getId() + 1` to -2^31; an `int` index cannot be 2^31 whatever the overflow does); and with the
count 2^31, an `unsigned`, from the asset of index 0 the indices of the result are not
`1, ..., 2^31`. -/
theorem extendChain_index_leaves_int_range :
    (∃ q : AssetEntry_Single,
      sampleSchemeLocking.extendChain sampleCrypto (.Single sampleAssetTop) 1 =
        .ok [.Single q] ∧
      q.index = -2147483648 ∧ q.index ≠ sampleAssetTop.index + 0 + 1) ∧
    ∃ vec, sampleSchemeLocking.extendChain sampleCrypto (.Single sampleAsset) (2 ^ 31) =
        .ok vec ∧
      vec.map AssetEntry.getId ≠
        (List.range (2 ^ 31)).map (fun i : Nat => sampleAsset.index + Int.ofNat i + 1) := by
  refine ⟨⟨_, rfl, by decide, by decide⟩, ?_⟩
  obtain ⟨vec, hvec, -, hids⟩ := extendChain_legacy_spec sampleCrypto sampleCrypto_bounded
    sampleSchemeLocking sampleAsset (2 ^ 31) ⟨Cypher_AES_fresh, rfl⟩
  refine ⟨vec, hvec, ?_⟩
  intro e
  have hmem : (-2147483648 : Int) ∈ vec.map AssetEntry.getId := by
    rw [hids]
    simp only [List.mem_map, List.mem_range]
    refine ⟨2 ^ 31 - 1, by omega, ?_⟩
    have h0 : sampleAsset.index = 0 := rfl
    rw [h0]
    simp only [wrapInt32, int32_of_uint32, uint32_of_int32, Int.ofNat_eq_coe]
    omega
  rw [e] at hmem
  simp only [List.mem_map, List.mem_range] at hmem
  obtain ⟨j, -, hj⟩ := hmem
  have h0 : sampleAsset.index = 0 := rfl
  rw [h0] at hj
  simp only [Int.ofNat_eq_coe] at hj
  omega

/-- C31 (amended): for every Single asset `a` and every count `c` with `a.index + c` below 2^31,
so that the indices fit the `int` index, the legacy `extendChain(a, c)` returns a list of
exactly `c` Single assets; the element at position `i` has index `a.index + i + 1`, and its
uncompressed public key is `ComputeChainedPublicKey` applied to the uncompressed public key of
the element before it (of `a` for `i = 0`) and the chain code of the scheme. -/
theorem DerivationScheme_ArmoryLegacy_extendChain_indices_and_keys (C : Crypto)
    (s : DerivationScheme_ArmoryLegacy) (a : AssetEntry_Single) (count : Nat)
    (hlo : -2 ^ 31 ≤ a.index) (hhi : a.index + (count : Int) < 2 ^ 31) :
    ∃ vec : List AssetEntry_Single,
      s.extendChain C (.Single a) count = .ok (vec.map AssetEntry.Single) ∧
      vec.length = count ∧
      ∀ (i : Nat) (p q : AssetEntry_Single), (a :: vec)[i]? = some p → vec[i]? = some q →
        q.index = a.index + (i : Int) + 1 ∧
        q.pubkey.uncompressed =
          C.ComputeChainedPublicKey p.pubkey.uncompressed s.chainCode := by
  induction count generalizing a with
  | zero => exact ⟨[], rfl, rfl, fun i p q _ hq => by simp at hq⟩
  | succ n ih =>
    obtain ⟨a', ha', hidx, hpub, -, -⟩ := nextAsset_single C s a
    have hw : a'.index = a.index + 1 := by
      rw [hidx]
      exact wrapInt32_of_range _ (by omega) (by push_cast at hhi; omega)
    obtain ⟨vec, hvec, hlen, hall⟩ := ih a' (by omega) (by push_cast at hhi; omega)
    refine ⟨a' :: vec, ?_, by simp [hlen], ?_⟩
    · rw [extendChain_succ_single C s a a' n ha', hvec]; rfl
    · intro i p q hp hq
      cases i with
      | zero =>
        simp only [List.getElem?_cons_zero, Option.some.injEq] at hp hq
        subst hp hq
        exact ⟨by rw [hw]; simp, hpub⟩
      | succ i =>
        simp only [List.getElem?_cons_succ] at hp hq
        obtain ⟨h1, h2⟩ := hall i p q hp hq
        refine ⟨?_, h2⟩
        rw [h1, hw]
        push_cast
        omega

/-- Scenario S6: five assets derived from the root of index -1 have the indices 0..4, each
public key chained from the one before. -/
theorem DerivationScheme_ArmoryLegacy_extendChain_indices_and_keys_witness :
    ∃ vec : List AssetEntry_Single,
      sampleSchemeLocking.extendChain sampleCryptoLocking (.Single sampleRootLocking) 5 =
        .ok (vec.map AssetEntry.Single) ∧
      vec.length = 5 ∧
      ∀ (i : Nat) (p q : AssetEntry_Single), (sampleRootLocking :: vec)[i]? = some p →
        vec[i]? = some q →
        q.index = sampleRootLocking.index + (i : Int) + 1 ∧
        q.pubkey.uncompressed =
          sampleCryptoLocking.ComputeChainedPublicKey p.pubkey.uncompressed
            sampleSchemeLocking.chainCode :=
  DerivationScheme_ArmoryLegacy_extendChain_indices_and_keys sampleCryptoLocking
    sampleSchemeLocking sampleRootLocking 5 (by decide) (by decide)

/-- C34: the indices and public keys that the legacy `extendChain` produces depend only on the
index and the uncompressed public key of the first asset and on the chain code. For every two
Single assets with the same index and the same uncompressed public key, whatever their
private keys and ciphers are and whatever the private-key primitive answers, both runs return
`count` assets, with the same index and the same pair of public keys at every position. -/
theorem DerivationScheme_ArmoryLegacy_extendChain_ignores_private_key (C : Crypto)
    (s : DerivationScheme_ArmoryLegacy) (count : Nat) (a b : AssetEntry_Single)
    (hidx : a.index = b.index) (hpub : a.pubkey.uncompressed = b.pubkey.uncompressed) :
    ∃ va vb : List AssetEntry_Single,
      s.extendChain C (.Single a) count = .ok (va.map AssetEntry.Single) ∧
      s.extendChain C (.Single b) count = .ok (vb.map AssetEntry.Single) ∧
      va.length = count ∧ vb.length = count ∧
      va.map (fun x => x.index) = vb.map (fun x => x.index) ∧
      va.map (fun x => x.pubkey) = vb.map (fun x => x.pubkey) := by
  induction count generalizing a b with
  | zero => exact ⟨[], [], rfl, rfl, rfl, rfl, rfl, rfl⟩
  | succ n ih =>
    obtain ⟨a', ha', hai, hap, hac, -⟩ := nextAsset_single C s a
    obtain ⟨b', hb', hbi, hbp, hbc, -⟩ := nextAsset_single C s b
    have hi' : a'.index = b'.index := by rw [hai, hbi, hidx]
    have hp' : a'.pubkey.uncompressed = b'.pubkey.uncompressed := by rw [hap, hbp, hpub]
    have hk' : a'.pubkey = b'.pubkey := by
      have hc' : a'.pubkey.compressed = b'.pubkey.compressed := by rw [hac, hbc, hp']
      cases hx : a'.pubkey
      cases hy : b'.pubkey
      rw [hx] at hp' hc'
      rw [hy] at hp' hc'
      simp only at hp' hc'
      rw [hp', hc']
    obtain ⟨va, vb, h1, h2, h3, h4, h5, h6⟩ := ih a' b' hi' hp'
    refine ⟨a' :: va, b' :: vb, ?_, ?_, by simp [h3], by simp [h4], ?_, ?_⟩
    · rw [extendChain_succ_single C s a a' n ha', h1]; rfl
    · rw [extendChain_succ_single C s b b' n hb', h2]; rfl
    · simp only [List.map_cons, hi', h5]
    · simp only [List.map_cons, hk', h6]

/-- Scenario S6 against a watching-only copy of its root (no private key, no cipher): the two
chains of five assets have the same indices and public keys. -/
theorem DerivationScheme_ArmoryLegacy_extendChain_ignores_private_key_witness :
    sampleRootLocking.privkey ≠ sampleRootWatching.privkey ∧
    ∃ va vb : List AssetEntry_Single,
      sampleSchemeLocking.extendChain sampleCryptoLocking (.Single sampleRootLocking) 5 =
        .ok (va.map AssetEntry.Single) ∧
      sampleSchemeLocking.extendChain sampleCryptoLocking (.Single sampleRootWatching) 5 =
        .ok (vb.map AssetEntry.Single) ∧
      va.length = 5 ∧ vb.length = 5 ∧
      va.map (fun x => x.index) = vb.map (fun x => x.index) ∧
      va.map (fun x => x.pubkey) = vb.map (fun x => x.pubkey) :=
  ⟨by decide, DerivationScheme_ArmoryLegacy_extendChain_ignores_private_key sampleCryptoLocking
    sampleSchemeLocking 5 sampleRootLocking sampleRootWatching rfl rfl⟩

/-! ## The mutex during `getNewAddress` -/

theorem extendChain_held_relock (K : Constants) (C : Crypto) (w : AssetWallet) (n : Nat)
    (h : w.walletMutex = true) (hne : w.assets ≠ []) :
    w.extendChain K C n = (.error .MutexRelock, w) := by
  unfold AssetWallet.extendChain
  cases hl : w.assets.getLast? with
  | none => exact absurd (List.getLast?_eq_none_iff.mp hl) hne
  | some p => simp only [h, if_true]

theorem getAddressEntryForAsset_error (K : Constants) (w : AssetWallet) (a : AssetEntry)
    (t : Byte) (e : Error) (h : w.getAddressEntryForAsset K a t = .error e) :
    e = .WalletException .unsupported_address_entry_type := by
  unfold AssetWallet.getAddressEntryForAsset AssetWallet_Single.getAddressEntryForAsset
    AssetWallet_Multisig.getAddressEntryForAsset at h
  cases hk : w.kind <;> rw [hk] at h <;> simp only at h <;> split_ifs at h <;> cases h <;> rfl

/-- C33 (the code departs from the claim): a `getNewAddress` call started with the mutex free
ends at a `lock()` of the wallet mutex that it already holds exactly when the drawn index has
neither a cached address nor an asset while the asset map is not empty, the path through
`extendChain(DERIVATION_LOOKUP)`. On that path the call always does so: `extendChain(count)` builds a
`unique_lock` with `defer_lock`, which never owns the mutex, and locks. -/
theorem AssetWallet_getNewAddress_locks_held_mutex (K : Constants) (C : Crypto)
    (w : AssetWallet) (hm : w.walletMutex = false) :
    (w.getNewAddress K C).1 = .error .MutexRelock ↔
      (mapFind (wrapInt32 w.highestUsedAddressIndex) w.addresses = none ∧
       mapFind (wrapInt32 w.highestUsedAddressIndex) w.assets = none ∧ w.assets ≠ []) := by
  unfold AssetWallet.getNewAddress AssetWallet.getAndBumpHighestUsedIndex
  simp only [AssetWallet.putData, hm, Bool.false_eq_true, if_false]
  unfold AssetWallet.getNewAddress_locked
  have hk : int32_of_uint32 (uint32_of_int32 w.highestUsedAddressIndex) =
      wrapInt32 w.highestUsedAddressIndex := rfl
  simp only [hk]
  cases hc : mapFind (wrapInt32 w.highestUsedAddressIndex) w.addresses with
  | some addr => simp
  | none =>
    cases ha : mapFind (wrapInt32 w.highestUsedAddressIndex) w.assets with
    | some asset =>
      simp only [true_and, false_and, iff_false]
      cases hg : AssetWallet.getAddressEntryForAsset K _ asset _ with
      | error e =>
        have := getAddressEntryForAsset_error K _ asset _ e hg
        subst this
        simp
      | ok ae => simp
    | none =>
      by_cases hlen : w.assets.length = 0
      · have hnil := List.length_eq_zero.mp hlen
        simp [hlen, hnil]
      · have hne : w.assets ≠ [] := fun h => hlen (by rw [h]; rfl)
        have hx := extendChain_held_relock K C
          { w with highestUsedAddressIndex := wrapInt32 (w.highestUsedAddressIndex + 1),
                   db := w.db.insert (put_uint32_t K.TOPUSEDINDEX_KEY)
                     (put_var_int 4 ++ put_int32_t (wrapInt32 (w.highestUsedAddressIndex + 1))),
                   walletMutex := true } DERIVATION_LOOKUP rfl hne
        simp only [hlen, if_false, hx, true_and, ne_eq, hne, not_false_eq_true]

/-- Scenario S3 at its sixth call: the mutex is free, the counter is 5 and the map holds the
assets 0..4; the call ends at the second `lock()`. -/
theorem AssetWallet_getNewAddress_locks_held_mutex_witness :
    sampleWalletUsed.walletMutex = false ∧
    sampleWalletUsed.highestUsedAddressIndex = 5 ∧
    sampleWalletUsed.assets.map Prod.fst = [0, 1, 2, 3, 4] ∧
    (sampleWalletUsed.getNewAddress sampleConstants sampleCrypto).1 = .error .MutexRelock :=
  ⟨by decide, by decide, by decide,
    (AssetWallet_getNewAddress_locks_held_mutex sampleConstants sampleCrypto sampleWalletUsed
      (by decide)).mpr ⟨by decide, by decide, by decide⟩⟩

/-! ## The form of the stored values -/

theorem Framed_frame (v : Bytes) (h : v.length < 2 ^ 64) : Framed (frame v) := ⟨v, h, rfl⟩

theorem Framed_byte (b : Byte) : Framed (put_var_int 1 ++ put_uint8_t b) :=
  ⟨[b], by simp, rfl⟩

theorem Framed_int32 (i : Int) : Framed (put_var_int 4 ++ put_int32_t i) :=
  ⟨put_int32_t i, by rw [put_int32_t_length]; omega, by rw [put_int32_t_length]⟩

theorem Framed_uint32 (n : Nat) : Framed (put_var_int 4 ++ put_uint32_t n) := by
  have h : (put_uint32_t n).length = 4 := leBytes_length _ _
  exact ⟨put_uint32_t n, by rw [h]; omega, by rw [h]⟩

theorem Store.AllFramed_nil : Store.AllFramed [] := fun e he => by cases he

theorem Store.AllFramed_insert (s : Store) (k d : Bytes) (hs : s.AllFramed) (hd : Framed d) :
    (s.insert k d).AllFramed := by
  intro e he
  rcases Store.mem_of_mem_insert k d s e he with h | h
  · rw [h]; exact hd
  · exact hs e h

theorem Framed_scheme (K : Constants) (s : DerivationScheme) (d : Bytes)
    (h : s.serialize K = .ok d) (hlen : (s.bw K).length < 2 ^ 64) : Framed d := by
  cases s with
  | Legacy s =>
    simp only [DerivationScheme.serialize, DerivationScheme_ArmoryLegacy.serialize,
      Except.ok.injEq] at h
    exact ⟨_, hlen, h.symm⟩
  | Multisig s =>
    simp only [DerivationScheme.serialize, DerivationScheme_Multisig.serialize] at h
    split_ifs at h
    simp only [Except.ok.injEq] at h
    exact ⟨_, hlen, h.symm⟩

theorem legacy_bw_length (K : Constants) (s : DerivationScheme_ArmoryLegacy)
    (h : s.chainCode.length < 2 ^ 32) : (DerivationScheme.bw K (.Legacy s)).length < 2 ^ 64 := by
  have := put_var_int_length_le s.chainCode.length
  simp only [DerivationScheme.bw, DerivationScheme_ArmoryLegacy.bw, put_uint8_t,
    List.length_append, List.length_cons, List.length_nil]
  omega

theorem flatten_frames_length_le (ids : List Bytes) (B : Nat) (h : ∀ v ∈ ids, v.length ≤ B) :
    (ids.map (fun id => put_var_int id.length ++ id)).flatten.length ≤ ids.length * (B + 9) := by
  induction ids with
  | nil => simp
  | cons x r ih =>
    have h1 := put_var_int_length_le x.length
    have h2 := h x (List.mem_cons_self _ _)
    have h3 := ih (fun v hv => h v (List.mem_cons_of_mem _ hv))
    simp only [List.map_cons, List.flatten_cons, List.length_append, List.length_cons]
    rw [Nat.add_mul]
    omega

theorem multisig_bw_length (K : Constants) (s : DerivationScheme_Multisig)
    (hn : s.walletIDs.length < 2 ^ 31) (hids : ∀ v ∈ s.walletIDs, v.length < 2 ^ 32) :
    (DerivationScheme.bw K (.Multisig s)).length < 2 ^ 64 := by
  have h := flatten_frames_length_le s.walletIDs (2 ^ 32) (fun v hv => by
    have := hids v hv; omega)
  have h4 : (put_uint32_t s.m).length = 4 := leBytes_length _ _
  have h5 : (put_uint32_t s.n).length = 4 := leBytes_length _ _
  simp only [DerivationScheme.bw, DerivationScheme_Multisig.bw, put_uint8_t,
    List.length_append, List.length_cons, List.length_nil, h4, h5]
  have : s.walletIDs.length * (2 ^ 32 + 9) ≤ (2 ^ 31 - 1) * (2 ^ 32 + 9) :=
    Nat.mul_le_mul_right _ (by omega)
  omega

theorem Framed_asset (K : Constants) (a : AssetEntry_Single) (d : Bytes)
    (h : a.serialize K = .ok d) (hs : a.Sized) : Framed d := by
  obtain ⟨hu, hc, hp, hiv⟩ := hs
  cases hcy : a.privkey.cypher with
  | none =>
    simp [AssetEntry_Single.serialize, Asset_PrivateKey.serialize, hcy] at h
  | some c =>
    rw [AssetEntry_Single_serialize_frames K a c hcy] at h
    simp only [Except.ok.injEq] at h
    have hcl := Cypher_serialize_length K c (hiv c hcy)
    have hf1 := frame_length_le (K.PUBKEY_UNCOMPRESSED_BYTE :: a.pubkey.uncompressed)
    have hf2 := frame_length_le (K.PUBKEY_COMPRESSED_BYTE :: a.pubkey.compressed)
    have hf3 := frame_length_le (K.PRIVKEY_BYTE :: a.privkey.data)
    have hf4 := frame_length_le (c.serialize K)
    rw [← h]
    refine Framed_frame _ ?_
    simp only [List.map_cons, List.map_nil, List.flatten_cons, List.flatten_nil,
      List.length_cons, List.length_append, List.length_nil] at hf1 hf2 hf3 hf4 ⊢
    omega

theorem Framed_entry (K : Constants) (x : AssetEntry) (d : Bytes)
    (h : x.serialize K = .ok d) (hs : x.Sized) : Framed d := by
  cases x with
  | Single a => exact Framed_asset K a d h hs
  | Multisig a => simp [AssetEntry.serialize, AssetEntry_Multisig.serialize] at h

theorem insertAssets_AllFramed (K : Constants) (vec : List AssetEntry) (w : AssetWallet)
    (hvec : ∀ x ∈ vec, x.Sized) (hw : w.db.AllFramed) :
    (w.insertAssets K vec).2.db.AllFramed := by
  induction vec generalizing w with
  | nil => exact hw
  | cons x r ih =>
    have hr : ∀ y ∈ r, y.Sized := fun y hy => hvec y (List.mem_cons_of_mem _ hy)
    unfold AssetWallet.insertAssets
    simp only
    cases hf : mapFind x.getId w.assets with
    | some _ => exact ih w hr hw
    | none =>
      simp only [AssetWallet.writeAssetEntry]
      cases hsx : x.serialize K with
      | error e => exact hw
      | ok d =>
        simp only
        exact ih _ hr (Store.AllFramed_insert _ _ _ hw
          (Framed_entry K x d hsx (hvec x (List.mem_cons_self _ _))))


theorem nextAsset_sized (C : Crypto) (hC : C.Bounded) (s : DerivationScheme_ArmoryLegacy)
    (x y : AssetEntry) (h : s.nextAsset C x = .ok y) : y.Sized := by
  cases x with
  | Multisig a => simp [DerivationScheme_ArmoryLegacy.nextAsset] at h
  | Single a =>
    simp only [DerivationScheme_ArmoryLegacy.nextAsset, Except.ok.injEq] at h
    rw [← h]
    simp only [AssetEntry.Sized, AssetEntry_Single.Sized, AssetEntry_Single.mk4]
    refine ⟨hC.2.2.1 _ _, hC.2.1 _, ?_, ?_⟩
    · cases hg : a.privkey.getKey with
      | key d =>
        simp only
        cases hk : C.ComputeChainedPrivateKey d s.chainCode a.pubkey.uncompressed with
        | key k => exact hC.2.2.2.1 _ _ _ _ hk
        | unavailable => simp
        | cypherBlocked => simp
      | unavailable => simp
      | cypherBlocked => simp
    · intro c hc
      cases hcy : a.privkey.cypher with
      | none => rw [hcy] at hc; cases hc
      | some c0 =>
        rw [hcy] at hc
        simp only [Option.map_some', Option.some.injEq] at hc
        rw [← hc]
        simp [Cypher.getCopy, Cypher_AES_fresh]

theorem legacy_extendChain_sized (C : Crypto) (hC : C.Bounded)
    (s : DerivationScheme_ArmoryLegacy) (count : Nat) (x : AssetEntry) (vec : List AssetEntry)
    (h : s.extendChain C x count = .ok vec) : ∀ y ∈ vec, y.Sized := by
  induction count generalizing x vec with
  | zero =>
    simp only [DerivationScheme_ArmoryLegacy.extendChain, Except.ok.injEq] at h
    rw [← h]
    intro y hy
    cases hy
  | succ n ih =>
    unfold DerivationScheme_ArmoryLegacy.extendChain at h
    cases hn : s.nextAsset C x with
    | error e => rw [hn] at h; cases h
    | ok nxt =>
      rw [hn, bind_ok_eq] at h
      cases hr : s.extendChain C nxt n with
      | error e => rw [hr] at h; cases h
      | ok rest =>
        rw [hr, bind_ok_eq, pure_eq_ok] at h
        simp only [Except.ok.injEq] at h
        rw [← h]
        intro y hy
        rcases List.mem_cons.mp hy with h1 | h1
        · rw [h1]; exact nextAsset_sized C hC s x nxt hn
        · exact ih nxt rest hr y h1

theorem schemeExtendChain_sized (C : Crypto) (hC : C.Bounded) (w : AssetWallet)
    (x : AssetEntry) (count : Nat) (vec : List AssetEntry)
    (h : w.schemeExtendChain C x count = .ok vec) : ∀ y ∈ vec, y.Sized := by
  unfold AssetWallet.schemeExtendChain at h
  cases hd : w.derScheme with
  | none => rw [hd] at h; cases h
  | some sch =>
    rw [hd] at h
    cases sch with
    | Legacy s => exact legacy_extendChain_sized C hC s count x vec h
    | Multisig s =>
      simp only [Except.ok.injEq] at h
      rw [← h]
      intro y hy
      simp only [DerivationScheme_Multisig.extendChain, List.mem_map] at hy
      obtain ⟨i, -, hi⟩ := hy
      rw [← hi]
      trivial

theorem extendChain_from_AllFramed (K : Constants) (C : Crypto) (hC : C.Bounded)
    (w : AssetWallet) (x : AssetEntry) (count : Nat) (hw : w.db.AllFramed) :
    (w.extendChain_from K C x count).2.db.AllFramed := by
  unfold AssetWallet.extendChain_from
  cases hm : w.walletMutex with
  | true => simpa using hw
  | false =>
    simp only [Bool.false_eq_true, if_false]
    cases hs : AssetWallet.schemeExtendChain C { w with walletMutex := true } x count with
    | error e => exact hw
    | ok vec =>
      simp only
      exact insertAssets_AllFramed K vec _
        (schemeExtendChain_sized C hC _ x count vec hs) hw

theorem getNewAddress_db (K : Constants) (C : Crypto) (w : AssetWallet) :
    (w.getNewAddress K C).2.db = (w.getAndBumpHighestUsedIndex K).2.db := by
  unfold AssetWallet.getNewAddress
  simp only
  cases hm : (w.getAndBumpHighestUsedIndex K).2.walletMutex with
  | true => simp
  | false =>
    simp only [Bool.false_eq_true, if_false]
    obtain ⟨r, addrs, hx⟩ := getNewAddress_locked_frame K C
      { (w.getAndBumpHighestUsedIndex K).2 with walletMutex := true }
      (w.getAndBumpHighestUsedIndex K).1 rfl
    rw [hx]

theorem getNewAddress_AllFramed (K : Constants) (C : Crypto) (w : AssetWallet)
    (hw : w.db.AllFramed) : (w.getNewAddress K C).2.db.AllFramed := by
  rw [getNewAddress_db]
  exact Store.AllFramed_insert _ _ _ hw (Framed_int32 _)


theorem readFromFile_db (K : Constants) (w w' : AssetWallet)
    (h : AssetWallet_Single.readFromFile K w = .ok w') : w'.db = w.db := by
  unfold AssetWallet_Single.readFromFile at h
  cases h1 : w.getDataRefForKey (put_uint32_t K.PARENTID_KEY) with
  | error e => rw [h1] at h; cases h
  | ok v1 =>
  rw [h1, bind_ok_eq] at h
  cases h2 : w.getDataRefForKey (put_uint32_t K.WALLETID_KEY) with
  | error e => rw [h2] at h; cases h
  | ok v2 =>
  rw [h2, bind_ok_eq] at h
  cases h3 : w.getDataRefForKey (put_uint32_t K.DERIVATIONSCHEME_KEY) with
  | error e => rw [h3] at h; cases h
  | ok v3 =>
  rw [h3, bind_ok_eq] at h
  cases h4 : DerivationScheme.deserialize K v3 with
  | error e => rw [h4] at h; cases h
  | ok v4 =>
  rw [h4, bind_ok_eq] at h
  cases h5 : w.getDataRefForKey (put_uint32_t K.ADDRESSENTRYTYPE_KEY) with
  | error e => rw [h5] at h; cases h
  | ok v5 =>
  rw [h5, bind_ok_eq] at h
  match v5, h with
  | [], h => cases h
  | _ :: _ :: _, h => cases h
  | [aet], h =>
    simp only at h
    cases h6 : w.getDataRefForKey (put_uint32_t K.TOPUSEDINDEX_KEY) with
    | error e => rw [h6] at h; cases h
    | ok v6 =>
    rw [h6, bind_ok_eq] at h
    split_ifs at h
    · cases h7 : get_int32_t v6 with
      | error e => rw [h7] at h; cases h
      | ok v7 =>
      rw [h7, bind_ok_eq] at h
      cases h8 : w.getDataRefForKey (put_uint32_t K.ROOTASSET_KEY) with
      | error e => rw [h8] at h; cases h
      | ok v8 =>
      simp only [h8, bind_ok_eq] at h
      cases h9 : AssetEntry.deserDBValue K (-1) v8 with
      | error e => rw [h9] at h; cases h
      | ok v9 =>
      rw [h9, bind_ok_eq] at h
      cases h10 : scanAssets K (w.db.seekGE (put_uint8_t K.ASSETENTRY_PREFIX)) w.assets with
      | error e => rw [h10] at h; cases h
      | ok v10 =>
      rw [h10, bind_ok_eq, pure_eq_ok] at h
      simp only [Except.ok.injEq] at h
      rw [← h]

theorem initWalletDb_store_AllFramed (K : Constants) (C : Crypto) (hC : C.Bounded)
    (walletPtr : AssetWallet) (cypher : Cypher) (parentID : Bytes) (aet : Byte)
    (privateRoot : Bytes) (lookup : Nat) (hw : walletPtr.db.AllFramed)
    (hiv : cypher.iv.length < 2 ^ 32) (hpid : parentID.length < 2 ^ 64)
    (hroot : privateRoot.length < 2 ^ 32) :
    (AssetWallet_Single.initWalletDb_store K C walletPtr cypher parentID aet privateRoot
      lookup).2.AllFramed := by
  have hwid : (C.getWalletID (C.ComputePublicKey privateRoot)).length < 2 ^ 64 := by
    have := hC.2.2.2.2.1 (C.ComputePublicKey privateRoot); omega
  have h1 := Store.AllFramed_insert _ (put_uint32_t K.WALLETTYPE_KEY) _ hw
    (Framed_byte K.WALLETTYPE_SINGLE)
  have h2 := Store.AllFramed_insert _ (put_uint32_t K.PARENTID_KEY) _ h1
    (Framed_frame parentID hpid)
  have h3 := Store.AllFramed_insert _ (put_uint32_t K.WALLETID_KEY) _ h2
    (Framed_frame _ hwid)
  simp only [AssetWallet_Single.initWalletDb_store, AssetWallet.putHeaderData_st,
    AssetWallet.putData, DerivationScheme.serialize]
  have h4 := Store.AllFramed_insert _ (put_uint32_t K.DERIVATIONSCHEME_KEY) _ h3
    (Framed_scheme K (.Legacy ⟨C.computeChainCode_Armory135 privateRoot⟩) _ rfl
      (legacy_bw_length K _ (hC.2.2.2.2.2 _)))
  have h5 := Store.AllFramed_insert _ (put_uint32_t K.ADDRESSENTRYTYPE_KEY) _ h4
    (Framed_byte aet)
  have h6 := Store.AllFramed_insert _ (put_uint32_t K.TOPUSEDINDEX_KEY) _ h5 (Framed_int32 0)
  cases hs : AssetEntry_Single.serialize K
      (AssetEntry_Single.mk4 C (-1) (C.ComputePublicKey privateRoot) privateRoot (some cypher)) with
  | error e => exact h6
  | ok data =>
    simp only
    have hsz : (AssetEntry_Single.mk4 C (-1) (C.ComputePublicKey privateRoot) privateRoot
        (some cypher)).Sized :=
      ⟨hC.1 _, hC.2.1 _, hroot, fun c hc => by
        simp only [AssetEntry_Single.mk4, Option.some.injEq] at hc
        rw [← hc]; exact hiv⟩
    have h7 := Store.AllFramed_insert _ (put_uint32_t K.ROOTASSET_KEY) _ h6
      (Framed_asset K _ data hs hsz)
    generalize hr : AssetWallet_Single.readFromFile K _ = r
    cases r with
    | error e => exact h7
    | ok w2 =>
      simp only
      have hdb := readFromFile_db K _ w2 hr
      have hx := extendChain_from_AllFramed K C hC w2
        (.Single (AssetEntry_Single.mk4 C (-1) (C.ComputePublicKey privateRoot) privateRoot
          (some cypher)))
        (if lookup = UINT32_MAX then DERIVATION_LOOKUP else lookup) (by rw [hdb]; exact h7)
      generalize hq : AssetWallet.extendChain_from K C w2 _ _ = q at hx
      obtain ⟨q1, q2⟩ := q
      cases q1 with
      | error e => exact hx
      | ok u => cases u; exact hx


theorem LMDBEnv.AllFramed_empty : LMDBEnv.empty.AllFramed :=
  ⟨Store.AllFramed_nil, fun i => by rw [LMDBEnv.sub_empty]; exact Store.AllFramed_nil⟩

theorem LMDBEnv.AllFramed_setSub (env : LMDBEnv) (i : Nat) (s : Store) (he : env.AllFramed)
    (hs : s.AllFramed) : (env.setSub i s).AllFramed := by
  refine ⟨he.1, fun j => ?_⟩
  rw [LMDBEnv.sub_setSub]
  split_ifs
  · exact hs
  · exact he.2 j

theorem createSubwallets_AllFramed (K : Constants) (C : Crypto) (hC : C.Bounded)
    (hH : C.BoundedHMAC) (wid : Bytes) (hwid : wid.length < 2 ^ 64) (seed : Bytes)
    (lookup : Nat) (rounds : Nat) :
    ∀ (i : Nat) (env : LMDBEnv) (subs : List (Bytes × AssetWallet)), env.AllFramed →
      (AssetWallet_Multisig.createSubwallets K C wid seed lookup rounds i env subs).2.AllFramed := by
  induction rounds with
  | zero => intro i env subs he; exact he
  | succ rounds ih =>
    intro i env subs he
    have hdb := initWalletDb_store_AllFramed K C hC (AssetWallet.new .Single (env.sub i))
      Cypher_AES_fresh wid K.AddressEntryType_P2PKH
      (C.getHMAC256 seed (asciiBytes "Subwallet-" ++ decimal i)) lookup (he.2 i)
      (by simp [Cypher_AES_fresh]) hwid (hH _ _)
    unfold AssetWallet_Multisig.createSubwallets
    simp only
    generalize hq : AssetWallet_Single.initWalletDb_store K C _ _ _ _ _ _ = q at hdb
    obtain ⟨q1, q2⟩ := q
    cases q1 with
    | error e => exact LMDBEnv.AllFramed_setSub env i q2 he hdb
    | ok sw => exact ih (i + 1) _ _ (LMDBEnv.AllFramed_setSub env i q2 he hdb)

theorem multisig_create_AllFramed (K : Constants) (hK : K.LabelsDistinct) (hS : K.KeysSeparate)
    (C : Crypto) (hC : C.Bounded) (hH : C.BoundedHMAC) (aet : Byte) (M N : Nat)
    (hN : N < 2 ^ 31) (seed : Bytes) (lookup : Nat) :
    (AssetWallet_Multisig.createFromPrivateRoot K C LMDBEnv.empty aet M N seed
      lookup).2.AllFramed := by
  have hwid32 : (C.getWalletID (C.getHMAC256 (C.ComputePublicKey seed)
      (decimal M ++ asciiBytes "_of_" ++ decimal N))).length < 2 ^ 32 := hC.2.2.2.2.1 _
  have hwid : (C.getWalletID (C.getHMAC256 (C.ComputePublicKey seed)
      (decimal M ++ asciiBytes "_of_" ++ decimal N))).length < 2 ^ 64 := by omega
  unfold AssetWallet_Multisig.createFromPrivateRoot
  split_ifs with hgate
  · exact LMDBEnv.AllFramed_empty
  · obtain ⟨subs', env', hrun, -, -, -, hkeys⟩ := createSubwallets_spec K hK hS C hC hH _
      hwid seed lookup N 0 LMDBEnv.empty [] (fun j _ => LMDBEnv.sub_empty j)
    have henv := createSubwallets_AllFramed K C hC hH _ hwid seed lookup N 0 LMDBEnv.empty []
      LMDBEnv.AllFramed_empty
    rw [hrun] at henv
    simp only at henv
    have h0 : (AssetWallet_Multisig.new LMDBEnv.empty.main).db.AllFramed := Store.AllFramed_nil
    have hids : ∀ v ∈ subs'.map Prod.fst, v.length < 2 ^ 32 := by
      intro v hv
      rw [hkeys, mem_foldl_setInsert] at hv
      rcases hv with hv | hv
      · cases hv
      · obtain ⟨j, -, hj⟩ := List.mem_map.mp hv
        rw [← hj]
        exact hC.2.2.2.2.1 _
    simp only [hrun, DerivationScheme_Multisig.Object.ofWallets, AssetWallet.putHeaderData_st,
      AssetWallet.putData]
    have h1 := Store.AllFramed_insert _ (put_uint32_t K.WALLETTYPE_KEY) _ h0
      (Framed_byte K.WALLETTYPE_MULTISIG)
    have h2 := Store.AllFramed_insert _ (put_uint32_t K.PARENTID_KEY) _ h1
      (Framed_frame _ hwid)
    have h3 := Store.AllFramed_insert _ (put_uint32_t K.WALLETID_KEY) _ h2
      (Framed_frame _ hwid)
    cases hser : DerivationScheme.serialize K (.Multisig ⟨N, M, subs'.map Prod.fst⟩) with
    | error e => exact ⟨h3, henv.2⟩
    | ok data =>
      simp only
      have hlen : (subs'.map Prod.fst).length = N := by
        simp only [DerivationScheme.serialize, DerivationScheme_Multisig.serialize] at hser
        split_ifs at hser with hne
        exact not_not.mp hne
      have h4 := Store.AllFramed_insert _ (put_uint32_t K.DERIVATIONSCHEME_KEY) _ h3
        (Framed_scheme K _ data hser
          (multisig_bw_length K ⟨N, M, subs'.map Prod.fst⟩ (by simp only [hlen]; exact hN) hids))
      have h5 := Store.AllFramed_insert _ (put_uint32_t K.ADDRESSENTRYTYPE_KEY) _ h4
        (Framed_byte aet)
      have h6 := Store.AllFramed_insert _ (put_uint32_t K.TOPUSEDINDEX_KEY) _ h5
        (Framed_int32 0)
      have h7 := Store.AllFramed_insert _ (put_uint8_t K.ASSETENTRY_PREFIX) _ h6
        (Framed_uint32 lookup)
      exact ⟨h7, henv.2⟩

theorem getDataRefForKey_AllFramed (w : AssetWallet) (key d : Bytes) (hw : w.db.AllFramed)
    (h : w.db.get_NoCopy key = some d) :
    ∃ v, d = put_var_int v.length ++ v ∧ w.getDataRefForKey key = .ok v := by
  obtain ⟨v, hv, hd⟩ := hw (key, d) (Store.mem_of_get_NoCopy key d w.db h)
  simp only at hd
  refine ⟨v, hd, ?_⟩
  rw [hd] at h
  exact getDataRefForKey_frame w key v h hv

theorem scanAssets_framed (K : Constants) (key d : Bytes) (rest : List (Bytes × Bytes))
    (acc : List (Int × AssetEntry)) (hd : Framed d) :
    ∃ v, d = put_var_int v.length ++ v ∧
      scanAssets K ((key, d) :: rest) acc =
        match AssetEntry.deserialize K key v with
        | .ok entryPtr => scanAssets K rest (mapInsert entryPtr.getId entryPtr acc)
        | .error (.AssetDeserException _) => .ok acc
        | .error e => .error e := by
  obtain ⟨v, hv, hd⟩ := hd
  refine ⟨v, hd, ?_⟩
  have hg : get_var_int d = .ok (v.length, v) := by rw [hd]; exact get_var_int_frame v hv
  rw [scanAssets, hg]
  simp only [ne_eq, not_true_eq_false, if_false]


theorem get_uint8_t_error (d : Bytes) (e : Error) (h : get_uint8_t d = .error e) :
    e = .BufferOverrun := by
  cases d with
  | nil => simp only [get_uint8_t, Except.error.injEq] at h; exact h.symm
  | cons b r => cases h

theorem get_BinaryData_error (n : Nat) (d : Bytes) (e : Error)
    (h : get_BinaryData n d = .error e) : e = .BufferOverrun := by
  unfold get_BinaryData at h
  split_ifs at h
  simp only [Except.error.injEq] at h
  exact h.symm

theorem get_uintLE_error (k : Nat) (d : Bytes) (e : Error) (h : get_uintLE k d = .error e) :
    e = .BufferOverrun := by
  unfold get_uintLE at h
  cases hg : get_BinaryData k d with
  | error e' =>
    rw [hg] at h
    simp only [Except.error.injEq] at h
    rw [← h]
    exact get_BinaryData_error k d e' hg
  | ok p => rw [hg] at h; cases h

theorem get_var_int_error (d : Bytes) (e : Error) (h : get_var_int d = .error e) :
    e = .BufferOverrun := by
  cases d with
  | nil => simp only [get_var_int, Except.error.injEq] at h; exact h.symm
  | cons b r =>
    simp only [get_var_int] at h
    split_ifs at h <;> exact get_uintLE_error _ _ _ h

theorem get_int32_t_error (d : Bytes) (e : Error) (h : get_int32_t d = .error e) :
    e = .BufferOverrun := by
  unfold get_int32_t get_uint32_t at h
  cases hg : get_uintLE 4 d with
  | error e' =>
    rw [hg] at h
    simp only [Except.error.injEq] at h
    rw [← h]
    exact get_uintLE_error 4 d e' hg
  | ok p => rw [hg] at h; cases h

theorem readRecordsAux_error (fuel : Nat) (d : Bytes) (e : Error)
    (h : readRecordsAux fuel d = .error e) : e = .BufferOverrun := by
  induction fuel generalizing d e with
  | zero => cases h
  | succ n ih =>
    unfold readRecordsAux at h
    split_ifs at h
    cases h1 : get_var_int d with
    | error e1 =>
      rw [h1] at h
      simp only [bind_error_eq, Except.error.injEq] at h
      rw [← h]; exact get_var_int_error d e1 h1
    | ok p =>
      obtain ⟨len, r⟩ := p
      rw [h1, bind_ok_eq] at h
      simp only at h
      cases h2 : get_BinaryData len r with
      | error e2 =>
        rw [h2] at h
        simp only [bind_error_eq, Except.error.injEq] at h
        rw [← h]; exact get_BinaryData_error len r e2 h2
      | ok q =>
        obtain ⟨valref, r2⟩ := q
        rw [h2, bind_ok_eq] at h
        simp only at h
        cases h3 : readRecordsAux n r2 with
        | error e3 =>
          rw [h3] at h
          simp only [bind_error_eq, Except.error.injEq] at h
          rw [← h]; exact ih r2 e3 h3
        | ok rest => rw [h3] at h; cases h

theorem Cypher_deserialize_error (K : Constants) (d : Bytes) (e : Error)
    (h : Cypher.deserialize K d = .error e) : e.isWalletException = false := by
  unfold Cypher.deserialize at h
  cases h1 : get_uint8_t d with
  | error e1 =>
    rw [h1] at h
    simp only [bind_error_eq, Except.error.injEq] at h
    rw [← h, get_uint8_t_error d e1 h1]; rfl
  | ok p =>
    obtain ⟨t, r⟩ := p
    rw [h1, bind_ok_eq] at h
    simp only at h
    split_ifs at h
    · cases h2 : get_var_int r with
      | error e2 =>
        rw [h2] at h
        simp only [bind_error_eq, Except.error.injEq] at h
        rw [← h, get_var_int_error r e2 h2]; rfl
      | ok q =>
        obtain ⟨len, r2⟩ := q
        rw [h2, bind_ok_eq] at h
        simp only at h
        cases h3 : get_BinaryData len r2 with
        | error e3 =>
          rw [h3] at h
          simp only [bind_error_eq, Except.error.injEq] at h
          rw [← h, get_BinaryData_error len r2 e3 h3]; rfl
        | ok q3 => rw [h3] at h; cases h
    · simp only [throw_eq_error, Except.error.injEq] at h
      rw [← h]; rfl

theorem bindRecord_error (K : Constants) (s : SingleSlots) (d : Bytes) (e : Error)
    (h : bindRecord K s d = .error e) : e.isWalletException = false := by
  unfold bindRecord at h
  cases h1 : get_uint8_t d with
  | error e1 =>
    rw [h1] at h
    simp only [bind_error_eq, Except.error.injEq] at h
    rw [← h, get_uint8_t_error d e1 h1]; rfl
  | ok p =>
    obtain ⟨t, r⟩ := p
    rw [h1, bind_ok_eq] at h
    simp only at h
    split_ifs at h <;>
      first
      | (simp only [throw_eq_error, Except.error.injEq] at h; rw [← h]; rfl)
      | (cases h)
      | (cases h2 : Cypher.deserialize K r with
          | error e2 =>
            rw [h2] at h
            simp only [bind_error_eq, Except.error.injEq] at h
            rw [← h]; exact Cypher_deserialize_error K r e2 h2
          | ok q => rw [h2] at h; cases h)

theorem bindRecords_error (K : Constants) (ds : List Bytes) (s : SingleSlots) (e : Error)
    (h : bindRecords K s ds = .error e) : e.isWalletException = false := by
  induction ds generalizing s with
  | nil => cases h
  | cons d r ih =>
    unfold bindRecords at h
    cases h1 : bindRecord K s d with
    | error e1 =>
      rw [h1] at h
      simp only [bind_error_eq, Except.error.injEq] at h
      rw [← h]; exact bindRecord_error K s d e1 h1
    | ok s1 =>
      rw [h1, bind_ok_eq] at h
      exact ih s1 h

theorem deserDBValue_error (K : Constants) (index : Int) (value : Bytes) (e : Error)
    (h : AssetEntry.deserDBValue K index value = .error e) : e.isWalletException = false := by
  unfold AssetEntry.deserDBValue at h
  cases h1 : get_uint8_t value with
  | error e1 =>
    rw [h1] at h
    simp only [bind_error_eq, Except.error.injEq] at h
    rw [← h, get_uint8_t_error value e1 h1]; rfl
  | ok p =>
    obtain ⟨t, r⟩ := p
    rw [h1, bind_ok_eq] at h
    simp only at h
    split_ifs at h
    · cases h2 : readRecords r with
      | error e2 =>
        rw [h2] at h
        simp only [bind_error_eq, Except.error.injEq] at h
        rw [← h, readRecordsAux_error _ r e2 h2]; rfl
      | ok recs =>
        rw [h2, bind_ok_eq] at h
        cases h3 : bindRecords K ⟨[], [], [], none⟩ recs with
        | error e3 =>
          rw [h3] at h
          simp only [bind_error_eq, Except.error.injEq] at h
          rw [← h]; exact bindRecords_error K recs _ e3 h3
        | ok s1 => rw [h3] at h; cases h
    · simp only [throw_eq_error, Except.error.injEq] at h
      rw [← h]; rfl

theorem deserialize_error (K : Constants) (key value : Bytes) (e : Error)
    (h : AssetEntry.deserialize K key value = .error e) : e.isWalletException = false := by
  unfold AssetEntry.deserialize at h
  cases h1 : get_uint8_t key with
  | error e1 =>
    rw [h1] at h
    simp only [bind_error_eq, Except.error.injEq] at h
    rw [← h, get_uint8_t_error key e1 h1]; rfl
  | ok p =>
    obtain ⟨t, r⟩ := p
    rw [h1, bind_ok_eq] at h
    simp only at h
    split_ifs at h
    · simp only [throw_eq_error, Except.error.injEq] at h
      rw [← h]; rfl
    · cases h2 : get_int32_t r with
      | error e2 =>
        rw [h2] at h
        simp only [bind_error_eq, Except.error.injEq] at h
        rw [← h, get_int32_t_error r e2 h2]; rfl
      | ok q =>
        obtain ⟨idx, r2⟩ := q
        rw [h2, bind_ok_eq] at h
        exact deserDBValue_error K idx value e h

theorem scanAssets_AllFramed (K : Constants) (recs : List (Bytes × Bytes))
    (acc : List (Int × AssetEntry)) (hrecs : ∀ x ∈ recs, Framed x.2) (e : Error)
    (h : scanAssets K recs acc = .error e) : e.isWalletException = false := by
  induction recs generalizing acc with
  | nil => cases h
  | cons x rest ih =>
    obtain ⟨key, d⟩ := x
    obtain ⟨v, -, hscan⟩ := scanAssets_framed K key d rest acc
      (hrecs (key, d) (List.mem_cons_self _ _))
    rw [hscan] at h
    cases hd : AssetEntry.deserialize K key v with
    | ok entryPtr =>
      rw [hd] at h
      exact ih _ (fun y hy => hrecs y (List.mem_cons_of_mem _ hy)) h
    | error e1 =>
      rw [hd] at h
      have hne := deserialize_error K key v e1 hd
      cases e1 <;> first | (cases h; exact hne) | cases h


/-- C32: every value the wallet writes has the form `var_int(len) ‖ payload` with `len` the
length of the payload, and such values pass the length checks. With primitives whose outputs
are shorter than 2^32 bytes: (1) `initWalletDb` (wallet type, parent id, wallet id, derivation
scheme, default address type, top used index, root asset, asset entries), by return or by
exception, leaves a store of framed values when it starts on one; (2) so does
`createFromPrivateRoot_Armory135`; (3) `AssetWallet_Multisig::createFromPrivateRoot` on a new file
(also the chain length) leaves every database of the environment framed; (4) so do
`getNewAddress` (the counter) and (5) `extendChain(asset, count)` (asset entries) on any wallet;
(6) on a store of framed values `getDataRefForKey` returns the payload of every key that is
present; (7) the scan of `readFromFile` over framed values never ends in a
`WalletException`, the class of its length check. -/
theorem AssetWallet_written_values_framed (K : Constants) (hK : K.LabelsDistinct)
    (hS : K.KeysSeparate) (C : Crypto) (hC : C.Bounded) (hH : C.BoundedHMAC) :
    (∀ (walletPtr : AssetWallet) (cypher : Cypher) (parentID : Bytes) (aet : Byte)
        (privateRoot : Bytes) (lookup : Nat),
      walletPtr.db.AllFramed → cypher.iv.length < 2 ^ 32 → parentID.length < 2 ^ 64 →
      privateRoot.length < 2 ^ 32 →
      (AssetWallet_Single.initWalletDb_store K C walletPtr cypher parentID aet privateRoot
        lookup).2.AllFramed) ∧
    (∀ (file : Store) (aet : Byte) (privateRoot : Bytes) (lookup : Nat) (w : AssetWallet),
      file.AllFramed → privateRoot.length < 2 ^ 32 →
      AssetWallet_Single.createFromPrivateRoot_Armory135 K C file aet privateRoot lookup =
        .ok w →
      w.db.AllFramed) ∧
    (∀ (aet : Byte) (M N : Nat) (privateRoot : Bytes) (lookup : Nat), N < 2 ^ 31 →
      (AssetWallet_Multisig.createFromPrivateRoot K C LMDBEnv.empty aet M N privateRoot
        lookup).2.AllFramed) ∧
    (∀ w : AssetWallet, w.db.AllFramed → (w.getNewAddress K C).2.db.AllFramed) ∧
    (∀ (w : AssetWallet) (assetPtr : AssetEntry) (count : Nat), w.db.AllFramed →
      (w.extendChain_from K C assetPtr count).2.db.AllFramed) ∧
    (∀ (w : AssetWallet) (key d : Bytes), w.db.AllFramed → w.db.get_NoCopy key = some d →
      ∃ v, d = put_var_int v.length ++ v ∧ w.getDataRefForKey key = .ok v) ∧
    (∀ (recs : List (Bytes × Bytes)) (acc : List (Int × AssetEntry)) (e : Error),
      (∀ x ∈ recs, Framed x.2) → scanAssets K recs acc = .error e →
      e.isWalletException = false) := by
  refine ⟨?_, ?_, ?_, ?_, ?_, ?_, ?_⟩
  · intro walletPtr cypher parentID aet privateRoot lookup hw hiv hpid hroot
    exact initWalletDb_store_AllFramed K C hC walletPtr cypher parentID aet privateRoot lookup
      hw hiv hpid hroot
  · intro file aet privateRoot lookup w hfile hroot hcreate
    have hwid : (C.getWalletID (C.ComputePublicKey privateRoot)).length < 2 ^ 64 := by
      have := hC.2.2.2.2.1 (C.ComputePublicKey privateRoot); omega
    have hst := initWalletDb_store_of_ok K C (AssetWallet.new .Single file) Cypher_AES_fresh
      (C.getWalletID (C.ComputePublicKey privateRoot)) aet privateRoot lookup w hcreate
    have hall := initWalletDb_store_AllFramed K C hC (AssetWallet.new .Single file)
      Cypher_AES_fresh (C.getWalletID (C.ComputePublicKey privateRoot)) aet privateRoot lookup
      hfile (by simp [Cypher_AES_fresh]) hwid hroot
    rw [hst] at hall
    exact hall
  · intro aet M N privateRoot lookup hN
    exact multisig_create_AllFramed K hK hS C hC hH aet M N hN privateRoot lookup
  · intro w hw
    exact getNewAddress_AllFramed K C w hw
  · intro w assetPtr count hw
    exact extendChain_from_AllFramed K C hC w assetPtr count hw
  · intro w key d hw hget
    exact getDataRefForKey_AllFramed w key d hw hget
  · intro recs acc e hrecs hscan
    exact scanAssets_AllFramed K recs acc hrecs e hscan

theorem samplePayloadStore_AllFramed : samplePayloadStore.AllFramed := by
  intro e he
  simp only [samplePayloadStore, List.mem_singleton] at he
  rw [he]
  exact ⟨List.replicate 300 7, by simp, rfl⟩

/-- On sample inputs: the store that `initWalletDb` leaves on a new file (scenario S1), the
environment that the creation of a 2-of-3 multisig wallet leaves, and the stores after a
`getNewAddress` call and after `extendChain(top asset, 2)` hold framed values only; a payload of
300 bytes, whose `var_int` takes three bytes, is what `getDataRefForKey` returns. -/
theorem AssetWallet_written_values_framed_witness :
    (AssetWallet_Single.initWalletDb_store sampleConstants sampleCrypto
      (AssetWallet.new .Single []) Cypher_AES_fresh [] sampleConstants.AddressEntryType_P2PKH
      sampleSeed 5).2.AllFramed ∧
    (sampleCreateMultisig 2 3 5).2.AllFramed ∧
    ((AssetWallet.new .Single samplePayloadStore).getNewAddress sampleConstants
      sampleCrypto).2.db.AllFramed ∧
    ((AssetWallet.new .Single samplePayloadStore).extendChain_from sampleConstants sampleCrypto
      (.Single sampleAsset) 2).2.db.AllFramed ∧
    (put_var_int (List.replicate 300 (7 : Byte)).length).length = 3 ∧
    ∃ v, put_var_int (List.replicate 300 (7 : Byte)).length ++ List.replicate 300 (7 : Byte) =
        put_var_int v.length ++ v ∧
      (AssetWallet.new .Single samplePayloadStore).getDataRefForKey [1] = .ok v ∧
        v = List.replicate 300 (7 : Byte) :=
  ⟨(AssetWallet_written_values_framed sampleConstants (by decide) (by decide) sampleCrypto
      sampleCrypto_bounded sampleCrypto_boundedHMAC).1 _ _ _ _ _ _ Store.AllFramed_nil
      (by decide) (by decide) (by decide),
    (AssetWallet_written_values_framed sampleConstants (by decide) (by decide) sampleCrypto
      sampleCrypto_bounded sampleCrypto_boundedHMAC).2.2.1 _ 2 3 sampleSeed 5 (by decide),
    (AssetWallet_written_values_framed sampleConstants (by decide) (by decide) sampleCrypto
      sampleCrypto_bounded sampleCrypto_boundedHMAC).2.2.2.1 _ samplePayloadStore_AllFramed,
    (AssetWallet_written_values_framed sampleConstants (by decide) (by decide) sampleCrypto
      sampleCrypto_bounded sampleCrypto_boundedHMAC).2.2.2.2.1 _ _ _
      samplePayloadStore_AllFramed,
    by decide,
    by
      obtain ⟨v, hv, hget⟩ := (AssetWallet_written_values_framed sampleConstants (by decide)
        (by decide) sampleCrypto sampleCrypto_bounded sampleCrypto_boundedHMAC).2.2.2.2.2.1
        (AssetWallet.new .Single samplePayloadStore) [1] _ samplePayloadStore_AllFramed rfl
      refine ⟨v, hv, hget, ?_⟩
      have hdirect : (AssetWallet.new .Single samplePayloadStore).getDataRefForKey [1] =
          .ok (List.replicate 300 (7 : Byte)) := by decide
      rw [hdirect] at hget
      simp only [Except.ok.injEq] at hget
      exact hget.symm⟩

end Armory
